import Mathlib

/-!
GameTreeExplorer: board, legality and game-tree search.

A shallow embedding of `Token.h`, `GameBoard.h`, `Player.h`, `GameSate.h`,
`Algo.cpp` and the history drain of `GameManager::handleAlgoTurn`.

Modelling conventions.

* Tokens live on the C++ heap and are shared by pointer between the board
  grid and the players' token vectors.  The heap is `Heap`: a total map from
  addresses (`Nat`) to `Token` records together with the next free address.
  A `Token *` is an address, a nullable `Token *` is an `Option Nat`.
* `int` is `Int`; `size_t` is `Nat`.  The only `size_t` subtractions
  (`Width - 1`, `Height - 1`) are evaluated after a successful bounds check,
  hence on a non-zero operand, and `gameSize - 2` is taken for `gameSize ≥ 2`.
  The only `int` arithmetic adds one or two to a coordinate that passed the
  bounds check, which stays inside `int` on every board narrower than
  `2^31 - 2` cells.
* `std::vector<std::vector<Token *>> board` is a map `row → col → Option Nat`
  next to `Width` and `Height`; an index outside the vector is undefined
  behaviour in C++ and is reported as `Fault.undefinedBehaviour`.
* A C++ exception is an `Except.error` carrying the `Fault` thrown.
* The recursion of `recusionMove` is bounded by a fuel argument that counts
  nested frames; a run that would nest deeper reports `Fault.outOfFuel`.
  `recusionMove_mono` shows that a result does not depend on the fuel once
  there is enough of it, and `recusionMove_total` that on well-formed states
  there always is.
* The rendering members of the classes (textures, sprites, colours) play no
  part in the rules and are left out.
-/

namespace GameTree

/-! ## Token.h -/

/-- The rule-relevant members of `class Token`. -/
structure Token where
  position : Int × Int
  player : Int
  canMove : Bool
  reachedEnd : Bool
deriving DecidableEq, Repr

/-- The constructor `Token(x, y, player, ...)`: movable, `reachedEnd = false`. -/
def Token.mk0 (x y player : Int) : Token :=
  { position := (x, y), player := player, canMove := true, reachedEnd := false }

/-- Member `Token::getPosition`. -/
def Token.getPosition (t : Token) : Int × Int := t.position

/-- Member `Token::setPosition`. -/
def Token.setPosition (t : Token) (x y : Int) : Token := { t with position := (x, y) }

/-- Member `Token::getPlayer`. -/
def Token.getPlayer (t : Token) : Int := t.player

/-- Member `Token::isMovable`. -/
def Token.isMovable (t : Token) : Bool := t.canMove

/-- Member `Token::setMovable`. -/
def Token.setMovable (t : Token) (movable : Bool) : Token := { t with canMove := movable }

/-- Member `Token::move`. -/
def Token.move (t : Token) (x y : Int) : Token := t.setPosition x y

/-- Member `Token::hasReachedEnd`. -/
def Token.hasReachedEnd (t : Token) : Bool := t.reachedEnd

/-- Member `Token::tokenReachedEnd`: sets `reachedEnd`, clears `canMove`. -/
def Token.tokenReachedEnd (t : Token) : Token := { t with reachedEnd := true, canMove := false }

/-- Member `Token::undoReachedEnd`: clears `reachedEnd`, sets `canMove`. -/
def Token.undoReachedEnd (t : Token) : Token := { t with reachedEnd := false, canMove := true }

/-! ## The heap of tokens -/

/-- The tokens allocated with `new`, by address, and the next free address. -/
structure Heap where
  tok : Nat → Token
  next : Nat

/-- Apply a mutating member function to the token at address `p`. -/
def Heap.modify (h : Heap) (p : Nat) (f : Token → Token) : Heap :=
  { h with tok := fun q => if q = p then f (h.tok q) else h.tok q }

/-- The expression `new Token(t)`: the fresh address and the extended heap. -/
def Heap.alloc (h : Heap) (t : Token) : Nat × Heap :=
  (h.next, { tok := fun q => if q = h.next then t else h.tok q, next := h.next + 1 })

/-- An empty heap; unallocated addresses read as a default record. -/
def Heap.empty : Heap := { tok := fun _ => Token.mk0 0 0 0, next := 0 }

/-! ## Faults -/

/-- The exceptions thrown by the classes, and the two ways a run can leave
the language: undefined behaviour and exhausted recursion fuel. -/
inductive Fault where
  /-- Thrown as `std::out_of_range("Invalid token position")`. -/
  | invalidTokenPosition
  /-- Thrown as `std::runtime_error("No token at source position")`. -/
  | noTokenAtSource
  /-- Thrown as `std::out_of_range("Move coordinates out of bounds")`. -/
  | moveOutOfBounds
  /-- Thrown as `std::runtime_error("Token is immovable")`. -/
  | tokenImmovable
  /-- Thrown as `std::runtime_error("Can't jump")`. -/
  | cantJump
  /-- Thrown as `std::out_of_range("Jump moves out of bounds")`. -/
  | jumpOutOfBounds
  /-- Thrown as `std::runtime_error("Cannot add more tokens: Maximum token limit reached.")`. -/
  | tokenLimitReached
  /-- An access outside a vector, or `pop` on an empty `std::stack`. -/
  | undefinedBehaviour
  /-- The recursion fuel of the model ran out (no C++ counterpart). -/
  | outOfFuel
deriving DecidableEq, Repr

/-! ## GameBoard.h -/

/-- The members `Width`, `Height` and `board` of `class GameBoard`;
`board row col` is `board[row][col]`. -/
structure GameBoard where
  Width : Nat
  Height : Nat
  board : Nat → Nat → Option Nat

/-- The grid with `board[row][col] = v`. -/
def GameBoard.setCell (b : GameBoard) (row col : Nat) (v : Option Nat) : GameBoard :=
  { b with board := fun r c => if r = row ∧ c = col then v else b.board r c }

/-- The constructor `GameBoard(width, height)`: every cell is `nullptr`. -/
def GameBoard.new (width height : Nat) : GameBoard :=
  { Width := width, Height := height, board := fun _ _ => none }

/-- Member `GameBoard::isValidPosition`. -/
def GameBoard.isValidPosition (b : GameBoard) (x y : Int) : Bool :=
  decide (x ≥ 0) && decide (y ≥ 0) && decide (x.toNat < b.Width) && decide (y.toNat < b.Height)

/-- The read `board[y][x]` at `int` coordinates that passed the bounds check. -/
def GameBoard.cell (b : GameBoard) (x y : Int) : Option Nat := b.board y.toNat x.toNat

/-- Member `GameBoard::placeToken`. -/
def GameBoard.placeToken (b : GameBoard) (h : Heap) (token : Nat) : Except Fault GameBoard :=
  let pos := (h.tok token).getPosition
  if !b.isValidPosition pos.1 pos.2 then .error .invalidTokenPosition
  else .ok (b.setCell pos.2.toNat pos.1.toNat (some token))

/-- Member `GameBoard::canTokenMove`. -/
def GameBoard.canTokenMove (b : GameBoard) (h : Heap) (token : Nat) : Bool :=
  let x := (h.tok token).getPosition.1
  let y := (h.tok token).getPosition.2
  if !b.isValidPosition x y then false
  else
    let player := (h.tok token).getPlayer
    let dx : Int := if player = 0 then 1 else 0
    let dy : Int := if player = 1 then 1 else 0
    if !b.isValidPosition (x + dx) (y + dy) then false
    else if (b.cell (x + dx) (y + dy)).isNone then true
    else if player = 0 ∧ (x + 2).toNat < b.Width then (b.cell (x + 2) y).isNone
    else if player = 1 ∧ (y + 2).toNat < b.Height then (b.cell x (y + 2)).isNone
    else false

/-- The body of the inner loop of `updateTokenMoveStatus` for one cell. -/
def GameBoard.updateCell (b : GameBoard) (h : Heap) (row col : Nat) : Heap :=
  match b.board row col with
  | some t => h.modify t (fun tk => tk.setMovable (b.canTokenMove h t))
  | none => h

/-- Member `GameBoard::updateTokenMoveStatus`: rows outside, columns inside. -/
def GameBoard.updateTokenMoveStatus (b : GameBoard) (h : Heap) : Heap :=
  (List.range b.Height).foldl
    (fun h1 row => (List.range b.Width).foldl (fun h2 col => b.updateCell h2 row col) h1) h

/-- The test `tX == 0 || tX == Width - 1 || tY == 0 || tY == Height - 1`. -/
def GameBoard.isEdge (b : GameBoard) (tX tY : Nat) : Bool :=
  decide (tX = 0) || decide (tX = b.Width - 1) || decide (tY = 0) || decide (tY = b.Height - 1)

/-- The statements of `moveTokenRaw` from `board[tY][tX] = movingToken` to the
end of the function: relocate, clear the reached-end mark, refresh every
token, mark the moved token when it stands on an edge. -/
def GameBoard.relocateRaw (b : GameBoard) (h : Heap) (fX fY tX tY : Nat) (movingToken : Nat) :
    GameBoard × Heap :=
  let b1 := (b.setCell tY tX (some movingToken)).setCell fY fX none
  let h1 := h.modify movingToken (fun tk => tk.move tX tY)
  let h2 := h1.modify movingToken Token.undoReachedEnd
  let h3 := b1.updateTokenMoveStatus h2
  let h4 := if b1.isEdge tX tY then h3.modify movingToken Token.tokenReachedEnd else h3
  (b1, h4)

/-- The block `// Perform the move` and the edge test that end `moveToken`:
the same statements as in `moveTokenRaw` without `undoReachedEnd`. -/
def GameBoard.relocate (b : GameBoard) (h : Heap) (fX fY tX tY : Nat) (movingToken : Nat) :
    GameBoard × Heap :=
  let b1 := (b.setCell tY tX (some movingToken)).setCell fY fX none
  let h1 := h.modify movingToken (fun tk => tk.move tX tY)
  let h2 := b1.updateTokenMoveStatus h1
  let h3 := if b1.isEdge tX tY then h2.modify movingToken Token.tokenReachedEnd else h2
  (b1, h3)

/-- Member `GameBoard::moveTokenRaw`.  The function indexes the grid without
a bounds check, so coordinates outside the grid are undefined behaviour. -/
def GameBoard.moveTokenRaw (b : GameBoard) (h : Heap) (fromX fromY toX toY : Int) :
    Except Fault (GameBoard × Heap) :=
  if !b.isValidPosition fromX fromY then .error .undefinedBehaviour
  else
    let fX := fromX.toNat
    let fY := fromY.toNat
    match b.board fY fX with
    | none => .error .noTokenAtSource
    | some movingToken =>
      if !b.isValidPosition toX toY then .error .undefinedBehaviour
      else
        .ok (b.relocateRaw h fX fY toX.toNat toY.toNat movingToken)

/-- Member `GameBoard::moveToken`: the validated move with jump handling. -/
def GameBoard.moveToken (b : GameBoard) (h : Heap) (fromX fromY toX toY : Int) :
    Except Fault (GameBoard × Heap) :=
  if !b.isValidPosition fromX fromY || !b.isValidPosition toX toY then .error .moveOutOfBounds
  else
    let fX := fromX.toNat
    let fY := fromY.toNat
    let tX := toX.toNat
    let tY := toY.toNat
    match b.board fY fX with
    | none => .error .noTokenAtSource
    | some movingToken =>
      if !(h.tok movingToken).isMovable then .error .tokenImmovable
      else
        -- the jump block: `Except.error` is the throw, `Except.ok` the updated (tX, tY)
        let jumped : Except Fault (Nat × Nat) :=
          if (b.board tY tX).isSome then
            let player := (h.tok movingToken).getPlayer
            if player = 0 then
              if tX ≥ b.Width - 1 || (b.board tY (tX + 1)).isSome then .error .cantJump
              else .ok (tX + 1, tY)
            else if player = 1 then
              if tY ≥ b.Height - 1 || (b.board (tY + 1) tX).isSome then .error .cantJump
              else .ok (tX, tY + 1)
            else .ok (tX, tY)
          else .ok (tX, tY)
        match jumped with
        | .error e => .error e
        | .ok (tX, tY) =>
          if !b.isValidPosition (tX : Int) (tY : Int) then .error .jumpOutOfBounds
          else .ok (b.relocate h fX fY tX tY movingToken)

/-- Member `GameBoard::getTokenMove`.  No statement of the `try` block can
throw, so the `catch (...)` branch is dead and the result is a plain pair. -/
def GameBoard.getTokenMove (b : GameBoard) (h : Heap) (fromX fromY toX toY : Int) : Int × Int :=
  if !b.isValidPosition fromX fromY || !b.isValidPosition toX toY then (-1, -1)
  else
    match b.cell fromX fromY with
    | none => (-1, -1)
    | some token =>
      if !(h.tok token).isMovable then (-1, -1)
      else if (b.cell toX toY).isNone then (toX, toY)
      else
        let player := (h.tok token).getPlayer
        if player = 0 ∧ toX.toNat < b.Width - 1 ∧ (b.cell (toX + 1) toY).isNone then (toX + 1, toY)
        else if player = 1 ∧ toY.toNat < b.Height - 1 ∧ (b.cell toX (toY + 1)).isNone then
          (toX, toY + 1)
        else (-1, -1)

/-- Member `GameBoard::getTokenAt`. -/
def GameBoard.getTokenAt (b : GameBoard) (x y : Int) : Option Nat :=
  if !b.isValidPosition x y then none else b.cell x y

/-! ## Player.h -/

/-- The members of `class Player`; `tokens` is the vector of token addresses. -/
structure Player where
  MaxTokens : Nat
  playerNumber : Int
  tokens : List Nat
  score : Int
  movableTokens : Int
deriving DecidableEq, Repr

/-- The constructor `Player(number, maxTokens)`. -/
def Player.new (number : Int) (maxTokens : Nat) : Player :=
  { MaxTokens := maxTokens, playerNumber := number, tokens := [], score := 0,
    movableTokens := maxTokens }

/-- Member `Player::getPlayerNumber`. -/
def Player.getPlayerNumber (p : Player) : Int := p.playerNumber

/-- Member `Player::getTokens`. -/
def Player.getTokens (p : Player) : List Nat := p.tokens

/-- Member `Player::getTokenCount`. -/
def Player.getTokenCount (p : Player) : Nat := p.tokens.length

/-- Member `Player::addToken`. -/
def Player.addToken (p : Player) (token : Nat) : Except Fault Player :=
  if p.tokens.length ≥ p.MaxTokens then .error .tokenLimitReached
  else .ok { p with tokens := p.tokens ++ [token] }

/-- Member `Player::getScore`. -/
def Player.getScore (p : Player) : Int := p.score

/-- Member `Player::setScore`. -/
def Player.setScore (p : Player) (newScore : Int) : Player := { p with score := newScore }

/-- Member `Player::updateMovableTokens`: a readback of the tokens' flags. -/
def Player.updateMovableTokens (p : Player) (h : Heap) : Player :=
  let count : Int := p.tokens.foldl (fun n token => if (h.tok token).isMovable then n + 1 else n) 0
  { p with movableTokens := count }

/-! ## GameSate.h -/

/-- The members of `class GameState`. -/
structure GameState where
  MaxTokensPerPlayer : Nat
  board : GameBoard
  player1 : Player
  player2 : Player
  currentPlayer : Int

/-- Member `GameState::getCurrentPlayer`. -/
def GameState.getCurrentPlayer (s : GameState) : Player :=
  if s.currentPlayer = 0 then s.player1 else s.player2

/-- Member `GameState::getOtherPlayer`. -/
def GameState.getOtherPlayer (s : GameState) : Player :=
  if s.currentPlayer = 0 then s.player2 else s.player1

/-- Member `GameState::getBoard`. -/
def GameState.getBoard (s : GameState) : GameBoard := s.board

/-- Member `GameState::switchPlayer`. -/
def GameState.switchPlayer (s : GameState) : GameState :=
  { s with currentPlayer := 1 - s.currentPlayer }

/-- Member `GameState::moveToken`. -/
def GameState.moveToken (s : GameState) (h : Heap) (fromX fromY toX toY : Int) :
    Except Fault (GameState × Heap) :=
  match s.board.moveToken h fromX fromY toX toY with
  | .error e => .error e
  | .ok (b1, h1) =>
    let s1 : GameState :=
      { s with board := b1, player1 := s.player1.updateMovableTokens h1,
               player2 := s.player2.updateMovableTokens h1 }
    match s1.board.getTokenAt toX toY with
    | some token =>
      if (h1.tok token).hasReachedEnd then
        if s1.currentPlayer = 0 then
          .ok ({ s1 with player1 := Player.setScore s1.player1 (s1.player1.getScore + 1) }, h1)
        else
          .ok ({ s1 with player2 := Player.setScore s1.player2 (s1.player2.getScore + 1) }, h1)
      else .ok (s1, h1)
    | none => .ok (s1, h1)

/-- One iteration of the loop of `GameState::initializeTokens`, for index `i`. -/
def GameState.initializeStep (acc : Heap × GameState) (i : Nat) : Except Fault (Heap × GameState) :=
  let h := acc.1
  let s := acc.2
  let (token1, h) := h.alloc (Token.mk0 0 ((i : Int) + 1) 0)
  let (token2, h) := h.alloc (Token.mk0 ((i : Int) + 1) 0 1)
  match s.player1.addToken token1 with
  | .error e => .error e
  | .ok p1 =>
    match s.player2.addToken token2 with
    | .error e => .error e
    | .ok p2 =>
      match s.board.placeToken h token1 with
      | .error e => .error e
      | .ok b1 =>
        match b1.placeToken h token2 with
        | .error e => .error e
        | .ok b2 => .ok (h, { s with board := b2, player1 := p1, player2 := p2 })

/-- Run a fallible loop body over the indices of a `for` loop. -/
def forM {σ : Type} (body : σ → Nat → Except Fault σ) : List Nat → σ → Except Fault σ
  | [], acc => .ok acc
  | i :: rest, acc =>
    match body acc i with
    | .error e => .error e
    | .ok acc1 => forM body rest acc1

/-- Member `GameState::initializeTokens`. -/
def GameState.initializeTokens (h : Heap) (s : GameState) : Except Fault (Heap × GameState) :=
  forM GameState.initializeStep (List.range s.MaxTokensPerPlayer) (h, s)

/-- The constructor `GameState(cellW, cellH, gameSize)`, for `gameSize ≥ 2`
(below that the `size_t` expression `gameSize - 2` wraps). -/
def GameState.new (h : Heap) (gameSize : Nat) : Except Fault (Heap × GameState) :=
  GameState.initializeTokens h
    { MaxTokensPerPlayer := gameSize - 2,
      board := GameBoard.new gameSize gameSize,
      player1 := Player.new 0 (gameSize - 2),
      player2 := Player.new 1 (gameSize - 2),
      currentPlayer := 0 }

/-- One cell of the copy constructor `GameBoard(const GameBoard &)`: a
non-null cell receives a fresh copy of its token. -/
def GameBoard.copyCell (other : GameBoard) (row : Nat) (acc : Heap × GameBoard) (col : Nat) :
    Heap × GameBoard :=
  match other.board row col with
  | some t =>
    let (c, h) := acc.1.alloc (acc.1.tok t)
    (h, acc.2.setCell row col (some c))
  | none => acc

/-- The copy constructor `GameBoard(const GameBoard &)`: a deep copy. -/
def GameBoard.copy (h : Heap) (other : GameBoard) : Heap × GameBoard :=
  (List.range other.Height).foldl
    (fun acc row => (List.range other.Width).foldl (other.copyCell row) acc)
    (h, GameBoard.new other.Width other.Height)

/-- One iteration of a token loop of the copy constructor of `GameState`:
copy the token, add it to the new player, register it on the new board. -/
def GameState.copyToken (acc : Heap × Player × GameBoard) (original : Nat) :
    Except Fault (Heap × Player × GameBoard) :=
  let (copy, h) := acc.1.alloc (acc.1.tok original)
  match acc.2.1.addToken copy with
  | .error e => .error e
  | .ok p =>
    match acc.2.2.placeToken h copy with
    | .error e => .error e
    | .ok b => .ok (h, p, b)

/-- The copy constructor `GameState(const GameState &)`. -/
def GameState.copy (h : Heap) (other : GameState) : Except Fault (Heap × GameState) :=
  let (h, board) := GameBoard.copy h other.board
  let player1 := Player.new other.player1.getPlayerNumber other.MaxTokensPerPlayer
  let player2 := Player.new other.player2.getPlayerNumber other.MaxTokensPerPlayer
  match forM GameState.copyToken other.player1.getTokens (h, player1, board) with
  | .error e => .error e
  | .ok (h, player1, board) =>
    match forM GameState.copyToken other.player2.getTokens (h, player2, board) with
    | .error e => .error e
    | .ok (h, player2, board) =>
      .ok (h, { MaxTokensPerPlayer := other.MaxTokensPerPlayer, board := board,
                player1 := player1, player2 := player2,
                currentPlayer := other.currentPlayer })

/-! ## Algo.h, Algo.cpp -/

/-- The enumeration `Outcome`. -/
inductive Outcome where
  | WON
  | LOSS
deriving DecidableEq, Repr

/-- The struct `Algorithm::MoveStep`; the members `from` and `to` are reserved
words of Lean and are called `src` and `dst` here. -/
structure MoveStep where
  src : Int × Int
  dst : Int × Int
  playerNumber : Int
deriving DecidableEq, Repr

/-- Function `Algorithm::isWinningState`. -/
def isWinningState (h : Heap) (player : Player) : Bool :=
  let n : Int := player.getTokenCount
  if player.getPlayerNumber = 0 then
    player.getTokens.all (fun token => decide ((h.tok token).getPosition.1 = n + 1))
  else
    player.getTokens.all (fun token => decide ((h.tok token).getPosition.2 = n + 1))

/-- Function `Algorithm::getOpponent`. -/
def getOpponent (state : GameState) (player : Player) : Player :=
  if state.getOtherPlayer.getPlayerNumber = player.getPlayerNumber then state.getCurrentPlayer
  else state.getOtherPlayer

/-- Function `Algorithm::calculatePossibleMove`. -/
def calculatePossibleMove (h : Heap) (x y : Int) (player : Player) (state : GameState) : Int × Int :=
  let dx : Int := if player.getPlayerNumber = 0 then 1 else 0
  let dy : Int := if player.getPlayerNumber = 1 then 1 else 0
  state.getBoard.getTokenMove h x y (x + dx) (y + dy)

/-- Everything a frame of `recusionMove` can read and write: the heap, the
working `GameState &state`, the undo-history `std::stack` (top first), the
replay log `std::queue` (front first) and the latch `bool &hasWon`. -/
structure Search where
  heap : Heap
  state : GameState
  history : List MoveStep
  visual : List MoveStep
  hasWon : Bool

/-- The `for` loop of `recusionMove` over the remaining tokens of `player`;
`child` is the recursive call and `childMoveNum` the running counter. -/
def tokenLoop (child : Search → Player → Int → Int → Except Fault (Outcome × Search))
    (player : Player) (depth : Int) :
    List Nat → Int → Search → Except Fault (Outcome × Search)
  | [], _, s => .ok (Outcome.LOSS, s)
  | token :: rest, childMoveNum, s =>
    if !(s.heap.tok token).isMovable then tokenLoop child player depth rest childMoveNum s
    else
      let newMove := calculatePossibleMove s.heap (s.heap.tok token).getPosition.1
        (s.heap.tok token).getPosition.2 player s.state
      if newMove.1 = -1 then tokenLoop child player depth rest childMoveNum s
      else
        let oldMove := ((s.heap.tok token).getPosition.1, (s.heap.tok token).getPosition.2)
        let visual1 := s.visual ++ [MoveStep.mk oldMove newMove player.getPlayerNumber]
        match s.state.getBoard.moveTokenRaw s.heap oldMove.1 oldMove.2 newMove.1 newMove.2 with
        | .error e => .error e
        | .ok (b1, h1) =>
          let s1 : Search :=
            { heap := h1, state := { s.state with board := b1 },
              history := MoveStep.mk oldMove newMove player.getPlayerNumber :: s.history,
              visual := visual1, hasWon := s.hasWon }
          match child s1 (getOpponent s1.state player) (depth + 1) childMoveNum with
          | .error e => .error e
          | .ok (result, s2) =>
            match s2.state.getBoard.moveTokenRaw s2.heap newMove.1 newMove.2 oldMove.1 oldMove.2 with
            | .error e => .error e
            | .ok (b3, h3) =>
              let s3 : Search :=
                { s2 with heap := h3, state := { s2.state with board := b3 },
                          visual := s2.visual ++ [MoveStep.mk newMove oldMove player.getPlayerNumber] }
              if result = Outcome.LOSS ∨ s3.hasWon = true then
                .ok (Outcome.WON,
                  if player.getPlayerNumber = 1 then { s3 with hasWon := true } else s3)
              else
                match s3.history with
                | [] => .error .undefinedBehaviour
                | _ :: popped =>
                  tokenLoop child player depth rest (childMoveNum + 1) { s3 with history := popped }

/-- Function `recusionMove`.  The first argument bounds the recursion depth:
a call that would nest deeper than `fuel` frames reports `Fault.outOfFuel`. -/
def recusionMove : Nat → Search → Player → Int → Int → Except Fault (Outcome × Search)
  | 0, _, _, _, _ => .error .outOfFuel
  | fuel + 1, s, player, depth, _ =>
    if s.hasWon then
      .ok (if player.getPlayerNumber = 1 then Outcome.WON else Outcome.LOSS, s)
    else if isWinningState s.heap player then
      .ok (Outcome.WON, if player.getPlayerNumber = 1 then { s with hasWon := true } else s)
    else if isWinningState s.heap (getOpponent s.state player) then
      .ok (Outcome.LOSS, s)
    else
      tokenLoop (recusionMove fuel) player depth player.getTokens 0 s

/-- What `Algorithm::playNextMove` leaves behind: the heap, the two
containers passed by reference, and the returned `bool`. -/
structure PlayResult where
  heap : Heap
  history : List MoveStep
  visual : List MoveStep
  returned : Bool

/-- The statements of `Algorithm::playNextMove` up to and including the call
of `recusionMove`: the search runs on a copy of `state`, with the `player`
reference the caller passed, depth 0 and move number 1. -/
def searchOnCopy (fuel : Nat) (h : Heap) (state : GameState) (player : Player)
    (history visual : List MoveStep) : Except Fault (Outcome × Search) :=
  match GameState.copy h state with
  | .error e => .error e
  | .ok (h1, newState) =>
    let hasFoundWin := false
    recusionMove fuel
      { heap := h1, state := newState, history := history, visual := visual,
        hasWon := hasFoundWin } player 0 1

/-- Function `Algorithm::playNextMove`: the outcome of the search is dropped
and `false` is returned; `maxDepth` and `moveNum` are not used. -/
def playNextMove (fuel : Nat) (h : Heap) (state : GameState) (player : Player)
    (history visual : List MoveStep) (_maxDepth _moveNum : Int) : Except Fault PlayResult :=
  match searchOnCopy fuel h state player history visual with
  | .error e => .error e
  | .ok (_, s) =>
    .ok { heap := s.heap, history := s.history, visual := s.visual, returned := false }

/-! ## GameManager.h -/

/-- Member `GameManager::checkOtherPlayerMoves`. -/
def checkOtherPlayerMoves (s : GameState) : GameState :=
  if s.getOtherPlayer.movableTokens = 0 then s else s.switchPlayer

/-- The game-state part of `GameManager::TokenMove` and of the end of
`handleAlgoTurn`: `state.moveToken` followed by `checkOtherPlayerMoves`. -/
def applyTurn (acc : Heap × GameState) (mv : (Int × Int) × (Int × Int)) :
    Except Fault (Heap × GameState) :=
  match acc.2.moveToken acc.1 mv.1.1 mv.1.2 mv.2.1 mv.2.2 with
  | .error e => .error e
  | .ok (s, h) => .ok (h, checkOtherPlayerMoves s)

/-- A sequence of turns. -/
def playTurns : List ((Int × Int) × (Int × Int)) → Heap × GameState → Except Fault (Heap × GameState)
  | [], acc => .ok acc
  | mv :: rest, acc =>
    match applyTurn acc mv with
    | .error e => .error e
    | .ok acc1 => playTurns rest acc1

/-- The loop `while (!history.empty()) { i = history.top(); history.pop(); nextStep = i; }`
of `GameManager::handleAlgoTurn`: the value left in `nextStep`. -/
def drainHistory : List MoveStep → MoveStep → MoveStep
  | [], nextStep => nextStep
  | i :: rest, _ => drainHistory rest i

/-! ## Derived operations used in the statements -/

/-- A raw move followed by the raw move in the opposite direction, as the
search applies them around a recursive call. -/
def GameBoard.roundTrip (b : GameBoard) (h : Heap) (fromX fromY toX toY : Int) :
    Except Fault (GameBoard × Heap) :=
  match b.moveTokenRaw h fromX fromY toX toY with
  | .error e => .error e
  | .ok (b1, h1) => b1.moveTokenRaw h1 toX toY fromX fromY

/-- A state without tokens on a 0×0 board, the value of `startState` should
the constructor throw. -/
def GameState.blank : GameState :=
  { MaxTokensPerPlayer := 0, board := GameBoard.new 0 0, player1 := Player.new 0 0,
    player2 := Player.new 1 0, currentPlayer := 0 }

/-- The heap and the state built by `GameState(cellW, cellH, gameSize)` on an
empty heap. -/
def startState (gameSize : Nat) : Heap × GameState :=
  match GameState.new Heap.empty gameSize with
  | .ok r => r
  | .error _ => (Heap.empty, GameState.blank)

/-- The 4×4 game after the turns `(0,1) → (1,1)` of player 0, `(1,0) → (1,2)`
of player 1 (the move the search commits there) and `(1,1) → (2,1)` of
player 0; player 1 is to move. -/
def midGame4 : Heap × GameState :=
  match playTurns [((0, 1), (1, 1)), ((1, 0), (1, 2)), ((1, 1), (2, 1))] (startState 4) with
  | .ok r => r
  | .error _ => (Heap.empty, GameState.blank)

/-- A frame of `recusionMove` on the start position of the game of the given
size, with empty undo-history and replay log and the latch unset. -/
def startSearch (gameSize : Nat) : Search :=
  { heap := (startState gameSize).1, state := (startState gameSize).2, history := [],
    visual := [], hasWon := false }

/-- The outcome, the latch, the undo-history (top first) and the replay log
of a search that returned. -/
def searchSummary : Except Fault (Outcome × Search) →
    Option (Outcome × Bool × List MoveStep × List MoveStep)
  | .ok r => some (r.1, r.2.hasWon, r.2.history, r.2.visual)
  | .error _ => none

/-- The undo-history (top first), the replay log and the returned value of a
call of `playNextMove` that returned. -/
def playSummary : Except Fault PlayResult → Option (List MoveStep × List MoveStep × Bool)
  | .ok r => some (r.history, r.visual, r.returned)
  | .error _ => none

/-- The 3×3 game in which player 1's token has been moved from `(1,0)` to the
far edge cell `(1,2)`: player 1 is in the winning state. -/
def wonSearch3 : Search :=
  match (startState 3).2.board.moveTokenRaw (startState 3).1 1 0 1 2 with
  | .ok (b, h) =>
    { heap := h, state := { (startState 3).2 with board := b }, history := [], visual := [],
      hasWon := false }
  | .error _ => startSearch 3

/-- The heap of a successful board operation. -/
def heapOf : Except Fault (GameBoard × Heap) → Option Heap
  | .ok r => some r.2
  | .error _ => none

/-- The board of a successful board operation. -/
def boardOf : Except Fault (GameBoard × Heap) → Option GameBoard
  | .ok r => some r.1
  | .error _ => none

/-- The value of `newMove` for `token` in a frame of `player`. -/
def candidate (s : Search) (player : Player) (token : Nat) : Int × Int :=
  calculatePossibleMove s.heap (s.heap.tok token).getPosition.1
    (s.heap.tok token).getPosition.2 player s.state

/-- The step `MoveStep {oldMove, newMove, player.getPlayerNumber()}` that a
frame of `player` pushes for `token`. -/
def forwardStep (s : Search) (player : Player) (token : Nat) : MoveStep :=
  MoveStep.mk ((s.heap.tok token).getPosition.1, (s.heap.tok token).getPosition.2)
    (candidate s player token) player.getPlayerNumber

/-- The step in the opposite direction, by the same player. -/
def MoveStep.reverse (m : MoveStep) : MoveStep := MoveStep.mk m.dst m.src m.playerNumber

/-- The state in which the recursive call is made: the forward step is on the
replay log and on the undo-history, the board and heap are those after the
raw move. -/
def Search.pushed (s : Search) (step : MoveStep) (b1 : GameBoard) (h1 : Heap) : Search :=
  { heap := h1, state := { s.state with board := b1 }, history := step :: s.history,
    visual := s.visual ++ [step], hasWon := s.hasWon }

/-- The state after the undo: the board and heap are those after the reverse
raw move, the reverse step is on the replay log. -/
def Search.undone (s2 : Search) (step : MoveStep) (b3 : GameBoard) (h3 : Heap) : Search :=
  { s2 with heap := h3, state := { s2.state with board := b3 },
            visual := s2.visual ++ [step.reverse] }

/-- The latch after a frame of `player` has decided `WON`. -/
def Search.latched (s : Search) (player : Player) : Search :=
  if player.getPlayerNumber = 1 then { s with hasWon := true } else s

/-! ## Predicates used in the statements -/

/-- The token at address `q` is referenced by a cell of the grid. -/
def GameBoard.holds (b : GameBoard) (q : Nat) : Prop :=
  ∃ r c, r < b.Height ∧ c < b.Width ∧ b.board r c = some q

/-- The heap `h1` is what a pass of `updateTokenMoveStatus` over the cells in
`S` makes of `h`: tokens referenced from a cell of `S` have their movable flag
recomputed, every other token is untouched. -/
def Refreshed (b : GameBoard) (h h1 : Heap) (S : Nat → Nat → Prop) : Prop :=
  h1.next = h.next ∧
  ∀ q, ((∃ r c, S r c ∧ b.board r c = some q) →
          h1.tok q = (h.tok q).setMovable (b.canTokenMove h q)) ∧
       ((¬ ∃ r c, S r c ∧ b.board r c = some q) → h1.tok q = h.tok q)

/-- The cell `board[r][c]` is empty or references a token whose position is
`(c, r)`. -/
def GameBoard.ownPosition (b : GameBoard) (h : Heap) (r c : Nat) : Bool :=
  match b.board r c with
  | some t => decide ((h.tok t).position = ((c : Int), (r : Int)))
  | none => true

/-- Every token referenced from the grid is stored in the cell at its own
position. -/
def PosInv (b : GameBoard) (h : Heap) : Prop :=
  ∀ r, r < b.Height → ∀ c, c < b.Width → b.ownPosition h r c = true

instance instDecidablePosInv (b : GameBoard) (h : Heap) : Decidable (PosInv b h) := by
  unfold PosInv
  exact inferInstance

/-- The two heaps give every token the same position and the same owner. -/
def SamePos (h h1 : Heap) : Prop :=
  ∀ q, (h1.tok q).position = (h.tok q).position ∧ (h1.tok q).player = (h.tok q).player

/-- The two boards have the same dimensions and the same occupied cells. -/
def SameOcc (b1 b : GameBoard) : Prop :=
  b1.Width = b.Width ∧ b1.Height = b.Height ∧
  ∀ r, r < b.Height → ∀ c, c < b.Width → (b1.board r c).isSome = (b.board r c).isSome

instance instDecidableSameOcc (b1 b : GameBoard) : Decidable (SameOcc b1 b) := by
  unfold SameOcc
  exact inferInstance

/-- Well-nested sequences of steps: each forward step is closed by its
reverse, with well-nested sequences in between and after. -/
inductive Nested : List MoveStep → Prop where
  | nil : Nested []
  | wrap (m : MoveStep) (inner : List MoveStep) : Nested inner → Nested (m :: inner ++ [m.reverse])
  | append (a b : List MoveStep) : Nested a → Nested b → Nested (a ++ b)

/-- The replay loop of `GameManager::handleAlgoTurn`: every step of the log
is applied with `moveTokenRaw` (the drawing is left out). -/
def replay : List MoveStep → GameBoard × Heap → Except Fault (GameBoard × Heap)
  | [], acc => .ok acc
  | i :: rest, acc =>
    match acc.1.moveTokenRaw acc.2 i.src.1 i.src.2 i.dst.1 i.dst.2 with
    | .error e => .error e
    | .ok acc1 => replay rest acc1

/-- During the replay every step finds its source in bounds and occupied and
its destination in bounds and empty. -/
def replayClean : List MoveStep → GameBoard × Heap → Bool
  | [], _ => true
  | i :: rest, acc =>
    acc.1.isValidPosition i.src.1 i.src.2 && (acc.1.cell i.src.1 i.src.2).isSome &&
    acc.1.isValidPosition i.dst.1 i.dst.2 && (acc.1.cell i.dst.1 i.dst.2).isNone &&
    match acc.1.moveTokenRaw acc.2 i.src.1 i.src.2 i.dst.1 i.dst.2 with
    | .error _ => false
    | .ok acc1 => replayClean rest acc1

/-- The log can be replayed on every board that has the occupied cells of
`b0` and stores its tokens at their own positions: the replay succeeds, is
clean, and ends on the same grid with every token at its starting position. -/
def Replayable (b0 : GameBoard) (log : List MoveStep) : Prop :=
  ∀ B H, SameOcc B b0 → PosInv B H →
    ∃ H1, replay log (B, H) = .ok (B, H1) ∧ replayClean log (B, H) = true ∧ SamePos H H1

/-- What a frame of `recusionMove` leaves behind: the same game state (grid
included), the same positions and owners, an undo-history that extends the
one at entry, and a replay log extended by a well-nested, replayable
sequence. -/
def FrameRel (s s1 : Search) : Prop :=
  s1.state = s.state ∧ SamePos s.heap s1.heap ∧ s1.heap.next = s.heap.next ∧
  (∃ pre, s1.history = pre ++ s.history) ∧
  (∃ app, s1.visual = s.visual ++ app ∧ Nested app ∧ Replayable s.state.board app)

/-- Every token of the player carries the player's number and is stored in
the cell at its position. -/
def Registered (b : GameBoard) (h : Heap) (p : Player) : Prop :=
  ∀ t ∈ p.tokens, (h.tok t).player = p.playerNumber ∧
    b.isValidPosition (h.tok t).position.1 (h.tok t).position.2 = true ∧
    b.cell (h.tok t).position.1 (h.tok t).position.2 = some t

instance instDecidableRegistered (b : GameBoard) (h : Heap) (p : Player) :
    Decidable (Registered b h p) := by
  unfold Registered
  exact inferInstance

/-- The cell `board[r][c]` is empty or references a token of one of the two
players of the state. -/
def GameState.ownedCell (s : GameState) (r c : Nat) : Bool :=
  match s.board.board r c with
  | some t => decide (t ∈ s.player1.tokens ∨ t ∈ s.player2.tokens)
  | none => true

/-- A well-formed state of the game on an `n × n` board: the players are
numbered 0 and 1, every token of a player carries its number and is stored in
the in-bounds cell at its position, and every occupied cell stores a token of
one of the players, at the token's own position. -/
def WellFormed (n : Nat) (h : Heap) (s : GameState) : Prop :=
  s.board.Width = n ∧ s.board.Height = n ∧
  s.player1.playerNumber = 0 ∧ s.player2.playerNumber = 1 ∧
  PosInv s.board h ∧ Registered s.board h s.player1 ∧ Registered s.board h s.player2 ∧
  ∀ r, r < n → ∀ c, c < n → s.ownedCell r c = true

instance instDecidableWellFormed (n : Nat) (h : Heap) (s : GameState) :
    Decidable (WellFormed n h s) := by
  unfold WellFormed
  exact inferInstance

/-- The token that stands where `token` is (if any) carries the number of
`player`. -/
def alignedToken (h : Heap) (b : GameBoard) (player : Player) (token : Nat) : Bool :=
  if !b.isValidPosition (h.tok token).position.1 (h.tok token).position.2 then true
  else
    match b.cell (h.tok token).position.1 (h.tok token).position.2 with
    | some t => decide ((h.tok t).player = player.playerNumber)
    | none => true

/-- The `player` argument of a frame fits the working state: its number is 0
or 1 and the tokens standing where its tokens are carry that number.  This
holds for the two players of a well-formed state, and for the players of the
live game with respect to a copy of it. -/
def Aligned (h : Heap) (b : GameBoard) (player : Player) : Prop :=
  (player.playerNumber = 0 ∨ player.playerNumber = 1) ∧
  ∀ token ∈ player.tokens, alignedToken h b player token = true

instance instDecidableAligned (h : Heap) (b : GameBoard) (player : Player) :
    Decidable (Aligned h b player) := by
  unfold Aligned
  exact inferInstance

/-- The termination measure: the sum over the tokens of both players of the
distance of the forward coordinate (x for player 0, y for player 1) from the
far edge `n - 1`. -/
def forwardSum (n : Nat) (h : Heap) (s : GameState) : Nat :=
  (s.player1.tokens.map (fun t => ((n : Int) - 1 - (h.tok t).position.1).toNat)).sum +
  (s.player2.tokens.map (fun t => ((n : Int) - 1 - (h.tok t).position.2).toNat)).sum

/-! ## The replay on a copy of the board -/

/-- The occupied cells of a board, row by row. -/
def occupancy (b : GameBoard) : List (List Bool) :=
  (List.range b.Height).map (fun y => (List.range b.Width).map (fun x => (b.board y x).isSome))

/-- The first half of `GameManager::handleAlgoTurn`: the search for `player`
with empty containers, then the replay of the log on `fakeBoard`, a copy of
the live board.  The result tells whether the replay was clean and whether it
ended on the occupied cells of the live board. -/
def replayOnCopy (fuel : Nat) (h : Heap) (state : GameState) (player : Player) :
    Option (Bool × Bool) :=
  match playNextMove fuel h state player [] [] 0 0 with
  | .error _ => none
  | .ok r =>
    let fake := GameBoard.copy r.heap state.board
    some (replayClean r.visual (fake.2, fake.1),
      decide ((boardOf (replay r.visual (fake.2, fake.1))).map occupancy =
        some (occupancy state.board)))

/-! ## Concrete positions used by the evaluation theorems -/

/-- A 3×3 board with a movable player-0 token (address 0) on `(0,1)` and a
player-1 token (address 1) on `(1,1)`; every other cell is empty. -/
def jumpBoard : GameBoard :=
  ((GameBoard.new 3 3).setCell 1 0 (some 0)).setCell 1 1 (some 1)

/-- The board `jumpBoard` with a further token (address 2) on `(2,1)`. -/
def jumpBoardBlocked : GameBoard := jumpBoard.setCell 1 2 (some 2)

/-- The tokens of `jumpBoard` and `jumpBoardBlocked`. -/
def jumpHeap : Heap :=
  { tok := fun q => if q = 0 then Token.mk0 0 1 0 else if q = 1 then Token.mk0 1 1 1
                    else Token.mk0 2 1 1,
    next := 3 }

/-! ## The validated move as a state transformer -/

/-- Member `GameBoard::moveToken` with the object it leaves behind: the grid
and the tokens when control leaves the function, by `return` or by `throw`,
and the exception in flight, if any.  The statements are those of
`GameBoard.moveToken`; `tX` and `tY` are locals of the function. -/
def GameBoard.moveTokenExec (b : GameBoard) (h : Heap) (fromX fromY toX toY : Int) :
    (GameBoard × Heap) × Option Fault :=
  if !b.isValidPosition fromX fromY || !b.isValidPosition toX toY then
    ((b, h), some .moveOutOfBounds)
  else
    let fX := fromX.toNat
    let fY := fromY.toNat
    let tX := toX.toNat
    let tY := toY.toNat
    match b.board fY fX with
    | none => ((b, h), some .noTokenAtSource)
    | some movingToken =>
      if !(h.tok movingToken).isMovable then ((b, h), some .tokenImmovable)
      else
        let jumped : Except Fault (Nat × Nat) :=
          if (b.board tY tX).isSome then
            let player := (h.tok movingToken).getPlayer
            if player = 0 then
              if tX ≥ b.Width - 1 || (b.board tY (tX + 1)).isSome then .error .cantJump
              else .ok (tX + 1, tY)
            else if player = 1 then
              if tY ≥ b.Height - 1 || (b.board (tY + 1) tX).isSome then .error .cantJump
              else .ok (tX, tY + 1)
            else .ok (tX, tY)
          else .ok (tX, tY)
        match jumped with
        | .error e => ((b, h), some e)
        | .ok (tX, tY) =>
          if !b.isValidPosition (tX : Int) (tY : Int) then ((b, h), some .jumpOutOfBounds)
          else (b.relocate h fX fY tX tY movingToken, none)

/-- Member `GameState::moveToken` with the object it leaves behind.  An
exception of `board.moveToken` leaves the function at its first statement:
the board is the one `board.moveToken` left, the players are untouched. -/
def GameState.moveTokenExec (s : GameState) (h : Heap) (fromX fromY toX toY : Int) :
    (GameState × Heap) × Option Fault :=
  match s.board.moveTokenExec h fromX fromY toX toY with
  | ((b1, h1), some e) => (({ s with board := b1 }, h1), some e)
  | ((b1, h1), none) =>
    let s1 : GameState :=
      { s with board := b1,
               player1 := s.player1.updateMovableTokens h1,
               player2 := s.player2.updateMovableTokens h1 }
    match s1.board.getTokenAt toX toY with
    | some token =>
      if (h1.tok token).hasReachedEnd then
        if s1.currentPlayer = 0 then
          (({ s1 with player1 := Player.setScore s1.player1 (s1.player1.getScore + 1) }, h1), none)
        else
          (({ s1 with player2 := Player.setScore s1.player2 (s1.player2.getScore + 1) }, h1), none)
      else ((s1, h1), none)
    | none => ((s1, h1), none)

/-! ## Positions used in the counterexamples -/

/-- The 3×3 board on which the search has tried and undone the two moves
`(1,0) → (1,1)` of player 1 and `(0,1) → (2,1)` of player 0: every token is
back on its start cell. -/
def undoneLog3 : List MoveStep :=
  [MoveStep.mk (1, 0) (1, 1) 1, MoveStep.mk (0, 1) (2, 1) 0, MoveStep.mk (2, 1) (0, 1) 0,
   MoveStep.mk (1, 1) (1, 0) 1]

/-- The board and the tokens after the raw moves of `undoneLog3` on the 3×3
start position. -/
def undone3 : GameBoard × Heap :=
  match replay undoneLog3 ((startState 3).2.board, (startState 3).1) with
  | .ok r => r
  | .error _ => ((startState 3).2.board, (startState 3).1)

/-- The position, the owner and the two flags of a token. -/
def tokenView (r : Option Heap) (q : Nat) : Option ((Int × Int) × Int × Bool × Bool) :=
  r.map (fun h => ((h.tok q).position, (h.tok q).player, (h.tok q).canMove, (h.tok q).reachedEnd))

/-! ## The start position in closed form -/

/-- The tokens after `k` iterations of the loop of `initializeTokens` on an
empty heap: address `2i` is the token of player 0 on `(0, i+1)`, address
`2i+1` the token of player 1 on `(i+1, 0)`. -/
def initHeap (k : Nat) : Heap :=
  { tok := fun q =>
      if q < 2 * k then
        (if q % 2 = 0 then Token.mk0 0 (((q / 2 : Nat) : Int) + 1) 0
         else Token.mk0 (((q / 2 : Nat) : Int) + 1) 0 1)
      else Token.mk0 0 0 0,
    next := 2 * k }

/-- The grid of size `n` after `k` iterations of the loop. -/
def initBoard (n k : Nat) : GameBoard :=
  { Width := n, Height := n,
    board := fun r c =>
      if c = 0 ∧ 1 ≤ r ∧ r ≤ k then some (2 * (r - 1))
      else if r = 0 ∧ 1 ≤ c ∧ c ≤ k then some (2 * (c - 1) + 1)
      else none }

/-- The state of the game of size `n` after `k` iterations of the loop. -/
def initState (n k : Nat) : GameState :=
  { MaxTokensPerPlayer := n - 2,
    board := initBoard n k,
    player1 := { MaxTokens := n - 2, playerNumber := 0,
                 tokens := (List.range k).map (fun i => 2 * i), score := 0,
                 movableTokens := ((n - 2 : Nat) : Int) },
    player2 := { MaxTokens := n - 2, playerNumber := 1,
                 tokens := (List.range k).map (fun i => 2 * i + 1), score := 0,
                 movableTokens := ((n - 2 : Nat) : Int) },
    currentPlayer := 0 }

/-! ## Sequences of calls and the states they reach -/

/-- The test of the two nested `if` statements that end
`GameState::moveToken`: a token stands on `(x, y)` and carries the
reached-end mark. -/
def reachedEndAt (b : GameBoard) (h : Heap) (x y : Int) : Bool :=
  match b.getTokenAt x y with
  | some token => (h.tok token).hasReachedEnd
  | none => false

/-- The states reachable from the start position of the game of size `n` by
successful calls of `GameState::moveToken`, with any arguments, and calls of
`switchPlayer`. -/
inductive Reachable (n : Nat) : Heap → GameState → Prop where
  | start : Reachable n (startState n).1 (startState n).2
  | move (h : Heap) (s : GameState) (fromX fromY toX toY : Int) (s1 : GameState) (h1 : Heap) :
      Reachable n h s → s.moveToken h fromX fromY toX toY = .ok (s1, h1) → Reachable n h1 s1
  | switch (h : Heap) (s : GameState) : Reachable n h s → Reachable n h s.switchPlayer

/-- The states reachable from the start position of the game of size `n` by
legal play: the current player moves one of its own tokens with
`GameState::moveToken` to the cell `getTokenMove` answers for the forward
neighbour of that token (the value of `calculatePossibleMove`, tested with
`first != -1`), and `switchPlayer` is called in between in any order. -/
inductive LegalPlay (n : Nat) : Heap → GameState → Prop where
  | start : LegalPlay n (startState n).1 (startState n).2
  | move (h : Heap) (s : GameState) (x y : Int) (t : Nat) (s1 : GameState) (h1 : Heap) :
      LegalPlay n h s → s.board.getTokenAt x y = some t → t ∈ s.getCurrentPlayer.tokens →
      (calculatePossibleMove h x y s.getCurrentPlayer s).1 ≠ -1 →
      s.moveToken h x y (calculatePossibleMove h x y s.getCurrentPlayer s).1
        (calculatePossibleMove h x y s.getCurrentPlayer s).2 = .ok (s1, h1) →
      LegalPlay n h1 s1
  | switch (h : Heap) (s : GameState) : LegalPlay n h s → LegalPlay n h s.switchPlayer

/-- The states reachable from the start position of the game of size `n` by
calls of `moveTokenRaw` and `moveToken` on the board with an occupied source
and an empty in-bounds destination, in any order. -/
inductive BoardReachable (n : Nat) : Heap → GameState → Prop where
  | start : BoardReachable n (startState n).1 (startState n).2
  | raw (h : Heap) (s : GameState) (fromX fromY toX toY : Int) (b1 : GameBoard) (h1 : Heap) :
      BoardReachable n h s → (s.board.getTokenAt fromX fromY).isSome = true →
      s.board.isValidPosition toX toY = true → s.board.cell toX toY = none →
      s.board.moveTokenRaw h fromX fromY toX toY = .ok (b1, h1) →
      BoardReachable n h1 { s with board := b1 }
  | validated (h : Heap) (s : GameState) (fromX fromY toX toY : Int) (b1 : GameBoard)
      (h1 : Heap) :
      BoardReachable n h s → (s.board.getTokenAt fromX fromY).isSome = true →
      s.board.isValidPosition toX toY = true → s.board.cell toX toY = none →
      s.board.moveToken h fromX fromY toX toY = .ok (b1, h1) →
      BoardReachable n h1 { s with board := b1 }

/-- The states reachable from the start position of the game of size `n` by
calls of `moveTokenRaw` and `moveToken` on the board that move a token of
one of the players to the cell `getTokenMove` answers for its forward
neighbour (the value of `calculatePossibleMove` for the owner), in any
order. -/
inductive ForwardPlay (n : Nat) : Heap → GameState → Prop where
  | start : ForwardPlay n (startState n).1 (startState n).2
  | raw (h : Heap) (s : GameState) (p : Player) (x y : Int) (t : Nat) (b1 : GameBoard)
      (h1 : Heap) :
      ForwardPlay n h s → (p = s.player1 ∨ p = s.player2) →
      s.board.getTokenAt x y = some t → t ∈ p.tokens →
      (calculatePossibleMove h x y p s).1 ≠ -1 →
      s.board.moveTokenRaw h x y (calculatePossibleMove h x y p s).1
        (calculatePossibleMove h x y p s).2 = .ok (b1, h1) →
      ForwardPlay n h1 { s with board := b1 }
  | validated (h : Heap) (s : GameState) (p : Player) (x y : Int) (t : Nat) (b1 : GameBoard)
      (h1 : Heap) :
      ForwardPlay n h s → (p = s.player1 ∨ p = s.player2) →
      s.board.getTokenAt x y = some t → t ∈ p.tokens →
      (calculatePossibleMove h x y p s).1 ≠ -1 →
      s.board.moveToken h x y (calculatePossibleMove h x y p s).1
        (calculatePossibleMove h x y p s).2 = .ok (b1, h1) →
      ForwardPlay n h1 { s with board := b1 }

/-- A call on a `GameState`: `moveToken(src, dst)` or `switchPlayer()`. -/
inductive Call where
  | move (src dst : Int × Int)
  | switch

/-- A list of calls applied in order. -/
def runCalls : List Call → GameState × Heap → Except Fault (GameState × Heap)
  | [], r => .ok r
  | .move src dst :: rest, (s, h) =>
    match s.moveToken h src.1 src.2 dst.1 dst.2 with
    | .error e => .error e
    | .ok r => runCalls rest r
  | .switch :: rest, (s, h) => runCalls rest (s.switchPlayer, h)

/-- The state after a list of calls on the start position of the game of
size `n`; the start position itself should a call throw. -/
def afterCalls (n : Nat) (calls : List Call) : GameState × Heap :=
  match runCalls calls ((startState n).2, (startState n).1) with
  | .ok r => r
  | .error _ => ((startState n).2, (startState n).1)

/-- The scores of both players, the current player, and the position and the
reached-end mark of the token at address `q`, after a successful call. -/
def stateView (r : Except Fault (GameState × Heap)) (q : Nat) :
    Option (Int × Int × Int × (Int × Int) × Bool) :=
  match r with
  | .ok (s, h) =>
    some (s.player1.score, s.player2.score, s.currentPlayer, (h.tok q).position,
      (h.tok q).reachedEnd)
  | .error _ => none

/-- The 3×3 game in which player 1's token has been moved from `(1,0)` to
`(1,1)`, in front of player 0's token on `(0,1)`; player 0 is to move. -/
def facing3 : GameState × Heap :=
  afterCalls 3 [.switch, .move (1, 0) (1, 1), .switch]

/-- The 3×3 game in which each player has moved its own token in turn:
player 0 from `(0,1)` to the corner `(0,0)`, player 1 from `(1,0)` to
`(1,1)`, player 0 from `(0,0)` back to `(0,1)`. -/
def ownTokens3 : GameState × Heap :=
  afterCalls 3 [.move (0, 1) (0, 0), .switch, .move (1, 0) (1, 1), .switch, .move (0, 0) (0, 1)]

/-- The 3×3 game in which, without any `switchPlayer`, player 0's token has
been moved forward `(0,1) → (1,1) → (2,1)` and then player 1's token forward
`(1,0) → (1,1) → (1,2)`. -/
def bothTokens3 : GameState × Heap :=
  afterCalls 3 [.move (0, 1) (1, 1), .move (1, 1) (2, 1), .move (1, 0) (1, 1),
    .move (1, 1) (1, 2)]

/-- The 3×3 game after the legal first turn `(0,1) → (1,1)` of player 0. -/
def firstTurn3 : GameState × Heap := afterCalls 3 [.move (0, 1) (1, 1)]

/-- The 3×3 board and its tokens after the raw move `(0,1) → (1,1)` of the
token of player 0, as the search performs it on its working copy. -/
def firstRaw3 : GameBoard × Heap :=
  match (startState 3).2.board.moveTokenRaw (startState 3).1 0 1 1 1 with
  | .ok r => r
  | .error _ => ((startState 3).2.board, (startState 3).1)

/-! ## Invariants of legal play -/

/-- The effect on the grid and on the tokens that `moveTokenRaw` and
`moveToken` share when they relocate the token `t` from `(fX, fY)` to
`(tX, tY)`. -/
def MoveEffect (b : GameBoard) (h : Heap) (fX fY tX tY t : Nat) (b1 : GameBoard) (h1 : Heap) :
    Prop :=
  b1 = (b.setCell tY tX (some t)).setCell fY fX none ∧
  (∀ q, (h1.tok q).player = (h.tok q).player) ∧
  (∀ q, (h1.tok q).position = if q = t then ((tX : Int), (tY : Int)) else (h.tok q).position) ∧
  (∀ q, q ≠ t → (h1.tok q).reachedEnd = (h.tok q).reachedEnd) ∧
  (b.isEdge tX tY = true → (h1.tok t).reachedEnd = true) ∧
  (b.isEdge tX tY = false → (h.tok t).reachedEnd = false → (h1.tok t).reachedEnd = false) ∧
  (∀ q, b1.holds q →
    (h1.tok q).canMove = if q = t ∧ b.isEdge tX tY = true then false else b1.canTokenMove h1 q)

/-- The flags of the tokens in legal play on the `n × n` board: a token of
player 0 stands in a row other than the first and the last, carries the
reached-end mark exactly when it stands in the last column, and is then
immovable; likewise for player 1 with rows and columns exchanged. -/
def EdgeInv (n : Nat) (h : Heap) (s : GameState) : Prop :=
  (∀ t ∈ s.player1.tokens,
    1 ≤ (h.tok t).position.2 ∧ (h.tok t).position.2 + 2 ≤ (n : Int) ∧
    ((h.tok t).reachedEnd = true ↔ (h.tok t).position.1 = (n : Int) - 1) ∧
    ((h.tok t).reachedEnd = true → (h.tok t).canMove = false)) ∧
  (∀ t ∈ s.player2.tokens,
    1 ≤ (h.tok t).position.1 ∧ (h.tok t).position.1 + 2 ≤ (n : Int) ∧
    ((h.tok t).reachedEnd = true ↔ (h.tok t).position.2 = (n : Int) - 1) ∧
    ((h.tok t).reachedEnd = true → (h.tok t).canMove = false))

/-- The forward coordinate of a token of `p`: x for player 0, y otherwise. -/
def forwardCoord (h : Heap) (p : Player) (t : Nat) : Int :=
  if p.playerNumber = 0 then (h.tok t).position.1 else (h.tok t).position.2

/-- The number of tokens of `p` whose forward coordinate is `n - 1`. -/
def arrived (n : Nat) (h : Heap) (p : Player) : Nat :=
  p.tokens.countP (fun t => decide (forwardCoord h p t = (n : Int) - 1))

/-- The invariant of legal play: a well-formed state with the flags of
`EdgeInv`, `n - 2` distinct tokens per player, and each score equal to the
number of the player's tokens on its far edge. -/
def PlayInv (n : Nat) (h : Heap) (s : GameState) : Prop :=
  WellFormed n h s ∧ EdgeInv n h s ∧
  s.player1.tokens.Nodup ∧ s.player2.tokens.Nodup ∧
  s.player1.tokens.length = n - 2 ∧ s.player2.tokens.length = n - 2 ∧
  s.player1.score = (arrived n h s.player1 : Int) ∧
  s.player2.score = (arrived n h s.player2 : Int)

/-! ## Further state transformers -/

/-- Member `GameBoard::moveTokenRaw` with the object it leaves behind: the
grid and the tokens when control leaves the function and the exception in
flight, if any.  For `Fault.undefinedBehaviour` (an access outside the grid)
the language defines no object state; the pair returned in that case has no
meaning. -/
def GameBoard.moveTokenRawExec (b : GameBoard) (h : Heap) (fromX fromY toX toY : Int) :
    (GameBoard × Heap) × Option Fault :=
  if !b.isValidPosition fromX fromY then ((b, h), some .undefinedBehaviour)
  else
    let fX := fromX.toNat
    let fY := fromY.toNat
    match b.board fY fX with
    | none => ((b, h), some .noTokenAtSource)
    | some movingToken =>
      if !b.isValidPosition toX toY then ((b, h), some .undefinedBehaviour)
      else (b.relocateRaw h fX fY toX.toNat toY.toNat movingToken, none)

/-- Member `Player::addToken` with the object it leaves behind. -/
def Player.addTokenExec (p : Player) (token : Nat) : Player × Option Fault :=
  if p.tokens.length ≥ p.MaxTokens then (p, some .tokenLimitReached)
  else ({ p with tokens := p.tokens ++ [token] }, none)

/-- Member `Player::getMovableTokens`. -/
def Player.getMovableTokens (p : Player) : Int := p.movableTokens

/-- A sequence of `addToken` calls. -/
def Player.addTokens : List Nat → Player → Except Fault Player
  | [], p => .ok p
  | token :: rest, p =>
    match p.addToken token with
    | .error e => .error e
    | .ok p1 => Player.addTokens rest p1

/-- The exception of a call that threw. -/
def faultOf {α : Type} : Except Fault α → Option Fault
  | .ok _ => none
  | .error e => some e

/-- The search state on the 3×3 board `undone3`, with empty undo-history and
replay log and the latch unset. -/
def undoneSearch3 : Search :=
  { heap := undone3.2, state := { (startState 3).2 with board := undone3.1 }, history := [],
    visual := [], hasWon := false }

/-! ## Copies of a state -/

/-- Every token of the two players has been allocated: its address is below
the next free address of the heap. -/
def Allocated (h : Heap) (s : GameState) : Prop :=
  (∀ t ∈ s.player1.tokens, t < h.next) ∧ (∀ t ∈ s.player2.tokens, t < h.next)

instance instDecidableAllocated (h : Heap) (s : GameState) : Decidable (Allocated h s) := by
  unfold Allocated
  exact inferInstance

/-- The invariant of the loops of the copy constructor of the board: no
token that existed before is touched, the dimensions are those of the
original, and only cells of the grid that are occupied in the original are
filled. -/
def BoardCopyInv (h : Heap) (other : GameBoard) (acc : Heap × GameBoard) : Prop :=
  h.next ≤ acc.1.next ∧ (∀ q, q < h.next → acc.1.tok q = h.tok q) ∧
  acc.2.Width = other.Width ∧ acc.2.Height = other.Height ∧
  (∀ r c, acc.2.board r c ≠ none →
    r < other.Height ∧ c < other.Width ∧ other.board r c ≠ none)

/-- The state `sC` with heap `hC` is a copy of the state `s` with heap `h`
under the renaming `k` of token addresses: the scalar members and the
dimensions agree, the token lists are the renamed lists, every copy is a
fresh address that carries the record of its original, the tokens that
existed before are untouched, and a cell of the grid of `sC` holds the copy
of what the same cell of `s` holds. -/
def CopyOf (h : Heap) (s : GameState) (hC : Heap) (sC : GameState) (k : Nat → Nat) : Prop :=
  sC.MaxTokensPerPlayer = s.MaxTokensPerPlayer ∧ sC.currentPlayer = s.currentPlayer ∧
  sC.board.Width = s.board.Width ∧ sC.board.Height = s.board.Height ∧
  sC.player1.playerNumber = s.player1.playerNumber ∧
  sC.player2.playerNumber = s.player2.playerNumber ∧
  sC.player1.tokens = s.player1.tokens.map k ∧ sC.player2.tokens = s.player2.tokens.map k ∧
  (∀ t, t ∈ s.player1.tokens ∨ t ∈ s.player2.tokens →
    h.next ≤ k t ∧ k t < hC.next ∧ hC.tok (k t) = h.tok t) ∧
  (∀ t u, t ∈ s.player1.tokens ∨ t ∈ s.player2.tokens →
    u ∈ s.player1.tokens ∨ u ∈ s.player2.tokens → k t = k u → t = u) ∧
  h.next ≤ hC.next ∧ (∀ q, q < h.next → hC.tok q = h.tok q) ∧
  (∀ r c, r < s.board.Height → c < s.board.Width →
    sC.board.board r c = (s.board.board r c).map k)

/-! ## Further example states -/

/-- The 3×3 game after the two legal moves `(0,1) → (1,1)` and
`(1,1) → (2,1)` of player 0: its only token stands on the far edge. -/
def arrived3 : GameState × Heap := afterCalls 3 [.move (0, 1) (1, 1), .move (1, 1) (2, 1)]

/-! # Theorems -/

/-! ## Reading and writing cells and tokens -/

theorem isValidPosition_iff (b : GameBoard) (x y : Int) :
    b.isValidPosition x y = true ↔ 0 ≤ x ∧ 0 ≤ y ∧ x.toNat < b.Width ∧ y.toNat < b.Height := by
  simp [GameBoard.isValidPosition, and_assoc]

theorem isValidPosition_false_iff (b : GameBoard) (x y : Int) :
    b.isValidPosition x y = false ↔ ¬ (0 ≤ x ∧ 0 ≤ y ∧ x.toNat < b.Width ∧ y.toNat < b.Height) := by
  rw [← isValidPosition_iff]; simp

theorem modify_tok (h : Heap) (p : Nat) (f : Token → Token) (q : Nat) :
    (h.modify p f).tok q = if q = p then f (h.tok q) else h.tok q := rfl

theorem modify_next (h : Heap) (p : Nat) (f : Token → Token) : (h.modify p f).next = h.next := rfl

theorem setCell_board (b : GameBoard) (row col : Nat) (v : Option Nat) (r c : Nat) :
    (b.setCell row col v).board r c = if r = row ∧ c = col then v else b.board r c := rfl

theorem setCell_Width (b : GameBoard) (row col : Nat) (v : Option Nat) :
    (b.setCell row col v).Width = b.Width := rfl

theorem setCell_Height (b : GameBoard) (row col : Nat) (v : Option Nat) :
    (b.setCell row col v).Height = b.Height := rfl

/-! ## `canTokenMove` and `updateTokenMoveStatus` -/

/-- The movability test reads the heap only through the position and the
owner of the token tested. -/
theorem canTokenMove_congr (b : GameBoard) (h1 h2 : Heap) (t : Nat)
    (hp : (h1.tok t).position = (h2.tok t).position)
    (hl : (h1.tok t).player = (h2.tok t).player) :
    b.canTokenMove h1 t = b.canTokenMove h2 t := by
  simp only [GameBoard.canTokenMove, Token.getPosition, Token.getPlayer, hp, hl]

theorem refreshed_congr (b : GameBoard) (h h1 : Heap) (S T : Nat → Nat → Prop)
    (hST : ∀ r c, S r c ↔ T r c) (H : Refreshed b h h1 S) : Refreshed b h h1 T := by
  have : S = T := by
    funext r c
    exact propext (hST r c)
  subst this
  exact H

theorem refreshed_shape (b : GameBoard) (h h1 : Heap) (S : Nat → Nat → Prop)
    (H : Refreshed b h h1 S) (q : Nat) :
    (h1.tok q).position = (h.tok q).position ∧ (h1.tok q).player = (h.tok q).player ∧
      (h1.tok q).reachedEnd = (h.tok q).reachedEnd := by
  by_cases hq : ∃ r c, S r c ∧ b.board r c = some q
  · rw [(H.2 q).1 hq]; simp [Token.setMovable]
  · rw [(H.2 q).2 hq]; simp

theorem refreshed_step (b : GameBoard) (h h1 : Heap) (S : Nat → Nat → Prop) (r c : Nat)
    (H : Refreshed b h h1 S) :
    Refreshed b h (b.updateCell h1 r c) (fun r1 c1 => S r1 c1 ∨ (r1 = r ∧ c1 = c)) := by
  unfold GameBoard.updateCell
  cases hb : b.board r c with
  | none =>
    refine ⟨H.1, fun q => ?_⟩
    have key : (∃ r1 c1, (S r1 c1 ∨ (r1 = r ∧ c1 = c)) ∧ b.board r1 c1 = some q) ↔
        ∃ r1 c1, S r1 c1 ∧ b.board r1 c1 = some q := by
      constructor
      · rintro ⟨r1, c1, hs | ⟨rfl, rfl⟩, hq⟩
        · exact ⟨r1, c1, hs, hq⟩
        · rw [hb] at hq; cases hq
      · rintro ⟨r1, c1, hs, hq⟩
        exact ⟨r1, c1, Or.inl hs, hq⟩
    rw [key]
    exact H.2 q
  | some t =>
    have sh := refreshed_shape b h h1 S H t
    have hc : b.canTokenMove h1 t = b.canTokenMove h t := canTokenMove_congr b h1 h t sh.1 sh.2.1
    refine ⟨by simp only [modify_next]; exact H.1, fun q => ?_⟩
    simp only [modify_tok]
    by_cases hqt : q = t
    · subst hqt
      simp only [if_true]
      refine ⟨fun _ => ?_, fun hn => absurd ⟨r, c, Or.inr ⟨rfl, rfl⟩, hb⟩ hn⟩
      rw [hc]
      by_cases hq : ∃ r c, S r c ∧ b.board r c = some q
      · rw [(H.2 q).1 hq]; simp [Token.setMovable]
      · rw [(H.2 q).2 hq]
    · simp only [hqt, if_false]
      have key : (∃ r1 c1, (S r1 c1 ∨ (r1 = r ∧ c1 = c)) ∧ b.board r1 c1 = some q) ↔
          ∃ r1 c1, S r1 c1 ∧ b.board r1 c1 = some q := by
        constructor
        · rintro ⟨r1, c1, hs | ⟨rfl, rfl⟩, hq⟩
          · exact ⟨r1, c1, hs, hq⟩
          · rw [hb] at hq
            exact absurd (Option.some.inj hq).symm hqt
        · rintro ⟨r1, c1, hs, hq⟩
          exact ⟨r1, c1, Or.inl hs, hq⟩
      rw [key]
      exact H.2 q

theorem refreshed_row (b : GameBoard) (h : Heap) (r : Nat) (cs : List Nat) :
    ∀ (h1 : Heap) (S : Nat → Nat → Prop), Refreshed b h h1 S →
      Refreshed b h (cs.foldl (fun h2 col => b.updateCell h2 r col) h1)
        (fun r1 c1 => S r1 c1 ∨ (r1 = r ∧ c1 ∈ cs)) := by
  induction cs with
  | nil =>
    intro h1 S H
    exact refreshed_congr b h h1 S _ (fun r1 c1 => by simp) H
  | cons c cs ih =>
    intro h1 S H
    have := ih _ _ (refreshed_step b h h1 S r c H)
    refine refreshed_congr b h _ _ _ (fun r1 c1 => ?_) this
    simp only [List.mem_cons]
    tauto

theorem refreshed_rows (b : GameBoard) (h : Heap) (rs : List Nat) :
    ∀ (h1 : Heap) (S : Nat → Nat → Prop), Refreshed b h h1 S →
      Refreshed b h
        (rs.foldl (fun h2 row =>
          (List.range b.Width).foldl (fun h3 col => b.updateCell h3 row col) h2) h1)
        (fun r1 c1 => S r1 c1 ∨ (r1 ∈ rs ∧ c1 < b.Width)) := by
  induction rs with
  | nil =>
    intro h1 S H
    exact refreshed_congr b h h1 S _ (fun r1 c1 => by simp) H
  | cons r rs ih =>
    intro h1 S H
    have := ih _ _ (refreshed_row b h r (List.range b.Width) h1 S H)
    refine refreshed_congr b h _ _ _ (fun r1 c1 => ?_) this
    simp only [List.mem_cons, List.mem_range]
    constructor
    · rintro ((hs | ⟨rfl, hc⟩) | ⟨hr, hc⟩)
      · exact Or.inl hs
      · exact Or.inr ⟨Or.inl rfl, hc⟩
      · exact Or.inr ⟨Or.inr hr, hc⟩
    · rintro (hs | ⟨rfl | hr, hc⟩)
      · exact Or.inl (Or.inl hs)
      · exact Or.inl (Or.inr ⟨rfl, hc⟩)
      · exact Or.inr ⟨hr, hc⟩

/-- The effect of `updateTokenMoveStatus`: the movable flag of every token on
the grid is recomputed with `canTokenMove`, nothing else changes. -/
theorem updateTokenMoveStatus_refreshed (b : GameBoard) (h : Heap) :
    Refreshed b h (b.updateTokenMoveStatus h) (fun r c => r < b.Height ∧ c < b.Width) := by
  have h0 : Refreshed b h h (fun _ _ => False) := by
    refine ⟨rfl, fun q => ⟨?_, fun _ => rfl⟩⟩
    rintro ⟨r, c, hf, _⟩
    exact absurd hf id
  have := refreshed_rows b h (List.range b.Height) h _ h0
  refine refreshed_congr b h _ _ _ (fun r c => ?_) this
  simp

theorem updateTokenMoveStatus_next (b : GameBoard) (h : Heap) :
    (b.updateTokenMoveStatus h).next = h.next :=
  (updateTokenMoveStatus_refreshed b h).1

theorem updateTokenMoveStatus_shape (b : GameBoard) (h : Heap) (q : Nat) :
    ((b.updateTokenMoveStatus h).tok q).position = (h.tok q).position ∧
    ((b.updateTokenMoveStatus h).tok q).player = (h.tok q).player ∧
    ((b.updateTokenMoveStatus h).tok q).reachedEnd = (h.tok q).reachedEnd :=
  refreshed_shape b h _ _ (updateTokenMoveStatus_refreshed b h) q

theorem updateTokenMoveStatus_on (b : GameBoard) (h : Heap) (q : Nat) (hq : b.holds q) :
    (b.updateTokenMoveStatus h).tok q = (h.tok q).setMovable (b.canTokenMove h q) := by
  obtain ⟨r, c, hr, hc, hb⟩ := hq
  exact ((updateTokenMoveStatus_refreshed b h).2 q).1 ⟨r, c, ⟨hr, hc⟩, hb⟩

theorem updateTokenMoveStatus_off (b : GameBoard) (h : Heap) (q : Nat) (hq : ¬ b.holds q) :
    (b.updateTokenMoveStatus h).tok q = h.tok q := by
  refine ((updateTokenMoveStatus_refreshed b h).2 q).2 ?_
  rintro ⟨r, c, ⟨hr, hc⟩, hb⟩
  exact hq ⟨r, c, hr, hc, hb⟩

/-! ## The relocation performed by `moveTokenRaw` -/

theorem relocateRaw_board (b : GameBoard) (h : Heap) (fX fY tX tY t : Nat) :
    (b.relocateRaw h fX fY tX tY t).1 = (b.setCell tY tX (some t)).setCell fY fX none := rfl

theorem isEdge_setCell (b : GameBoard) (row col : Nat) (v : Option Nat) (x y : Nat) :
    (b.setCell row col v).isEdge x y = b.isEdge x y := rfl

theorem rawStage_tok (h : Heap) (t : Nat) (tX tY : Int) (q : Nat) :
    ((h.modify t (fun tk => tk.move tX tY)).modify t Token.undoReachedEnd).tok q =
      if q = t then
        { position := (tX, tY), player := (h.tok t).player, canMove := true, reachedEnd := false }
      else h.tok q := by
  by_cases hq : q = t
  · subst hq
    simp [modify_tok, Token.undoReachedEnd, Token.move, Token.setPosition]
  · simp [modify_tok, hq]

theorem relocateRaw_tok (b : GameBoard) (h : Heap) (fX fY tX tY t q : Nat) :
    (b.relocateRaw h fX fY tX tY t).2.tok q =
      if b.isEdge tX tY = true ∧ q = t then
        ((((b.setCell tY tX (some t)).setCell fY fX none).updateTokenMoveStatus
          ((h.modify t (fun tk => tk.move tX tY)).modify t Token.undoReachedEnd)).tok
            q).tokenReachedEnd
      else
        (((b.setCell tY tX (some t)).setCell fY fX none).updateTokenMoveStatus
          ((h.modify t (fun tk => tk.move tX tY)).modify t Token.undoReachedEnd)).tok q := by
  simp only [GameBoard.relocateRaw, isEdge_setCell]
  by_cases he : b.isEdge tX tY = true
  · by_cases hq : q = t
    · simp [he, hq, modify_tok]
    · simp [he, hq, modify_tok]
  · simp [he]

theorem relocateRaw_next (b : GameBoard) (h : Heap) (fX fY tX tY t : Nat) :
    (b.relocateRaw h fX fY tX tY t).2.next = h.next := by
  simp only [GameBoard.relocateRaw]
  split <;> simp [modify_next, updateTokenMoveStatus_next]

theorem relocateRaw_player (b : GameBoard) (h : Heap) (fX fY tX tY t q : Nat) :
    ((b.relocateRaw h fX fY tX tY t).2.tok q).player = (h.tok q).player := by
  rw [relocateRaw_tok]
  have sh := (updateTokenMoveStatus_shape ((b.setCell tY tX (some t)).setCell fY fX none)
    ((h.modify t (fun tk => tk.move tX tY)).modify t Token.undoReachedEnd) q).2.1
  rw [rawStage_tok] at sh
  by_cases hq : q = t
  · subst hq
    simp only [if_true] at sh
    split
    · simpa [Token.tokenReachedEnd] using sh
    · exact sh
  · simp only [hq, if_false, and_false] at sh ⊢
    exact sh

theorem relocateRaw_position (b : GameBoard) (h : Heap) (fX fY tX tY t q : Nat) :
    ((b.relocateRaw h fX fY tX tY t).2.tok q).position =
      if q = t then ((tX : Int), (tY : Int)) else (h.tok q).position := by
  rw [relocateRaw_tok]
  have sh := (updateTokenMoveStatus_shape ((b.setCell tY tX (some t)).setCell fY fX none)
    ((h.modify t (fun tk => tk.move tX tY)).modify t Token.undoReachedEnd) q).1
  rw [rawStage_tok] at sh
  by_cases hq : q = t
  · subst hq
    simp only [if_true] at sh ⊢
    split
    · simpa [Token.tokenReachedEnd] using sh
    · exact sh
  · simp only [hq, if_false, and_false] at sh ⊢
    exact sh

theorem relocateRaw_reachedEnd (b : GameBoard) (h : Heap) (fX fY tX tY t q : Nat) :
    ((b.relocateRaw h fX fY tX tY t).2.tok q).reachedEnd =
      if q = t then b.isEdge tX tY else (h.tok q).reachedEnd := by
  rw [relocateRaw_tok]
  have sh := (updateTokenMoveStatus_shape ((b.setCell tY tX (some t)).setCell fY fX none)
    ((h.modify t (fun tk => tk.move tX tY)).modify t Token.undoReachedEnd) q).2.2
  rw [rawStage_tok] at sh
  by_cases hq : q = t
  · subst hq
    simp only [if_true, and_true] at sh ⊢
    by_cases he : b.isEdge tX tY = true
    · simp [he, Token.tokenReachedEnd]
    · have he2 : b.isEdge tX tY = false := by simpa using he
      simp only [he2, Bool.false_eq_true, if_false]
      exact sh
  · simp only [hq, if_false, and_false] at sh ⊢
    exact sh

/-- After `moveTokenRaw` the movable flag of every token on the grid is the
value of `canTokenMove` on the new position, except that a moved token that
stands on an edge is immovable. -/
theorem relocateRaw_canMove (b : GameBoard) (h : Heap) (fX fY tX tY t q : Nat)
    (hq : (b.relocateRaw h fX fY tX tY t).1.holds q) (hne : q ≠ t ∨ b.isEdge tX tY = false) :
    ((b.relocateRaw h fX fY tX tY t).2.tok q).canMove =
      (b.relocateRaw h fX fY tX tY t).1.canTokenMove (b.relocateRaw h fX fY tX tY t).2 q := by
  have hc := canTokenMove_congr (b.relocateRaw h fX fY tX tY t).1
    (b.relocateRaw h fX fY tX tY t).2
    ((h.modify t (fun tk => tk.move tX tY)).modify t Token.undoReachedEnd) q
    (by rw [relocateRaw_position, rawStage_tok]
        split <;> rfl)
    (by rw [relocateRaw_player, rawStage_tok]
        split
        · next hqt => rw [hqt]
        · rfl)
  rw [hc, relocateRaw_tok]
  rw [relocateRaw_board] at hq ⊢
  have hcond : ¬ (b.isEdge tX tY = true ∧ q = t) := by
    rintro ⟨he, hqt⟩
    rcases hne with h1 | h1
    · exact h1 hqt
    · rw [he] at h1; cases h1
  simp only [hcond, if_false]
  rw [updateTokenMoveStatus_on _ _ q hq]
  simp [Token.setMovable]

theorem relocateRaw_edge_canMove (b : GameBoard) (h : Heap) (fX fY tX tY t : Nat)
    (he : b.isEdge tX tY = true) :
    ((b.relocateRaw h fX fY tX tY t).2.tok t).canMove = false := by
  rw [relocateRaw_tok]
  simp [he, Token.tokenReachedEnd]

theorem relocateRaw_off (b : GameBoard) (h : Heap) (fX fY tX tY t q : Nat)
    (hq : ¬ (b.relocateRaw h fX fY tX tY t).1.holds q) (hqt : q ≠ t) :
    (b.relocateRaw h fX fY tX tY t).2.tok q = h.tok q := by
  rw [relocateRaw_board] at hq
  rw [relocateRaw_tok, updateTokenMoveStatus_off _ _ q hq, rawStage_tok]
  simp [hqt]

/-- Function `moveTokenRaw` succeeds when both cells are in bounds and the
source holds a token; its result is the relocation. -/
theorem moveTokenRaw_ok (b : GameBoard) (h : Heap) (fromX fromY toX toY : Int) (t : Nat)
    (hf : b.isValidPosition fromX fromY = true) (hc : b.cell fromX fromY = some t)
    (ht : b.isValidPosition toX toY = true) :
    b.moveTokenRaw h fromX fromY toX toY =
      .ok (b.relocateRaw h fromX.toNat fromY.toNat toX.toNat toY.toNat t) := by
  unfold GameBoard.cell at hc
  simp [GameBoard.moveTokenRaw, hf, ht, hc]

theorem setCell_round (b : GameBoard) (fX fY tX tY t : Nat)
    (hfrom : b.board fY fX = some t) (hto : b.board tY tX = none) :
    (((b.setCell tY tX (some t)).setCell fY fX none).setCell fY fX (some t)).setCell tY tX none
      = b := by
  cases b with
  | mk W H bd =>
    simp only [GameBoard.setCell, GameBoard.mk.injEq, true_and]
    funext r c
    simp only at hfrom hto
    by_cases h1 : r = tY ∧ c = tX
    · obtain ⟨rfl, rfl⟩ := h1
      simp [hto]
    · by_cases h2 : r = fY ∧ c = fX
      · obtain ⟨rfl, rfl⟩ := h2
        simp [h1, hfrom]
      · simp [h1, h2]

/-- Relocating the token of a cell to an empty cell keeps every other token
on the grid. -/
theorem holds_relocate (b : GameBoard) (fX fY tX tY t q : Nat)
    (hfrom : b.board fY fX = some t) (hto : b.board tY tX = none) (hq : q ≠ t) :
    ((b.setCell tY tX (some t)).setCell fY fX none).holds q ↔ b.holds q := by
  constructor
  · rintro ⟨r, c, hr, hc, hb⟩
    refine ⟨r, c, hr, hc, ?_⟩
    simp only [setCell_board] at hb
    by_cases h2 : r = fY ∧ c = fX
    · simp [h2] at hb
    · by_cases h1 : r = tY ∧ c = tX
      · rw [if_neg h2, if_pos h1] at hb
        exact absurd (Option.some.inj hb).symm hq
      · simpa [h1, h2] using hb
  · rintro ⟨r, c, hr, hc, hb⟩
    refine ⟨r, c, hr, hc, ?_⟩
    simp only [setCell_board]
    have h2 : ¬ (r = fY ∧ c = fX) := by
      rintro ⟨rfl, rfl⟩
      rw [hfrom] at hb
      exact hq (Option.some.inj hb).symm
    have h1 : ¬ (r = tY ∧ c = tX) := by
      rintro ⟨rfl, rfl⟩
      rw [hto] at hb
      cases hb
    simp [h1, h2, hb]

theorem toNat_cast_pair (x y : Int) (hx : 0 ≤ x) (hy : 0 ≤ y) :
    (((x.toNat : Nat) : Int), ((y.toNat : Nat) : Int)) = (x, y) := by
  rw [Int.toNat_of_nonneg hx, Int.toNat_of_nonneg hy]

/-- The effect of a raw move to an empty cell followed by the reverse raw
move, for a token that is stored at its own position. -/
theorem roundTrip_effect (b : GameBoard) (h : Heap) (fromX fromY toX toY : Int) (t : Nat)
    (hf : b.isValidPosition fromX fromY = true) (ht : b.isValidPosition toX toY = true)
    (hc : b.cell fromX fromY = some t) (he : b.cell toX toY = none)
    (hp : (h.tok t).position = (fromX, fromY)) :
    ∃ h2, b.roundTrip h fromX fromY toX toY = .ok (b, h2) ∧
      h2.next = h.next ∧
      (∀ q, (h2.tok q).position = (h.tok q).position ∧ (h2.tok q).player = (h.tok q).player) ∧
      (∀ q, q ≠ t → (h2.tok q).reachedEnd = (h.tok q).reachedEnd) ∧
      (h2.tok t).reachedEnd = b.isEdge fromX.toNat fromY.toNat ∧
      (b.isEdge fromX.toNat fromY.toNat = true → (h2.tok t).canMove = false) ∧
      (∀ q, b.holds q → (q ≠ t ∨ b.isEdge fromX.toNat fromY.toNat = false) →
        (h2.tok q).canMove = b.canTokenMove h q) ∧
      (∀ q, ¬ b.holds q → h2.tok q = h.tok q) := by
  have vf := (isValidPosition_iff b fromX fromY).1 hf
  have vt := (isValidPosition_iff b toX toY).1 ht
  have hc1 : b.board fromY.toNat fromX.toNat = some t := hc
  have he1 : b.board toY.toNat toX.toNat = none := he
  have hne : ¬ (toY.toNat = fromY.toNat ∧ toX.toNat = fromX.toNat) := by
    rintro ⟨e1, e2⟩
    rw [e1, e2, hc1] at he1
    cases he1
  -- the first move
  have m1 := moveTokenRaw_ok b h fromX fromY toX toY t hf hc ht
  -- the second move, on the board after the first
  have hc2 : (b.relocateRaw h fromX.toNat fromY.toNat toX.toNat toY.toNat t).1.cell toX toY
      = some t := by
    simp [GameBoard.cell, relocateRaw_board, setCell_board, hne]
  have m2 := moveTokenRaw_ok (b.relocateRaw h fromX.toNat fromY.toNat toX.toNat toY.toNat t).1
    (b.relocateRaw h fromX.toNat fromY.toNat toX.toNat toY.toNat t).2 toX toY fromX fromY t
    (by simpa [relocateRaw_board, GameBoard.isValidPosition, GameBoard.setCell] using ht) hc2
    (by simpa [relocateRaw_board, GameBoard.isValidPosition, GameBoard.setCell] using hf)
  have hb2 : ((b.relocateRaw h fromX.toNat fromY.toNat toX.toNat toY.toNat t).1.relocateRaw
      (b.relocateRaw h fromX.toNat fromY.toNat toX.toNat toY.toNat t).2
      toX.toNat toY.toNat fromX.toNat fromY.toNat t).1 = b := by
    rw [relocateRaw_board, relocateRaw_board]
    exact setCell_round b _ _ _ _ t hc1 he1
  have hpos : ∀ q, (((b.relocateRaw h fromX.toNat fromY.toNat toX.toNat toY.toNat t).1.relocateRaw
      (b.relocateRaw h fromX.toNat fromY.toNat toX.toNat toY.toNat t).2
      toX.toNat toY.toNat fromX.toNat fromY.toNat t).2.tok q).position = (h.tok q).position := by
    intro q
    rw [relocateRaw_position, relocateRaw_position]
    by_cases hq : q = t
    · subst hq
      simp only [if_true]
      rw [hp]
      exact toNat_cast_pair fromX fromY vf.1 vf.2.1
    · simp [hq]
  have hpl : ∀ q, (((b.relocateRaw h fromX.toNat fromY.toNat toX.toNat toY.toNat t).1.relocateRaw
      (b.relocateRaw h fromX.toNat fromY.toNat toX.toNat toY.toNat t).2
      toX.toNat toY.toNat fromX.toNat fromY.toNat t).2.tok q).player = (h.tok q).player := by
    intro q
    rw [relocateRaw_player, relocateRaw_player]
  have hholds : ∀ q, q ≠ t →
      ((b.relocateRaw h fromX.toNat fromY.toNat toX.toNat toY.toNat t).1.holds q ↔ b.holds q) := by
    intro q hq
    rw [relocateRaw_board]
    exact holds_relocate b _ _ _ _ t q hc1 he1 hq
  have hbt : b.holds t := ⟨fromY.toNat, fromX.toNat, vf.2.2.2, vf.2.2.1, hc1⟩
  refine ⟨_, ?_, ?_, fun q => ⟨hpos q, hpl q⟩, ?_, ?_, ?_, ?_, ?_⟩
  · simp only [GameBoard.roundTrip, m1, m2]
    congr 1
    exact Prod.ext hb2 rfl
  · rw [relocateRaw_next, relocateRaw_next]
  · intro q hq
    rw [relocateRaw_reachedEnd, relocateRaw_reachedEnd]
    simp [hq]
  · rw [relocateRaw_reachedEnd]
    simp [relocateRaw_board, isEdge_setCell]
  · intro hedge
    exact relocateRaw_edge_canMove _ _ _ _ _ _ t
      (by simpa [relocateRaw_board, isEdge_setCell] using hedge)
  · intro q hq hcond
    have key := relocateRaw_canMove
      (b.relocateRaw h fromX.toNat fromY.toNat toX.toNat toY.toNat t).1
      (b.relocateRaw h fromX.toNat fromY.toNat toX.toNat toY.toNat t).2
      toX.toNat toY.toNat fromX.toNat fromY.toNat t q
      (by rw [hb2]; exact hq)
      (by simpa [relocateRaw_board, isEdge_setCell] using hcond)
    rw [key, hb2]
    exact canTokenMove_congr b _ h q (hpos q) (hpl q)
  · intro q hq
    have hqt : q ≠ t := by
      rintro rfl
      exact hq hbt
    rw [relocateRaw_off _ _ _ _ _ _ t q (by rw [hb2]; exact hq) hqt]
    exact relocateRaw_off b h _ _ _ _ t q (fun hh => hq ((hholds q hqt).1 hh)) hqt

/-! ## The relocation performed by `moveToken` -/

theorem relocate_board (b : GameBoard) (h : Heap) (fX fY tX tY t : Nat) :
    (b.relocate h fX fY tX tY t).1 = (b.setCell tY tX (some t)).setCell fY fX none := rfl

theorem relocate_tok (b : GameBoard) (h : Heap) (fX fY tX tY t q : Nat) :
    (b.relocate h fX fY tX tY t).2.tok q =
      if b.isEdge tX tY = true ∧ q = t then
        ((((b.setCell tY tX (some t)).setCell fY fX none).updateTokenMoveStatus
          (h.modify t (fun tk => tk.move tX tY))).tok q).tokenReachedEnd
      else
        (((b.setCell tY tX (some t)).setCell fY fX none).updateTokenMoveStatus
          (h.modify t (fun tk => tk.move tX tY))).tok q := by
  simp only [GameBoard.relocate, isEdge_setCell]
  by_cases he : b.isEdge tX tY = true
  · by_cases hq : q = t
    · simp [he, hq, modify_tok]
    · simp [he, hq, modify_tok]
  · simp [he]

theorem relocate_position (b : GameBoard) (h : Heap) (fX fY tX tY t q : Nat) :
    ((b.relocate h fX fY tX tY t).2.tok q).position =
      if q = t then ((tX : Int), (tY : Int)) else (h.tok q).position := by
  rw [relocate_tok]
  have sh := (updateTokenMoveStatus_shape ((b.setCell tY tX (some t)).setCell fY fX none)
    (h.modify t (fun tk => tk.move tX tY)) q).1
  rw [modify_tok] at sh
  by_cases hq : q = t
  · subst hq
    simp only [if_true, Token.move, Token.setPosition] at sh ⊢
    split
    · simpa [Token.tokenReachedEnd] using sh
    · exact sh
  · simp only [hq, if_false, and_false] at sh ⊢
    exact sh

/-! ## `getTokenMove` -/

/-- The outcome of `getTokenMove` once both positions are in bounds and the
source holds the token `t`. -/
theorem getTokenMove_of_token (b : GameBoard) (h : Heap) (fromX fromY toX toY : Int) (t : Nat)
    (hf : b.isValidPosition fromX fromY = true) (ht : b.isValidPosition toX toY = true)
    (hc : b.cell fromX fromY = some t) :
    b.getTokenMove h fromX fromY toX toY =
      if (h.tok t).canMove = false then (-1, -1)
      else if b.cell toX toY = none then (toX, toY)
      else if (h.tok t).player = 0 then
        (if toX.toNat + 1 < b.Width ∧ b.cell (toX + 1) toY = none then (toX + 1, toY) else (-1, -1))
      else if (h.tok t).player = 1 then
        (if toY.toNat + 1 < b.Height ∧ b.cell toX (toY + 1) = none then (toX, toY + 1)
         else (-1, -1))
      else (-1, -1) := by
  have hw : 0 < b.Width := by
    have := (isValidPosition_iff b toX toY).1 ht; omega
  have hh : 0 < b.Height := by
    have := (isValidPosition_iff b toX toY).1 ht; omega
  have e1 : (toX.toNat < b.Width - 1) ↔ (toX.toNat + 1 < b.Width) := by omega
  have e2 : (toY.toNat < b.Height - 1) ↔ (toY.toNat + 1 < b.Height) := by omega
  simp only [GameBoard.getTokenMove, hf, ht, hc, Token.isMovable, Token.getPlayer, e1, e2]
  by_cases hm : (h.tok t).canMove = true
  · by_cases hto : b.cell toX toY = none
    · simp [hm, hto]
    · by_cases p0 : (h.tok t).player = 0
      · simp [hm, hto, p0, Option.isNone_iff_eq_none]
      · by_cases p1 : (h.tok t).player = 1
        · simp [hm, hto, p1, Option.isNone_iff_eq_none]
        · simp [hm, hto, p0, p1, Option.isNone_iff_eq_none]
  · simp [hm]

/-- Claim C1.  `getTokenMove` is total (its result is a plain pair, no fault can
be raised) and fully characterised: `(-1,-1)` when `from` or `to` is out of
bounds, when the source cell is empty or when the source token is not
movable; otherwise `to` when that cell is empty; otherwise the cell one step
further along the owner's axis (x for player 0, y for player 1) when it is in
bounds and empty; otherwise `(-1,-1)`.  On the 3×3 board with a player-0 token
on `(0,1)` and a blocker on `(1,1)` the query `(0,1) → (1,1)` yields `(2,1)`,
and `(-1,-1)` once `(2,1)` is occupied as well. -/
theorem C1_getTokenMove_characterised :
    (∀ (b : GameBoard) (h : Heap) (fromX fromY toX toY : Int),
      ((b.isValidPosition fromX fromY = false ∨ b.isValidPosition toX toY = false) →
        b.getTokenMove h fromX fromY toX toY = (-1, -1)) ∧
      (b.isValidPosition fromX fromY = true → b.isValidPosition toX toY = true →
        (b.cell fromX fromY = none → b.getTokenMove h fromX fromY toX toY = (-1, -1)) ∧
        (∀ t, b.cell fromX fromY = some t →
          ((h.tok t).canMove = false → b.getTokenMove h fromX fromY toX toY = (-1, -1)) ∧
          ((h.tok t).canMove = true →
            (b.cell toX toY = none → b.getTokenMove h fromX fromY toX toY = (toX, toY)) ∧
            (b.cell toX toY ≠ none →
              ((h.tok t).player = 0 →
                (toX.toNat + 1 < b.Width ∧ b.cell (toX + 1) toY = none →
                  b.getTokenMove h fromX fromY toX toY = (toX + 1, toY)) ∧
                (¬ (toX.toNat + 1 < b.Width ∧ b.cell (toX + 1) toY = none) →
                  b.getTokenMove h fromX fromY toX toY = (-1, -1))) ∧
              ((h.tok t).player = 1 →
                (toY.toNat + 1 < b.Height ∧ b.cell toX (toY + 1) = none →
                  b.getTokenMove h fromX fromY toX toY = (toX, toY + 1)) ∧
                (¬ (toY.toNat + 1 < b.Height ∧ b.cell toX (toY + 1) = none) →
                  b.getTokenMove h fromX fromY toX toY = (-1, -1))) ∧
              ((h.tok t).player ≠ 0 → (h.tok t).player ≠ 1 →
                b.getTokenMove h fromX fromY toX toY = (-1, -1))))))) ∧
    jumpBoard.getTokenMove jumpHeap 0 1 1 1 = (2, 1) ∧
    jumpBoardBlocked.getTokenMove jumpHeap 0 1 1 1 = (-1, -1) := by
  refine ⟨?_, by decide, by decide⟩
  intro b h fromX fromY toX toY
  refine ⟨?_, ?_⟩
  · intro hv
    rcases hv with hv | hv <;> simp [GameBoard.getTokenMove, hv]
  · intro hf ht
    refine ⟨?_, ?_⟩
    · intro hc
      simp [GameBoard.getTokenMove, hf, ht, hc]
    · intro t hc
      rw [getTokenMove_of_token b h fromX fromY toX toY t hf ht hc]
      refine ⟨fun hm => by simp [hm], fun hm => ⟨fun hto => by simp [hm, hto], fun hto => ?_⟩⟩
      refine ⟨fun p0 => ⟨fun hj => ?_, fun hj => ?_⟩, fun p1 => ⟨fun hj => ?_, fun hj => ?_⟩,
        fun p0 p1 => ?_⟩
      · simp [hm, hto, p0, hj]
      · simp [hm, hto, p0, hj]
      · simp [hm, hto, p1, hj]
      · simp [hm, hto, p1, hj]
      · simp [hm, hto, p0, p1]

/-! ## `moveToken` against `getTokenMove` -/

/-- The outcome of `moveToken` once both positions are in bounds and the
source holds the movable token `t`. -/
theorem moveToken_of_token (b : GameBoard) (h : Heap) (fromX fromY toX toY : Int) (t : Nat)
    (hf : b.isValidPosition fromX fromY = true) (ht : b.isValidPosition toX toY = true)
    (hc : b.cell fromX fromY = some t) (hm : (h.tok t).canMove = true) :
    b.moveToken h fromX fromY toX toY =
      if b.cell toX toY = none then
        .ok (b.relocate h fromX.toNat fromY.toNat toX.toNat toY.toNat t)
      else if (h.tok t).player = 0 then
        (if toX.toNat + 1 < b.Width ∧ b.cell (toX + 1) toY = none then
          .ok (b.relocate h fromX.toNat fromY.toNat (toX.toNat + 1) toY.toNat t)
         else .error .cantJump)
      else if (h.tok t).player = 1 then
        (if toY.toNat + 1 < b.Height ∧ b.cell toX (toY + 1) = none then
          .ok (b.relocate h fromX.toNat fromY.toNat toX.toNat (toY.toNat + 1) t)
         else .error .cantJump)
      else .ok (b.relocate h fromX.toNat fromY.toNat toX.toNat toY.toNat t) := by
  have vt := (isValidPosition_iff b toX toY).1 ht
  have hx : (toX + 1).toNat = toX.toNat + 1 := by omega
  have hy : (toY + 1).toNat = toY.toNat + 1 := by omega
  have hc1 : b.board fromY.toNat fromX.toNat = some t := hc
  have mx : toX ⊔ 0 = toX := max_eq_left vt.1
  have my : toY ⊔ 0 = toY := max_eq_left vt.2.1
  simp only [GameBoard.moveToken, hf, ht, hc1, Token.isMovable, hm, Token.getPlayer,
    GameBoard.cell, hx, hy]
  by_cases hto : b.board toY.toNat toX.toNat = none
  · simp [hto, ht, mx, my]
  · have hsome : (b.board toY.toNat toX.toNat).isSome = true := by
      cases hb : b.board toY.toNat toX.toNat with
      | none => exact absurd hb hto
      | some u => rfl
    by_cases p0 : (h.tok t).player = 0
    · by_cases hj : toX.toNat + 1 < b.Width ∧ b.board toY.toNat (toX.toNat + 1) = none
      · have hv : b.isValidPosition (toX + 1) toY = true := by
          rw [isValidPosition_iff]; omega
        have h1 : ¬ (toX.toNat ≥ b.Width - 1) := by omega
        simp [hto, hsome, p0, hj, hj.2, h1, hv, mx, my]
      · have h1 : toX.toNat ≥ b.Width - 1 ∨ (b.board toY.toNat (toX.toNat + 1)).isSome = true := by
          by_cases hlt : toX.toNat + 1 < b.Width
          · right
            cases hb : b.board toY.toNat (toX.toNat + 1) with
            | none => exact absurd ⟨hlt, hb⟩ hj
            | some u => rfl
          · left; omega
        rcases h1 with h1 | h1 <;> simp [hto, hsome, p0, hj, h1]
    · by_cases p1 : (h.tok t).player = 1
      · by_cases hj : toY.toNat + 1 < b.Height ∧ b.board (toY.toNat + 1) toX.toNat = none
        · have hv : b.isValidPosition toX (toY + 1) = true := by
            rw [isValidPosition_iff]; omega
          have h1 : ¬ (toY.toNat ≥ b.Height - 1) := by omega
          simp [hto, hsome, p0, p1, hj, hj.2, h1, hv, mx, my]
        · have h1 : toY.toNat ≥ b.Height - 1 ∨
              (b.board (toY.toNat + 1) toX.toNat).isSome = true := by
            by_cases hlt : toY.toNat + 1 < b.Height
            · right
              cases hb : b.board (toY.toNat + 1) toX.toNat with
              | none => exact absurd ⟨hlt, hb⟩ hj
              | some u => rfl
            · left; omega
          rcases h1 with h1 | h1 <;> simp [hto, hsome, p0, p1, hj, h1]
      · simp [hto, hsome, p0, p1, ht, mx, my]

theorem relocate_lands (b : GameBoard) (h : Heap) (fX fY tX tY t : Nat)
    (hne : ¬ (tY = fY ∧ tX = fX)) :
    (b.relocate h fX fY tX tY t).1.board tY tX = some t ∧
    ((b.relocate h fX fY tX tY t).2.tok t).position = ((tX : Int), (tY : Int)) := by
  refine ⟨?_, ?_⟩
  · simp [relocate_board, setCell_board, hne]
  · simp [relocate_position]

/-- On a board whose tokens belong to player 0 or 1, `moveToken` either
throws while `getTokenMove` answers `(-1,-1)`, or relocates the source token
to the cell `getTokenMove` answers, which differs from the source. -/
theorem moveToken_getTokenMove (b : GameBoard) (h : Heap) (fromX fromY toX toY : Int)
    (hpl : ∀ r c t, r < b.Height → c < b.Width → b.board r c = some t →
      (h.tok t).player = 0 ∨ (h.tok t).player = 1) :
    ((∃ e, b.moveToken h fromX fromY toX toY = .error e) ∧
        b.getTokenMove h fromX fromY toX toY = (-1, -1)) ∨
    (∃ t, b.cell fromX fromY = some t ∧
      0 ≤ (b.getTokenMove h fromX fromY toX toY).1 ∧
      0 ≤ (b.getTokenMove h fromX fromY toX toY).2 ∧
      ¬ ((b.getTokenMove h fromX fromY toX toY).2.toNat = fromY.toNat ∧
         (b.getTokenMove h fromX fromY toX toY).1.toNat = fromX.toNat) ∧
      b.moveToken h fromX fromY toX toY =
        .ok (b.relocate h fromX.toNat fromY.toNat
          (b.getTokenMove h fromX fromY toX toY).1.toNat
          (b.getTokenMove h fromX fromY toX toY).2.toNat t)) := by
  by_cases hf : b.isValidPosition fromX fromY = true
  swap
  · left
    have hf2 : b.isValidPosition fromX fromY = false := by simpa using hf
    exact ⟨⟨.moveOutOfBounds, by simp [GameBoard.moveToken, hf2]⟩,
      by simp [GameBoard.getTokenMove, hf2]⟩
  by_cases ht : b.isValidPosition toX toY = true
  swap
  · left
    have ht2 : b.isValidPosition toX toY = false := by simpa using ht
    exact ⟨⟨.moveOutOfBounds, by simp [GameBoard.moveToken, ht2]⟩,
      by simp [GameBoard.getTokenMove, ht2]⟩
  have vt := (isValidPosition_iff b toX toY).1 ht
  have vf := (isValidPosition_iff b fromX fromY).1 hf
  cases hc : b.cell fromX fromY with
  | none =>
    left
    have hc1 : b.board fromY.toNat fromX.toNat = none := hc
    exact ⟨⟨.noTokenAtSource, by simp [GameBoard.moveToken, hf, ht, hc1]⟩,
      by simp [GameBoard.getTokenMove, hf, ht, hc]⟩
  | some t =>
    have hc1 : b.board fromY.toNat fromX.toNat = some t := hc
    by_cases hm : (h.tok t).canMove = true
    swap
    · left
      have hm2 : (h.tok t).canMove = false := by simpa using hm
      exact ⟨⟨.tokenImmovable, by simp [GameBoard.moveToken, hf, ht, hc1, Token.isMovable, hm2]⟩,
        by simp [GameBoard.getTokenMove, hf, ht, hc, Token.isMovable, hm2]⟩
    rw [moveToken_of_token b h fromX fromY toX toY t hf ht hc hm,
      getTokenMove_of_token b h fromX fromY toX toY t hf ht hc]
    have hx : (toX + 1).toNat = toX.toNat + 1 := by omega
    have hy : (toY + 1).toNat = toY.toNat + 1 := by omega
    by_cases hto : b.cell toX toY = none
    · right
      refine ⟨t, rfl, ?_⟩
      simp only [hm, hto, if_true, Bool.true_eq_false, if_false]
      refine ⟨vt.1, vt.2.1, ?_, trivial⟩
      rintro ⟨e1, e2⟩
      have : b.board toY.toNat toX.toNat = none := hto
      rw [e1, e2, hc1] at this
      cases this
    · simp only [hm, hto, Bool.true_eq_false, if_false]
      rcases hpl _ _ t vf.2.2.2 vf.2.2.1 hc1 with p0 | p1
      · simp only [p0, if_true]
        by_cases hj : toX.toNat + 1 < b.Width ∧ b.cell (toX + 1) toY = none
        · right
          refine ⟨t, rfl, ?_⟩
          simp only [hj, and_self, if_true]
          refine ⟨by omega, vt.2.1, ?_, by rw [hx]⟩
          rintro ⟨e1, e2⟩
          have : b.board toY.toNat (toX + 1).toNat = none := hj.2
          rw [e1, e2, hc1] at this
          cases this
        · left
          simp only [hj, if_false]
          exact ⟨⟨_, rfl⟩, trivial⟩
      · have p0 : (h.tok t).player ≠ 0 := by rw [p1]; decide
        simp only [if_neg p0, if_pos p1]
        by_cases hj : toY.toNat + 1 < b.Height ∧ b.cell toX (toY + 1) = none
        · right
          refine ⟨t, rfl, ?_⟩
          simp only [hj, and_self, if_true]
          refine ⟨vt.1, by omega, ?_, by rw [hy]⟩
          rintro ⟨e1, e2⟩
          have : b.board (toY + 1).toNat toX.toNat = none := hj.2
          rw [e1, e2, hc1] at this
          cases this
        · left
          simp only [hj, if_false]
          exact ⟨⟨_, rfl⟩, trivial⟩

/-- Claim C2.  On every board whose tokens belong to player 0 or 1, and for all
arguments, `GameBoard::moveToken(from, to)` succeeds if and only if
`getTokenMove(from, to)` is not `(-1,-1)`; when it succeeds, the token that
stood on `from` is stored in the cell that `getTokenMove(from, to)` returned
on the pre-move board, and its position is that cell. -/
theorem C2_moveToken_iff_getTokenMove (b : GameBoard) (h : Heap) (fromX fromY toX toY : Int)
    (hpl : ∀ r c t, r < b.Height → c < b.Width → b.board r c = some t →
      (h.tok t).player = 0 ∨ (h.tok t).player = 1) :
    ((∃ r, b.moveToken h fromX fromY toX toY = .ok r) ↔
        b.getTokenMove h fromX fromY toX toY ≠ (-1, -1)) ∧
    (∀ b1 h1, b.moveToken h fromX fromY toX toY = .ok (b1, h1) →
      ∃ t, b.cell fromX fromY = some t ∧
        b1.cell (b.getTokenMove h fromX fromY toX toY).1
          (b.getTokenMove h fromX fromY toX toY).2 = some t ∧
        (h1.tok t).position = b.getTokenMove h fromX fromY toX toY) := by
  rcases moveToken_getTokenMove b h fromX fromY toX toY hpl with ⟨⟨e, he⟩, hg⟩ | ⟨t, hc, g1, g2, hne, hmv⟩
  · refine ⟨?_, ?_⟩
    · rw [he, hg]
      simp
    · intro b1 h1 hok
      rw [he] at hok
      cases hok
  · refine ⟨?_, ?_⟩
    · constructor
      · intro _ hg
        rw [hg] at g1
        exact absurd g1 (by decide)
      · intro _
        exact ⟨_, hmv⟩
    · intro b1 h1 hok
      rw [hmv] at hok
      have hpair := Except.ok.inj hok
      have hb1 : b1 = (b.relocate h fromX.toNat fromY.toNat
          (b.getTokenMove h fromX fromY toX toY).1.toNat
          (b.getTokenMove h fromX fromY toX toY).2.toNat t).1 := by rw [hpair]
      have hh1 : h1 = (b.relocate h fromX.toNat fromY.toNat
          (b.getTokenMove h fromX fromY toX toY).1.toNat
          (b.getTokenMove h fromX fromY toX toY).2.toNat t).2 := by rw [hpair]
      have lands := relocate_lands b h fromX.toNat fromY.toNat
          (b.getTokenMove h fromX fromY toX toY).1.toNat
          (b.getTokenMove h fromX fromY toX toY).2.toNat t hne
      refine ⟨t, hc, ?_, ?_⟩
      · rw [hb1]
        exact lands.1
      · rw [hh1, lands.2]
        exact toNat_cast_pair _ _ g1 g2

/-- The hypothesis of `C2_moveToken_iff_getTokenMove` holds on the 3×3 jump
board, where the validated move `(0,1) → (1,1)` succeeds by a jump. -/
theorem C2_witness :
    (∀ r c t, r < jumpBoard.Height → c < jumpBoard.Width → jumpBoard.board r c = some t →
      (jumpHeap.tok t).player = 0 ∨ (jumpHeap.tok t).player = 1) ∧
    (((∃ r, jumpBoard.moveToken jumpHeap 0 1 1 1 = .ok r) ↔
        jumpBoard.getTokenMove jumpHeap 0 1 1 1 ≠ (-1, -1)) ∧
    (∀ b1 h1, jumpBoard.moveToken jumpHeap 0 1 1 1 = .ok (b1, h1) →
      ∃ t, jumpBoard.cell 0 1 = some t ∧
        b1.cell (jumpBoard.getTokenMove jumpHeap 0 1 1 1).1
          (jumpBoard.getTokenMove jumpHeap 0 1 1 1).2 = some t ∧
        (h1.tok t).position = jumpBoard.getTokenMove jumpHeap 0 1 1 1)) :=
  have hpl : ∀ r c t, r < jumpBoard.Height → c < jumpBoard.Width →
      jumpBoard.board r c = some t →
      (jumpHeap.tok t).player = 0 ∨ (jumpHeap.tok t).player = 1 := by
    intro r c t _ _ _
    simp only [jumpHeap]
    split
    · left; rfl
    · split
      · right; rfl
      · right; rfl
  ⟨hpl, C2_moveToken_iff_getTokenMove jumpBoard jumpHeap 0 1 1 1 hpl⟩

/-! ## Raw move and undo -/

/-- Claim C3, amended.  For a token `t` stored at its own position `from` and
an empty in-bounds cell `to`, `moveTokenRaw(from, to)` followed by
`moveTokenRaw(to, from)` succeeds and restores the grid, every token's
position and owner, and the `reachedEnd` flag of every token other than `t`.
Flags are recomputed, not restored: `t` ends with `reachedEnd` set exactly
when `from` is an edge cell, and is then immovable; every other token on the
grid, and `t` itself when `from` is no edge cell, ends with its movable flag
equal to `canTokenMove`; tokens that are not on the grid are untouched. -/
theorem C3_roundTrip_restores_positions (b : GameBoard) (h : Heap)
    (fromX fromY toX toY : Int) (t : Nat)
    (hf : b.isValidPosition fromX fromY = true) (ht : b.isValidPosition toX toY = true)
    (hc : b.cell fromX fromY = some t) (he : b.cell toX toY = none)
    (hp : (h.tok t).position = (fromX, fromY)) :
    ∃ h2, b.roundTrip h fromX fromY toX toY = .ok (b, h2) ∧
      (∀ q, (h2.tok q).position = (h.tok q).position ∧ (h2.tok q).player = (h.tok q).player) ∧
      (∀ q, q ≠ t → (h2.tok q).reachedEnd = (h.tok q).reachedEnd) ∧
      (h2.tok t).reachedEnd = b.isEdge fromX.toNat fromY.toNat ∧
      (b.isEdge fromX.toNat fromY.toNat = true → (h2.tok t).canMove = false) ∧
      (∀ q, b.holds q → (q ≠ t ∨ b.isEdge fromX.toNat fromY.toNat = false) →
        (h2.tok q).canMove = b.canTokenMove h q) ∧
      (∀ q, ¬ b.holds q → h2.tok q = h.tok q) := by
  obtain ⟨h2, e1, _, e3, e4, e5, e6, e7, e8⟩ :=
    roundTrip_effect b h fromX fromY toX toY t hf ht hc he hp
  exact ⟨h2, e1, e3, e4, e5, e6, e7, e8⟩

/-- The round trip `(1,0) → (1,1) → (1,0)` of player 1's token on the start
position of the 3×3 game meets the hypotheses of
`C3_roundTrip_restores_positions`. -/
theorem C3_witness :
    (startState 3).2.board.isValidPosition 1 0 = true ∧
    (startState 3).2.board.isValidPosition 1 1 = true ∧
    (startState 3).2.board.cell 1 0 = some 1 ∧
    (startState 3).2.board.cell 1 1 = none ∧
    ((startState 3).1.tok 1).position = (1, 0) ∧
    ∃ h2, (startState 3).2.board.roundTrip (startState 3).1 1 0 1 1
        = .ok ((startState 3).2.board, h2) ∧
      (∀ q, (h2.tok q).position = ((startState 3).1.tok q).position ∧
        (h2.tok q).player = ((startState 3).1.tok q).player) ∧
      (∀ q, q ≠ 1 → (h2.tok q).reachedEnd = ((startState 3).1.tok q).reachedEnd) ∧
      (h2.tok 1).reachedEnd = (startState 3).2.board.isEdge (1 : Int).toNat (0 : Int).toNat ∧
      ((startState 3).2.board.isEdge (1 : Int).toNat (0 : Int).toNat = true →
        (h2.tok 1).canMove = false) ∧
      (∀ q, (startState 3).2.board.holds q →
        (q ≠ 1 ∨ (startState 3).2.board.isEdge (1 : Int).toNat (0 : Int).toNat = false) →
        (h2.tok q).canMove = (startState 3).2.board.canTokenMove (startState 3).1 q) ∧
      (∀ q, ¬ (startState 3).2.board.holds q → h2.tok q = (startState 3).1.tok q) :=
  ⟨by decide, by decide, by decide, by decide, by decide,
    C3_roundTrip_restores_positions (startState 3).2.board (startState 3).1 1 0 1 1 1
      (by decide) (by decide) (by decide) (by decide) (by decide)⟩

/-- Claim C3, counterexample.  On the start position of the 3×3 game, player 1's
token stands on `(1,0)`, movable and with `reachedEnd = false`, and `(1,1)` is
an empty in-bounds cell; after `moveTokenRaw((1,0),(1,1))` and
`moveTokenRaw((1,1),(1,0))` the token has `reachedEnd = true` and is
immovable: the flags are not those from before the two calls. -/
theorem C3_counterexample :
    (startState 3).2.board.isValidPosition 1 0 = true ∧
    (startState 3).2.board.isValidPosition 1 1 = true ∧
    (startState 3).2.board.cell 1 0 = some 1 ∧
    (startState 3).2.board.cell 1 1 = none ∧
    ((startState 3).1.tok 1) = Token.mk (1, 0) 1 true false ∧
    (heapOf ((startState 3).2.board.roundTrip (startState 3).1 1 0 1 1)).map (fun h2 => h2.tok 1)
      = some (Token.mk (1, 0) 1 false true) := by
  decide

/-! ## The search: unfolding one iteration of the loop -/

theorem tokenLoop_nil (child : Search → Player → Int → Int → Except Fault (Outcome × Search))
    (player : Player) (depth cm : Int) (s : Search) :
    tokenLoop child player depth [] cm s = .ok (Outcome.LOSS, s) := rfl

/-- One iteration of the loop of `recusionMove`, in terms of the named
intermediate states. -/
theorem tokenLoop_cons (child : Search → Player → Int → Int → Except Fault (Outcome × Search))
    (player : Player) (depth : Int) (token : Nat) (rest : List Nat) (cm : Int) (s : Search) :
    tokenLoop child player depth (token :: rest) cm s =
      if (s.heap.tok token).canMove = false ∨ (candidate s player token).1 = -1 then
        tokenLoop child player depth rest cm s
      else
        match s.state.board.moveTokenRaw s.heap (forwardStep s player token).src.1
            (forwardStep s player token).src.2 (forwardStep s player token).dst.1
            (forwardStep s player token).dst.2 with
        | .error e => .error e
        | .ok (b1, h1) =>
          match child (s.pushed (forwardStep s player token) b1 h1)
              (getOpponent (s.pushed (forwardStep s player token) b1 h1).state player)
              (depth + 1) cm with
          | .error e => .error e
          | .ok (result, s2) =>
            match s2.state.board.moveTokenRaw s2.heap (forwardStep s player token).dst.1
                (forwardStep s player token).dst.2 (forwardStep s player token).src.1
                (forwardStep s player token).src.2 with
            | .error e => .error e
            | .ok (b3, h3) =>
              if result = Outcome.LOSS ∨ s2.hasWon = true then
                .ok (Outcome.WON, (s2.undone (forwardStep s player token) b3 h3).latched player)
              else
                match s2.history with
                | [] => .error .undefinedBehaviour
                | _ :: popped =>
                  tokenLoop child player depth rest (cm + 1)
                    { s2.undone (forwardStep s player token) b3 h3 with history := popped } := by
  by_cases hm : (s.heap.tok token).canMove = true
  · by_cases hn : (candidate s player token).1 = -1
    · have hn2 := hn
      unfold candidate at hn2
      simp [tokenLoop, Token.isMovable, hm, hn, hn2]
    · have hn2 := hn
      unfold candidate at hn2
      simp only [tokenLoop, Token.isMovable, hm, hn, hn2, Bool.not_true, Bool.false_eq_true,
        if_false, or_self, Bool.true_eq_false]
      rfl
  · have hm2 : (s.heap.tok token).canMove = false := by simpa using hm
    simp [tokenLoop, Token.isMovable, hm2]

theorem recusionMove_zero (s : Search) (player : Player) (depth moveNum : Int) :
    recusionMove 0 s player depth moveNum = .error .outOfFuel := rfl

theorem recusionMove_succ (fuel : Nat) (s : Search) (player : Player) (depth moveNum : Int) :
    recusionMove (fuel + 1) s player depth moveNum =
      if s.hasWon = true then
        .ok (if player.getPlayerNumber = 1 then Outcome.WON else Outcome.LOSS, s)
      else if isWinningState s.heap player = true then .ok (Outcome.WON, s.latched player)
      else if isWinningState s.heap (getOpponent s.state player) = true then .ok (Outcome.LOSS, s)
      else tokenLoop (recusionMove fuel) player depth player.getTokens 0 s := rfl

/-! ## More fuel does not change the result of a search -/

/-- Claim C10.  A frame of `recusionMove` that is entered (fuel at least one)
with the latch unset returns `WON` when the player to move is in the winning
state, and otherwise `LOSS` when the opponent is; in both cases the heap, the
board, the undo-history and the replay log are those of the entry. -/
theorem C10_terminal_check (fuel : Nat) (s : Search) (player : Player) (depth moveNum : Int)
    (hfuel : 0 < fuel) (hlatch : s.hasWon = false) :
    (isWinningState s.heap player = true →
      ∃ s1, recusionMove fuel s player depth moveNum = .ok (Outcome.WON, s1) ∧
        s1.heap = s.heap ∧ s1.state = s.state ∧ s1.history = s.history ∧
        s1.visual = s.visual) ∧
    (isWinningState s.heap player = false →
      isWinningState s.heap (getOpponent s.state player) = true →
      recusionMove fuel s player depth moveNum = .ok (Outcome.LOSS, s)) := by
  obtain ⟨n, rfl⟩ : ∃ n, fuel = n + 1 := ⟨fuel - 1, by omega⟩
  refine ⟨fun hw => ?_, fun hw ho => ?_⟩
  · refine ⟨s.latched player, ?_, ?_⟩
    · rw [recusionMove_succ]
      simp [hlatch, hw]
    · unfold Search.latched
      split <;> simp
  · rw [recusionMove_succ]
    simp [hlatch, hw, ho]

/-- The terminal check on the 3×3 game with player 1's token on the far edge:
the hypotheses of `C10_terminal_check` hold and player 1 is winning. -/
theorem C10_witness :
    0 < 1 ∧ wonSearch3.hasWon = false ∧
    isWinningState wonSearch3.heap wonSearch3.state.player2 = true ∧
    ((isWinningState wonSearch3.heap wonSearch3.state.player2 = true →
      ∃ s1, recusionMove 1 wonSearch3 wonSearch3.state.player2 0 0 = .ok (Outcome.WON, s1) ∧
        s1.heap = wonSearch3.heap ∧ s1.state = wonSearch3.state ∧
        s1.history = wonSearch3.history ∧ s1.visual = wonSearch3.visual) ∧
    (isWinningState wonSearch3.heap wonSearch3.state.player2 = false →
      isWinningState wonSearch3.heap
        (getOpponent wonSearch3.state wonSearch3.state.player2) = true →
      recusionMove 1 wonSearch3 wonSearch3.state.player2 0 0
        = .ok (Outcome.LOSS, wonSearch3))) :=
  ⟨by decide, by decide, by decide,
    C10_terminal_check 1 wonSearch3 wonSearch3.state.player2 0 0 (by decide) (by decide)⟩

/-! ## The search on concrete positions -/

set_option maxRecDepth 100000 in
theorem startSearch3_summary :
    searchSummary (recusionMove 3 (startSearch 3) (startState 3).2.player2 0 1) =
    some (Outcome.LOSS, false, [MoveStep.mk (1, 0) (1, 1) 1],
      [MoveStep.mk (1, 0) (1, 1) 1, MoveStep.mk (0, 1) (2, 1) 0, MoveStep.mk (2, 1) (0, 1) 0,
       MoveStep.mk (1, 1) (1, 0) 1]) := by
  decide

/-- Claim C5, the code at the failing input.  On the start position of the 3×3
game the frame of player 1, entered with an empty undo-history and the latch
unset, tries `(1,0) → (1,1)`, rejects it and returns `LOSS`, and the
undo-history then holds that step: the `pop` after the rejection removed the
step that the child frame had kept, not the step of this frame. -/
theorem C5_history_left_after_LOSS :
    WellFormed 3 (startSearch 3).heap (startSearch 3).state ∧
    (startSearch 3).history = [] ∧ (startSearch 3).hasWon = false ∧
    searchSummary (recusionMove 3 (startSearch 3) (startState 3).2.player2 0 1) =
    some (Outcome.LOSS, false, [MoveStep.mk (1, 0) (1, 1) 1],
      [MoveStep.mk (1, 0) (1, 1) 1, MoveStep.mk (0, 1) (2, 1) 0, MoveStep.mk (2, 1) (0, 1) 0,
       MoveStep.mk (1, 1) (1, 0) 1]) :=
  ⟨by decide, rfl, rfl, startSearch3_summary⟩

/-- What `playNextMove` leaves behind is what its search leaves behind. -/
theorem playSummary_eq (fuel : Nat) (h : Heap) (state : GameState) (player : Player)
    (history visual : List MoveStep) (maxDepth moveNum : Int) :
    playSummary (playNextMove fuel h state player history visual maxDepth moveNum) =
      (searchSummary (searchOnCopy fuel h state player history visual)).map
        (fun r => (r.2.2.1, r.2.2.2, false)) := by
  unfold playNextMove
  cases searchOnCopy fuel h state player history visual with
  | error e => rfl
  | ok v => rfl

set_option maxRecDepth 1000000 in
theorem midGame4_summary :
    searchSummary (searchOnCopy 7 midGame4.1 midGame4.2 midGame4.2.getCurrentPlayer [] []) =
    some (Outcome.WON, true,
      [MoveStep.mk (2, 2) (2, 3) 1, MoveStep.mk (0, 2) (1, 2) 0, MoveStep.mk (1, 2) (1, 3) 1,
       MoveStep.mk (2, 1) (3, 1) 0, MoveStep.mk (2, 0) (2, 2) 1, MoveStep.mk (2, 0) (2, 1) 1,
       MoveStep.mk (2, 1) (3, 1) 0, MoveStep.mk (1, 2) (1, 3) 1],
      [MoveStep.mk (1, 2) (1, 3) 1, MoveStep.mk (2, 1) (3, 1) 0, MoveStep.mk (2, 0) (2, 1) 1,
       MoveStep.mk (0, 2) (1, 2) 0, MoveStep.mk (2, 1) (2, 2) 1, MoveStep.mk (1, 2) (3, 2) 0,
       MoveStep.mk (3, 2) (1, 2) 0, MoveStep.mk (2, 2) (2, 1) 1, MoveStep.mk (1, 2) (0, 2) 0,
       MoveStep.mk (2, 1) (2, 0) 1, MoveStep.mk (3, 1) (2, 1) 0, MoveStep.mk (1, 3) (1, 2) 1,
       MoveStep.mk (2, 0) (2, 2) 1, MoveStep.mk (2, 1) (3, 1) 0, MoveStep.mk (1, 2) (1, 3) 1,
       MoveStep.mk (0, 2) (1, 2) 0, MoveStep.mk (2, 2) (2, 3) 1, MoveStep.mk (2, 3) (2, 2) 1,
       MoveStep.mk (1, 2) (0, 2) 0, MoveStep.mk (1, 3) (1, 2) 1, MoveStep.mk (3, 1) (2, 1) 0,
       MoveStep.mk (2, 2) (2, 0) 1]) := by
  decide

theorem midGame4_wellFormed : WellFormed 4 midGame4.1 midGame4.2 := by
  decide

/-- Claim C4, the code at the failing input.  In the 4×4 game after the turns
`(0,1) → (1,1)`, `(1,0) → (1,2)`, `(1,1) → (2,1)` the state is well-formed and
player 1, who is to move, owns the tokens on `(1,2)` and `(2,0)`.  The search
for player 1 with an empty undo-history returns `WON` with the latch set.  The
replay log starts with `(1,2) → (1,3)`, the candidate the root tries first,
and ends with `(2,2) → (2,0)`, the undo of the candidate `(2,0) → (2,2)` the
root accepted; yet the bottom of the undo-history, the step that
`handleAlgoTurn` plays, is `(1,2) → (1,3)`, the candidate the root rejected. -/
theorem C4_bottom_is_rejected_candidate :
    WellFormed 4 midGame4.1 midGame4.2 ∧
    midGame4.2.currentPlayer = 1 ∧
    midGame4.2.player2.tokens.map (fun t => (midGame4.1.tok t).position) = [(1, 2), (2, 0)] ∧
    (searchSummary (searchOnCopy 7 midGame4.1 midGame4.2 midGame4.2.getCurrentPlayer [] [])).map
      (fun r => (r.1, r.2.1, r.2.2.2.head?, r.2.2.2.getLast?)) =
      some (Outcome.WON, true, some (MoveStep.mk (1, 2) (1, 3) 1),
        some (MoveStep.mk (2, 2) (2, 0) 1)) ∧
    ∀ d, (playSummary (playNextMove 7 midGame4.1 midGame4.2 midGame4.2.getCurrentPlayer
        [] [] 0 0)).map (fun r => drainHistory r.1 d) = some (MoveStep.mk (1, 2) (1, 3) 1) := by
  refine ⟨midGame4_wellFormed, by decide, by decide, ?_, fun d => ?_⟩
  · rw [midGame4_summary]
    rfl
  · rw [playSummary_eq, midGame4_summary]
    rfl

/-! ## Invariants of the board under raw moves -/

theorem posInv_iff (b : GameBoard) (h : Heap) :
    PosInv b h ↔ ∀ r c t, r < b.Height → c < b.Width → b.board r c = some t →
      (h.tok t).position = ((c : Int), (r : Int)) := by
  constructor
  · intro hp r c t hr hc hb
    have := hp r hr c hc
    simpa [GameBoard.ownPosition, hb] using this
  · intro hp r hr c hc
    unfold GameBoard.ownPosition
    cases hb : b.board r c with
    | none => rfl
    | some t => simpa using hp r c t hr hc hb

theorem samePos_refl (h : Heap) : SamePos h h := fun _ => ⟨rfl, rfl⟩

theorem samePos_trans (h1 h2 h3 : Heap) (a : SamePos h1 h2) (b : SamePos h2 h3) :
    SamePos h1 h3 := fun q =>
  ⟨(b q).1.trans (a q).1, (b q).2.trans (a q).2⟩

theorem samePos_symm (h1 h2 : Heap) (a : SamePos h1 h2) : SamePos h2 h1 := fun q =>
  ⟨(a q).1.symm, (a q).2.symm⟩

theorem posInv_congr (b : GameBoard) (h h1 : Heap) (hp : PosInv b h) (hs : SamePos h h1) :
    PosInv b h1 := by
  rw [posInv_iff] at hp ⊢
  intro r c t hr hc hb
  rw [(hs t).1]
  exact hp r c t hr hc hb

/-- A raw move of the token of an in-bounds cell to an empty in-bounds cell
keeps every token of the grid at its own position. -/
theorem posInv_relocateRaw (b : GameBoard) (h : Heap) (fX fY tX tY t : Nat)
    (hp : PosInv b h) (hfY : fY < b.Height) (hfX : fX < b.Width)
    (hfrom : b.board fY fX = some t) (hto : b.board tY tX = none) :
    PosInv (b.relocateRaw h fX fY tX tY t).1 (b.relocateRaw h fX fY tX tY t).2 := by
  rw [posInv_iff] at hp ⊢
  intro r c q hr hc hb
  rw [relocateRaw_board, setCell_board] at hb
  rw [relocateRaw_position]
  by_cases h2 : r = fY ∧ c = fX
  · rw [if_pos h2] at hb
    cases hb
  · rw [if_neg h2, setCell_board] at hb
    by_cases h1 : r = tY ∧ c = tX
    · rw [if_pos h1] at hb
      have hq : q = t := (Option.some.inj hb).symm
      obtain ⟨rfl, rfl⟩ := h1
      simp [hq]
    · rw [if_neg h1] at hb
      have hqt : q ≠ t := by
        rintro rfl
        have := hp fY fX q hfY hfX hfrom
        have := hp r c q hr hc hb
        simp_all
      rw [if_neg hqt]
      exact hp r c q hr hc hb

/-- What a candidate accepted by `getTokenMove` is: the source is in bounds
and holds a movable token, the result is an empty in-bounds cell, one step
from `to` along the owner's axis at most. -/
theorem getTokenMove_sound (b : GameBoard) (h : Heap) (fromX fromY toX toY : Int)
    (hg : (b.getTokenMove h fromX fromY toX toY).1 ≠ -1) :
    b.isValidPosition fromX fromY = true ∧
    ∃ t, b.cell fromX fromY = some t ∧ (h.tok t).canMove = true ∧
      b.isValidPosition (b.getTokenMove h fromX fromY toX toY).1
        (b.getTokenMove h fromX fromY toX toY).2 = true ∧
      b.cell (b.getTokenMove h fromX fromY toX toY).1
        (b.getTokenMove h fromX fromY toX toY).2 = none ∧
      (b.getTokenMove h fromX fromY toX toY = (toX, toY) ∨
       ((h.tok t).player = 0 ∧ b.getTokenMove h fromX fromY toX toY = (toX + 1, toY)) ∨
       ((h.tok t).player = 1 ∧ b.getTokenMove h fromX fromY toX toY = (toX, toY + 1))) := by
  by_cases hf : b.isValidPosition fromX fromY = true
  swap
  · have hf2 : b.isValidPosition fromX fromY = false := by simpa using hf
    simp [GameBoard.getTokenMove, hf2] at hg
  by_cases ht : b.isValidPosition toX toY = true
  swap
  · have ht2 : b.isValidPosition toX toY = false := by simpa using ht
    simp [GameBoard.getTokenMove, ht2] at hg
  have vt := (isValidPosition_iff b toX toY).1 ht
  cases hc : b.cell fromX fromY with
  | none => simp [GameBoard.getTokenMove, hf, ht, hc] at hg
  | some t =>
    have key := getTokenMove_of_token b h fromX fromY toX toY t hf ht hc
    refine ⟨hf, t, rfl, ?_⟩
    by_cases hm : (h.tok t).canMove = true
    swap
    · have hm2 : (h.tok t).canMove = false := by simpa using hm
      rw [key] at hg
      simp [hm2] at hg
    by_cases hto : b.cell toX toY = none
    · have hval : b.getTokenMove h fromX fromY toX toY = (toX, toY) := by
        rw [key]; simp [hm, hto]
      rw [hval]
      exact ⟨hm, ht, hto, Or.inl rfl⟩
    · by_cases p0 : (h.tok t).player = 0
      · by_cases hj : toX.toNat + 1 < b.Width ∧ b.cell (toX + 1) toY = none
        · have hval : b.getTokenMove h fromX fromY toX toY = (toX + 1, toY) := by
            rw [key]; simp [hm, hto, p0, hj]
          rw [hval]
          refine ⟨hm, ?_, hj.2, Or.inr (Or.inl ⟨p0, rfl⟩)⟩
          rw [isValidPosition_iff]
          omega
        · rw [key] at hg
          simp [hm, hto, p0, hj] at hg
      · by_cases p1 : (h.tok t).player = 1
        · by_cases hj : toY.toNat + 1 < b.Height ∧ b.cell toX (toY + 1) = none
          · have hval : b.getTokenMove h fromX fromY toX toY = (toX, toY + 1) := by
              rw [key]; simp [hm, hto, p1, hj]
            rw [hval]
            refine ⟨hm, ?_, hj.2, Or.inr (Or.inr ⟨p1, rfl⟩)⟩
            rw [isValidPosition_iff]
            omega
          · rw [key] at hg
            simp [hm, hto, p1, hj] at hg
        · rw [key] at hg
          simp [hm, hto, p0, p1] at hg

/-! ## Replaying a log -/

theorem replay_cons (i : MoveStep) (rest : List MoveStep) (acc : GameBoard × Heap) :
    replay (i :: rest) acc =
      match acc.1.moveTokenRaw acc.2 i.src.1 i.src.2 i.dst.1 i.dst.2 with
      | .error e => .error e
      | .ok acc1 => replay rest acc1 := rfl

theorem replayClean_cons (i : MoveStep) (rest : List MoveStep) (acc : GameBoard × Heap) :
    replayClean (i :: rest) acc =
      (acc.1.isValidPosition i.src.1 i.src.2 && (acc.1.cell i.src.1 i.src.2).isSome &&
      acc.1.isValidPosition i.dst.1 i.dst.2 && (acc.1.cell i.dst.1 i.dst.2).isNone &&
      match acc.1.moveTokenRaw acc.2 i.src.1 i.src.2 i.dst.1 i.dst.2 with
      | .error _ => false
      | .ok acc1 => replayClean rest acc1) := rfl

theorem replay_append (a c : List MoveStep) :
    ∀ acc, replay (a ++ c) acc =
      match replay a acc with
      | .error e => .error e
      | .ok acc1 => replay c acc1 := by
  induction a with
  | nil => intro acc; rfl
  | cons i rest ih =>
    intro acc
    simp only [List.cons_append, replay]
    cases acc.1.moveTokenRaw acc.2 i.src.1 i.src.2 i.dst.1 i.dst.2 with
    | error e => rfl
    | ok acc1 => exact ih acc1

theorem replayClean_append (a c : List MoveStep) :
    ∀ acc acc1, replay a acc = .ok acc1 → replayClean a acc = true → replayClean c acc1 = true →
      replayClean (a ++ c) acc = true := by
  induction a with
  | nil =>
    intro acc acc1 hr _ hc
    simp only [replay, Except.ok.injEq] at hr
    subst hr
    exact hc
  | cons i rest ih =>
    intro acc acc1 hr ha hc
    simp only [List.cons_append, replay, replayClean] at hr ha ⊢
    cases hm : acc.1.moveTokenRaw acc.2 i.src.1 i.src.2 i.dst.1 i.dst.2 with
    | error e => rw [hm] at hr; simp at hr
    | ok acc2 =>
      rw [hm] at hr ha
      simp only [Bool.and_eq_true] at ha ⊢
      exact ⟨ha.1, ih acc2 acc1 hr ha.2 hc⟩

theorem replayable_nil (b0 : GameBoard) : Replayable b0 [] := by
  intro B H _ _
  exact ⟨H, rfl, rfl, samePos_refl H⟩

theorem replayable_append (b0 : GameBoard) (a c : List MoveStep)
    (ha : Replayable b0 a) (hc : Replayable b0 c) : Replayable b0 (a ++ c) := by
  intro B H hocc hpos
  obtain ⟨H1, r1, c1, s1⟩ := ha B H hocc hpos
  obtain ⟨H2, r2, c2, s2⟩ := hc B H1 hocc (posInv_congr B H H1 hpos s1)
  refine ⟨H2, ?_, replayClean_append a c _ _ r1 c1 c2, samePos_trans _ _ _ s1 s2⟩
  rw [replay_append, r1]
  exact r2

theorem isValidPosition_of_dims (B b : GameBoard) (x y : Int) (hW : B.Width = b.Width)
    (hH : B.Height = b.Height) (hv : b.isValidPosition x y = true) :
    B.isValidPosition x y = true := by
  rw [isValidPosition_iff] at hv ⊢
  rw [hW, hH]
  exact hv

/-- A replayable log stays replayable when it is wrapped in a move to an
empty cell and the reverse move. -/
theorem replayable_wrap (b : GameBoard) (m : MoveStep) (t : Nat) (app : List MoveStep)
    (hs : b.isValidPosition m.src.1 m.src.2 = true)
    (hd : b.isValidPosition m.dst.1 m.dst.2 = true)
    (hcs : b.cell m.src.1 m.src.2 = some t) (hcd : b.cell m.dst.1 m.dst.2 = none)
    (happ : Replayable
      ((b.setCell m.dst.2.toNat m.dst.1.toNat (some t)).setCell m.src.2.toNat m.src.1.toNat none)
      app) :
    Replayable b (m :: app ++ [m.reverse]) := by
  intro B H hocc hpos
  obtain ⟨hW, hH, hcells⟩ := hocc
  have vs := (isValidPosition_iff b _ _).1 hs
  have vd := (isValidPosition_iff b _ _).1 hd
  have hBs := isValidPosition_of_dims B b _ _ hW hH hs
  have hBd := isValidPosition_of_dims B b _ _ hW hH hd
  have hcs1 : b.board m.src.2.toNat m.src.1.toNat = some t := hcs
  have hcd1 : b.board m.dst.2.toNat m.dst.1.toNat = none := hcd
  have hne : ¬ (m.dst.2.toNat = m.src.2.toNat ∧ m.dst.1.toNat = m.src.1.toNat) := by
    rintro ⟨e1, e2⟩
    rw [e1, e2, hcs1] at hcd1
    cases hcd1
  have hne2 : ¬ (m.src.2.toNat = m.dst.2.toNat ∧ m.src.1.toNat = m.dst.1.toNat) := by
    rintro ⟨e1, e2⟩
    exact hne ⟨e1.symm, e2.symm⟩
  obtain ⟨u, hu⟩ : ∃ u, B.board m.src.2.toNat m.src.1.toNat = some u := by
    have := hcells _ vs.2.2.2 _ vs.2.2.1
    rw [hcs1] at this
    exact Option.isSome_iff_exists.1 this
  have hBd0 : B.board m.dst.2.toNat m.dst.1.toNat = none := by
    have := hcells _ vd.2.2.2 _ vd.2.2.1
    rw [hcd1] at this
    simpa using this
  have m1 := moveTokenRaw_ok B H m.src.1 m.src.2 m.dst.1 m.dst.2 u hBs hu hBd
  have hocc1 : SameOcc
      (B.relocateRaw H m.src.1.toNat m.src.2.toNat m.dst.1.toNat m.dst.2.toNat u).1
      ((b.setCell m.dst.2.toNat m.dst.1.toNat (some t)).setCell
        m.src.2.toNat m.src.1.toNat none) := by
    refine ⟨hW, hH, fun r hr c hc => ?_⟩
    rw [relocateRaw_board]
    simp only [setCell_board]
    by_cases h2 : r = m.src.2.toNat ∧ c = m.src.1.toNat
    · simp [h2]
    · by_cases h1 : r = m.dst.2.toNat ∧ c = m.dst.1.toNat
      · rw [if_neg h2, if_neg h2, if_pos h1, if_pos h1]
        rfl
      · simp only [h1, h2, if_false]
        exact hcells r hr c hc
  have hpos1 := posInv_relocateRaw B H m.src.1.toNat m.src.2.toNat m.dst.1.toNat m.dst.2.toNat u
    hpos (by rw [hH]; exact vs.2.2.2) (by rw [hW]; exact vs.2.2.1) hu hBd0
  obtain ⟨H2, r2, c2, s2⟩ := happ _ _ hocc1 hpos1
  have hB1d : (B.relocateRaw H m.src.1.toNat m.src.2.toNat m.dst.1.toNat m.dst.2.toNat u).1.cell
      m.dst.1 m.dst.2 = some u := by
    simp [GameBoard.cell, relocateRaw_board, setCell_board, hne]
  have hB1s : (B.relocateRaw H m.src.1.toNat m.src.2.toNat m.dst.1.toNat m.dst.2.toNat u).1.cell
      m.src.1 m.src.2 = none := by
    simp [GameBoard.cell, relocateRaw_board, setCell_board]
  have hv1d : (B.relocateRaw H m.src.1.toNat m.src.2.toNat m.dst.1.toNat m.dst.2.toNat u).1.isValidPosition
      m.dst.1 m.dst.2 = true := isValidPosition_of_dims _ B _ _ rfl rfl hBd
  have hv1s : (B.relocateRaw H m.src.1.toNat m.src.2.toNat m.dst.1.toNat m.dst.2.toNat u).1.isValidPosition
      m.src.1 m.src.2 = true := isValidPosition_of_dims _ B _ _ rfl rfl hBs
  have m2 := moveTokenRaw_ok
    (B.relocateRaw H m.src.1.toNat m.src.2.toNat m.dst.1.toNat m.dst.2.toNat u).1 H2
    m.dst.1 m.dst.2 m.src.1 m.src.2 u hv1d hB1d hv1s
  have hB3 : ((B.relocateRaw H m.src.1.toNat m.src.2.toNat m.dst.1.toNat m.dst.2.toNat u).1.relocateRaw
      H2 m.dst.1.toNat m.dst.2.toNat m.src.1.toNat m.src.2.toNat u).1 = B := by
    rw [relocateRaw_board, relocateRaw_board]
    exact setCell_round B _ _ _ _ u hu hBd0
  have hlast : replay [m.reverse]
      ((B.relocateRaw H m.src.1.toNat m.src.2.toNat m.dst.1.toNat m.dst.2.toNat u).1, H2) =
      .ok (B, ((B.relocateRaw H m.src.1.toNat m.src.2.toNat m.dst.1.toNat
        m.dst.2.toNat u).1.relocateRaw H2 m.dst.1.toNat m.dst.2.toNat m.src.1.toNat
        m.src.2.toNat u).2) := by
    simp only [replay, MoveStep.reverse, m2]
    congr 1
    exact Prod.ext hB3 rfl
  refine ⟨((B.relocateRaw H m.src.1.toNat m.src.2.toNat m.dst.1.toNat
        m.dst.2.toNat u).1.relocateRaw H2 m.dst.1.toNat m.dst.2.toNat m.src.1.toNat
        m.src.2.toNat u).2, ?_, ?_, ?_⟩
  · rw [List.cons_append, replay_cons]
    simp only [m1]
    rw [replay_append, r2]
    exact hlast
  · have e1 : (B.cell m.src.1 m.src.2).isSome = true := by
      show (B.board m.src.2.toNat m.src.1.toNat).isSome = true
      rw [hu]; rfl
    have e2 : (B.cell m.dst.1 m.dst.2).isNone = true := by
      show (B.board m.dst.2.toNat m.dst.1.toNat).isNone = true
      rw [hBd0]; rfl
    rw [List.cons_append, replayClean_cons]
    simp only [m1, hBs, hBd, e1, e2, Bool.and_true, Bool.true_and]
    refine replayClean_append app [m.reverse] _ _ r2 c2 ?_
    rw [replayClean_cons]
    simp only [MoveStep.reverse, hv1d, hv1s, hB1d, hB1s, m2]
    rfl
  · intro q
    refine ⟨?_, ?_⟩
    · rw [relocateRaw_position]
      by_cases hq : q = u
      · subst hq
        simp only [if_true]
        have := (posInv_iff B H).1 hpos _ _ q (by rw [hH]; exact vs.2.2.2)
          (by rw [hW]; exact vs.2.2.1) hu
        rw [this]
      · simp only [hq, if_false]
        rw [(s2 q).1, relocateRaw_position]
        simp [hq]
    · rw [relocateRaw_player, (s2 q).2, relocateRaw_player]

/-! ## What a frame of the search leaves behind -/

theorem frameRel_refl (s : Search) : FrameRel s s :=
  ⟨rfl, samePos_refl _, rfl, ⟨[], rfl⟩, ⟨[], by simp, Nested.nil, replayable_nil _⟩⟩

theorem frameRel_trans (s s1 s2 : Search) (a : FrameRel s s1) (b : FrameRel s1 s2) :
    FrameRel s s2 := by
  obtain ⟨a1, a2, a3, ⟨pa, a4⟩, ⟨va, a5, a6, a7⟩⟩ := a
  obtain ⟨b1, b2, b3, ⟨pb, b4⟩, ⟨vb, b5, b6, b7⟩⟩ := b
  refine ⟨b1.trans a1, samePos_trans _ _ _ a2 b2, b3.trans a3, ⟨pb ++ pa, ?_⟩,
    ⟨va ++ vb, ?_, Nested.append _ _ a6 b6, ?_⟩⟩
  · rw [b4, a4, List.append_assoc]
  · rw [b5, a5, List.append_assoc]
  · rw [a1] at b7
    exact replayable_append _ _ _ a7 b7

theorem frameRel_latched (s s1 : Search) (player : Player) (a : FrameRel s s1) :
    FrameRel s (s1.latched player) := by
  unfold Search.latched
  split
  · exact a
  · exact a

/-- The candidate of a token that passed the test `newMove.first != -1`: the
source holds a token, the destination is an empty cell, both in bounds. -/
theorem candidate_sound (s : Search) (player : Player) (token : Nat)
    (hn : (candidate s player token).1 ≠ -1) :
    s.state.board.isValidPosition (forwardStep s player token).src.1
      (forwardStep s player token).src.2 = true ∧
    ∃ t, s.state.board.cell (forwardStep s player token).src.1
        (forwardStep s player token).src.2 = some t ∧
      (s.heap.tok t).canMove = true ∧
      s.state.board.isValidPosition (forwardStep s player token).dst.1
        (forwardStep s player token).dst.2 = true ∧
      s.state.board.cell (forwardStep s player token).dst.1
        (forwardStep s player token).dst.2 = none := by
  unfold candidate calculatePossibleMove GameState.getBoard at hn
  obtain ⟨h1, t, h2, h3, h4, h5, _⟩ := getTokenMove_sound _ _ _ _ _ _ hn
  exact ⟨h1, t, h2, h3, h4, h5⟩

/-- One candidate tried by a frame: after the raw move, a child that leaves
`FrameRel` behind, and the reverse raw move, the frame is where it started,
with the pair of steps around the child's log and its own step on the
undo-history below whatever the child kept. -/
theorem candidate_frame (s s2 : Search) (m : MoveStep) (t : Nat)
    (b1 : GameBoard) (h1 : Heap) (b3 : GameBoard) (h3 : Heap)
    (hpos : PosInv s.state.board s.heap)
    (hs : s.state.board.isValidPosition m.src.1 m.src.2 = true)
    (hd : s.state.board.isValidPosition m.dst.1 m.dst.2 = true)
    (hcs : s.state.board.cell m.src.1 m.src.2 = some t)
    (hcd : s.state.board.cell m.dst.1 m.dst.2 = none)
    (hm : s.state.board.moveTokenRaw s.heap m.src.1 m.src.2 m.dst.1 m.dst.2 = .ok (b1, h1))
    (hrel : FrameRel (s.pushed m b1 h1) s2)
    (hu : s2.state.board.moveTokenRaw s2.heap m.dst.1 m.dst.2 m.src.1 m.src.2 = .ok (b3, h3)) :
    FrameRel s (s2.undone m b3 h3) ∧ ∃ pre, s2.history = pre ++ m :: s.history := by
  have vs := (isValidPosition_iff _ _ _).1 hs
  have vd := (isValidPosition_iff _ _ _).1 hd
  have hcs1 : s.state.board.board m.src.2.toNat m.src.1.toNat = some t := hcs
  have hcd1 : s.state.board.board m.dst.2.toNat m.dst.1.toNat = none := hcd
  have hne : ¬ (m.dst.2.toNat = m.src.2.toNat ∧ m.dst.1.toNat = m.src.1.toNat) := by
    rintro ⟨e1, e2⟩
    rw [e1, e2, hcs1] at hcd1
    cases hcd1
  rw [moveTokenRaw_ok _ _ _ _ _ _ t hs hcs hd] at hm
  have hpair := Except.ok.inj hm
  have hb1 : b1 = (s.state.board.relocateRaw s.heap m.src.1.toNat m.src.2.toNat m.dst.1.toNat
      m.dst.2.toNat t).1 := by rw [hpair]
  have hh1 : h1 = (s.state.board.relocateRaw s.heap m.src.1.toNat m.src.2.toNat m.dst.1.toNat
      m.dst.2.toNat t).2 := by rw [hpair]
  obtain ⟨hst, hsp, hnx, ⟨pre, hpre⟩, ⟨app, hvis, hnest, hrep⟩⟩ := hrel
  have hb2 : s2.state.board = b1 := by rw [hst]; rfl
  have hv2d : s2.state.board.isValidPosition m.dst.1 m.dst.2 = true := by
    rw [hb2, hb1]
    exact isValidPosition_of_dims _ _ _ _ rfl rfl hd
  have hv2s : s2.state.board.isValidPosition m.src.1 m.src.2 = true := by
    rw [hb2, hb1]
    exact isValidPosition_of_dims _ _ _ _ rfl rfl hs
  have hc2 : s2.state.board.cell m.dst.1 m.dst.2 = some t := by
    rw [hb2, hb1]
    simp [GameBoard.cell, relocateRaw_board, setCell_board, hne]
  rw [moveTokenRaw_ok _ _ _ _ _ _ t hv2d hc2 hv2s] at hu
  have hpair3 := Except.ok.inj hu
  have hb3 : b3 = s.state.board := by
    have : b3 = (s2.state.board.relocateRaw s2.heap m.dst.1.toNat m.dst.2.toNat m.src.1.toNat
        m.src.2.toNat t).1 := by rw [hpair3]
    rw [this, relocateRaw_board, hb2, hb1, relocateRaw_board]
    exact setCell_round _ _ _ _ _ t hcs1 hcd1
  have hh3 : h3 = (s2.state.board.relocateRaw s2.heap m.dst.1.toNat m.dst.2.toNat m.src.1.toNat
      m.src.2.toNat t).2 := by rw [hpair3]
  refine ⟨⟨?_, ?_, ?_, ⟨pre ++ [m], ?_⟩, ⟨(m :: app) ++ [m.reverse], ?_, Nested.wrap m app hnest, ?_⟩⟩,
    ⟨pre, ?_⟩⟩
  · show ({ s2.state with board := b3 } : GameState) = s.state
    rw [hst, hb3]
    rfl
  · intro q
    show (h3.tok q).position = (s.heap.tok q).position ∧ (h3.tok q).player = (s.heap.tok q).player
    rw [hh3, relocateRaw_position, relocateRaw_player]
    have e1 := hsp q
    simp only [Search.pushed] at e1
    rw [hh1, relocateRaw_position, relocateRaw_player] at e1
    refine ⟨?_, e1.2⟩
    by_cases hq : q = t
    · subst hq
      simp only [if_true]
      rw [(posInv_iff _ _).1 hpos _ _ q vs.2.2.2 vs.2.2.1 hcs1]
    · simp only [hq, if_false] at e1 ⊢
      exact e1.1
  · show h3.next = s.heap.next
    rw [hh3, relocateRaw_next, hnx]
    show h1.next = s.heap.next
    rw [hh1, relocateRaw_next]
  · show s2.history = pre ++ [m] ++ s.history
    rw [hpre]
    simp [Search.pushed]
  · show s2.visual ++ [m.reverse] = s.visual ++ (m :: app ++ [m.reverse])
    rw [hvis]
    simp [Search.pushed]
  · refine replayable_wrap s.state.board m t app hs hd hcs hcd ?_
    have : (s.pushed m b1 h1).state.board = b1 := rfl
    rw [this, hb1, relocateRaw_board] at hrep
    exact hrep
  · rw [hpre]
    rfl

theorem tokenLoop_rel (child : Search → Player → Int → Int → Except Fault (Outcome × Search))
    (player : Player) (depth : Int)
    (hchild : ∀ s p d m r, PosInv s.state.board s.heap → child s p d m = .ok r →
      FrameRel s r.2) :
    ∀ (tokens : List Nat) (cm : Int) (s : Search) (r : Outcome × Search),
      PosInv s.state.board s.heap →
      tokenLoop child player depth tokens cm s = .ok r → FrameRel s r.2 := by
  intro tokens
  induction tokens with
  | nil =>
    intro cm s r _ h
    rw [tokenLoop_nil] at h
    rw [← Except.ok.inj h]
    exact frameRel_refl s
  | cons token rest ih =>
    intro cm s r hpos h
    rw [tokenLoop_cons] at h
    by_cases hskip : (s.heap.tok token).canMove = false ∨ (candidate s player token).1 = -1
    · rw [if_pos hskip] at h
      exact ih _ _ _ hpos h
    · rw [if_neg hskip] at h
      have hn : (candidate s player token).1 ≠ -1 := fun e => hskip (Or.inr e)
      obtain ⟨hs, t, hcs, _, hd, hcd⟩ := candidate_sound s player token hn
      have vs := (isValidPosition_iff _ _ _).1 hs
      cases hm : s.state.board.moveTokenRaw s.heap (forwardStep s player token).src.1
          (forwardStep s player token).src.2 (forwardStep s player token).dst.1
          (forwardStep s player token).dst.2 with
      | error e => rw [hm] at h; simp at h
      | ok v =>
        obtain ⟨b1, h1⟩ := v
        rw [hm] at h
        simp only at h
        have hpos1 : PosInv (s.pushed (forwardStep s player token) b1 h1).state.board
            (s.pushed (forwardStep s player token) b1 h1).heap := by
          have hm2 := hm
          rw [moveTokenRaw_ok _ _ _ _ _ _ t hs hcs hd] at hm2
          have hpair := Except.ok.inj hm2
          show PosInv b1 h1
          have e1 : b1 = (s.state.board.relocateRaw s.heap
              (forwardStep s player token).src.1.toNat (forwardStep s player token).src.2.toNat
              (forwardStep s player token).dst.1.toNat (forwardStep s player token).dst.2.toNat
              t).1 := by rw [hpair]
          have e2 : h1 = (s.state.board.relocateRaw s.heap
              (forwardStep s player token).src.1.toNat (forwardStep s player token).src.2.toNat
              (forwardStep s player token).dst.1.toNat (forwardStep s player token).dst.2.toNat
              t).2 := by rw [hpair]
          rw [e1, e2]
          exact posInv_relocateRaw _ _ _ _ _ _ t hpos vs.2.2.2 vs.2.2.1 hcs hcd
        cases hch : child (s.pushed (forwardStep s player token) b1 h1)
            (getOpponent (s.pushed (forwardStep s player token) b1 h1).state player)
            (depth + 1) cm with
        | error e => rw [hch] at h; simp at h
        | ok v2 =>
          obtain ⟨result, s2⟩ := v2
          rw [hch] at h
          simp only at h
          have hrel := hchild _ _ _ _ _ hpos1 hch
          cases hu : s2.state.board.moveTokenRaw s2.heap (forwardStep s player token).dst.1
              (forwardStep s player token).dst.2 (forwardStep s player token).src.1
              (forwardStep s player token).src.2 with
          | error e => rw [hu] at h; simp at h
          | ok v3 =>
            obtain ⟨b3, h3⟩ := v3
            rw [hu] at h
            simp only at h
            obtain ⟨cf, pre, hpre⟩ := candidate_frame s s2 (forwardStep s player token) t
              b1 h1 b3 h3 hpos hs hd hcs hcd hm hrel hu
            by_cases hcond : result = Outcome.LOSS ∨ s2.hasWon = true
            · rw [if_pos hcond] at h
              rw [← Except.ok.inj h]
              exact frameRel_latched _ _ _ cf
            · rw [if_neg hcond] at h
              cases hh : s2.history with
              | nil => rw [hh] at h; simp at h
              | cons top popped =>
                rw [hh] at h
                simp only at h
                have cf4 : FrameRel s
                    { s2.undone (forwardStep s player token) b3 h3 with history := popped } := by
                  obtain ⟨c1, c2, c3, _, c5⟩ := cf
                  refine ⟨c1, c2, c3, ?_, c5⟩
                  rw [hh] at hpre
                  cases pre with
                  | nil =>
                    simp only [List.nil_append, List.cons.injEq] at hpre
                    exact ⟨[], by simp [hpre.2]⟩
                  | cons x pre2 =>
                    simp only [List.cons_append, List.cons.injEq] at hpre
                    exact ⟨pre2 ++ [forwardStep s player token], by simp [hpre.2]⟩
                have hpos4 : PosInv
                    ({ s2.undone (forwardStep s player token) b3 h3 with
                        history := popped } : Search).state.board
                    ({ s2.undone (forwardStep s player token) b3 h3 with
                        history := popped } : Search).heap := by
                  rw [cf4.1]
                  exact posInv_congr _ _ _ hpos cf4.2.1
                exact frameRel_trans _ _ _ cf4 (ih _ _ _ hpos4 h)

/-- Every frame of `recusionMove` that returns, on a board whose tokens are
stored at their own positions, leaves the game state, the positions and the
owners as they were, extends the undo-history and appends a well-nested,
replayable sequence to the replay log. -/
theorem recusionMove_rel (fuel : Nat) :
    ∀ (s : Search) (player : Player) (depth moveNum : Int) (r : Outcome × Search),
      PosInv s.state.board s.heap →
      recusionMove fuel s player depth moveNum = .ok r → FrameRel s r.2 := by
  induction fuel with
  | zero =>
    intro s player depth moveNum r _ h
    rw [recusionMove_zero] at h
    cases h
  | succ n ih =>
    intro s player depth moveNum r hpos h
    rw [recusionMove_succ] at h
    by_cases h1 : s.hasWon = true
    · rw [if_pos h1] at h
      rw [← Except.ok.inj h]
      exact frameRel_refl s
    · rw [if_neg h1] at h
      by_cases h2 : isWinningState s.heap player = true
      · rw [if_pos h2] at h
        rw [← Except.ok.inj h]
        exact frameRel_latched _ _ _ (frameRel_refl s)
      · rw [if_neg h2] at h
        by_cases h3 : isWinningState s.heap (getOpponent s.state player) = true
        · rw [if_pos h3] at h
          rw [← Except.ok.inj h]
          exact frameRel_refl s
        · rw [if_neg h3] at h
          exact tokenLoop_rel (recusionMove n) player depth ih _ _ _ _ hpos h

/-! ## Well-formed states -/

theorem registered_congr (b : GameBoard) (h h1 : Heap) (p : Player)
    (hr : Registered b h p) (hs : SamePos h h1) : Registered b h1 p := by
  intro t ht
  rw [(hs t).1, (hs t).2]
  exact hr t ht

theorem wellFormed_congr (n : Nat) (h h1 : Heap) (s : GameState)
    (hw : WellFormed n h s) (hs : SamePos h h1) : WellFormed n h1 s := by
  obtain ⟨a1, a2, a3, a4, a5, a6, a7, a8⟩ := hw
  exact ⟨a1, a2, a3, a4, posInv_congr _ _ _ a5 hs, registered_congr _ _ _ _ a6 hs,
    registered_congr _ _ _ _ a7 hs, a8⟩

theorem forwardSum_congr (n : Nat) (h h1 : Heap) (s : GameState) (hs : SamePos h h1) :
    forwardSum n h1 s = forwardSum n h s := by
  have e : ∀ q, (h1.tok q).position = (h.tok q).position := fun q => (hs q).1
  simp only [forwardSum, e]

theorem aligned_congr (h h1 : Heap) (b : GameBoard) (p : Player)
    (ha : Aligned h b p) (hs : SamePos h h1) : Aligned h1 b p := by
  have e1 : ∀ q, (h1.tok q).position = (h.tok q).position := fun q => (hs q).1
  have e2 : ∀ q, (h1.tok q).player = (h.tok q).player := fun q => (hs q).2
  refine ⟨ha.1, fun token ht => ?_⟩
  have := ha.2 token ht
  simpa only [alignedToken, e1, e2] using this

theorem alignedToken_spec (h : Heap) (b : GameBoard) (p : Player) (token t : Nat)
    (ha : alignedToken h b p token = true)
    (hv : b.isValidPosition (h.tok token).position.1 (h.tok token).position.2 = true)
    (hc : b.cell (h.tok token).position.1 (h.tok token).position.2 = some t) :
    (h.tok t).player = p.playerNumber := by
  simpa [alignedToken, hv, hc] using ha

theorem aligned_of_registered (h : Heap) (b : GameBoard) (p : Player)
    (hn : p.playerNumber = 0 ∨ p.playerNumber = 1) (hr : Registered b h p) :
    Aligned h b p := by
  refine ⟨hn, fun token ht => ?_⟩
  obtain ⟨a, v, c⟩ := hr token ht
  simp [alignedToken, v, c, a]

theorem getOpponent_mem (s : GameState) (p : Player) :
    getOpponent s p = s.player1 ∨ getOpponent s p = s.player2 := by
  unfold getOpponent GameState.getCurrentPlayer GameState.getOtherPlayer
  split <;> split <;> simp

theorem aligned_getOpponent (n : Nat) (h : Heap) (s : GameState) (p : Player)
    (hw : WellFormed n h s) : Aligned h s.board (getOpponent s p) := by
  obtain ⟨_, _, a3, a4, _, a6, a7, _⟩ := hw
  rcases getOpponent_mem s p with e | e
  · rw [e]
    exact aligned_of_registered _ _ _ (Or.inl a3) a6
  · rw [e]
    exact aligned_of_registered _ _ _ (Or.inr a4) a7

theorem ownedCell_spec (s : GameState) (r c t : Nat) (ho : s.ownedCell r c = true)
    (hb : s.board.board r c = some t) : t ∈ s.player1.tokens ∨ t ∈ s.player2.tokens := by
  simpa [GameState.ownedCell, hb] using ho

theorem registered_relocateRaw (b : GameBoard) (h : Heap) (p : Player) (fX fY tX tY t : Nat)
    (hr : Registered b h p) (htX : tX < b.Width) (htY : tY < b.Height)
    (hfrom : b.board fY fX = some t) (hto : b.board tY tX = none) :
    Registered (b.relocateRaw h fX fY tX tY t).1 (b.relocateRaw h fX fY tX tY t).2 p := by
  have hne : ¬ (tY = fY ∧ tX = fX) := by
    rintro ⟨e1, e2⟩
    rw [e1, e2, hfrom] at hto
    cases hto
  intro u hu
  obtain ⟨a, v, c⟩ := hr u hu
  rw [relocateRaw_player, relocateRaw_position]
  refine ⟨a, ?_⟩
  by_cases hq : u = t
  · subst hq
    simp only [if_true]
    refine ⟨?_, ?_⟩
    · rw [isValidPosition_iff]
      simp only [relocateRaw_board, setCell_Width, setCell_Height]
      omega
    · simp [GameBoard.cell, relocateRaw_board, setCell_board, hne]
  · simp only [hq, if_false]
    refine ⟨isValidPosition_of_dims _ b _ _ rfl rfl v, ?_⟩
    have c1 : b.board (h.tok u).position.2.toNat (h.tok u).position.1.toNat = some u := c
    show (b.relocateRaw h fX fY tX tY t).1.board (h.tok u).position.2.toNat
        (h.tok u).position.1.toNat = some u
    rw [relocateRaw_board]
    simp only [setCell_board]
    have n2 : ¬ ((h.tok u).position.2.toNat = fY ∧ (h.tok u).position.1.toNat = fX) := by
      rintro ⟨e1, e2⟩
      rw [e1, e2, hfrom] at c1
      exact hq (Option.some.inj c1).symm
    have n1 : ¬ ((h.tok u).position.2.toNat = tY ∧ (h.tok u).position.1.toNat = tX) := by
      rintro ⟨e1, e2⟩
      rw [e1, e2, hto] at c1
      cases c1
    rw [if_neg n2, if_neg n1]
    exact c1

/-- A raw move of a token to an empty in-bounds cell keeps the state
well-formed. -/
theorem wellFormed_relocateRaw (n : Nat) (h : Heap) (s : GameState) (fX fY tX tY t : Nat)
    (hw : WellFormed n h s) (hfX : fX < n) (hfY : fY < n) (htX : tX < n) (htY : tY < n)
    (hfrom : s.board.board fY fX = some t) (hto : s.board.board tY tX = none) :
    WellFormed n (s.board.relocateRaw h fX fY tX tY t).2
      { s with board := (s.board.relocateRaw h fX fY tX tY t).1 } := by
  obtain ⟨a1, a2, a3, a4, a5, a6, a7, a8⟩ := hw
  refine ⟨a1, a2, a3, a4, ?_, ?_, ?_, ?_⟩
  · exact posInv_relocateRaw _ _ _ _ _ _ t a5 (by rw [a2]; exact hfY) (by rw [a1]; exact hfX)
      hfrom hto
  · exact registered_relocateRaw _ _ _ _ _ _ _ t a6 (by rw [a1]; exact htX)
      (by rw [a2]; exact htY) hfrom hto
  · exact registered_relocateRaw _ _ _ _ _ _ _ t a7 (by rw [a1]; exact htX)
      (by rw [a2]; exact htY) hfrom hto
  · intro r hr c hc
    have ht := ownedCell_spec s fY fX t (a8 fY hfY fX hfX) hfrom
    have old := a8 r hr c hc
    unfold GameState.ownedCell at old ⊢
    simp only [relocateRaw_board, setCell_board]
    by_cases h2 : r = fY ∧ c = fX
    · simp [h2]
    · by_cases h1 : r = tY ∧ c = tX
      · rw [if_neg h2, if_pos h1]
        simpa using ht
      · rw [if_neg h2, if_neg h1]
        exact old

/-! ## The termination measure -/

/-- The token of an occupied cell of a well-formed state belongs to the
player whose number it carries. -/
theorem token_owner (n : Nat) (h : Heap) (s : GameState) (r c t : Nat)
    (hw : WellFormed n h s) (hr : r < n) (hc : c < n) (hb : s.board.board r c = some t) :
    ((h.tok t).player = 0 → t ∈ s.player1.tokens) ∧
    ((h.tok t).player = 1 → t ∈ s.player2.tokens) := by
  obtain ⟨_, _, a3, a4, _, a6, a7, a8⟩ := hw
  have ht := ownedCell_spec s r c t (a8 r hr c hc) hb
  refine ⟨fun p0 => ?_, fun p1 => ?_⟩
  · rcases ht with ht | ht
    · exact ht
    · have := (a7 t ht).1
      rw [p0, a4] at this
      exact absurd this (by decide)
  · rcases ht with ht | ht
    · have := (a6 t ht).1
      rw [p1, a3] at this
      exact absurd this (by decide)
    · exact ht

/-- A raw move that advances a token along the forward axis of its owner,
inside the board, strictly decreases the termination measure. -/
theorem forwardSum_relocateRaw (n : Nat) (h : Heap) (s : GameState) (fX fY tX tY t : Nat)
    (hw : WellFormed n h s) (hfX : fX < n) (hfY : fY < n) (htX : tX < n) (htY : tY < n)
    (hfrom : s.board.board fY fX = some t)
    (hgeo : ((h.tok t).player = 0 ∧ tY = fY ∧ fX < tX) ∨
            ((h.tok t).player = 1 ∧ tX = fX ∧ fY < tY)) :
    forwardSum n (s.board.relocateRaw h fX fY tX tY t).2
        { s with board := (s.board.relocateRaw h fX fY tX tY t).1 } <
      forwardSum n h s := by
  have own := token_owner n h s fY fX t hw hfY hfX hfrom
  obtain ⟨a1, a2, _, _, a5, _, _, _⟩ := hw
  have hpt : (h.tok t).position = ((fX : Int), (fY : Int)) :=
    (posInv_iff _ _).1 a5 fY fX t (by rw [a2]; exact hfY) (by rw [a1]; exact hfX) hfrom
  unfold forwardSum
  simp only [relocateRaw_position]
  rcases hgeo with ⟨p0, e, hlt⟩ | ⟨p1, e, hlt⟩
  · refine Nat.add_lt_add_of_lt_of_le ?_ ?_
    · refine List.sum_lt_sum _ _ (fun q _ => ?_) ⟨t, own.1 p0, ?_⟩
      · by_cases hq : q = t
        · subst hq
          simp only [if_true, hpt]
          omega
        · simp [hq]
      · simp only [if_true, hpt]
        omega
    · refine List.sum_le_sum (fun q _ => ?_)
      by_cases hq : q = t
      · subst hq
        simp only [if_true, hpt, e]
        exact le_refl _
      · simp [hq]
  · refine Nat.add_lt_add_of_le_of_lt ?_ ?_
    · refine List.sum_le_sum (fun q _ => ?_)
      by_cases hq : q = t
      · subst hq
        simp only [if_true, hpt, e]
        exact le_refl _
      · simp [hq]
    · refine List.sum_lt_sum _ _ (fun q _ => ?_) ⟨t, own.2 p1, ?_⟩
      · by_cases hq : q = t
        · subst hq
          simp only [if_true, hpt]
          omega
        · simp [hq]
      · simp only [if_true, hpt]
        omega

/-- The candidate of a token of an aligned player is one or two cells ahead
of the token on the forward axis of the token that stands there. -/
theorem candidate_geometry (s : Search) (player : Player) (token t : Nat)
    (hnum : player.playerNumber = 0 ∨ player.playerNumber = 1)
    (hal : alignedToken s.heap s.state.board player token = true)
    (hn : (candidate s player token).1 ≠ -1)
    (hcs : s.state.board.cell (forwardStep s player token).src.1
      (forwardStep s player token).src.2 = some t) :
    ((s.heap.tok t).player = 0 ∧
      (forwardStep s player token).dst.2 = (forwardStep s player token).src.2 ∧
      (forwardStep s player token).src.1 < (forwardStep s player token).dst.1) ∨
    ((s.heap.tok t).player = 1 ∧
      (forwardStep s player token).dst.1 = (forwardStep s player token).src.1 ∧
      (forwardStep s player token).src.2 < (forwardStep s player token).dst.2) := by
  have hn2 := hn
  unfold candidate calculatePossibleMove GameState.getBoard at hn2
  obtain ⟨hv, u, hcu, _, _, _, hstep⟩ := getTokenMove_sound _ _ _ _ _ _ hn2
  have hcs1 : s.state.board.cell (s.heap.tok token).position.1 (s.heap.tok token).position.2
      = some t := hcs
  have htu : u = t := by
    have hcu1 : s.state.board.cell (s.heap.tok token).position.1
        (s.heap.tok token).position.2 = some u := hcu
    rw [hcs1] at hcu1
    exact (Option.some.inj hcu1).symm
  subst htu
  have hpl := alignedToken_spec _ _ _ _ _ hal hv hcs1
  show (((s.heap.tok u).player = 0 ∧
      (candidate s player token).2 = (s.heap.tok token).getPosition.2 ∧
      (s.heap.tok token).getPosition.1 < (candidate s player token).1) ∨
    ((s.heap.tok u).player = 1 ∧
      (candidate s player token).1 = (s.heap.tok token).getPosition.1 ∧
      (s.heap.tok token).getPosition.2 < (candidate s player token).2))
  unfold candidate calculatePossibleMove GameState.getBoard
  rcases hnum with p0 | p1
  · left
    rw [p0] at hpl
    have p0' : player.getPlayerNumber = 0 := p0
    simp only [p0', if_true, show ¬ ((0 : Int) = 1) by decide, if_false] at hstep ⊢
    refine ⟨hpl, ?_⟩
    rcases hstep with e | ⟨_, e⟩ | ⟨q1, _⟩
    · rw [e]; simp
    · rw [e]; simp; omega
    · rw [hpl] at q1
      exact absurd q1 (by decide)
  · right
    rw [p1] at hpl
    have p1' : player.getPlayerNumber = 1 := p1
    simp only [p1', if_true, show ¬ ((1 : Int) = 0) by decide, if_false] at hstep ⊢
    refine ⟨hpl, ?_⟩
    rcases hstep with e | ⟨q0, _⟩ | ⟨_, e⟩
    · rw [e]; simp
    · rw [hpl] at q0
      exact absurd q0 (by decide)
    · rw [e]; simp; omega

/-! ## Termination of the search -/

theorem alignedToken_congr (h h1 : Heap) (b : GameBoard) (p : Player) (token : Nat)
    (hs : SamePos h h1) : alignedToken h1 b p token = alignedToken h b p token := by
  have e1 : ∀ q, (h1.tok q).position = (h.tok q).position := fun q => (hs q).1
  have e2 : ∀ q, (h1.tok q).player = (h.tok q).player := fun q => (hs q).2
  simp only [alignedToken, e1, e2]

/-- The reverse raw move after a child frame succeeds: the child left the
grid as it was after the forward move. -/
theorem undo_succeeds (s s2 : Search) (m : MoveStep) (t : Nat) (b1 : GameBoard) (h1 : Heap)
    (hs : s.state.board.isValidPosition m.src.1 m.src.2 = true)
    (hd : s.state.board.isValidPosition m.dst.1 m.dst.2 = true)
    (hcs : s.state.board.cell m.src.1 m.src.2 = some t)
    (hcd : s.state.board.cell m.dst.1 m.dst.2 = none)
    (hm : s.state.board.moveTokenRaw s.heap m.src.1 m.src.2 m.dst.1 m.dst.2 = .ok (b1, h1))
    (hrel : FrameRel (s.pushed m b1 h1) s2) :
    ∃ r3, s2.state.board.moveTokenRaw s2.heap m.dst.1 m.dst.2 m.src.1 m.src.2 = .ok r3 := by
  have hcs1 : s.state.board.board m.src.2.toNat m.src.1.toNat = some t := hcs
  have hcd1 : s.state.board.board m.dst.2.toNat m.dst.1.toNat = none := hcd
  have hne : ¬ (m.dst.2.toNat = m.src.2.toNat ∧ m.dst.1.toNat = m.src.1.toNat) := by
    rintro ⟨e1, e2⟩
    rw [e1, e2, hcs1] at hcd1
    cases hcd1
  rw [moveTokenRaw_ok _ _ _ _ _ _ t hs hcs hd] at hm
  have hpair := Except.ok.inj hm
  have hb1 : b1 = (s.state.board.relocateRaw s.heap m.src.1.toNat m.src.2.toNat m.dst.1.toNat
      m.dst.2.toNat t).1 := by rw [hpair]
  have hb2 : s2.state.board = b1 := by rw [hrel.1]; rfl
  have hv2d : s2.state.board.isValidPosition m.dst.1 m.dst.2 = true := by
    rw [hb2, hb1]
    exact isValidPosition_of_dims _ _ _ _ rfl rfl hd
  have hv2s : s2.state.board.isValidPosition m.src.1 m.src.2 = true := by
    rw [hb2, hb1]
    exact isValidPosition_of_dims _ _ _ _ rfl rfl hs
  have hc2 : s2.state.board.cell m.dst.1 m.dst.2 = some t := by
    rw [hb2, hb1]
    simp [GameBoard.cell, relocateRaw_board, setCell_board, hne]
  exact ⟨_, moveTokenRaw_ok _ _ _ _ _ _ t hv2d hc2 hv2s⟩

theorem tokenLoop_total (n k : Nat)
    (child : Search → Player → Int → Int → Except Fault (Outcome × Search))
    (player : Player) (depth : Int)
    (hrel : ∀ s p d m r, PosInv s.state.board s.heap → child s p d m = .ok r →
      FrameRel s r.2)
    (htot : ∀ (s : Search) (p : Player) (d m : Int), WellFormed n s.heap s.state →
      Aligned s.heap s.state.board p → forwardSum n s.heap s.state < k →
      ∃ r, child s p d m = .ok r)
    (hnum : player.playerNumber = 0 ∨ player.playerNumber = 1) :
    ∀ (tokens : List Nat) (cm : Int) (s : Search), WellFormed n s.heap s.state →
      (∀ token ∈ tokens, alignedToken s.heap s.state.board player token = true) →
      forwardSum n s.heap s.state ≤ k →
      ∃ r, tokenLoop child player depth tokens cm s = .ok r := by
  intro tokens
  induction tokens with
  | nil =>
    intro cm s _ _ _
    exact ⟨_, tokenLoop_nil _ _ _ _ _⟩
  | cons token rest ih =>
    intro cm s hw hal hk
    rw [tokenLoop_cons]
    by_cases hskip : (s.heap.tok token).canMove = false ∨ (candidate s player token).1 = -1
    · rw [if_pos hskip]
      exact ih _ _ hw (fun tk htk => hal tk (List.mem_cons_of_mem _ htk)) hk
    · rw [if_neg hskip]
      have hn : (candidate s player token).1 ≠ -1 := fun e => hskip (Or.inr e)
      obtain ⟨hs, t, hcs, _, hd, hcd⟩ := candidate_sound s player token hn
      have hpos : PosInv s.state.board s.heap := hw.2.2.2.2.1
      have vs := (isValidPosition_iff _ _ _).1 hs
      have vd := (isValidPosition_iff _ _ _).1 hd
      rw [hw.1, hw.2.1] at vs vd
      have hm := moveTokenRaw_ok _ s.heap _ _ _ _ t hs hcs hd
      have geo := candidate_geometry s player token t hnum
        (hal token (List.mem_cons_self _ _)) hn hcs
      have hw1 := wellFormed_relocateRaw n s.heap s.state
        (forwardStep s player token).src.1.toNat (forwardStep s player token).src.2.toNat
        (forwardStep s player token).dst.1.toNat (forwardStep s player token).dst.2.toNat t
        hw vs.2.2.1 vs.2.2.2 vd.2.2.1 vd.2.2.2 hcs hcd
      have hdec := forwardSum_relocateRaw n s.heap s.state
        (forwardStep s player token).src.1.toNat (forwardStep s player token).src.2.toNat
        (forwardStep s player token).dst.1.toNat (forwardStep s player token).dst.2.toNat t
        hw vs.2.2.1 vs.2.2.2 vd.2.2.1 vd.2.2.2 hcs
        (by
          rcases geo with ⟨p0, e, hlt⟩ | ⟨p1, e, hlt⟩
          · left
            exact ⟨p0, by rw [e], by omega⟩
          · right
            exact ⟨p1, by rw [e], by omega⟩)
      rw [hm]
      simp only
      obtain ⟨⟨result, s2⟩, hch⟩ := htot
        (s.pushed (forwardStep s player token)
          (s.state.board.relocateRaw s.heap (forwardStep s player token).src.1.toNat
            (forwardStep s player token).src.2.toNat (forwardStep s player token).dst.1.toNat
            (forwardStep s player token).dst.2.toNat t).1
          (s.state.board.relocateRaw s.heap (forwardStep s player token).src.1.toNat
            (forwardStep s player token).src.2.toNat (forwardStep s player token).dst.1.toNat
            (forwardStep s player token).dst.2.toNat t).2)
        (getOpponent (s.pushed (forwardStep s player token)
          (s.state.board.relocateRaw s.heap (forwardStep s player token).src.1.toNat
            (forwardStep s player token).src.2.toNat (forwardStep s player token).dst.1.toNat
            (forwardStep s player token).dst.2.toNat t).1
          (s.state.board.relocateRaw s.heap (forwardStep s player token).src.1.toNat
            (forwardStep s player token).src.2.toNat (forwardStep s player token).dst.1.toNat
            (forwardStep s player token).dst.2.toNat t).2).state player)
        (depth + 1) cm hw1 (aligned_getOpponent n _ _ _ hw1) (lt_of_lt_of_le hdec hk)
      rw [hch]
      simp only
      have hrel1 := hrel _ _ _ _ _ hw1.2.2.2.2.1 hch
      obtain ⟨⟨b3, h3⟩, hu⟩ := undo_succeeds s s2 (forwardStep s player token) t _ _
        hs hd hcs hcd hm hrel1
      rw [hu]
      simp only
      obtain ⟨cf, pre, hpre⟩ := candidate_frame s s2 (forwardStep s player token) t _ _ b3 h3
        hpos hs hd hcs hcd hm hrel1 hu
      by_cases hcond : result = Outcome.LOSS ∨ s2.hasWon = true
      · rw [if_pos hcond]
        exact ⟨_, rfl⟩
      · rw [if_neg hcond]
        cases hh : s2.history with
        | nil =>
          rw [hh] at hpre
          cases pre <;> simp at hpre
        | cons top popped =>
          simp only
          have hst : ({ s2.undone (forwardStep s player token) b3 h3 with
              history := popped } : Search).state = s.state := cf.1
          have hsp : SamePos s.heap ({ s2.undone (forwardStep s player token) b3 h3 with
              history := popped } : Search).heap := cf.2.1
          refine ih _ _ ?_ ?_ ?_
          · rw [hst]
            exact wellFormed_congr n _ _ _ hw hsp
          · intro tk htk
            rw [hst, alignedToken_congr _ _ _ _ _ hsp]
            exact hal tk (List.mem_cons_of_mem _ htk)
          · rw [hst, forwardSum_congr n _ _ _ hsp]
            exact hk

/-- A frame of `recusionMove` on a well-formed state of an `n × n` board
returns as soon as the recursion may nest deeper than the termination
measure. -/
theorem recusionMove_total (n : Nat) (fuel : Nat) :
    ∀ (s : Search) (player : Player) (depth moveNum : Int),
      WellFormed n s.heap s.state → Aligned s.heap s.state.board player →
      forwardSum n s.heap s.state < fuel →
      ∃ r, recusionMove fuel s player depth moveNum = .ok r := by
  induction fuel with
  | zero =>
    intro s player depth moveNum _ _ hk
    exact absurd hk (Nat.not_lt_zero _)
  | succ k ih =>
    intro s player depth moveNum hw hal hk
    rw [recusionMove_succ]
    by_cases h1 : s.hasWon = true
    · rw [if_pos h1]
      exact ⟨_, rfl⟩
    · rw [if_neg h1]
      by_cases h2 : isWinningState s.heap player = true
      · rw [if_pos h2]
        exact ⟨_, rfl⟩
      · rw [if_neg h2]
        by_cases h3 : isWinningState s.heap (getOpponent s.state player) = true
        · rw [if_pos h3]
          exact ⟨_, rfl⟩
        · rw [if_neg h3]
          exact tokenLoop_total n k (recusionMove k) player depth (recusionMove_rel k) ih hal.1
            player.getTokens 0 s hw hal.2 (Nat.lt_succ_iff.1 hk)

/-! ## The claims about the search -/

theorem startSearch3_wellFormed :
    WellFormed 3 (startSearch 3).heap (startSearch 3).state := by
  decide

theorem startSearch3_aligned :
    Aligned (startSearch 3).heap (startSearch 3).state.board (startState 3).2.player2 := by
  decide

/-- Claim C7.  On a working state whose tokens are stored at their own positions,
a frame of `recusionMove` that returns (with either outcome, latch set or
not) leaves every cell of the board and every token's position as they were
at entry.  The same holds around each candidate: after the raw move, the
recursive call and the reverse raw move, the board and the positions are
those of the frame's entry. -/
theorem C7_board_restored (fuel : Nat) (s : Search) (player : Player) (depth moveNum : Int)
    (hpos : PosInv s.state.board s.heap) :
    (∀ out s1, recusionMove fuel s player depth moveNum = .ok (out, s1) →
      s1.state.board = s.state.board ∧
      ∀ q, (s1.heap.tok q).position = (s.heap.tok q).position) ∧
    (∀ (token : Nat) (cm : Int) (b1 : GameBoard) (h1 : Heap) (result : Outcome) (s2 : Search)
        (b3 : GameBoard) (h3 : Heap),
      (candidate s player token).1 ≠ -1 →
      s.state.board.moveTokenRaw s.heap (forwardStep s player token).src.1
        (forwardStep s player token).src.2 (forwardStep s player token).dst.1
        (forwardStep s player token).dst.2 = .ok (b1, h1) →
      recusionMove fuel (s.pushed (forwardStep s player token) b1 h1)
        (getOpponent (s.pushed (forwardStep s player token) b1 h1).state player)
        (depth + 1) cm = .ok (result, s2) →
      s2.state.board.moveTokenRaw s2.heap (forwardStep s player token).dst.1
        (forwardStep s player token).dst.2 (forwardStep s player token).src.1
        (forwardStep s player token).src.2 = .ok (b3, h3) →
      b3 = s.state.board ∧ ∀ q, (h3.tok q).position = (s.heap.tok q).position) := by
  refine ⟨fun out s1 hret => ?_, ?_⟩
  · have rel := recusionMove_rel fuel s player depth moveNum (out, s1) hpos hret
    exact ⟨by rw [rel.1], fun q => (rel.2.1 q).1⟩
  · intro token cm b1 h1 result s2 b3 h3 hn hm hch hu
    obtain ⟨hs, t, hcs, _, hd, hcd⟩ := candidate_sound s player token hn
    have vs := (isValidPosition_iff _ _ _).1 hs
    have hpos1 : PosInv (s.pushed (forwardStep s player token) b1 h1).state.board
        (s.pushed (forwardStep s player token) b1 h1).heap := by
      have hm2 := hm
      rw [moveTokenRaw_ok _ _ _ _ _ _ t hs hcs hd] at hm2
      have hpair := Except.ok.inj hm2
      show PosInv b1 h1
      have e1 : b1 = (s.state.board.relocateRaw s.heap
          (forwardStep s player token).src.1.toNat (forwardStep s player token).src.2.toNat
          (forwardStep s player token).dst.1.toNat (forwardStep s player token).dst.2.toNat
          t).1 := by rw [hpair]
      have e2 : h1 = (s.state.board.relocateRaw s.heap
          (forwardStep s player token).src.1.toNat (forwardStep s player token).src.2.toNat
          (forwardStep s player token).dst.1.toNat (forwardStep s player token).dst.2.toNat
          t).2 := by rw [hpair]
      rw [e1, e2]
      exact posInv_relocateRaw _ _ _ _ _ _ t hpos vs.2.2.2 vs.2.2.1 hcs hcd
    have hrel := recusionMove_rel fuel _ _ _ _ _ hpos1 hch
    obtain ⟨cf, _⟩ := candidate_frame s s2 (forwardStep s player token) t b1 h1 b3 h3
      hpos hs hd hcs hcd hm hrel hu
    refine ⟨?_, fun q => (cf.2.1 q).1⟩
    have := cf.1
    exact congrArg GameState.board this

/-- The frame of player 1 on the start position of the 3×3 game: the tokens
are stored at their positions, the frame returns, and the conclusion of
`C7_board_restored` holds for it. -/
theorem C7_witness :
    PosInv (startSearch 3).state.board (startSearch 3).heap ∧
    searchSummary (recusionMove 3 (startSearch 3) (startState 3).2.player2 0 1) ≠ none ∧
    ((∀ out s1, recusionMove 3 (startSearch 3) (startState 3).2.player2 0 1 = .ok (out, s1) →
      s1.state.board = (startSearch 3).state.board ∧
      ∀ q, (s1.heap.tok q).position = ((startSearch 3).heap.tok q).position) ∧
    (∀ (token : Nat) (cm : Int) (b1 : GameBoard) (h1 : Heap) (result : Outcome) (s2 : Search)
        (b3 : GameBoard) (h3 : Heap),
      (candidate (startSearch 3) (startState 3).2.player2 token).1 ≠ -1 →
      (startSearch 3).state.board.moveTokenRaw (startSearch 3).heap
        (forwardStep (startSearch 3) (startState 3).2.player2 token).src.1
        (forwardStep (startSearch 3) (startState 3).2.player2 token).src.2
        (forwardStep (startSearch 3) (startState 3).2.player2 token).dst.1
        (forwardStep (startSearch 3) (startState 3).2.player2 token).dst.2 = .ok (b1, h1) →
      recusionMove 3
        ((startSearch 3).pushed (forwardStep (startSearch 3) (startState 3).2.player2 token)
          b1 h1)
        (getOpponent ((startSearch 3).pushed
          (forwardStep (startSearch 3) (startState 3).2.player2 token) b1 h1).state
          (startState 3).2.player2)
        (0 + 1) cm = .ok (result, s2) →
      s2.state.board.moveTokenRaw s2.heap
        (forwardStep (startSearch 3) (startState 3).2.player2 token).dst.1
        (forwardStep (startSearch 3) (startState 3).2.player2 token).dst.2
        (forwardStep (startSearch 3) (startState 3).2.player2 token).src.1
        (forwardStep (startSearch 3) (startState 3).2.player2 token).src.2 = .ok (b3, h3) →
      b3 = (startSearch 3).state.board ∧
      ∀ q, (h3.tok q).position = ((startSearch 3).heap.tok q).position)) :=
  ⟨startSearch3_wellFormed.2.2.2.2.1,
    by rw [startSearch3_summary]; exact Option.some_ne_none _,
    C7_board_restored 3 (startSearch 3) (startState 3).2.player2 0 1
      startSearch3_wellFormed.2.2.2.2.1⟩

/-- Claim C8.  On a well-formed state of an `n × n` board, for a player argument
that fits the state, `recusionMove` returns as soon as frames may nest deeper
than the sum over all tokens of `n - 1` minus the forward coordinate: it is
total, without any depth cutoff.  Every raw move that precedes a recursive
call keeps the state well-formed and strictly decreases that sum. -/
theorem C8_search_terminates (n : Nat) (s : Search) (player : Player) (depth moveNum : Int)
    (hw : WellFormed n s.heap s.state) (hal : Aligned s.heap s.state.board player) :
    (∀ fuel, forwardSum n s.heap s.state < fuel →
      ∃ r, recusionMove fuel s player depth moveNum = .ok r) ∧
    (∀ token ∈ player.tokens, (candidate s player token).1 ≠ -1 →
      ∃ b1 h1, s.state.board.moveTokenRaw s.heap (forwardStep s player token).src.1
          (forwardStep s player token).src.2 (forwardStep s player token).dst.1
          (forwardStep s player token).dst.2 = .ok (b1, h1) ∧
        WellFormed n h1 { s.state with board := b1 } ∧
        forwardSum n h1 { s.state with board := b1 } < forwardSum n s.heap s.state) := by
  refine ⟨fun fuel hk => recusionMove_total n fuel s player depth moveNum hw hal hk, ?_⟩
  intro token htoken hn
  obtain ⟨hs, t, hcs, _, hd, hcd⟩ := candidate_sound s player token hn
  have vs := (isValidPosition_iff _ _ _).1 hs
  have vd := (isValidPosition_iff _ _ _).1 hd
  rw [hw.1, hw.2.1] at vs vd
  have geo := candidate_geometry s player token t hal.1 (hal.2 token htoken) hn hcs
  refine ⟨_, _, moveTokenRaw_ok _ s.heap _ _ _ _ t hs hcs hd, ?_, ?_⟩
  · exact wellFormed_relocateRaw n s.heap s.state _ _ _ _ t hw vs.2.2.1 vs.2.2.2 vd.2.2.1
      vd.2.2.2 hcs hcd
  · refine forwardSum_relocateRaw n s.heap s.state _ _ _ _ t hw vs.2.2.1 vs.2.2.2 vd.2.2.1
      vd.2.2.2 hcs ?_
    rcases geo with ⟨p0, e, hlt⟩ | ⟨p1, e, hlt⟩
    · left
      exact ⟨p0, by rw [e], by omega⟩
    · right
      exact ⟨p1, by rw [e], by omega⟩

/-- The frame of player 1 on the start position of the 3×3 game is
well-formed and aligned, and `C8_search_terminates` applies to it. -/
theorem C8_witness :
    WellFormed 3 (startSearch 3).heap (startSearch 3).state ∧
    Aligned (startSearch 3).heap (startSearch 3).state.board (startState 3).2.player2 ∧
    forwardSum 3 (startSearch 3).heap (startSearch 3).state = 4 ∧
    ((∀ fuel, forwardSum 3 (startSearch 3).heap (startSearch 3).state < fuel →
      ∃ r, recusionMove fuel (startSearch 3) (startState 3).2.player2 0 1 = .ok r) ∧
    (∀ token ∈ (startState 3).2.player2.tokens,
      (candidate (startSearch 3) (startState 3).2.player2 token).1 ≠ -1 →
      ∃ b1 h1, (startSearch 3).state.board.moveTokenRaw (startSearch 3).heap
          (forwardStep (startSearch 3) (startState 3).2.player2 token).src.1
          (forwardStep (startSearch 3) (startState 3).2.player2 token).src.2
          (forwardStep (startSearch 3) (startState 3).2.player2 token).dst.1
          (forwardStep (startSearch 3) (startState 3).2.player2 token).dst.2 = .ok (b1, h1) ∧
        WellFormed 3 h1 { (startSearch 3).state with board := b1 } ∧
        forwardSum 3 h1 { (startSearch 3).state with board := b1 } <
          forwardSum 3 (startSearch 3).heap (startSearch 3).state)) :=
  ⟨startSearch3_wellFormed, startSearch3_aligned, by decide,
    C8_search_terminates 3 (startSearch 3) (startState 3).2.player2 0 1
      startSearch3_wellFormed startSearch3_aligned⟩

/-- Claim C6.  On a well-formed state, a frame of `recusionMove` that may nest
deep enough returns, and what it appended to the replay log is well-nested:
each forward step is closed by its reverse, with well-nested sequences in
between.  On every board that has the occupied cells of the search's board
at entry and stores its tokens at their positions, replaying the appended
steps with `moveTokenRaw` succeeds, finds every source occupied and every
destination empty, and ends on the same grid with every token at its
starting position. -/
theorem C6_replay_log_well_nested (n : Nat) (s : Search) (player : Player)
    (depth moveNum : Int) (fuel : Nat)
    (hw : WellFormed n s.heap s.state) (hal : Aligned s.heap s.state.board player)
    (hk : forwardSum n s.heap s.state < fuel) :
    ∃ out s1 app, recusionMove fuel s player depth moveNum = .ok (out, s1) ∧
      s1.visual = s.visual ++ app ∧ Nested app ∧
      ∀ B H, SameOcc B s.state.board → PosInv B H →
        ∃ H1, replay app (B, H) = .ok (B, H1) ∧ replayClean app (B, H) = true ∧
          ∀ q, (H1.tok q).position = (H.tok q).position := by
  obtain ⟨⟨out, s1⟩, hret⟩ := recusionMove_total n fuel s player depth moveNum hw hal hk
  obtain ⟨_, _, _, _, ⟨app, hvis, hnest, hrep⟩⟩ :=
    recusionMove_rel fuel s player depth moveNum (out, s1) hw.2.2.2.2.1 hret
  refine ⟨out, s1, app, hret, hvis, hnest, fun B H hocc hpos => ?_⟩
  obtain ⟨H1, r1, c1, sp⟩ := hrep B H hocc hpos
  exact ⟨H1, r1, c1, fun q => (sp q).1⟩

set_option maxRecDepth 1000000 in
/-- The replay of `handleAlgoTurn` on the copied board, evaluated for the start
of the 3×3 game and for the 4×4 game `midGame4`: the log of the search is
replayed cleanly and the replay ends on the occupied cells of the live
board. -/
theorem replayOnCopy_examples :
    replayOnCopy 3 (startState 3).1 (startState 3).2 (startState 3).2.player2
      = some (true, true) ∧
    replayOnCopy 7 midGame4.1 midGame4.2 midGame4.2.getCurrentPlayer = some (true, true) := by
  decide

/-- The frame of player 1 on the start position of the 3×3 game meets the
hypotheses of `C6_replay_log_well_nested` with nesting depth five. -/
theorem C6_witness :
    WellFormed 3 (startSearch 3).heap (startSearch 3).state ∧
    Aligned (startSearch 3).heap (startSearch 3).state.board (startState 3).2.player2 ∧
    forwardSum 3 (startSearch 3).heap (startSearch 3).state < 5 ∧
    ∃ out s1 app, recusionMove 5 (startSearch 3) (startState 3).2.player2 0 1 = .ok (out, s1) ∧
      s1.visual = (startSearch 3).visual ++ app ∧ Nested app ∧
      ∀ B H, SameOcc B (startSearch 3).state.board → PosInv B H →
        ∃ H1, replay app (B, H) = .ok (B, H1) ∧ replayClean app (B, H) = true ∧
          ∀ q, (H1.tok q).position = (H.tok q).position :=
  ⟨startSearch3_wellFormed, startSearch3_aligned, by decide,
    C6_replay_log_well_nested 3 (startSearch 3) (startState 3).2.player2 0 1 5
      startSearch3_wellFormed startSearch3_aligned (by decide)⟩

/-! ## More on the relocation performed by `moveToken` -/

theorem relocate_player (b : GameBoard) (h : Heap) (fX fY tX tY t q : Nat) :
    ((b.relocate h fX fY tX tY t).2.tok q).player = (h.tok q).player := by
  rw [relocate_tok]
  have sh := (updateTokenMoveStatus_shape ((b.setCell tY tX (some t)).setCell fY fX none)
    (h.modify t (fun tk => tk.move tX tY)) q).2.1
  rw [modify_tok] at sh
  by_cases hq : q = t
  · subst hq
    simp only [if_true, Token.move, Token.setPosition] at sh
    split
    · simpa [Token.tokenReachedEnd] using sh
    · exact sh
  · simp only [hq, if_false, and_false] at sh ⊢
    exact sh

theorem relocate_reachedEnd (b : GameBoard) (h : Heap) (fX fY tX tY t q : Nat) :
    ((b.relocate h fX fY tX tY t).2.tok q).reachedEnd =
      if q = t then (b.isEdge tX tY || (h.tok t).reachedEnd) else (h.tok q).reachedEnd := by
  rw [relocate_tok]
  have sh := (updateTokenMoveStatus_shape ((b.setCell tY tX (some t)).setCell fY fX none)
    (h.modify t (fun tk => tk.move tX tY)) q).2.2
  rw [modify_tok] at sh
  by_cases hq : q = t
  · subst hq
    simp only [if_true, and_true, Token.move, Token.setPosition] at sh ⊢
    by_cases he : b.isEdge tX tY = true
    · simp [he, Token.tokenReachedEnd]
    · have he2 : b.isEdge tX tY = false := by simpa using he
      simp only [he2, Bool.false_eq_true, if_false, Bool.false_or]
      exact sh
  · simp only [hq, if_false, and_false] at sh ⊢
    exact sh

/-- After `moveToken` the movable flag of every token on the grid is the
value of `canTokenMove` on the new position, except that a moved token that
stands on an edge is immovable. -/
theorem relocate_canMove (b : GameBoard) (h : Heap) (fX fY tX tY t q : Nat)
    (hq : (b.relocate h fX fY tX tY t).1.holds q) (hne : q ≠ t ∨ b.isEdge tX tY = false) :
    ((b.relocate h fX fY tX tY t).2.tok q).canMove =
      (b.relocate h fX fY tX tY t).1.canTokenMove (b.relocate h fX fY tX tY t).2 q := by
  have hc := canTokenMove_congr (b.relocate h fX fY tX tY t).1
    (b.relocate h fX fY tX tY t).2 (h.modify t (fun tk => tk.move tX tY)) q
    (by rw [relocate_position, modify_tok]
        split
        · simp [Token.move, Token.setPosition]
        · rfl)
    (by rw [relocate_player, modify_tok]
        split
        · next hqt => rw [hqt]; simp [Token.move, Token.setPosition]
        · rfl)
  rw [hc, relocate_tok]
  rw [relocate_board] at hq ⊢
  have hcond : ¬ (b.isEdge tX tY = true ∧ q = t) := by
    rintro ⟨he, hqt⟩
    rcases hne with h1 | h1
    · exact h1 hqt
    · rw [he] at h1; cases h1
  simp only [hcond, if_false]
  rw [updateTokenMoveStatus_on _ _ q hq]
  simp [Token.setMovable]

theorem relocate_edge_canMove (b : GameBoard) (h : Heap) (fX fY tX tY t : Nat)
    (he : b.isEdge tX tY = true) :
    ((b.relocate h fX fY tX tY t).2.tok t).canMove = false := by
  rw [relocate_tok]
  simp [he, Token.tokenReachedEnd]

theorem relocate_next (b : GameBoard) (h : Heap) (fX fY tX tY t : Nat) :
    (b.relocate h fX fY tX tY t).2.next = h.next := by
  simp only [GameBoard.relocate]
  split <;> simp [modify_next, updateTokenMoveStatus_next]

theorem isEdge_iff (b : GameBoard) (x y : Nat) :
    b.isEdge x y = true ↔ (x = 0 ∨ x = b.Width - 1 ∨ y = 0 ∨ y = b.Height - 1) := by
  simp [GameBoard.isEdge, or_assoc]

/-- The token moved to a cell of the grid other than its source is on the
grid afterwards. -/
theorem holds_moved (b : GameBoard) (fX fY tX tY t : Nat) (hx : tX < b.Width)
    (hy : tY < b.Height) (hne : ¬ (tY = fY ∧ tX = fX)) :
    ((b.setCell tY tX (some t)).setCell fY fX none).holds t :=
  ⟨tY, tX, hy, hx, by simp [setCell_board, hne]⟩

/-- The validated and the raw relocation differ at most in the reached-end
mark of the moved token, which the raw one clears and the validated one
keeps when the destination is not on an edge. -/
theorem relocate_vs_raw (b : GameBoard) (h : Heap) (fX fY tX tY t : Nat) (hx : tX < b.Width)
    (hy : tY < b.Height) (hne : ¬ (tY = fY ∧ tX = fX)) (q : Nat) :
    (b.relocate h fX fY tX tY t).2.tok q =
      if q = t ∧ b.isEdge tX tY = false then
        { (b.relocateRaw h fX fY tX tY t).2.tok q with reachedEnd := (h.tok t).reachedEnd }
      else (b.relocateRaw h fX fY tX tY t).2.tok q := by
  have ht := holds_moved b fX fY tX tY t hx hy hne
  rw [relocate_tok, relocateRaw_tok]
  by_cases hq : q = t
  · subst hq
    rw [updateTokenMoveStatus_on _ _ q ht, updateTokenMoveStatus_on _ _ q ht]
    have hc := canTokenMove_congr ((b.setCell tY tX (some q)).setCell fY fX none)
      (h.modify q (fun tk => tk.move tX tY))
      ((h.modify q (fun tk => tk.move tX tY)).modify q Token.undoReachedEnd) q
      (by rw [rawStage_tok]; simp [modify_tok, Token.move, Token.setPosition])
      (by rw [rawStage_tok]; simp [modify_tok, Token.move, Token.setPosition])
    rw [hc, rawStage_tok]
    by_cases he : b.isEdge tX tY = true
    · simp [he, modify_tok, Token.tokenReachedEnd, Token.setMovable, Token.move,
        Token.setPosition]
    · have he2 : b.isEdge tX tY = false := by simpa using he
      simp [he2, modify_tok, Token.setMovable, Token.move, Token.setPosition]
  · simp only [hq, and_false, false_and, if_false]
    by_cases hh : ((b.setCell tY tX (some t)).setCell fY fX none).holds q
    · rw [updateTokenMoveStatus_on _ _ q hh, updateTokenMoveStatus_on _ _ q hh]
      have hc := canTokenMove_congr ((b.setCell tY tX (some t)).setCell fY fX none)
        (h.modify t (fun tk => tk.move tX tY))
        ((h.modify t (fun tk => tk.move tX tY)).modify t Token.undoReachedEnd) q
        (by rw [rawStage_tok]; simp [modify_tok, hq])
        (by rw [rawStage_tok]; simp [modify_tok, hq])
      rw [hc, rawStage_tok]
      simp [modify_tok, hq]
    · rw [updateTokenMoveStatus_off _ _ q hh, updateTokenMoveStatus_off _ _ q hh, rawStage_tok]
      simp [modify_tok, hq]

/-! ## The flag refresh of both moves -/

theorem relocateRaw_refresh (b : GameBoard) (h : Heap) (fX fY tX tY t u : Nat)
    (hu : (b.relocateRaw h fX fY tX tY t).1.holds u) :
    ((b.relocateRaw h fX fY tX tY t).2.tok u).canMove =
      if u = t ∧ b.isEdge tX tY = true then false
      else (b.relocateRaw h fX fY tX tY t).1.canTokenMove (b.relocateRaw h fX fY tX tY t).2 u := by
  by_cases hc : u = t ∧ b.isEdge tX tY = true
  · rw [if_pos hc, hc.1]
    exact relocateRaw_edge_canMove b h fX fY tX tY t hc.2
  · rw [if_neg hc]
    refine relocateRaw_canMove b h fX fY tX tY t u hu ?_
    by_cases hq : u = t
    · right
      simpa [hq] using hc
    · exact Or.inl hq

theorem relocate_refresh (b : GameBoard) (h : Heap) (fX fY tX tY t u : Nat)
    (hu : (b.relocate h fX fY tX tY t).1.holds u) :
    ((b.relocate h fX fY tX tY t).2.tok u).canMove =
      if u = t ∧ b.isEdge tX tY = true then false
      else (b.relocate h fX fY tX tY t).1.canTokenMove (b.relocate h fX fY tX tY t).2 u := by
  by_cases hc : u = t ∧ b.isEdge tX tY = true
  · rw [if_pos hc, hc.1]
    exact relocate_edge_canMove b h fX fY tX tY t hc.2
  · rw [if_neg hc]
    refine relocate_canMove b h fX fY tX tY t u hu ?_
    by_cases hq : u = t
    · right
      simpa [hq] using hc
    · exact Or.inl hq

/-- The edge test in `int` coordinates of a cell of the grid. -/
theorem isEdge_int (b : GameBoard) (x y : Int) (hv : b.isValidPosition x y = true) :
    b.isEdge x.toNat y.toNat = true ↔
      (x = 0 ∨ x = (b.Width : Int) - 1 ∨ y = 0 ∨ y = (b.Height : Int) - 1) := by
  have v := (isValidPosition_iff b x y).1 hv
  rw [isEdge_iff]
  omega

/-- A successful `moveToken` had both cells in bounds and a movable token on
the source, and relocated that token to a cell of the grid. -/
theorem moveToken_ok_inv (b : GameBoard) (h : Heap) (fromX fromY toX toY : Int)
    (b1 : GameBoard) (h1 : Heap) (hok : b.moveToken h fromX fromY toX toY = .ok (b1, h1)) :
    b.isValidPosition fromX fromY = true ∧ b.isValidPosition toX toY = true ∧
    ∃ t, b.cell fromX fromY = some t ∧ (h.tok t).canMove = true ∧
      ∃ tX tY, tX < b.Width ∧ tY < b.Height ∧
        (b1, h1) = b.relocate h fromX.toNat fromY.toNat tX tY t ∧
        ((tX = toX.toNat ∧ tY = toY.toNat ∧
            (b.cell toX toY = none ∨ ((h.tok t).player ≠ 0 ∧ (h.tok t).player ≠ 1))) ∨
         ((h.tok t).player = 0 ∧ b.cell toX toY ≠ none ∧ tX = toX.toNat + 1 ∧ tY = toY.toNat ∧
            b.cell (toX + 1) toY = none) ∨
         ((h.tok t).player = 1 ∧ b.cell toX toY ≠ none ∧ tX = toX.toNat ∧ tY = toY.toNat + 1 ∧
            b.cell toX (toY + 1) = none)) := by
  by_cases hf : b.isValidPosition fromX fromY = true
  swap
  · have hf2 : b.isValidPosition fromX fromY = false := by simpa using hf
    simp [GameBoard.moveToken, hf2] at hok
  by_cases ht : b.isValidPosition toX toY = true
  swap
  · have ht2 : b.isValidPosition toX toY = false := by simpa using ht
    simp [GameBoard.moveToken, ht2] at hok
  have vt := (isValidPosition_iff b toX toY).1 ht
  refine ⟨hf, ht, ?_⟩
  cases hc : b.cell fromX fromY with
  | none =>
    have hc1 : b.board fromY.toNat fromX.toNat = none := hc
    simp [GameBoard.moveToken, hf, ht, hc1] at hok
  | some t =>
    have hc1 : b.board fromY.toNat fromX.toNat = some t := hc
    by_cases hm : (h.tok t).canMove = true
    swap
    · have hm2 : (h.tok t).canMove = false := by simpa using hm
      simp [GameBoard.moveToken, hf, ht, hc1, Token.isMovable, hm2] at hok
    refine ⟨t, rfl, hm, ?_⟩
    rw [moveToken_of_token b h fromX fromY toX toY t hf ht hc hm] at hok
    by_cases hto : b.cell toX toY = none
    · rw [if_pos hto] at hok
      exact ⟨toX.toNat, toY.toNat, vt.2.2.1, vt.2.2.2, (Except.ok.inj hok).symm,
        Or.inl ⟨rfl, rfl, Or.inl hto⟩⟩
    · rw [if_neg hto] at hok
      by_cases p0 : (h.tok t).player = 0
      · rw [if_pos p0] at hok
        by_cases hj : toX.toNat + 1 < b.Width ∧ b.cell (toX + 1) toY = none
        · rw [if_pos hj] at hok
          exact ⟨toX.toNat + 1, toY.toNat, hj.1, vt.2.2.2, (Except.ok.inj hok).symm,
            Or.inr (Or.inl ⟨p0, hto, rfl, rfl, hj.2⟩)⟩
        · rw [if_neg hj] at hok
          cases hok
      · rw [if_neg p0] at hok
        by_cases p1 : (h.tok t).player = 1
        · rw [if_pos p1] at hok
          by_cases hj : toY.toNat + 1 < b.Height ∧ b.cell toX (toY + 1) = none
          · rw [if_pos hj] at hok
            exact ⟨toX.toNat, toY.toNat + 1, vt.2.2.1, hj.1, (Except.ok.inj hok).symm,
              Or.inr (Or.inr ⟨p1, hto, rfl, rfl, hj.2⟩)⟩
          · rw [if_neg hj] at hok
            cases hok
        · rw [if_neg p1] at hok
          exact ⟨toX.toNat, toY.toNat, vt.2.2.1, vt.2.2.2, (Except.ok.inj hok).symm,
            Or.inl ⟨rfl, rfl, Or.inr ⟨p0, p1⟩⟩⟩

/-! ## Claims on the two moves of the board -/

/-- Claim C15.  Postcondition of `moveTokenRaw`: with a token `t` on the
in-bounds cell `from` and an empty in-bounds cell `to`, the call succeeds;
afterwards `from` is empty, `to` holds `t`, the position of `t` is `to`,
every other cell and the dimensions are as before, the reached-end mark of
`t` is set exactly when `to` is an edge cell, and `t` is then immovable. -/
theorem C15_moveTokenRaw_postcondition (b : GameBoard) (h : Heap) (fromX fromY toX toY : Int)
    (t : Nat) (hf : b.isValidPosition fromX fromY = true) (hc : b.cell fromX fromY = some t)
    (ht : b.isValidPosition toX toY = true) (he : b.cell toX toY = none) :
    ∃ b1 h1, b.moveTokenRaw h fromX fromY toX toY = .ok (b1, h1) ∧
      b1.cell fromX fromY = none ∧ b1.cell toX toY = some t ∧
      (h1.tok t).position = (toX, toY) ∧
      b1.Width = b.Width ∧ b1.Height = b.Height ∧
      (∀ r c, ¬ (r = fromY.toNat ∧ c = fromX.toNat) → ¬ (r = toY.toNat ∧ c = toX.toNat) →
        b1.board r c = b.board r c) ∧
      ((h1.tok t).reachedEnd = true ↔
        (toX = 0 ∨ toX = (b.Width : Int) - 1 ∨ toY = 0 ∨ toY = (b.Height : Int) - 1)) ∧
      ((h1.tok t).reachedEnd = true → (h1.tok t).canMove = false) := by
  have vt := (isValidPosition_iff b toX toY).1 ht
  have hc1 : b.board fromY.toNat fromX.toNat = some t := hc
  have he1 : b.board toY.toNat toX.toNat = none := he
  have hne : ¬ (toY.toNat = fromY.toNat ∧ toX.toNat = fromX.toNat) := by
    rintro ⟨e1, e2⟩
    rw [e1, e2, hc1] at he1
    cases he1
  refine ⟨(b.relocateRaw h fromX.toNat fromY.toNat toX.toNat toY.toNat t).1,
    (b.relocateRaw h fromX.toNat fromY.toNat toX.toNat toY.toNat t).2,
    moveTokenRaw_ok b h fromX fromY toX toY t hf hc ht, ?_, ?_, ?_, rfl, rfl, ?_, ?_, ?_⟩
  · simp [GameBoard.cell, relocateRaw_board, setCell_board]
  · simp [GameBoard.cell, relocateRaw_board, setCell_board, hne]
  · rw [relocateRaw_position, if_pos rfl]
    exact toNat_cast_pair toX toY vt.1 vt.2.1
  · intro r c h1 h2
    simp [relocateRaw_board, setCell_board, h1, h2]
  · rw [relocateRaw_reachedEnd, if_pos rfl]
    exact isEdge_int b toX toY ht
  · rw [relocateRaw_reachedEnd, if_pos rfl]
    exact relocateRaw_edge_canMove b h _ _ _ _ t

/-- On the 3×3 start position the raw move `(0,1) → (1,1)` satisfies the
postcondition of claim C15. -/
theorem C15_witness :
    ∃ b1 h1, (startState 3).2.board.moveTokenRaw (startState 3).1 0 1 1 1 = .ok (b1, h1) ∧
      b1.cell 0 1 = none ∧ b1.cell 1 1 = some 0 ∧
      (h1.tok 0).position = (1, 1) ∧
      b1.Width = (startState 3).2.board.Width ∧ b1.Height = (startState 3).2.board.Height ∧
      (∀ r c, ¬ (r = (1 : Int).toNat ∧ c = (0 : Int).toNat) →
        ¬ (r = (1 : Int).toNat ∧ c = (1 : Int).toNat) →
        b1.board r c = (startState 3).2.board.board r c) ∧
      ((h1.tok 0).reachedEnd = true ↔
        ((1 : Int) = 0 ∨ (1 : Int) = ((startState 3).2.board.Width : Int) - 1 ∨ (1 : Int) = 0 ∨
          (1 : Int) = ((startState 3).2.board.Height : Int) - 1)) ∧
      ((h1.tok 0).reachedEnd = true → (h1.tok 0).canMove = false) :=
  C15_moveTokenRaw_postcondition (startState 3).2.board (startState 3).1 0 1 1 1 0
    (by decide) (by decide) (by decide) (by decide)

/-- Claim C19.  Global movability refresh.  After `moveTokenRaw(from, to)` to
an empty in-bounds cell, and after every successful `moveToken(from, to)`
(direct or by a jump), every token on the grid other than the moved one has
its movable flag equal to `canTokenMove` on the board after the move; the
flag of the moved token equals `canTokenMove` as well unless the moved token
stands on an edge cell, in which case it is false. -/
theorem C19_movability_refresh (b : GameBoard) (h : Heap) (fromX fromY toX toY : Int) (t : Nat)
    (hf : b.isValidPosition fromX fromY = true) (hc : b.cell fromX fromY = some t)
    (hp : (h.tok t).player = 0 ∨ (h.tok t).player = 1) :
    (b.isValidPosition toX toY = true → b.cell toX toY = none →
      ∃ b1 h1, b.moveTokenRaw h fromX fromY toX toY = .ok (b1, h1) ∧ b1.holds t ∧
        (h1.tok t).position = (toX, toY) ∧
        ∀ u, b1.holds u →
          (h1.tok u).canMove =
            if u = t ∧ (toX = 0 ∨ toX = (b.Width : Int) - 1 ∨ toY = 0 ∨
                toY = (b.Height : Int) - 1) then false
            else b1.canTokenMove h1 u) ∧
    (∀ b1 h1, b.moveToken h fromX fromY toX toY = .ok (b1, h1) →
      b1.holds t ∧
      ∀ u, b1.holds u →
        (h1.tok u).canMove =
          if u = t ∧ ((h1.tok t).position.1 = 0 ∨ (h1.tok t).position.1 = (b.Width : Int) - 1 ∨
              (h1.tok t).position.2 = 0 ∨ (h1.tok t).position.2 = (b.Height : Int) - 1) then false
          else b1.canTokenMove h1 u) := by
  have hc1 : b.board fromY.toNat fromX.toNat = some t := hc
  refine ⟨fun ht he => ?_, fun b1 h1 hok => ?_⟩
  · have vt := (isValidPosition_iff b toX toY).1 ht
    have he1 : b.board toY.toNat toX.toNat = none := he
    have hne : ¬ (toY.toNat = fromY.toNat ∧ toX.toNat = fromX.toNat) := by
      rintro ⟨e1, e2⟩
      rw [e1, e2, hc1] at he1
      cases he1
    refine ⟨(b.relocateRaw h fromX.toNat fromY.toNat toX.toNat toY.toNat t).1,
      (b.relocateRaw h fromX.toNat fromY.toNat toX.toNat toY.toNat t).2,
      moveTokenRaw_ok b h fromX fromY toX toY t hf hc ht, ?_, ?_, ?_⟩
    · rw [relocateRaw_board]
      exact holds_moved b _ _ _ _ t vt.2.2.1 vt.2.2.2 hne
    · rw [relocateRaw_position, if_pos rfl]
      exact toNat_cast_pair toX toY vt.1 vt.2.1
    · intro u hu
      rw [relocateRaw_refresh b h _ _ _ _ t u hu]
      have e := isEdge_int b toX toY ht
      by_cases hcond : u = t ∧ b.isEdge toX.toNat toY.toNat = true
      · rw [if_pos hcond, if_pos ⟨hcond.1, e.1 hcond.2⟩]
      · rw [if_neg hcond, if_neg (fun hh => hcond ⟨hh.1, e.2 hh.2⟩)]
  · obtain ⟨_, ht, t1, hc2, _, tX, tY, hx, hy, hr, hland⟩ :=
      moveToken_ok_inv b h fromX fromY toX toY b1 h1 hok
    have ht1 : t1 = t := by
      rw [hc] at hc2
      exact (Option.some.inj hc2).symm
    subst ht1
    have e1 : b1 = (b.relocate h fromX.toNat fromY.toNat tX tY t1).1 := by rw [← hr]
    have e2 : h1 = (b.relocate h fromX.toNat fromY.toNat tX tY t1).2 := by rw [← hr]
    have vt := (isValidPosition_iff b toX toY).1 ht
    have vf := (isValidPosition_iff b fromX fromY).1 hf
    have hne : ¬ (tY = fromY.toNat ∧ tX = fromX.toNat) := by
      rintro ⟨e3, e4⟩
      rcases hland with ⟨h3, h4, hto | hto⟩ | ⟨_, _, h3, h4, hj⟩ | ⟨_, _, h3, h4, hj⟩
      · have : b.board toY.toNat toX.toNat = none := hto
        rw [← h3, ← h4, e3, e4, hc1] at this
        cases this
      · rcases hp with hp | hp
        · exact hto.1 hp
        · exact hto.2 hp
      · have hj1 : b.board toY.toNat (toX + 1).toNat = none := hj
        have hx1 : (toX + 1).toNat = toX.toNat + 1 := by omega
        rw [hx1, ← h3, ← h4, e3, e4, hc1] at hj1
        cases hj1
      · have hj1 : b.board (toY + 1).toNat toX.toNat = none := hj
        have hy1 : (toY + 1).toNat = toY.toNat + 1 := by omega
        rw [hy1, ← h3, ← h4, e3, e4, hc1] at hj1
        cases hj1
    have hpos : (h1.tok t1).position = ((tX : Int), (tY : Int)) := by
      rw [e2, relocate_position, if_pos rfl]
    have hedge : b.isEdge tX tY = true ↔
        ((h1.tok t1).position.1 = 0 ∨ (h1.tok t1).position.1 = (b.Width : Int) - 1 ∨
          (h1.tok t1).position.2 = 0 ∨ (h1.tok t1).position.2 = (b.Height : Int) - 1) := by
      rw [hpos, isEdge_iff]
      simp only
      omega
    refine ⟨?_, ?_⟩
    · rw [e1, relocate_board]
      exact holds_moved b _ _ _ _ t1 hx hy hne
    · intro u hu
      rw [e1] at hu
      have key := relocate_refresh b h _ _ _ _ t1 u hu
      rw [← e1, ← e2] at key
      rw [key]
      by_cases hcond : u = t1 ∧ b.isEdge tX tY = true
      · rw [if_pos hcond, if_pos ⟨hcond.1, hedge.1 hcond.2⟩]
      · rw [if_neg hcond, if_neg (fun hh => hcond ⟨hh.1, hedge.2 hh.2⟩)]

/-- On the 3×3 board with a player-0 token on `(0,1)` and a blocker on
`(1,1)`, claim C19 holds for the raw move `(0,1) → (2,1)` and for the
validated jump requested as `(0,1) → (1,1)`. -/
theorem C19_witness :
    (∃ b1 h1, jumpBoard.moveTokenRaw jumpHeap 0 1 2 1 = .ok (b1, h1) ∧ b1.holds 0 ∧
        (h1.tok 0).position = (2, 1) ∧
        ∀ u, b1.holds u →
          (h1.tok u).canMove =
            if u = 0 ∧ ((2 : Int) = 0 ∨ (2 : Int) = (jumpBoard.Width : Int) - 1 ∨ (1 : Int) = 0 ∨
                (1 : Int) = (jumpBoard.Height : Int) - 1) then false
            else b1.canTokenMove h1 u) ∧
    (∀ b1 h1, jumpBoard.moveToken jumpHeap 0 1 1 1 = .ok (b1, h1) →
      b1.holds 0 ∧
      ∀ u, b1.holds u →
        (h1.tok u).canMove =
          if u = 0 ∧ ((h1.tok 0).position.1 = 0 ∨
              (h1.tok 0).position.1 = (jumpBoard.Width : Int) - 1 ∨
              (h1.tok 0).position.2 = 0 ∨
              (h1.tok 0).position.2 = (jumpBoard.Height : Int) - 1) then false
          else b1.canTokenMove h1 u) :=
  ⟨(C19_movability_refresh jumpBoard jumpHeap 0 1 2 1 0 (by decide) (by decide)
      (by decide)).1 (by decide) (by decide),
   (C19_movability_refresh jumpBoard jumpHeap 0 1 1 1 0 (by decide) (by decide)
      (by decide)).2⟩

/-- Structure `Heap` is determined by its tokens and its next address. -/
theorem heap_ext (h1 h2 : Heap) (ht : ∀ q, h1.tok q = h2.tok q) (hn : h1.next = h2.next) :
    h1 = h2 := by
  cases h1 with
  | mk t1 n1 =>
    cases h2 with
    | mk t2 n2 =>
      have : t1 = t2 := funext ht
      simp only at hn
      subst this
      subst hn
      rfl

/-- Claim C16, refuted as stated.  On the 3×3 board on which the search has
tried and undone one move of each player, the player-0 token on `(0,1)` is
movable and carries the reached-end mark; `(1,1)` is empty.  After
`moveToken((0,1),(1,1))` the token keeps the mark, after
`moveTokenRaw((0,1),(1,1))` the mark is cleared. -/
theorem C16_counterexample :
    undone3.1.isValidPosition 0 1 = true ∧ undone3.1.cell 0 1 = some 0 ∧
    (undone3.2.tok 0).canMove = true ∧ (undone3.2.tok 0).reachedEnd = true ∧
    undone3.1.isValidPosition 1 1 = true ∧ undone3.1.cell 1 1 = none ∧
    tokenView (heapOf (undone3.1.moveToken undone3.2 0 1 1 1)) 0 =
      some ((1, 1), 0, true, true) ∧
    tokenView (heapOf (undone3.1.moveTokenRaw undone3.2 0 1 1 1)) 0 =
      some ((1, 1), 0, true, false) := by
  decide

/-- Claim C16, amended.  For a movable token `t` on the in-bounds cell `from`
and an empty in-bounds cell `to`, `moveToken(from, to)` and
`moveTokenRaw(from, to)` both succeed and produce the same grid and, for
every token, the same position, owner and movable flag, and the same
reached-end mark for every token other than `t`.  The mark of `t` agrees
exactly when it was unset before the call or `to` is an edge cell, and then
the two resulting states are identical; otherwise `moveTokenRaw` clears it
and `moveToken` keeps it. -/
theorem C16_validated_vs_raw (b : GameBoard) (h : Heap) (fromX fromY toX toY : Int) (t : Nat)
    (hf : b.isValidPosition fromX fromY = true) (hc : b.cell fromX fromY = some t)
    (hm : (h.tok t).canMove = true)
    (ht : b.isValidPosition toX toY = true) (he : b.cell toX toY = none) :
    ∃ b1 hv hr, b.moveToken h fromX fromY toX toY = .ok (b1, hv) ∧
      b.moveTokenRaw h fromX fromY toX toY = .ok (b1, hr) ∧
      (∀ q, (hv.tok q).position = (hr.tok q).position ∧ (hv.tok q).player = (hr.tok q).player ∧
        (hv.tok q).canMove = (hr.tok q).canMove) ∧
      (∀ q, q ≠ t → (hv.tok q).reachedEnd = (hr.tok q).reachedEnd) ∧
      ((hv.tok t).reachedEnd = (hr.tok t).reachedEnd ↔
        ((h.tok t).reachedEnd = false ∨
          (toX = 0 ∨ toX = (b.Width : Int) - 1 ∨ toY = 0 ∨ toY = (b.Height : Int) - 1))) ∧
      (((h.tok t).reachedEnd = false ∨
          (toX = 0 ∨ toX = (b.Width : Int) - 1 ∨ toY = 0 ∨ toY = (b.Height : Int) - 1)) →
        hv = hr) ∧
      (¬ ((h.tok t).reachedEnd = false ∨
          (toX = 0 ∨ toX = (b.Width : Int) - 1 ∨ toY = 0 ∨ toY = (b.Height : Int) - 1)) →
        (hv.tok t).reachedEnd = true ∧ (hr.tok t).reachedEnd = false) := by
  have vt := (isValidPosition_iff b toX toY).1 ht
  have hc1 : b.board fromY.toNat fromX.toNat = some t := hc
  have he1 : b.board toY.toNat toX.toNat = none := he
  have hne : ¬ (toY.toNat = fromY.toNat ∧ toX.toNat = fromX.toNat) := by
    rintro ⟨e1, e2⟩
    rw [e1, e2, hc1] at he1
    cases he1
  have hedge := isEdge_int b toX toY ht
  have hmv : b.moveToken h fromX fromY toX toY =
      .ok (b.relocate h fromX.toNat fromY.toNat toX.toNat toY.toNat t) := by
    rw [moveToken_of_token b h fromX fromY toX toY t hf ht hc hm, if_pos he]
  have key := relocate_vs_raw b h fromX.toNat fromY.toNat toX.toNat toY.toNat t vt.2.2.1
    vt.2.2.2 hne
  have hre : ((b.relocate h fromX.toNat fromY.toNat toX.toNat toY.toNat t).2.tok t).reachedEnd =
      (b.isEdge toX.toNat toY.toNat || (h.tok t).reachedEnd) := by
    rw [relocate_reachedEnd, if_pos rfl]
  have hrr : ((b.relocateRaw h fromX.toNat fromY.toNat toX.toNat toY.toNat t).2.tok t).reachedEnd =
      b.isEdge toX.toNat toY.toNat := by
    rw [relocateRaw_reachedEnd, if_pos rfl]
  refine ⟨(b.relocate h fromX.toNat fromY.toNat toX.toNat toY.toNat t).1,
    (b.relocate h fromX.toNat fromY.toNat toX.toNat toY.toNat t).2,
    (b.relocateRaw h fromX.toNat fromY.toNat toX.toNat toY.toNat t).2, hmv,
    moveTokenRaw_ok b h fromX fromY toX toY t hf hc ht, ?_, ?_, ?_, ?_, ?_⟩
  · intro q
    rw [key q]
    split <;> simp
  · intro q hq
    rw [key q]
    simp [hq]
  · rw [hre, hrr, ← hedge]
    cases b.isEdge toX.toNat toY.toNat <;> cases (h.tok t).reachedEnd <;> simp
  · intro hcond
    rw [← hedge] at hcond
    refine heap_ext _ _ (fun q => ?_) (by rw [relocate_next, relocateRaw_next])
    rw [key q]
    by_cases hq : q = t ∧ b.isEdge toX.toNat toY.toNat = false
    · rw [if_pos hq]
      rcases hcond with hcond | hcond
      · have := hrr
        rw [hq.2] at this
        rw [hq.1, hcond, ← this]
      · rw [hq.2] at hcond
        cases hcond
    · rw [if_neg hq]
  · intro hcond
    rw [← hedge] at hcond
    rw [hre, hrr]
    cases hb : b.isEdge toX.toNat toY.toNat <;> cases hr : (h.tok t).reachedEnd <;>
      simp [hb, hr] at hcond ⊢

/-- On the 3×3 start position claim C16 (amended) applies to the move
`(0,1) → (1,1)`. -/
theorem C16_witness :
    ∃ b1 hv hr, (startState 3).2.board.moveToken (startState 3).1 0 1 1 1 = .ok (b1, hv) ∧
      (startState 3).2.board.moveTokenRaw (startState 3).1 0 1 1 1 = .ok (b1, hr) ∧
      (∀ q, (hv.tok q).position = (hr.tok q).position ∧ (hv.tok q).player = (hr.tok q).player ∧
        (hv.tok q).canMove = (hr.tok q).canMove) ∧
      (∀ q, q ≠ 0 → (hv.tok q).reachedEnd = (hr.tok q).reachedEnd) ∧
      ((hv.tok 0).reachedEnd = (hr.tok 0).reachedEnd ↔
        (((startState 3).1.tok 0).reachedEnd = false ∨
          ((1 : Int) = 0 ∨ (1 : Int) = ((startState 3).2.board.Width : Int) - 1 ∨ (1 : Int) = 0 ∨
            (1 : Int) = ((startState 3).2.board.Height : Int) - 1))) ∧
      ((((startState 3).1.tok 0).reachedEnd = false ∨
          ((1 : Int) = 0 ∨ (1 : Int) = ((startState 3).2.board.Width : Int) - 1 ∨ (1 : Int) = 0 ∨
            (1 : Int) = ((startState 3).2.board.Height : Int) - 1)) →
        hv = hr) ∧
      (¬ (((startState 3).1.tok 0).reachedEnd = false ∨
          ((1 : Int) = 0 ∨ (1 : Int) = ((startState 3).2.board.Width : Int) - 1 ∨ (1 : Int) = 0 ∨
            (1 : Int) = ((startState 3).2.board.Height : Int) - 1)) →
        (hv.tok 0).reachedEnd = true ∧ (hr.tok 0).reachedEnd = false) :=
  C16_validated_vs_raw (startState 3).2.board (startState 3).1 0 1 1 1 0
    (by decide) (by decide) (by decide) (by decide) (by decide)

/-- Function `canTokenMove` for a token of player 0 that stands on the grid. -/
theorem canTokenMove_player0 (b : GameBoard) (h : Heap) (t : Nat) (x y : Int)
    (hpos : (h.tok t).position = (x, y)) (hv : b.isValidPosition x y = true)
    (p0 : (h.tok t).player = 0) :
    b.canTokenMove h t =
      if b.isValidPosition (x + 1) y = false then false
      else if b.cell (x + 1) y = none then true
      else if (x + 2).toNat < b.Width then (b.cell (x + 2) y).isNone
      else false := by
  by_cases hv1 : b.isValidPosition (x + 1) y = true
  · by_cases hn : b.cell (x + 1) y = none
    · simp [GameBoard.canTokenMove, Token.getPosition, Token.getPlayer, hpos, hv, p0, hv1, hn]
    · by_cases hj : (x + 2).toNat < b.Width
      · simp [GameBoard.canTokenMove, Token.getPosition, Token.getPlayer, hpos, hv, p0, hv1, hn,
          hj, Option.isNone_iff_eq_none]
      · simp [GameBoard.canTokenMove, Token.getPosition, Token.getPlayer, hpos, hv, p0, hv1, hn,
          hj, Option.isNone_iff_eq_none]
  · have hv2 : b.isValidPosition (x + 1) y = false := by simpa using hv1
    simp [GameBoard.canTokenMove, Token.getPosition, Token.getPlayer, hpos, hv, p0, hv2]

/-- Function `canTokenMove` for a token of player 1 that stands on the grid. -/
theorem canTokenMove_player1 (b : GameBoard) (h : Heap) (t : Nat) (x y : Int)
    (hpos : (h.tok t).position = (x, y)) (hv : b.isValidPosition x y = true)
    (p1 : (h.tok t).player = 1) :
    b.canTokenMove h t =
      if b.isValidPosition x (y + 1) = false then false
      else if b.cell x (y + 1) = none then true
      else if (y + 2).toNat < b.Height then (b.cell x (y + 2)).isNone
      else false := by
  by_cases hv1 : b.isValidPosition x (y + 1) = true
  · by_cases hn : b.cell x (y + 1) = none
    · simp [GameBoard.canTokenMove, Token.getPosition, Token.getPlayer, hpos, hv, p1, hv1, hn]
    · by_cases hj : (y + 2).toNat < b.Height
      · simp [GameBoard.canTokenMove, Token.getPosition, Token.getPlayer, hpos, hv, p1, hv1, hn,
          hj, Option.isNone_iff_eq_none]
      · simp [GameBoard.canTokenMove, Token.getPosition, Token.getPlayer, hpos, hv, p1, hv1, hn,
          hj, Option.isNone_iff_eq_none]
  · have hv2 : b.isValidPosition x (y + 1) = false := by simpa using hv1
    simp [GameBoard.canTokenMove, Token.getPosition, Token.getPlayer, hpos, hv, p1, hv2]

/-- Claim C18.  For a token of player 0 or 1 that is stored in the grid cell
at its own position `(x, y)` and whose movable flag is true, `canTokenMove`
is true exactly when `getTokenMove` asked for the forward neighbour
(`(x+1, y)` for player 0, `(x, y+1)` for player 1) answers something other
than `(-1, -1)`. -/
theorem C18_canTokenMove_iff_getTokenMove (b : GameBoard) (h : Heap) (t : Nat) (x y : Int)
    (hpos : (h.tok t).position = (x, y)) (hv : b.isValidPosition x y = true)
    (hc : b.cell x y = some t) (hm : (h.tok t).canMove = true) :
    ((h.tok t).player = 0 →
      (b.canTokenMove h t = true ↔ b.getTokenMove h x y (x + 1) y ≠ (-1, -1))) ∧
    ((h.tok t).player = 1 →
      (b.canTokenMove h t = true ↔ b.getTokenMove h x y x (y + 1) ≠ (-1, -1))) := by
  have v := (isValidPosition_iff b x y).1 hv
  have hne : ∀ a c : Int, 0 ≤ a → ((a, c) : Int × Int) ≠ (-1, -1) := by
    intro a c ha hh
    have := congrArg Prod.fst hh
    simp only at this
    omega
  have hne2 : ∀ a c : Int, 0 ≤ c → ((a, c) : Int × Int) ≠ (-1, -1) := by
    intro a c ha hh
    have := congrArg Prod.snd hh
    simp only at this
    omega
  refine ⟨fun p0 => ?_, fun p1 => ?_⟩
  · rw [canTokenMove_player0 b h t x y hpos hv p0]
    by_cases hv1 : b.isValidPosition (x + 1) y = true
    · have v1 := (isValidPosition_iff b (x + 1) y).1 hv1
      rw [getTokenMove_of_token b h x y (x + 1) y t hv hv1 hc]
      have e2 : x + 1 + 1 = x + 2 := by ring
      have e3 : (x + 1).toNat + 1 < b.Width ↔ (x + 2).toNat < b.Width := by omega
      simp only [e2, e3]
      by_cases hn : b.cell (x + 1) y = none
      · simpa [hn, hv1, hm] using hne (x + 1) y v1.1
      · by_cases hj : (x + 2).toNat < b.Width
        · by_cases hj2 : b.cell (x + 2) y = none
          · simpa [hn, hj, hj2, hv1, hm, p0, Option.isNone_iff_eq_none] using hne (x + 2) y (by omega)
          · simp [hn, hj, hj2, hv1, hm, p0, Option.isNone_iff_eq_none]
        · simp [hn, hj, hv1, hm, p0]
    · have hv2 : b.isValidPosition (x + 1) y = false := by simpa using hv1
      simp [GameBoard.getTokenMove, hv2]
  · rw [canTokenMove_player1 b h t x y hpos hv p1]
    have p0 : (h.tok t).player ≠ 0 := by rw [p1]; decide
    by_cases hv1 : b.isValidPosition x (y + 1) = true
    · have v1 := (isValidPosition_iff b x (y + 1)).1 hv1
      rw [getTokenMove_of_token b h x y x (y + 1) t hv hv1 hc]
      have e2 : y + 1 + 1 = y + 2 := by ring
      have e3 : (y + 1).toNat + 1 < b.Height ↔ (y + 2).toNat < b.Height := by omega
      simp only [e2, e3]
      by_cases hn : b.cell x (y + 1) = none
      · simpa [hn, hv1, hm] using hne2 x (y + 1) v1.2.1
      · by_cases hj : (y + 2).toNat < b.Height
        · by_cases hj2 : b.cell x (y + 2) = none
          · simpa [hn, hj, hj2, hv1, hm, p0, p1, Option.isNone_iff_eq_none] using hne2 x (y + 2) (by omega)
          · simp [hn, hj, hj2, hv1, hm, p0, p1, Option.isNone_iff_eq_none]
        · simp [hn, hj, hv1, hm, p0, p1]
    · have hv2 : b.isValidPosition x (y + 1) = false := by simpa using hv1
      simp [GameBoard.getTokenMove, hv2]

/-- On the 3×3 board with a player-0 token on `(0,1)` and a blocker on
`(1,1)`, claim C18 applies to the token on `(0,1)`. -/
theorem C18_witness :
    ((jumpHeap.tok 0).player = 0 →
      (jumpBoard.canTokenMove jumpHeap 0 = true ↔
        jumpBoard.getTokenMove jumpHeap 0 1 (0 + 1) 1 ≠ (-1, -1))) ∧
    ((jumpHeap.tok 0).player = 1 →
      (jumpBoard.canTokenMove jumpHeap 0 = true ↔
        jumpBoard.getTokenMove jumpHeap 0 1 0 (1 + 1) ≠ (-1, -1))) :=
  C18_canTokenMove_iff_getTokenMove jumpBoard jumpHeap 0 0 1 (by decide) (by decide)
    (by decide) (by decide)

/-! ## Failing validated moves -/

/-- The validated move never throws "Jump moves out of bounds", and it throws
"Can't jump" only for a token of player 0 or 1 in front of an occupied
destination. -/
theorem moveToken_error_kinds (b : GameBoard) (h : Heap) (fromX fromY toX toY : Int) (e : Fault)
    (he : b.moveToken h fromX fromY toX toY = .error e) :
    e = .moveOutOfBounds ∨ e = .noTokenAtSource ∨ e = .tokenImmovable ∨ e = .cantJump := by
  by_cases hf : b.isValidPosition fromX fromY = true
  swap
  · have hf2 : b.isValidPosition fromX fromY = false := by simpa using hf
    simp only [GameBoard.moveToken, hf2] at he
    simp at he
    exact Or.inl he.symm
  by_cases ht : b.isValidPosition toX toY = true
  swap
  · have ht2 : b.isValidPosition toX toY = false := by simpa using ht
    simp only [GameBoard.moveToken, ht2] at he
    simp at he
    exact Or.inl he.symm
  cases hc : b.cell fromX fromY with
  | none =>
    have hc1 : b.board fromY.toNat fromX.toNat = none := hc
    simp [GameBoard.moveToken, hf, ht, hc1] at he
    exact Or.inr (Or.inl he.symm)
  | some t =>
    have hc1 : b.board fromY.toNat fromX.toNat = some t := hc
    by_cases hm : (h.tok t).canMove = true
    swap
    · have hm2 : (h.tok t).canMove = false := by simpa using hm
      simp [GameBoard.moveToken, hf, ht, hc1, Token.isMovable, hm2] at he
      exact Or.inr (Or.inr (Or.inl he.symm))
    rw [moveToken_of_token b h fromX fromY toX toY t hf ht hc hm] at he
    right; right; right
    split at he
    · cases he
    · split at he
      · split at he
        · cases he
        · exact (Except.error.inj he).symm
      · split at he
        · split at he
          · cases he
          · exact (Except.error.inj he).symm
        · cases he

/-- The state transformer agrees with `moveToken`: a returning call leaves
the result, a throwing call leaves the board and the tokens as they were. -/
theorem moveTokenExec_eq (b : GameBoard) (h : Heap) (fromX fromY toX toY : Int) :
    b.moveTokenExec h fromX fromY toX toY =
      match b.moveToken h fromX fromY toX toY with
      | .ok r => (r, none)
      | .error e => ((b, h), some e) := by
  unfold GameBoard.moveTokenExec GameBoard.moveToken
  by_cases h0 : (!b.isValidPosition fromX fromY || !b.isValidPosition toX toY) = true
  · rw [if_pos h0, if_pos h0]
  · rw [if_neg h0, if_neg h0]
    simp only
    cases b.board fromY.toNat fromX.toNat with
    | none => rfl
    | some t =>
      simp only
      by_cases hm : (!(h.tok t).isMovable) = true
      · rw [if_pos hm, if_pos hm]
      · rw [if_neg hm, if_neg hm]
        split
        · next e he => try simp only [he]
        · next tX tY he =>
          try simp only [he]
          by_cases hv : (!b.isValidPosition (tX : Int) (tY : Int)) = true
          · rw [if_pos hv, if_pos hv]
          · rw [if_neg hv, if_neg hv]

/-- The state transformer of `GameState::moveToken` agrees with
`GameState.moveToken`: a throwing call leaves the state as it was. -/
theorem stateMoveTokenExec_eq (s : GameState) (h : Heap) (fromX fromY toX toY : Int) :
    s.moveTokenExec h fromX fromY toX toY =
      match s.moveToken h fromX fromY toX toY with
      | .ok r => (r, none)
      | .error e => ((s, h), some e) := by
  unfold GameState.moveTokenExec GameState.moveToken
  rw [moveTokenExec_eq]
  cases s.board.moveToken h fromX fromY toX toY with
  | error e => rfl
  | ok r =>
    obtain ⟨b1, h1⟩ := r
    simp only
    cases GameBoard.getTokenAt b1 toX toY with
    | none => rfl
    | some token =>
      simp only
      by_cases hr : (h1.tok token).hasReachedEnd = true
      · rw [if_pos hr, if_pos hr]
        by_cases hcur : s.currentPlayer = 0
        · rw [if_pos hcur, if_pos hcur]
        · rw [if_neg hcur, if_neg hcur]
      · rw [if_neg hr, if_neg hr]

/-- Claim C20.  Errors of the validated move and atomicity.  `moveToken`
throws the out-of-bounds error when `from` or `to` is outside the grid;
otherwise the empty-source error when `from` holds no token; otherwise the
immovable error when the token's movable flag is false; otherwise, when `to`
is occupied and the token belongs to player 0 or 1, the blocked-jump error
when the cell one step beyond `to` on the owner's axis is out of bounds or
occupied; it throws nothing else.  A throwing call leaves the board and all
tokens as they were, `GameState::moveToken` then throws the same error and
leaves the whole state, scores and cached movable counts included, as it
was. -/
theorem C20_moveToken_errors (b : GameBoard) (s : GameState) (h : Heap)
    (fromX fromY toX toY : Int) :
    ((b.isValidPosition fromX fromY = false ∨ b.isValidPosition toX toY = false) →
      b.moveToken h fromX fromY toX toY = .error .moveOutOfBounds) ∧
    (b.isValidPosition fromX fromY = true → b.isValidPosition toX toY = true →
      (b.cell fromX fromY = none →
        b.moveToken h fromX fromY toX toY = .error .noTokenAtSource) ∧
      (∀ t, b.cell fromX fromY = some t →
        ((h.tok t).canMove = false →
          b.moveToken h fromX fromY toX toY = .error .tokenImmovable) ∧
        ((h.tok t).canMove = true → b.cell toX toY ≠ none →
          ((h.tok t).player = 0 →
            (¬ (toX.toNat + 1 < b.Width) ∨ b.cell (toX + 1) toY ≠ none) →
            b.moveToken h fromX fromY toX toY = .error .cantJump) ∧
          ((h.tok t).player = 1 →
            (¬ (toY.toNat + 1 < b.Height) ∨ b.cell toX (toY + 1) ≠ none) →
            b.moveToken h fromX fromY toX toY = .error .cantJump)))) ∧
    (∀ e, b.moveToken h fromX fromY toX toY = .error e →
      (e = .moveOutOfBounds ∨ e = .noTokenAtSource ∨ e = .tokenImmovable ∨ e = .cantJump) ∧
      b.moveTokenExec h fromX fromY toX toY = ((b, h), some e)) ∧
    (∀ r, b.moveToken h fromX fromY toX toY = .ok r →
      b.moveTokenExec h fromX fromY toX toY = (r, none)) ∧
    (∀ e, s.board.moveToken h fromX fromY toX toY = .error e →
      s.moveToken h fromX fromY toX toY = .error e ∧
      s.moveTokenExec h fromX fromY toX toY = ((s, h), some e)) ∧
    (∀ r, s.moveToken h fromX fromY toX toY = .ok r →
      s.moveTokenExec h fromX fromY toX toY = (r, none)) := by
  refine ⟨?_, ?_, ?_, ?_, ?_, ?_⟩
  · intro hv
    rcases hv with hv | hv <;> simp [GameBoard.moveToken, hv]
  · intro hf ht
    refine ⟨?_, ?_⟩
    · intro hc
      have hc1 : b.board fromY.toNat fromX.toNat = none := hc
      simp [GameBoard.moveToken, hf, ht, hc1]
    · intro t hc
      have hc1 : b.board fromY.toNat fromX.toNat = some t := hc
      refine ⟨?_, ?_⟩
      · intro hm
        simp [GameBoard.moveToken, hf, ht, hc1, Token.isMovable, hm]
      · intro hm hto
        rw [moveToken_of_token b h fromX fromY toX toY t hf ht hc hm, if_neg hto]
        refine ⟨fun p0 hj => ?_, fun p1 hj => ?_⟩
        · rw [if_pos p0, if_neg]
          rintro ⟨h1, h2⟩
          rcases hj with hj | hj
          · exact hj h1
          · exact hj h2
        · have p0 : (h.tok t).player ≠ 0 := by rw [p1]; decide
          rw [if_neg p0, if_pos p1, if_neg]
          rintro ⟨h1, h2⟩
          rcases hj with hj | hj
          · exact hj h1
          · exact hj h2
  · intro e he
    refine ⟨moveToken_error_kinds b h fromX fromY toX toY e he, ?_⟩
    rw [moveTokenExec_eq, he]
  · intro r hr
    rw [moveTokenExec_eq, hr]
  · intro e he
    have h1 : s.moveToken h fromX fromY toX toY = .error e := by
      simp only [GameState.moveToken, he]
    refine ⟨h1, ?_⟩
    rw [stateMoveTokenExec_eq, h1]
  · intro r hr
    rw [stateMoveTokenExec_eq, hr]

/-! ## The constructor `GameState(cellW, cellH, gameSize)` -/

theorem forM_append {σ : Type} (body : σ → Nat → Except Fault σ) (l1 l2 : List Nat) (acc : σ) :
    forM body (l1 ++ l2) acc =
      match forM body l1 acc with
      | .error e => .error e
      | .ok a => forM body l2 a := by
  induction l1 generalizing acc with
  | nil => rfl
  | cons i rest ih =>
    simp only [List.cons_append, forM]
    cases body acc i with
    | error e => rfl
    | ok a => exact ih a

theorem initHeap_zero : initHeap 0 = Heap.empty :=
  heap_ext _ _ (fun q => by simp [initHeap, Heap.empty]) rfl

theorem initState_zero (n : Nat) :
    initState n 0 =
      { MaxTokensPerPlayer := n - 2, board := GameBoard.new n n, player1 := Player.new 0 (n - 2),
        player2 := Player.new 1 (n - 2), currentPlayer := 0 } := by
  have hb : initBoard n 0 = GameBoard.new n n := by
    simp only [initBoard, GameBoard.new, GameBoard.mk.injEq, true_and]
    funext r c
    have h1 : ¬ (c = 0 ∧ 1 ≤ r ∧ r ≤ 0) := by omega
    have h2 : ¬ (r = 0 ∧ 1 ≤ c ∧ c ≤ 0) := by omega
    rw [if_neg h1, if_neg h2]
  simp only [initState, hb, Player.new, List.range_zero, List.map_nil]

theorem initHeap_tok_even (k i : Nat) (hi : i < k) :
    (initHeap k).tok (2 * i) = Token.mk0 0 ((i : Int) + 1) 0 := by
  have h1 : 2 * i < 2 * k := by omega
  have h2 : 2 * i % 2 = 0 := by omega
  have h3 : 2 * i / 2 = i := by omega
  simp only [initHeap]
  rw [if_pos h1, if_pos h2, h3]

theorem initHeap_tok_odd (k i : Nat) (hi : i < k) :
    (initHeap k).tok (2 * i + 1) = Token.mk0 ((i : Int) + 1) 0 1 := by
  have h1 : 2 * i + 1 < 2 * k := by omega
  have h2 : ¬ ((2 * i + 1) % 2 = 0) := by omega
  have h3 : (2 * i + 1) / 2 = i := by omega
  simp only [initHeap]
  rw [if_pos h1, if_neg h2, h3]

theorem initHeap_succ (k : Nat) :
    (((initHeap k).alloc (Token.mk0 0 ((k : Int) + 1) 0)).2.alloc
        (Token.mk0 ((k : Int) + 1) 0 1)).2 = initHeap (k + 1) := by
  refine heap_ext _ _ (fun q => ?_) ?_
  · by_cases hq1 : q = 2 * k + 1
    · subst hq1
      rw [show 2 * k + 1 = 2 * k + 1 from rfl, initHeap_tok_odd (k + 1) k (by omega)]
      simp [Heap.alloc, initHeap]
    · by_cases hq0 : q = 2 * k
      · subst hq0
        rw [initHeap_tok_even (k + 1) k (by omega)]
        simp [Heap.alloc, initHeap]
      · have e1 : q < 2 * (k + 1) ↔ q < 2 * k := by omega
        simp [Heap.alloc, initHeap, hq0, hq1, e1]
  · simp [Heap.alloc, initHeap]
    omega

theorem initBoard_succ (n k : Nat) :
    ((initBoard n k).setCell (k + 1) 0 (some (2 * k))).setCell 0 (k + 1) (some (2 * k + 1)) =
      initBoard n (k + 1) := by
  simp only [initBoard, GameBoard.setCell, GameBoard.mk.injEq, true_and]
  funext r c
  by_cases h1 : r = 0 ∧ c = k + 1
  · obtain ⟨rfl, rfl⟩ := h1
    simp
  · by_cases h2 : r = k + 1 ∧ c = 0
    · obtain ⟨rfl, rfl⟩ := h2
      simp
    · rw [if_neg h1, if_neg h2]
      have e1 : (c = 0 ∧ 1 ≤ r ∧ r ≤ k + 1) ↔ (c = 0 ∧ 1 ≤ r ∧ r ≤ k) := by omega
      have e2 : (r = 0 ∧ 1 ≤ c ∧ c ≤ k + 1) ↔ (r = 0 ∧ 1 ≤ c ∧ c ≤ k) := by omega
      simp only [e1, e2]

/-- One iteration of the loop of `initializeTokens`. -/
theorem initializeStep_init (n k : Nat) (hk : k + 2 < n) :
    GameState.initializeStep (initHeap k, initState n k) k =
      .ok (initHeap (k + 1), initState n (k + 1)) := by
  have hlen : ¬ (k ≥ n - 2) := by omega
  have hv1 : (initBoard n k).isValidPosition 0 ((k : Int) + 1) = true := by
    rw [isValidPosition_iff]
    simp only [initBoard]
    omega
  have hv2 : ((initBoard n k).setCell (k + 1) 0 (some (2 * k))).isValidPosition
      ((k : Int) + 1) 0 = true := by
    rw [isValidPosition_iff]
    simp only [initBoard, GameBoard.setCell]
    omega
  have hh := initHeap_succ k
  have ht1 : (initHeap (k + 1)).tok (2 * k) = Token.mk0 0 ((k : Int) + 1) 0 :=
    initHeap_tok_even (k + 1) k (by omega)
  have ht2 : (initHeap (k + 1)).tok (2 * k + 1) = Token.mk0 ((k : Int) + 1) 0 1 :=
    initHeap_tok_odd (k + 1) k (by omega)
  have hn0 : (initHeap k).next = 2 * k := rfl
  have e1 : ((k : Int) + 1).toNat = k + 1 := by omega
  simp only [GameState.initializeStep, Heap.alloc, Player.addToken, initState, List.length_map,
    List.length_range, hlen, if_false]
  have hh2 := hh
  simp only [Heap.alloc] at hh2
  rw [hh2]
  simp only [hn0, GameBoard.placeToken, ht1, ht2, Token.getPosition, Token.mk0, hv1, e1,
    Int.toNat_zero, Bool.not_true, Bool.false_eq_true, if_false, hv2, initBoard_succ,
    List.range_succ, List.map_append, List.map_cons, List.map_nil]

theorem forM_init (n : Nat) :
    ∀ k, k ≤ n - 2 →
      forM GameState.initializeStep (List.range k) (initHeap 0, initState n 0) =
        .ok (initHeap k, initState n k) := by
  intro k
  induction k with
  | zero => intro _; rfl
  | succ k ih =>
    intro hk
    rw [List.range_succ, forM_append, ih (by omega)]
    simp only [forM]
    rw [initializeStep_init n k (by omega)]

/-- The constructor succeeds for every size and builds the start position in
closed form: player 0 owns the tokens on `(0,1) … (0,n-2)`, player 1 those on
`(1,0) … (n-2,0)`. -/
theorem new_eq (n : Nat) :
    GameState.new Heap.empty n = .ok (initHeap (n - 2), initState n (n - 2)) := by
  have := forM_init n (n - 2) (le_refl _)
  rw [initHeap_zero, initState_zero] at this
  exact this

theorem startState_eq (n : Nat) : startState n = (initHeap (n - 2), initState n (n - 2)) := by
  simp only [startState, new_eq]

theorem mem_evens (k t : Nat) :
    t ∈ (List.range k).map (fun i => 2 * i) ↔ ∃ i, i < k ∧ t = 2 * i := by
  simp only [List.mem_map, List.mem_range]
  constructor
  · rintro ⟨i, hi, rfl⟩
    exact ⟨i, hi, rfl⟩
  · rintro ⟨i, hi, rfl⟩
    exact ⟨i, hi, rfl⟩

theorem mem_odds (k t : Nat) :
    t ∈ (List.range k).map (fun i => 2 * i + 1) ↔ ∃ i, i < k ∧ t = 2 * i + 1 := by
  simp only [List.mem_map, List.mem_range]
  constructor
  · rintro ⟨i, hi, rfl⟩
    exact ⟨i, hi, rfl⟩
  · rintro ⟨i, hi, rfl⟩
    exact ⟨i, hi, rfl⟩

theorem initBoard_col0 (n k r : Nat) (h1 : 1 ≤ r) (h2 : r ≤ k) :
    (initBoard n k).board r 0 = some (2 * (r - 1)) := by
  simp only [initBoard]
  rw [if_pos ⟨trivial, h1, h2⟩]

theorem initBoard_row0 (n k c : Nat) (h1 : 1 ≤ c) (h2 : c ≤ k) :
    (initBoard n k).board 0 c = some (2 * (c - 1) + 1) := by
  simp only [initBoard]
  have : ¬ (c = 0 ∧ 1 ≤ 0 ∧ 0 ≤ k) := by omega
  rw [if_neg this, if_pos ⟨trivial, h1, h2⟩]

theorem initBoard_cases (n k r c t : Nat) (hb : (initBoard n k).board r c = some t) :
    (c = 0 ∧ 1 ≤ r ∧ r ≤ k ∧ t = 2 * (r - 1)) ∨ (r = 0 ∧ 1 ≤ c ∧ c ≤ k ∧ t = 2 * (c - 1) + 1) := by
  simp only [initBoard] at hb
  by_cases h1 : c = 0 ∧ 1 ≤ r ∧ r ≤ k
  · rw [if_pos h1] at hb
    exact Or.inl ⟨h1.1, h1.2.1, h1.2.2, (Option.some.inj hb).symm⟩
  · rw [if_neg h1] at hb
    by_cases h2 : r = 0 ∧ 1 ≤ c ∧ c ≤ k
    · rw [if_pos h2] at hb
      exact Or.inr ⟨h2.1, h2.2.1, h2.2.2, (Option.some.inj hb).symm⟩
    · rw [if_neg h2] at hb
      cases hb

/-- The start position is well formed. -/
theorem init_wellFormed (n k : Nat) (hk : k ≤ n - 2) :
    WellFormed n (initHeap k) (initState n k) := by
  refine ⟨rfl, rfl, rfl, rfl, ?_, ?_, ?_, ?_⟩
  · intro r hr c hc
    simp only [GameBoard.ownPosition, initState]
    cases hb : (initBoard n k).board r c with
    | none => rfl
    | some t =>
      rcases initBoard_cases n k r c t hb with ⟨rfl, h1, h2, rfl⟩ | ⟨rfl, h1, h2, rfl⟩
      · simp only
        rw [initHeap_tok_even k (r - 1) (by omega)]
        simp only [Token.mk0, decide_eq_true_eq, Prod.mk.injEq]
        omega
      · simp only
        rw [initHeap_tok_odd k (c - 1) (by omega)]
        simp only [Token.mk0, decide_eq_true_eq, Prod.mk.injEq]
        omega
  · intro t ht
    obtain ⟨i, hi, rfl⟩ := (mem_evens k t).1 ht
    rw [initHeap_tok_even k i hi]
    refine ⟨rfl, ?_, ?_⟩
    · rw [isValidPosition_iff]
      simp only [Token.mk0, initState, initBoard]
      omega
    · simp only [Token.mk0, initState, GameBoard.cell]
      have e : ((i : Int) + 1).toNat = i + 1 := by omega
      rw [e, Int.toNat_zero, initBoard_col0 n k (i + 1) (by omega) (by omega)]
      simp
  · intro t ht
    obtain ⟨i, hi, rfl⟩ := (mem_odds k t).1 ht
    rw [initHeap_tok_odd k i hi]
    refine ⟨rfl, ?_, ?_⟩
    · rw [isValidPosition_iff]
      simp only [Token.mk0, initState, initBoard]
      omega
    · simp only [Token.mk0, initState, GameBoard.cell]
      have e : ((i : Int) + 1).toNat = i + 1 := by omega
      rw [e, Int.toNat_zero, initBoard_row0 n k (i + 1) (by omega) (by omega)]
      simp
  · intro r hr c hc
    simp only [GameState.ownedCell, initState]
    cases hb : (initBoard n k).board r c with
    | none => rfl
    | some t =>
      simp only [decide_eq_true_eq]
      rcases initBoard_cases n k r c t hb with ⟨rfl, h1, h2, rfl⟩ | ⟨rfl, h1, h2, rfl⟩
      · exact Or.inl ((mem_evens k _).2 ⟨r - 1, by omega, rfl⟩)
      · exact Or.inr ((mem_odds k _).2 ⟨c - 1, by omega, rfl⟩)

theorem startState_wellFormed (n : Nat) : WellFormed n (startState n).1 (startState n).2 := by
  rw [startState_eq]
  exact init_wellFormed n (n - 2) (le_refl _)

/-! ## What both moves do to a well-formed state -/

theorem moveEffect_relocateRaw (b : GameBoard) (h : Heap) (fX fY tX tY t : Nat) :
    MoveEffect b h fX fY tX tY t (b.relocateRaw h fX fY tX tY t).1
      (b.relocateRaw h fX fY tX tY t).2 := by
  refine ⟨rfl, fun q => relocateRaw_player b h _ _ _ _ t q,
    fun q => relocateRaw_position b h _ _ _ _ t q, ?_, ?_, ?_, ?_⟩
  · intro q hq
    rw [relocateRaw_reachedEnd, if_neg hq]
  · intro he
    rw [relocateRaw_reachedEnd, if_pos rfl, he]
  · intro he _
    rw [relocateRaw_reachedEnd, if_pos rfl, he]
  · intro q hq
    exact relocateRaw_refresh b h _ _ _ _ t q hq

theorem moveEffect_relocate (b : GameBoard) (h : Heap) (fX fY tX tY t : Nat) :
    MoveEffect b h fX fY tX tY t (b.relocate h fX fY tX tY t).1
      (b.relocate h fX fY tX tY t).2 := by
  refine ⟨rfl, fun q => relocate_player b h _ _ _ _ t q,
    fun q => relocate_position b h _ _ _ _ t q, ?_, ?_, ?_, ?_⟩
  · intro q hq
    rw [relocate_reachedEnd, if_neg hq]
  · intro he
    rw [relocate_reachedEnd, if_pos rfl, he]
    rfl
  · intro he hr
    rw [relocate_reachedEnd, if_pos rfl, he, hr]
    rfl
  · intro q hq
    exact relocate_refresh b h _ _ _ _ t q hq

/-- Well-formedness reads only the grid and the token lists and numbers of
the players. -/
theorem wellFormed_fields (n : Nat) (h : Heap) (s s1 : GameState) (hw : WellFormed n h s)
    (hb : s1.board = s.board)
    (h1 : s1.player1.tokens = s.player1.tokens)
    (h2 : s1.player2.tokens = s.player2.tokens)
    (h3 : s1.player1.playerNumber = s.player1.playerNumber)
    (h4 : s1.player2.playerNumber = s.player2.playerNumber) : WellFormed n h s1 := by
  obtain ⟨a1, a2, a3, a4, a5, a6, a7, a8⟩ := hw
  refine ⟨by rw [hb]; exact a1, by rw [hb]; exact a2, by rw [h3]; exact a3,
    by rw [h4]; exact a4, by rw [hb]; exact a5, ?_, ?_, ?_⟩
  · intro t ht
    rw [h1] at ht
    rw [hb, h3]
    exact a6 t ht
  · intro t ht
    rw [h2] at ht
    rw [hb, h4]
    exact a7 t ht
  · intro r hr c hc
    have := a8 r hr c hc
    simp only [GameState.ownedCell, hb, h1, h2] at this ⊢
    exact this

/-- A relocation of a token to an empty in-bounds cell keeps the state
well-formed. -/
theorem wellFormed_moveEffect (n : Nat) (h : Heap) (s : GameState) (fX fY tX tY t : Nat)
    (b1 : GameBoard) (h1 : Heap)
    (hw : WellFormed n h s) (hfX : fX < n) (hfY : fY < n) (htX : tX < n) (htY : tY < n)
    (hfrom : s.board.board fY fX = some t) (hto : s.board.board tY tX = none)
    (he : MoveEffect s.board h fX fY tX tY t b1 h1) :
    WellFormed n h1 { s with board := b1 } := by
  have key := wellFormed_relocateRaw n h s fX fY tX tY t hw hfX hfY htX htY hfrom hto
  obtain ⟨e1, e2, e3, _⟩ := he
  rw [relocateRaw_board, ← e1] at key
  refine wellFormed_congr n _ h1 _ key (fun q => ⟨?_, ?_⟩)
  · rw [e3, relocateRaw_position]
  · rw [e2, relocateRaw_player]

/-- In a well-formed state the token of an in-bounds cell carries the number
0 or 1. -/
theorem wellFormed_player (n : Nat) (h : Heap) (s : GameState) (r c t : Nat)
    (hw : WellFormed n h s) (hr : r < n) (hc : c < n) (hb : s.board.board r c = some t) :
    (h.tok t).player = 0 ∨ (h.tok t).player = 1 := by
  obtain ⟨_, _, a3, a4, _, a6, a7, a8⟩ := hw
  rcases ownedCell_spec s r c t (a8 r hr c hc) hb with ht | ht
  · left
    rw [(a6 t ht).1, a3]
  · right
    rw [(a7 t ht).1, a4]

/-- A successful validated move on the board of a well-formed state relocates
the token of the source to an empty cell of the grid. -/
theorem moveToken_wellFormed (n : Nat) (h : Heap) (s : GameState) (fromX fromY toX toY : Int)
    (b1 : GameBoard) (h1 : Heap) (hw : WellFormed n h s)
    (hok : s.board.moveToken h fromX fromY toX toY = .ok (b1, h1)) :
    ∃ t tX tY, s.board.isValidPosition fromX fromY = true ∧ s.board.cell fromX fromY = some t ∧
      (h.tok t).canMove = true ∧ tX < n ∧ tY < n ∧ s.board.board tY tX = none ∧
      MoveEffect s.board h fromX.toNat fromY.toNat tX tY t b1 h1 ∧
      WellFormed n h1 { s with board := b1 } ∧
      (s.board.cell toX toY = none → tX = toX.toNat ∧ tY = toY.toNat) := by
  obtain ⟨hf, ht, t, hc, hm, tX, tY, hx, hy, hr, hland⟩ :=
    moveToken_ok_inv s.board h fromX fromY toX toY b1 h1 hok
  have hW := hw.1
  have hH := hw.2.1
  have vf := (isValidPosition_iff _ _ _).1 hf
  have vt := (isValidPosition_iff _ _ _).1 ht
  have hpl := wellFormed_player n h s fromY.toNat fromX.toNat t hw (by omega) (by omega) hc
  have hempty : s.board.board tY tX = none := by
    rcases hland with ⟨h3, h4, hto | hto⟩ | ⟨_, _, h3, h4, hj⟩ | ⟨_, _, h3, h4, hj⟩
    · rw [h3, h4]
      exact hto
    · rcases hpl with hp | hp
      · exact absurd hp hto.1
      · exact absurd hp hto.2
    · have hj1 : s.board.board toY.toNat (toX + 1).toNat = none := hj
      have hx1 : (toX + 1).toNat = toX.toNat + 1 := by omega
      rw [hx1] at hj1
      rw [h3, h4]
      exact hj1
    · have hj1 : s.board.board (toY + 1).toNat toX.toNat = none := hj
      have hy1 : (toY + 1).toNat = toY.toNat + 1 := by omega
      rw [hy1] at hj1
      rw [h3, h4]
      exact hj1
  have e1 : b1 = (s.board.relocate h fromX.toNat fromY.toNat tX tY t).1 := by rw [← hr]
  have e2 : h1 = (s.board.relocate h fromX.toNat fromY.toNat tX tY t).2 := by rw [← hr]
  have heff : MoveEffect s.board h fromX.toNat fromY.toNat tX tY t b1 h1 := by
    rw [e1, e2]
    exact moveEffect_relocate _ _ _ _ _ _ _
  refine ⟨t, tX, tY, hf, hc, hm, by omega, by omega, hempty, heff,
    wellFormed_moveEffect n h s _ _ tX tY t b1 h1 hw (by omega) (by omega) (by omega) (by omega)
      hc hempty heff, ?_⟩
  intro hto
  rcases hland with ⟨h3, h4, _⟩ | ⟨_, hne, _⟩ | ⟨_, hne, _⟩
  · exact ⟨h3, h4⟩
  · exact absurd hto hne
  · exact absurd hto hne

/-- The parts of a successful `GameState::moveToken`: the validated move on
the board, the refreshed movable counts, and one point for the current
player when the token on `to` carries the reached-end mark. -/
theorem stateMoveToken_ok (s : GameState) (h : Heap) (fromX fromY toX toY : Int)
    (s1 : GameState) (h1 : Heap) (hok : s.moveToken h fromX fromY toX toY = .ok (s1, h1)) :
    ∃ b1, s.board.moveToken h fromX fromY toX toY = .ok (b1, h1) ∧
      s1.board = b1 ∧ s1.currentPlayer = s.currentPlayer ∧
      s1.MaxTokensPerPlayer = s.MaxTokensPerPlayer ∧
      s1.player1.tokens = s.player1.tokens ∧ s1.player2.tokens = s.player2.tokens ∧
      s1.player1.playerNumber = s.player1.playerNumber ∧
      s1.player2.playerNumber = s.player2.playerNumber ∧
      s1.player1.MaxTokens = s.player1.MaxTokens ∧ s1.player2.MaxTokens = s.player2.MaxTokens ∧
      s1.player1.movableTokens = (s.player1.updateMovableTokens h1).movableTokens ∧
      s1.player2.movableTokens = (s.player2.updateMovableTokens h1).movableTokens ∧
      s1.player1.score = s.player1.score +
        (if reachedEndAt b1 h1 toX toY = true ∧ s.currentPlayer = 0 then 1 else 0) ∧
      s1.player2.score = s.player2.score +
        (if reachedEndAt b1 h1 toX toY = true ∧ s.currentPlayer ≠ 0 then 1 else 0) := by
  unfold GameState.moveToken at hok
  cases hb : s.board.moveToken h fromX fromY toX toY with
  | error e =>
    rw [hb] at hok
    cases hok
  | ok r =>
    obtain ⟨b1, h2⟩ := r
    rw [hb] at hok
    simp only at hok
    refine ⟨b1, ?_⟩
    cases hg : GameBoard.getTokenAt b1 toX toY with
    | none =>
      rw [hg] at hok
      simp only [Except.ok.injEq, Prod.mk.injEq] at hok
      obtain ⟨rfl, rfl⟩ := hok
      simp [reachedEndAt, hg, Player.updateMovableTokens]
    | some token =>
      rw [hg] at hok
      simp only at hok
      by_cases hr : (h2.tok token).hasReachedEnd = true
      · rw [if_pos hr] at hok
        by_cases hcur : s.currentPlayer = 0
        · rw [if_pos hcur] at hok
          simp only [Except.ok.injEq, Prod.mk.injEq] at hok
          obtain ⟨rfl, rfl⟩ := hok
          simp [reachedEndAt, hg, hr, hcur, Player.updateMovableTokens, Player.setScore,
            Player.getScore]
        · rw [if_neg hcur] at hok
          simp only [Except.ok.injEq, Prod.mk.injEq] at hok
          obtain ⟨rfl, rfl⟩ := hok
          simp [reachedEndAt, hg, hr, hcur, Player.updateMovableTokens, Player.setScore,
            Player.getScore]
      · rw [if_neg hr] at hok
        simp only [Except.ok.injEq, Prod.mk.injEq] at hok
        obtain ⟨rfl, rfl⟩ := hok
        simp [reachedEndAt, hg, hr, Player.updateMovableTokens]

/-! ## The bijection between tokens and occupied cells -/

theorem wellFormed_stateMoveToken (n : Nat) (h : Heap) (s : GameState)
    (fromX fromY toX toY : Int) (s1 : GameState) (h1 : Heap) (hw : WellFormed n h s)
    (hok : s.moveToken h fromX fromY toX toY = .ok (s1, h1)) : WellFormed n h1 s1 := by
  obtain ⟨b1, hb, e1, _, _, e4, e5, e6, e7, _⟩ :=
    stateMoveToken_ok s h fromX fromY toX toY s1 h1 hok
  obtain ⟨_, _, _, _, _, _, _, _, _, _, hw1, _⟩ :=
    moveToken_wellFormed n h s fromX fromY toX toY b1 h1 hw hb
  exact wellFormed_fields n h1 _ s1 hw1 e1 e4 e5 e6 e7

theorem reachable_wellFormed (n : Nat) (h : Heap) (s : GameState) (hr : Reachable n h s) :
    WellFormed n h s := by
  induction hr with
  | start => exact startState_wellFormed n
  | move h s fromX fromY toX toY s1 h1 _ hok ih =>
    exact wellFormed_stateMoveToken n h s fromX fromY toX toY s1 h1 ih hok
  | switch h s _ ih =>
    exact wellFormed_fields n h s _ ih rfl rfl rfl rfl rfl

/-- Claim C14.  Bijection invariant.  In the start position of the game of
size `n ≥ 3` and after every sequence of successful `GameState::moveToken`
calls (and `switchPlayer` calls), every token of either player is stored in
the in-bounds grid cell at its own position, no two tokens of the players
have the same position, and every occupied cell holds a token of one of the
two players, whose position is that cell. -/
theorem C14_bijection_invariant (n : Nat) (hn : 3 ≤ n) (h : Heap) (s : GameState)
    (hr : Reachable n h s) :
    s.board.Width = n ∧ s.board.Height = n ∧
    (∀ t, t ∈ s.player1.tokens ∨ t ∈ s.player2.tokens →
      s.board.isValidPosition (h.tok t).position.1 (h.tok t).position.2 = true ∧
      s.board.cell (h.tok t).position.1 (h.tok t).position.2 = some t) ∧
    (∀ t u, t ∈ s.player1.tokens ∨ t ∈ s.player2.tokens →
      u ∈ s.player1.tokens ∨ u ∈ s.player2.tokens →
      (h.tok t).position = (h.tok u).position → t = u) ∧
    (∀ r c t, r < n → c < n → s.board.board r c = some t →
      (t ∈ s.player1.tokens ∨ t ∈ s.player2.tokens) ∧
      (h.tok t).position = ((c : Int), (r : Int))) := by
  have _ := hn
  obtain ⟨a1, a2, _, _, a5, a6, a7, a8⟩ := reachable_wellFormed n h s hr
  have hreg : ∀ t, t ∈ s.player1.tokens ∨ t ∈ s.player2.tokens →
      s.board.isValidPosition (h.tok t).position.1 (h.tok t).position.2 = true ∧
      s.board.cell (h.tok t).position.1 (h.tok t).position.2 = some t := by
    intro t ht
    rcases ht with ht | ht
    · exact (a6 t ht).2
    · exact (a7 t ht).2
  refine ⟨a1, a2, hreg, ?_, ?_⟩
  · intro t u ht hu hp
    have c1 := (hreg t ht).2
    have c2 := (hreg u hu).2
    rw [hp, c2] at c1
    exact (Option.some.inj c1).symm
  · intro r c t hr hc hb
    refine ⟨ownedCell_spec s r c t (a8 r hr c hc) hb, ?_⟩
    exact (posInv_iff s.board h).1 a5 r c t (by rw [a2]; exact hr) (by rw [a1]; exact hc) hb

/-! ## The win predicate -/

/-- The token lists and the numbers of the players are those of the start
position in every reachable state. -/
theorem reachable_players (n : Nat) (h : Heap) (s : GameState) (hr : Reachable n h s) :
    s.player1.tokens = (initState n (n - 2)).player1.tokens ∧
    s.player2.tokens = (initState n (n - 2)).player2.tokens ∧
    s.player1.playerNumber = 0 ∧ s.player2.playerNumber = 1 := by
  induction hr with
  | start =>
    rw [startState_eq]
    exact ⟨rfl, rfl, rfl, rfl⟩
  | move h s fromX fromY toX toY s1 h1 _ hok ih =>
    obtain ⟨b1, _, _, _, _, e4, e5, e6, e7, _⟩ :=
      stateMoveToken_ok s h fromX fromY toX toY s1 h1 hok
    rw [e4, e5, e6, e7]
    exact ih
  | switch h s _ ih => exact ih

theorem isWinningState_zero (h : Heap) (player : Player) (hp : player.playerNumber = 0) :
    isWinningState h player = true ↔
      ∀ t ∈ player.tokens, (h.tok t).position.1 = (player.tokens.length : Int) + 1 := by
  simp [isWinningState, Player.getTokenCount, Player.getPlayerNumber, Player.getTokens, hp,
    Token.getPosition]

theorem isWinningState_one (h : Heap) (player : Player) (hp : player.playerNumber = 1) :
    isWinningState h player = true ↔
      ∀ t ∈ player.tokens, (h.tok t).position.2 = (player.tokens.length : Int) + 1 := by
  simp [isWinningState, Player.getTokenCount, Player.getPlayerNumber, Player.getTokens, hp,
    Token.getPosition]

/-- Claim C11.  Win predicate.  For every board size `n ≥ 3` and every player
of a state of the game of size `n`, the player holds `n - 2` tokens and
`isWinningState(player)` is true exactly when every token of the player has
its forward coordinate (x for player 0, y for player 1) equal to `n - 1`,
whatever the positions of the tokens are; hence the predicate is false as
soon as one token of the player has another forward coordinate. -/
theorem C11_win_predicate (n : Nat) (hn : 3 ≤ n) (h : Heap) (s : GameState)
    (hr : Reachable n h s) (hh : Heap) :
    (s.player1.playerNumber = 0 ∧ s.player1.tokens.length = n - 2 ∧
      (isWinningState hh s.player1 = true ↔
        ∀ t ∈ s.player1.tokens, (hh.tok t).position.1 = (n : Int) - 1) ∧
      (∀ t ∈ s.player1.tokens, (hh.tok t).position.1 ≠ (n : Int) - 1 →
        isWinningState hh s.player1 = false)) ∧
    (s.player2.playerNumber = 1 ∧ s.player2.tokens.length = n - 2 ∧
      (isWinningState hh s.player2 = true ↔
        ∀ t ∈ s.player2.tokens, (hh.tok t).position.2 = (n : Int) - 1) ∧
      (∀ t ∈ s.player2.tokens, (hh.tok t).position.2 ≠ (n : Int) - 1 →
        isWinningState hh s.player2 = false)) := by
  obtain ⟨e1, e2, e3, e4⟩ := reachable_players n h s hr
  have l1 : s.player1.tokens.length = n - 2 := by
    rw [e1]
    simp [initState]
  have l2 : s.player2.tokens.length = n - 2 := by
    rw [e2]
    simp [initState]
  have c : ((n - 2 : Nat) : Int) + 1 = (n : Int) - 1 := by omega
  have w1 : isWinningState hh s.player1 = true ↔
      ∀ t ∈ s.player1.tokens, (hh.tok t).position.1 = (n : Int) - 1 := by
    rw [isWinningState_zero hh s.player1 e3, l1, c]
  have w2 : isWinningState hh s.player2 = true ↔
      ∀ t ∈ s.player2.tokens, (hh.tok t).position.2 = (n : Int) - 1 := by
    rw [isWinningState_one hh s.player2 e4, l2, c]
  refine ⟨⟨e3, l1, w1, ?_⟩, ⟨e4, l2, w2, ?_⟩⟩
  · intro t ht hne
    cases hw : isWinningState hh s.player1 with
    | false => rfl
    | true => exact absurd (w1.1 hw t ht) hne
  · intro t ht hne
    cases hw : isWinningState hh s.player2 with
    | false => rfl
    | true => exact absurd (w2.1 hw t ht) hne

/-! ## Reachable states -/

theorem reachable_runCalls (n : Nat) (calls : List Call) :
    ∀ (s : GameState) (h : Heap), Reachable n h s →
      ∀ s1 h1, runCalls calls (s, h) = .ok (s1, h1) → Reachable n h1 s1 := by
  induction calls with
  | nil =>
    intro s h hr s1 h1 hok
    simp only [runCalls, Except.ok.injEq, Prod.mk.injEq] at hok
    obtain ⟨rfl, rfl⟩ := hok
    exact hr
  | cons c rest ih =>
    intro s h hr s1 h1 hok
    cases c with
    | move src dst =>
      simp only [runCalls] at hok
      cases hm : s.moveToken h src.1 src.2 dst.1 dst.2 with
      | error e =>
        rw [hm] at hok
        cases hok
      | ok r =>
        rw [hm] at hok
        exact ih r.1 r.2 (Reachable.move h s _ _ _ _ r.1 r.2 hr hm) s1 h1 hok
    | switch =>
      simp only [runCalls] at hok
      exact ih _ _ (Reachable.switch h s hr) s1 h1 hok

/-- The state after a list of calls that all return is reachable. -/
theorem reachable_afterCalls (n : Nat) (calls : List Call)
    (hok : (runCalls calls ((startState n).2, (startState n).1)).isOk = true) :
    Reachable n (afterCalls n calls).2 (afterCalls n calls).1 := by
  unfold afterCalls
  cases hr : runCalls calls ((startState n).2, (startState n).1) with
  | error e =>
    rw [hr] at hok
    cases hok
  | ok r =>
    exact reachable_runCalls n calls _ _ Reachable.start r.1 r.2 hr

theorem boardReachable_replay (n : Nat) (log : List MoveStep) :
    ∀ (s : GameState) (h : Heap), BoardReachable n h s →
      replayClean log (s.board, h) = true →
      ∀ r, replay log (s.board, h) = .ok r → BoardReachable n r.2 { s with board := r.1 } := by
  induction log with
  | nil =>
    intro s h hr _ r hok
    simp only [replay, Except.ok.injEq] at hok
    subst hok
    exact hr
  | cons m rest ih =>
    intro s h hr hclean r hok
    simp only [replay] at hok
    simp only [replayClean, Bool.and_eq_true] at hclean
    obtain ⟨⟨⟨⟨c1, c2⟩, c3⟩, c4⟩, c5⟩ := hclean
    cases hm : s.board.moveTokenRaw h m.src.1 m.src.2 m.dst.1 m.dst.2 with
    | error e =>
      rw [hm] at hok
      cases hok
    | ok r1 =>
      rw [hm] at hok c5
      simp only at hok c5
      have hsrc : (s.board.getTokenAt m.src.1 m.src.2).isSome = true := by
        simp only [GameBoard.getTokenAt, c1]
        exact c2
      have hstep := BoardReachable.raw h s m.src.1 m.src.2 m.dst.1 m.dst.2 r1.1 r1.2 hr hsrc c3
        (Option.isNone_iff_eq_none.1 c4) hm
      exact ih { s with board := r1.1 } r1.2 hstep c5 r hok

/-! ## Scores and flags outside legal play -/

/-- Claim C12, at the failing input.  In the 3×3 game with player 1's token
on `(1,1)` and player 0 to move (a reachable, well-formed state), player 0
moves its own token with `moveToken((0,1),(1,1))`: the token jumps to the far
edge cell `(2,1)` and carries the reached-end mark, and no score changes.
The same move requested by its landing cell, `moveToken((0,1),(2,1))`, gives
player 0 one point. -/
theorem C12_jump_not_scored :
    Reachable 3 facing3.2 facing3.1 ∧ WellFormed 3 facing3.2 facing3.1 ∧
    facing3.1.currentPlayer = 0 ∧ facing3.1.board.cell 0 1 = some 0 ∧
    0 ∈ facing3.1.getCurrentPlayer.tokens ∧ (facing3.2.tok 0).reachedEnd = false ∧
    facing3.1.player1.score = 0 ∧ facing3.1.player2.score = 0 ∧
    stateView (facing3.1.moveToken facing3.2 0 1 1 1) 0 = some (0, 0, 0, (2, 1), true) ∧
    stateView (facing3.1.moveToken facing3.2 0 1 2 1) 0 = some (1, 0, 0, (2, 1), true) := by
  refine ⟨reachable_afterCalls 3 _ (by decide), by decide, by decide, by decide, by decide,
    by decide, by decide, by decide, by decide, by decide⟩

/-- Claim C13, refuted as stated.  In the 3×3 game (`n - 2 = 1`) player 0
reaches the score 2 in two ways: when each player moves only its own token
in turn but player 0 moves to the corner `(0,0)` and back to `(0,1)`; and
when every token is only moved forward to the cell `getTokenMove` answers
but player 1's token is moved during player 0's turn. -/
theorem C13_counterexample :
    Reachable 3 ownTokens3.2 ownTokens3.1 ∧ ownTokens3.1.player1.score = 2 ∧
    Reachable 3 bothTokens3.2 bothTokens3.1 ∧ bothTokens3.1.player1.score = 2 ∧
    ¬ ((2 : Int) ≤ ((3 - 2 : Nat) : Int)) := by
  refine ⟨reachable_afterCalls 3 _ (by decide), by decide, reachable_afterCalls 3 _ (by decide),
    by decide, by decide⟩

/-- Claim C17, refuted as stated.  On the 3×3 board, after the raw moves
`(1,0) → (1,1)`, `(0,1) → (2,1)`, `(2,1) → (0,1)`, `(1,1) → (1,0)` (each
from an occupied cell to an empty in-bounds cell) the token of player 0 on
`(0,1)` carries the reached-end mark, its movable flag is true, and
`canTokenMove` is true for it. -/
theorem C17_counterexample :
    BoardReachable 3 undone3.2 { (startState 3).2 with board := undone3.1 } ∧
    0 ∈ (startState 3).2.player1.tokens ∧
    (undone3.2.tok 0).position = (0, 1) ∧
    (undone3.2.tok 0).reachedEnd = true ∧ (undone3.2.tok 0).canMove = true ∧
    undone3.1.canTokenMove undone3.2 0 = true := by
  refine ⟨?_, by decide, by decide, by decide, by decide, by decide⟩
  have hclean : replayClean undoneLog3 ((startState 3).2.board, (startState 3).1) = true := by
    decide
  unfold undone3
  cases hr : replay undoneLog3 ((startState 3).2.board, (startState 3).1) with
  | error e =>
    have : (replay undoneLog3 ((startState 3).2.board, (startState 3).1)).isOk = true := by
      decide
    rw [hr] at this
    cases this
  | ok r =>
    exact boardReachable_replay 3 undoneLog3 (startState 3).2 (startState 3).1
      BoardReachable.start hclean r hr

/-! ## The flags of the tokens in legal play -/

theorem init_edgeInv (n k : Nat) (hk : k ≤ n - 2) : EdgeInv n (initHeap k) (initState n k) := by
  refine ⟨fun t ht => ?_, fun t ht => ?_⟩
  · obtain ⟨i, hi, rfl⟩ := (mem_evens k t).1 ht
    rw [initHeap_tok_even k i hi]
    simp only [Token.mk0]
    refine ⟨by omega, by omega, ?_, ?_⟩
    · constructor
      · intro hh; cases hh
      · intro hh; omega
    · intro hh; cases hh
  · obtain ⟨i, hi, rfl⟩ := (mem_odds k t).1 ht
    rw [initHeap_tok_odd k i hi]
    simp only [Token.mk0]
    refine ⟨by omega, by omega, ?_, ?_⟩
    · constructor
      · intro hh; cases hh
      · intro hh; omega
    · intro hh; cases hh

/-- A token of player 0 in the last column and a token of player 1 in the
last row cannot move. -/
theorem canTokenMove_far (b : GameBoard) (h : Heap) (n : Nat) (u : Nat)
    (hW : b.Width = n) (hH : b.Height = n)
    (hv : b.isValidPosition (h.tok u).position.1 (h.tok u).position.2 = true) :
    ((h.tok u).player = 0 → (h.tok u).position.1 = (n : Int) - 1 → b.canTokenMove h u = false) ∧
    ((h.tok u).player = 1 → (h.tok u).position.2 = (n : Int) - 1 →
      b.canTokenMove h u = false) := by
  have v := (isValidPosition_iff _ _ _).1 hv
  refine ⟨fun p0 hx => ?_, fun p1 hy => ?_⟩
  · rw [canTokenMove_player0 b h u _ _ rfl hv p0, if_pos]
    rw [isValidPosition_false_iff]
    intro hc
    have c1 : ((h.tok u).position.1 + 1).toNat < b.Width := hc.2.2.1
    omega
  · rw [canTokenMove_player1 b h u _ _ rfl hv p1, if_pos]
    rw [isValidPosition_false_iff]
    intro hc
    have c1 : ((h.tok u).position.2 + 1).toNat < b.Height := hc.2.2.2
    omega

/-- A relocation of a token forward along the axis of its owner keeps the
flags of legal play. -/
theorem edgeInv_moveEffect (n : Nat) (h : Heap) (s : GameState) (fX fY tX tY t : Nat)
    (b1 : GameBoard) (h1 : Heap)
    (hw : WellFormed n h s) (he : EdgeInv n h s)
    (hfX : fX < n) (hfY : fY < n) (htX : tX < n) (htY : tY < n)
    (hfrom : s.board.board fY fX = some t) (hto : s.board.board tY tX = none)
    (hgeo : ((h.tok t).player = 0 ∧ tY = fY ∧ fX < tX) ∨
            ((h.tok t).player = 1 ∧ tX = fX ∧ fY < tY))
    (heff : MoveEffect s.board h fX fY tX tY t b1 h1) :
    EdgeInv n h1 { s with board := b1 } := by
  have hw1 := wellFormed_moveEffect n h s fX fY tX tY t b1 h1 hw hfX hfY htX htY hfrom hto heff
  obtain ⟨a1, a2, a3, a4, a5, a6, a7, a8⟩ := hw
  obtain ⟨m1, m2, m3, m4, m5, m6, m7⟩ := heff
  have hpos_t : (h.tok t).position = ((fX : Int), (fY : Int)) :=
    (posInv_iff s.board h).1 a5 fY fX t (by omega) (by omega) hfrom
  have hne : ¬ (tY = fY ∧ tX = fX) := by
    rintro ⟨e1, e2⟩
    rw [e1, e2, hfrom] at hto
    cases hto
  have ht_on : b1.holds t := by
    rw [m1]
    exact holds_moved s.board fX fY tX tY t (by omega) (by omega) hne
  have hpos1 : (h1.tok t).position = ((tX : Int), (tY : Int)) := by rw [m3 t, if_pos rfl]
  have hedge := isEdge_iff s.board tX tY
  have hW1 : b1.Width = n := hw1.1
  have hH1 : b1.Height = n := hw1.2.1
  have hon : ∀ u, u ≠ t → (u ∈ s.player1.tokens ∨ u ∈ s.player2.tokens) → b1.holds u := by
    intro u hut hu
    have hreg : s.board.isValidPosition (h.tok u).position.1 (h.tok u).position.2 = true ∧
        s.board.cell (h.tok u).position.1 (h.tok u).position.2 = some u := by
      rcases hu with hu | hu
      · exact (a6 u hu).2
      · exact (a7 u hu).2
    have v := (isValidPosition_iff _ _ _).1 hreg.1
    rw [m1, holds_relocate s.board fX fY tX tY t u hfrom hto hut]
    exact ⟨_, _, v.2.2.2, v.2.2.1, hreg.2⟩
  have hvalid1 : ∀ u, (u ∈ s.player1.tokens ∨ u ∈ s.player2.tokens) →
      b1.isValidPosition (h1.tok u).position.1 (h1.tok u).position.2 = true := by
    intro u hu
    rcases hu with hu | hu
    · exact (hw1.2.2.2.2.2.1 u hu).2.1
    · exact (hw1.2.2.2.2.2.2.1 u hu).2.1
  refine ⟨fun u hu => ?_, fun u hu => ?_⟩
  · obtain ⟨e1, e2, e3, e4⟩ := he.1 u hu
    have pu : (h.tok u).player = 0 := by rw [(a6 u hu).1, a3]
    by_cases hut : u = t
    · subst hut
      rcases hgeo with ⟨_, gy, gx⟩ | ⟨p1, _, _⟩
      swap
      · rw [pu] at p1
        cases p1
      rw [hpos_t] at e1 e2 e3
      simp only at e1 e2 e3
      have hfar : s.board.isEdge tX tY = true ↔ (tX : Int) = (n : Int) - 1 := by
        rw [hedge, a1, a2]
        omega
      rw [hpos1]
      simp only
      refine ⟨by omega, by omega, ?_, ?_⟩
      · by_cases hE : s.board.isEdge tX tY = true
        · exact ⟨fun _ => hfar.1 hE, fun _ => m5 hE⟩
        · have hE2 : s.board.isEdge tX tY = false := by simpa using hE
          have hold : (h.tok u).reachedEnd = false := by
            cases hr : (h.tok u).reachedEnd with
            | false => rfl
            | true =>
              have := e3.1 hr
              omega
          have hnew := m6 hE2 hold
          constructor
          · intro hh
            rw [hnew] at hh
            cases hh
          · intro hh
            exact absurd (hfar.2 hh) hE
      · intro hr
        have hE : s.board.isEdge tX tY = true := by
          cases hE : s.board.isEdge tX tY with
          | true => rfl
          | false =>
            have hold : (h.tok u).reachedEnd = false := by
              cases hr2 : (h.tok u).reachedEnd with
              | false => rfl
              | true =>
                have := e3.1 hr2
                omega
            rw [m6 hE hold] at hr
            cases hr
        rw [m7 u ht_on, if_pos ⟨rfl, hE⟩]
    · have hp : (h1.tok u).position = (h.tok u).position := by rw [m3 u, if_neg hut]
      have hr : (h1.tok u).reachedEnd = (h.tok u).reachedEnd := m4 u hut
      rw [hp, hr]
      refine ⟨e1, e2, e3, ?_⟩
      intro hre
      have hx := e3.1 hre
      rw [m7 u (hon u hut (Or.inl hu)), if_neg (fun hh => hut hh.1)]
      refine (canTokenMove_far b1 h1 n u hW1 hH1 (hvalid1 u (Or.inl hu))).1 ?_ ?_
      · rw [m2 u]
        exact pu
      · rw [hp]
        exact hx
  · obtain ⟨e1, e2, e3, e4⟩ := he.2 u hu
    have pu : (h.tok u).player = 1 := by rw [(a7 u hu).1, a4]
    by_cases hut : u = t
    · subst hut
      rcases hgeo with ⟨p0, _, _⟩ | ⟨_, gx, gy⟩
      · rw [pu] at p0
        cases p0
      rw [hpos_t] at e1 e2 e3
      simp only at e1 e2 e3
      have hfar : s.board.isEdge tX tY = true ↔ (tY : Int) = (n : Int) - 1 := by
        rw [hedge, a1, a2]
        omega
      rw [hpos1]
      simp only
      refine ⟨by omega, by omega, ?_, ?_⟩
      · by_cases hE : s.board.isEdge tX tY = true
        · exact ⟨fun _ => hfar.1 hE, fun _ => m5 hE⟩
        · have hE2 : s.board.isEdge tX tY = false := by simpa using hE
          have hold : (h.tok u).reachedEnd = false := by
            cases hr : (h.tok u).reachedEnd with
            | false => rfl
            | true =>
              have := e3.1 hr
              omega
          have hnew := m6 hE2 hold
          constructor
          · intro hh
            rw [hnew] at hh
            cases hh
          · intro hh
            exact absurd (hfar.2 hh) hE
      · intro hr
        have hE : s.board.isEdge tX tY = true := by
          cases hE : s.board.isEdge tX tY with
          | true => rfl
          | false =>
            have hold : (h.tok u).reachedEnd = false := by
              cases hr2 : (h.tok u).reachedEnd with
              | false => rfl
              | true =>
                have := e3.1 hr2
                omega
            rw [m6 hE hold] at hr
            cases hr
        rw [m7 u ht_on, if_pos ⟨rfl, hE⟩]
    · have hp : (h1.tok u).position = (h.tok u).position := by rw [m3 u, if_neg hut]
      have hr : (h1.tok u).reachedEnd = (h.tok u).reachedEnd := m4 u hut
      rw [hp, hr]
      refine ⟨e1, e2, e3, ?_⟩
      intro hre
      have hy := e3.1 hre
      rw [m7 u (hon u hut (Or.inr hu)), if_neg (fun hh => hut hh.1)]
      refine (canTokenMove_far b1 h1 n u hW1 hH1 (hvalid1 u (Or.inr hu))).2 ?_ ?_
      · rw [m2 u]
        exact pu
      · rw [hp]
        exact hy

/-! ## Forward moves -/

theorem getTokenAt_some (b : GameBoard) (x y : Int) (t : Nat) (hg : b.getTokenAt x y = some t) :
    b.isValidPosition x y = true ∧ b.cell x y = some t := by
  unfold GameBoard.getTokenAt at hg
  by_cases hv : b.isValidPosition x y = true
  · simp only [hv, Bool.not_true, Bool.false_eq_true, if_false] at hg
    exact ⟨hv, hg⟩
  · have hv2 : b.isValidPosition x y = false := by simpa using hv
    simp [hv2] at hg

/-- The cell `calculatePossibleMove` answers for a token of a player of a
well-formed state: an empty cell of the grid, ahead of the token on the
forward axis of its owner. -/
theorem forward_step (n : Nat) (h : Heap) (s : GameState) (p : Player) (x y : Int) (t : Nat)
    (hw : WellFormed n h s) (hp : p = s.player1 ∨ p = s.player2)
    (hg : s.board.getTokenAt x y = some t) (ht : t ∈ p.tokens)
    (hn : (calculatePossibleMove h x y p s).1 ≠ -1) :
    s.board.isValidPosition x y = true ∧ s.board.cell x y = some t ∧
    (h.tok t).canMove = true ∧
    s.board.isValidPosition (calculatePossibleMove h x y p s).1
      (calculatePossibleMove h x y p s).2 = true ∧
    s.board.cell (calculatePossibleMove h x y p s).1 (calculatePossibleMove h x y p s).2 = none ∧
    (((h.tok t).player = 0 ∧
        (calculatePossibleMove h x y p s).2.toNat = y.toNat ∧
        x.toNat < (calculatePossibleMove h x y p s).1.toNat) ∨
     ((h.tok t).player = 1 ∧
        (calculatePossibleMove h x y p s).1.toNat = x.toNat ∧
        y.toNat < (calculatePossibleMove h x y p s).2.toNat)) := by
  obtain ⟨hv, hc⟩ := getTokenAt_some s.board x y t hg
  have v := (isValidPosition_iff _ _ _).1 hv
  obtain ⟨_, _, a3, a4, _, a6, a7, _⟩ := hw
  have hcalc : calculatePossibleMove h x y p s =
      s.board.getTokenMove h x y (x + if p.playerNumber = 0 then 1 else 0)
        (y + if p.playerNumber = 1 then 1 else 0) := rfl
  rw [hcalc] at hn ⊢
  obtain ⟨_, t1, hc1, hm, hvg, hcg, hcase⟩ := getTokenMove_sound _ _ _ _ _ _ hn
  have ht1 : t1 = t := by
    rw [hc] at hc1
    exact (Option.some.inj hc1).symm
  subst ht1
  refine ⟨hv, hc, hm, hvg, hcg, ?_⟩
  rcases hp with hp | hp
  · subst hp
    have pt : (h.tok t1).player = 0 := by rw [(a6 t1 ht).1, a3]
    left
    refine ⟨pt, ?_⟩
    have d1 : (if s.player1.playerNumber = 0 then (1 : Int) else 0) = 1 := by rw [a3]; rfl
    have d2 : (if s.player1.playerNumber = 1 then (1 : Int) else 0) = 0 := by rw [a3]; rfl
    rw [d1, d2] at hcase ⊢
    rcases hcase with hcase | ⟨_, hcase⟩ | ⟨p1, _⟩
    · rw [hcase]
      simp only
      omega
    · rw [hcase]
      simp only
      omega
    · rw [pt] at p1
      cases p1
  · subst hp
    have pt : (h.tok t1).player = 1 := by rw [(a7 t1 ht).1, a4]
    right
    refine ⟨pt, ?_⟩
    have d1 : (if s.player2.playerNumber = 0 then (1 : Int) else 0) = 0 := by rw [a4]; rfl
    have d2 : (if s.player2.playerNumber = 1 then (1 : Int) else 0) = 1 := by rw [a4]; rfl
    rw [d1, d2] at hcase ⊢
    rcases hcase with hcase | ⟨p0, _⟩ | ⟨_, hcase⟩
    · rw [hcase]
      simp only
      omega
    · rw [pt] at p0
      cases p0
    · rw [hcase]
      simp only
      omega

/-! ## Counting -/

theorem countP_flip (l : List Nat) (P Q : Nat → Bool) (t : Nat) (hnd : l.Nodup) (ht : t ∈ l)
    (hsame : ∀ u ∈ l, u ≠ t → Q u = P u) (hP : P t = false) (hQ : Q t = true) :
    l.countP Q = l.countP P + 1 := by
  induction l with
  | nil => cases ht
  | cons a rest ih =>
    rw [List.nodup_cons] at hnd
    by_cases hat : a = t
    · subst hat
      have hrest : rest.countP Q = rest.countP P := by
        refine List.countP_congr (fun u hu => ?_)
        have hne : u ≠ a := by
          rintro rfl
          exact hnd.1 hu
        rw [hsame u (List.mem_cons_of_mem _ hu) hne]
      rw [List.countP_cons_of_pos _ _ hQ, List.countP_cons_of_neg, hrest]
      rw [hP]
      decide
    · have ht2 : t ∈ rest := by
        rcases List.mem_cons.1 ht with h1 | h1
        · exact absurd h1.symm hat
        · exact h1
      have ih2 := ih hnd.2 ht2 (fun u hu hne => hsame u (List.mem_cons_of_mem _ hu) hne)
      have hqa : Q a = P a := hsame a (List.mem_cons_self _ _) hat
      cases hpa : P a with
      | true =>
        rw [List.countP_cons_of_pos _ _ (by rw [hqa, hpa]), List.countP_cons_of_pos _ _ hpa, ih2]
      | false =>
        rw [List.countP_cons_of_neg _ _ (by rw [hqa, hpa]; decide),
          List.countP_cons_of_neg _ _ (by rw [hpa]; decide), ih2]

/-! ## The invariant of forward moves -/

/-- A forward move of a token of a player, raw or validated, keeps the state
well-formed and keeps the flags of legal play. -/
theorem forward_inv (n : Nat) (h : Heap) (s : GameState) (p : Player) (x y : Int) (t : Nat)
    (b1 : GameBoard) (h1 : Heap)
    (hw : WellFormed n h s) (he : EdgeInv n h s) (hp : p = s.player1 ∨ p = s.player2)
    (hg : s.board.getTokenAt x y = some t) (ht : t ∈ p.tokens)
    (hn : (calculatePossibleMove h x y p s).1 ≠ -1)
    (heff : MoveEffect s.board h x.toNat y.toNat (calculatePossibleMove h x y p s).1.toNat
      (calculatePossibleMove h x y p s).2.toNat t b1 h1) :
    WellFormed n h1 { s with board := b1 } ∧ EdgeInv n h1 { s with board := b1 } := by
  obtain ⟨hv, hc, _, hvg, hcg, hgeo⟩ := forward_step n h s p x y t hw hp hg ht hn
  have v := (isValidPosition_iff _ _ _).1 hv
  have vg := (isValidPosition_iff _ _ _).1 hvg
  have hW := hw.1
  have hH := hw.2.1
  exact ⟨wellFormed_moveEffect n h s _ _ _ _ t b1 h1 hw (by omega) (by omega) (by omega)
      (by omega) hc hcg heff,
    edgeInv_moveEffect n h s _ _ _ _ t b1 h1 hw he (by omega) (by omega) (by omega) (by omega)
      hc hcg hgeo heff⟩

theorem forward_raw (n : Nat) (h : Heap) (s : GameState) (p : Player) (x y : Int) (t : Nat)
    (b1 : GameBoard) (h1 : Heap)
    (hw : WellFormed n h s) (hp : p = s.player1 ∨ p = s.player2)
    (hg : s.board.getTokenAt x y = some t) (ht : t ∈ p.tokens)
    (hn : (calculatePossibleMove h x y p s).1 ≠ -1)
    (hok : s.board.moveTokenRaw h x y (calculatePossibleMove h x y p s).1
      (calculatePossibleMove h x y p s).2 = .ok (b1, h1)) :
    MoveEffect s.board h x.toNat y.toNat (calculatePossibleMove h x y p s).1.toNat
      (calculatePossibleMove h x y p s).2.toNat t b1 h1 := by
  obtain ⟨hv, hc, _, hvg, _, _⟩ := forward_step n h s p x y t hw hp hg ht hn
  rw [moveTokenRaw_ok s.board h x y _ _ t hv hc hvg] at hok
  have hr := Except.ok.inj hok
  have e1 : b1 = (s.board.relocateRaw h x.toNat y.toNat (calculatePossibleMove h x y p s).1.toNat
      (calculatePossibleMove h x y p s).2.toNat t).1 := by rw [hr]
  have e2 : h1 = (s.board.relocateRaw h x.toNat y.toNat (calculatePossibleMove h x y p s).1.toNat
      (calculatePossibleMove h x y p s).2.toNat t).2 := by rw [hr]
  rw [e1, e2]
  exact moveEffect_relocateRaw _ _ _ _ _ _ _

theorem forward_validated (n : Nat) (h : Heap) (s : GameState) (p : Player) (x y : Int)
    (t : Nat) (b1 : GameBoard) (h1 : Heap)
    (hw : WellFormed n h s) (hp : p = s.player1 ∨ p = s.player2)
    (hg : s.board.getTokenAt x y = some t) (ht : t ∈ p.tokens)
    (hn : (calculatePossibleMove h x y p s).1 ≠ -1)
    (hok : s.board.moveToken h x y (calculatePossibleMove h x y p s).1
      (calculatePossibleMove h x y p s).2 = .ok (b1, h1)) :
    MoveEffect s.board h x.toNat y.toNat (calculatePossibleMove h x y p s).1.toNat
      (calculatePossibleMove h x y p s).2.toNat t b1 h1 := by
  obtain ⟨hv, hc, hm, hvg, hcg, _⟩ := forward_step n h s p x y t hw hp hg ht hn
  rw [moveToken_of_token s.board h x y _ _ t hv hvg hc hm, if_pos hcg] at hok
  have hr := Except.ok.inj hok
  have e1 : b1 = (s.board.relocate h x.toNat y.toNat (calculatePossibleMove h x y p s).1.toNat
      (calculatePossibleMove h x y p s).2.toNat t).1 := by rw [hr]
  have e2 : h1 = (s.board.relocate h x.toNat y.toNat (calculatePossibleMove h x y p s).1.toNat
      (calculatePossibleMove h x y p s).2.toNat t).2 := by rw [hr]
  rw [e1, e2]
  exact moveEffect_relocate _ _ _ _ _ _ _

theorem startState_edgeInv (n : Nat) : EdgeInv n (startState n).1 (startState n).2 := by
  rw [startState_eq]
  exact init_edgeInv n (n - 2) (le_refl _)

theorem forwardPlay_inv (n : Nat) (h : Heap) (s : GameState) (hr : ForwardPlay n h s) :
    WellFormed n h s ∧ EdgeInv n h s := by
  induction hr with
  | start => exact ⟨startState_wellFormed n, startState_edgeInv n⟩
  | raw h s p x y t b1 h1 _ hp hg ht hn hok ih =>
    exact forward_inv n h s p x y t b1 h1 ih.1 ih.2 hp hg ht hn
      (forward_raw n h s p x y t b1 h1 ih.1 hp hg ht hn hok)
  | validated h s p x y t b1 h1 _ hp hg ht hn hok ih =>
    exact forward_inv n h s p x y t b1 h1 ih.1 ih.2 hp hg ht hn
      (forward_validated n h s p x y t b1 h1 ih.1 hp hg ht hn hok)

/-- Claim C17, amended.  In every state reachable from the start position of
the game of size `n ≥ 3` by calls of `moveTokenRaw` and `moveToken` that move
a token of one of the players from its cell to the cell `getTokenMove`
answers for its forward neighbour, every token on the grid belongs to a
player, and no token of a player carries the reached-end mark together with
a true movable flag; `canTokenMove` is false for every marked token as
well. -/
theorem C17_flag_invariant (n : Nat) (hn : 3 ≤ n) (h : Heap) (s : GameState)
    (hr : ForwardPlay n h s) :
    (∀ r c t, r < n → c < n → s.board.board r c = some t →
      t ∈ s.player1.tokens ∨ t ∈ s.player2.tokens) ∧
    (∀ t, t ∈ s.player1.tokens ∨ t ∈ s.player2.tokens →
      ¬ ((h.tok t).reachedEnd = true ∧ (h.tok t).canMove = true) ∧
      ((h.tok t).reachedEnd = true → s.board.canTokenMove h t = false)) := by
  have _ := hn
  obtain ⟨hw, he⟩ := forwardPlay_inv n h s hr
  obtain ⟨a1, a2, a3, a4, _, a6, a7, a8⟩ := hw
  refine ⟨fun r c t hr hc hb => ownedCell_spec s r c t (a8 r hr c hc) hb, ?_⟩
  intro t ht
  rcases ht with ht | ht
  · obtain ⟨_, _, e3, e4⟩ := he.1 t ht
    refine ⟨?_, ?_⟩
    · rintro ⟨c1, c2⟩
      rw [e4 c1] at c2
      cases c2
    · intro c1
      exact (canTokenMove_far s.board h n t a1 a2 (a6 t ht).2.1).1
        (by rw [(a6 t ht).1, a3]) (e3.1 c1)
  · obtain ⟨_, _, e3, e4⟩ := he.2 t ht
    refine ⟨?_, ?_⟩
    · rintro ⟨c1, c2⟩
      rw [e4 c1] at c2
      cases c2
    · intro c1
      exact (canTokenMove_far s.board h n t a1 a2 (a7 t ht).2.1).2
        (by rw [(a7 t ht).1, a4]) (e3.1 c1)

/-! ## Scores in legal play -/

theorem edgeInv_fields (n : Nat) (h : Heap) (s s1 : GameState) (he : EdgeInv n h s)
    (h1 : s1.player1.tokens = s.player1.tokens) (h2 : s1.player2.tokens = s.player2.tokens) :
    EdgeInv n h s1 := by
  refine ⟨fun t ht => ?_, fun t ht => ?_⟩
  · rw [h1] at ht
    exact he.1 t ht
  · rw [h2] at ht
    exact he.2 t ht

theorem arrived_fields (n : Nat) (h : Heap) (p q : Player) (h1 : q.tokens = p.tokens)
    (h2 : q.playerNumber = p.playerNumber) : arrived n h q = arrived n h p := by
  simp only [arrived, forwardCoord, h1, h2]

/-- The count of arrived tokens does not change when no token of the player
changes its position. -/
theorem arrived_same (n : Nat) (h h1 : Heap) (p : Player)
    (hsame : ∀ u ∈ p.tokens, (h1.tok u).position = (h.tok u).position) :
    arrived n h1 p = arrived n h p := by
  unfold arrived
  refine List.countP_congr (fun u hu => ?_)
  simp only [forwardCoord, hsame u hu]

/-- The count of arrived tokens after one token of the player, which had not
arrived, has changed its position. -/
theorem arrived_mover (n : Nat) (h h1 : Heap) (p : Player) (t : Nat) (hnd : p.tokens.Nodup)
    (ht : t ∈ p.tokens)
    (hsame : ∀ u ∈ p.tokens, u ≠ t → (h1.tok u).position = (h.tok u).position)
    (hold : forwardCoord h p t ≠ (n : Int) - 1) :
    arrived n h1 p = arrived n h p + (if forwardCoord h1 p t = (n : Int) - 1 then 1 else 0) := by
  unfold arrived
  by_cases hnew : forwardCoord h1 p t = (n : Int) - 1
  · rw [if_pos hnew]
    refine countP_flip p.tokens _ _ t hnd ht (fun u hu hne => ?_) ?_ ?_
    · simp only [forwardCoord, hsame u hu hne]
    · simpa using hold
    · simpa using hnew
  · rw [if_neg hnew, Nat.add_zero]
    refine List.countP_congr (fun u hu => ?_)
    by_cases hut : u = t
    · subst hut
      simp [hold, hnew]
    · simp only [forwardCoord, hsame u hu hut]

theorem startState_playInv (n : Nat) : PlayInv n (startState n).1 (startState n).2 := by
  refine ⟨startState_wellFormed n, startState_edgeInv n, ?_⟩
  rw [startState_eq]
  refine ⟨?_, ?_, ?_, ?_, ?_, ?_⟩
  · refine List.Nodup.map (fun a b hab => ?_) (List.nodup_range _)
    simp only at hab
    omega
  · refine List.Nodup.map (fun a b hab => ?_) (List.nodup_range _)
    simp only at hab
    omega
  · simp [initState]
  · simp [initState]
  · have : arrived n (initHeap (n - 2)) (initState n (n - 2)).player1 = 0 := by
      unfold arrived
      rw [List.countP_eq_zero]
      intro t ht
      obtain ⟨i, hi, rfl⟩ := (mem_evens (n - 2) t).1 ht
      simp only [forwardCoord, initState, initHeap_tok_even (n - 2) i hi, Token.mk0, if_true,
        decide_eq_true_eq]
      omega
    rw [this]
    rfl
  · have : arrived n (initHeap (n - 2)) (initState n (n - 2)).player2 = 0 := by
      unfold arrived
      rw [List.countP_eq_zero]
      intro t ht
      obtain ⟨i, hi, rfl⟩ := (mem_odds (n - 2) t).1 ht
      have c10 : ¬ ((1 : Int) = 0) := by decide
      simp only [forwardCoord, initState, initHeap_tok_odd (n - 2) i hi, Token.mk0, c10,
        if_false, decide_eq_true_eq]
      omega
    rw [this]
    rfl

theorem getCurrentPlayer_cases (s : GameState) :
    (s.currentPlayer = 0 ∧ s.getCurrentPlayer = s.player1) ∨
    (s.currentPlayer ≠ 0 ∧ s.getCurrentPlayer = s.player2) := by
  unfold GameState.getCurrentPlayer
  by_cases hc : s.currentPlayer = 0
  · left
    exact ⟨hc, by rw [if_pos hc]⟩
  · right
    exact ⟨hc, by rw [if_neg hc]⟩

/-- The token that a relocation has put on an in-bounds cell is what
`GameState::moveToken` finds there. -/
theorem reachedEndAt_landing (b : GameBoard) (h : Heap) (fX fY : Nat) (gx gy : Int) (t : Nat)
    (b1 : GameBoard) (h1 : Heap) (hv : b.isValidPosition gx gy = true)
    (hne : ¬ (gy.toNat = fY ∧ gx.toNat = fX))
    (heff : MoveEffect b h fX fY gx.toNat gy.toNat t b1 h1) :
    reachedEndAt b1 h1 gx gy = (h1.tok t).reachedEnd := by
  obtain ⟨m1, _⟩ := heff
  have hv1 : b1.isValidPosition gx gy = true := by
    rw [m1]
    exact hv
  have hc : b1.cell gx gy = some t := by
    rw [m1]
    simp [GameBoard.cell, setCell_board, hne]
  simp [reachedEndAt, GameBoard.getTokenAt, hv1, hc, Token.hasReachedEnd]

/-- A legal move keeps the invariant of legal play. -/
theorem playInv_move (n : Nat) (h : Heap) (s : GameState) (x y : Int) (t : Nat)
    (s1 : GameState) (h1 : Heap) (hinv : PlayInv n h s)
    (hg : s.board.getTokenAt x y = some t) (ht : t ∈ s.getCurrentPlayer.tokens)
    (hn : (calculatePossibleMove h x y s.getCurrentPlayer s).1 ≠ -1)
    (hok : s.moveToken h x y (calculatePossibleMove h x y s.getCurrentPlayer s).1
      (calculatePossibleMove h x y s.getCurrentPlayer s).2 = .ok (s1, h1)) :
    PlayInv n h1 s1 := by
  obtain ⟨hw, he, nd1, nd2, l1, l2, sc1, sc2⟩ := hinv
  have hp : s.getCurrentPlayer = s.player1 ∨ s.getCurrentPlayer = s.player2 := by
    rcases getCurrentPlayer_cases s with ⟨_, hh⟩ | ⟨_, hh⟩
    · exact Or.inl hh
    · exact Or.inr hh
  obtain ⟨b1, hb, e1, _, _, e4, e5, e6, e7, _, _, _, _, e12, e13⟩ :=
    stateMoveToken_ok s h x y _ _ s1 h1 hok
  have heff := forward_validated n h s _ x y t b1 h1 hw hp hg ht hn hb
  obtain ⟨hw1, he1⟩ := forward_inv n h s _ x y t b1 h1 hw he hp hg ht hn heff
  obtain ⟨hv, hc, _, hvg, hcg, hgeo⟩ := forward_step n h s _ x y t hw hp hg ht hn
  have v := (isValidPosition_iff _ _ _).1 hv
  have vg := (isValidPosition_iff _ _ _).1 hvg
  have hne : ¬ ((calculatePossibleMove h x y s.getCurrentPlayer s).2.toNat = y.toNat ∧
      (calculatePossibleMove h x y s.getCurrentPlayer s).1.toNat = x.toNat) := by
    rintro ⟨c1, c2⟩
    have hc1 : s.board.board y.toNat x.toNat = some t := hc
    have hc2 : s.board.board (calculatePossibleMove h x y s.getCurrentPlayer s).2.toNat
        (calculatePossibleMove h x y s.getCurrentPlayer s).1.toNat = none := hcg
    rw [c1, c2, hc1] at hc2
    cases hc2
  have hland := reachedEndAt_landing s.board h x.toNat y.toNat _ _ t b1 h1 hvg hne heff
  rw [hland] at e12 e13
  obtain ⟨a1, a2, a3, a4, a5, a6, a7, _⟩ := hw
  obtain ⟨_, _, m3, _⟩ := heff
  have hpos_t : (h.tok t).position = ((x.toNat : Int), (y.toNat : Int)) :=
    (posInv_iff s.board h).1 a5 y.toNat x.toNat t v.2.2.2 v.2.2.1 hc
  have hw2 := wellFormed_fields n h1 _ s1 hw1 e1 e4 e5 e6 e7
  have he2 := edgeInv_fields n h1 _ s1 he1 e4 e5
  refine ⟨hw2, he2, by rw [e4]; exact nd1, by rw [e5]; exact nd2, by rw [e4]; exact l1,
    by rw [e5]; exact l2, ?_, ?_⟩
  · rw [arrived_fields n h1 s.player1 s1.player1 e4 e6, e12, sc1]
    rcases getCurrentPlayer_cases s with ⟨hcur, hh⟩ | ⟨hcur, hh⟩
    · rw [hh] at ht
      have pt : (h.tok t).player = 0 := by rw [(a6 t ht).1, a3]
      have gx : x.toNat < (calculatePossibleMove h x y s.getCurrentPlayer s).1.toNat := by
        rcases hgeo with ⟨_, _, g⟩ | ⟨p1, _, _⟩
        · exact g
        · rw [pt] at p1
          cases p1
      have hold : forwardCoord h s.player1 t ≠ (n : Int) - 1 := by
        simp only [forwardCoord, a3, if_true, hpos_t]
        omega
      rw [arrived_mover n h h1 s.player1 t nd1 ht
        (fun u _ hut => by rw [m3 u, if_neg hut]) hold]
      have hiff := (he1.1 t ht).2.2.1
      have hfc : forwardCoord h1 s.player1 t = (h1.tok t).position.1 := by
        simp only [forwardCoord, a3, if_true]
      rw [hfc]
      by_cases hr : (h1.tok t).reachedEnd = true
      · rw [if_pos ⟨hr, hcur⟩, if_pos (hiff.1 hr)]
        push_cast
        rfl
      · rw [if_neg (fun hh2 => hr hh2.1), if_neg (fun hh2 => hr (hiff.2 hh2))]
        simp
    · rw [hh] at ht
      have pt : (h.tok t).player = 1 := by rw [(a7 t ht).1, a4]
      rw [if_neg (fun hh2 => hcur hh2.2), add_zero]
      rw [arrived_same n h h1 s.player1 (fun u hu => by
        have hut : u ≠ t := by
          rintro rfl
          rw [(a6 u hu).1, a3] at pt
          cases pt
        rw [m3 u, if_neg hut])]
  · rw [arrived_fields n h1 s.player2 s1.player2 e5 e7, e13, sc2]
    rcases getCurrentPlayer_cases s with ⟨hcur, hh⟩ | ⟨hcur, hh⟩
    · rw [hh] at ht
      have pt : (h.tok t).player = 0 := by rw [(a6 t ht).1, a3]
      rw [if_neg (fun hh2 => hh2.2 hcur), add_zero]
      rw [arrived_same n h h1 s.player2 (fun u hu => by
        have hut : u ≠ t := by
          rintro rfl
          rw [(a7 u hu).1, a4] at pt
          cases pt
        rw [m3 u, if_neg hut])]
    · rw [hh] at ht
      have pt : (h.tok t).player = 1 := by rw [(a7 t ht).1, a4]
      have gy : y.toNat < (calculatePossibleMove h x y s.getCurrentPlayer s).2.toNat := by
        rcases hgeo with ⟨p0, _, _⟩ | ⟨_, _, g⟩
        · rw [pt] at p0
          cases p0
        · exact g
      have c10 : ¬ ((1 : Int) = 0) := by decide
      have hold : forwardCoord h s.player2 t ≠ (n : Int) - 1 := by
        simp only [forwardCoord, a4, c10, if_false, hpos_t]
        omega
      rw [arrived_mover n h h1 s.player2 t nd2 ht
        (fun u _ hut => by rw [m3 u, if_neg hut]) hold]
      have hiff := (he1.2 t ht).2.2.1
      have hfc : forwardCoord h1 s.player2 t = (h1.tok t).position.2 := by
        simp only [forwardCoord, a4, c10, if_false]
      rw [hfc]
      by_cases hr : (h1.tok t).reachedEnd = true
      · rw [if_pos ⟨hr, hcur⟩, if_pos (hiff.1 hr)]
        push_cast
        rfl
      · rw [if_neg (fun hh2 => hr hh2.1), if_neg (fun hh2 => hr (hiff.2 hh2))]
        simp

theorem legalPlay_inv (n : Nat) (h : Heap) (s : GameState) (hr : LegalPlay n h s) :
    PlayInv n h s := by
  induction hr with
  | start => exact startState_playInv n
  | move h s x y t s1 h1 _ hg ht hn hok ih => exact playInv_move n h s x y t s1 h1 ih hg ht hn hok
  | switch h s _ ih =>
    obtain ⟨hw, he, nd1, nd2, l1, l2, sc1, sc2⟩ := ih
    exact ⟨wellFormed_fields n h s _ hw rfl rfl rfl rfl rfl, edgeInv_fields n h s _ he rfl rfl,
      nd1, nd2, l1, l2, sc1, sc2⟩

/-- Claim C13, amended.  In every state reachable from the start position of
the game of size `n ≥ 3` by legal play (the current player moves one of its
own tokens with `GameState::moveToken` to the cell `getTokenMove` answers for
the forward neighbour of the token, with `switchPlayer` calls in between in
any order), the score of each player is the number of its tokens whose
forward coordinate is `n - 1`, hence at least 0 and at most `n - 2`. -/
theorem C13_score_bound (n : Nat) (hn : 3 ≤ n) (h : Heap) (s : GameState)
    (hr : LegalPlay n h s) :
    s.player1.score = (arrived n h s.player1 : Int) ∧
    s.player2.score = (arrived n h s.player2 : Int) ∧
    0 ≤ s.player1.score ∧ s.player1.score ≤ (n : Int) - 2 ∧
    0 ≤ s.player2.score ∧ s.player2.score ≤ (n : Int) - 2 := by
  obtain ⟨_, _, _, _, l1, l2, sc1, sc2⟩ := legalPlay_inv n h s hr
  have b1 : arrived n h s.player1 ≤ n - 2 := by
    rw [← l1]
    exact List.countP_le_length _
  have b2 : arrived n h s.player2 ≤ n - 2 := by
    rw [← l2]
    exact List.countP_le_length _
  refine ⟨sc1, sc2, ?_, ?_, ?_, ?_⟩ <;> omega

/-! ## Scores of direct moves -/

/-- Direct moves: when `to` is empty the move is direct, and in a state with
the flags of legal play `GameState::moveToken` marks the moved token exactly
when `to` is an edge cell, gives the current player one point exactly then,
and leaves the score of the other player as it was. -/
theorem stateMoveToken_direct (n : Nat) (h : Heap) (s : GameState) (x y toX toY : Int) (t : Nat)
    (s1 : GameState) (h1 : Heap) (hw : WellFormed n h s) (he : EdgeInv n h s)
    (hg : s.board.getTokenAt x y = some t) (hto : s.board.cell toX toY = none)
    (hok : s.moveToken h x y toX toY = .ok (s1, h1)) :
    (h1.tok t).position = (toX, toY) ∧
    ((h1.tok t).reachedEnd = true ↔
      (toX = 0 ∨ toX = (n : Int) - 1 ∨ toY = 0 ∨ toY = (n : Int) - 1)) ∧
    s1.getCurrentPlayer.score = s.getCurrentPlayer.score +
      (if (toX = 0 ∨ toX = (n : Int) - 1 ∨ toY = 0 ∨ toY = (n : Int) - 1) then 1 else 0) ∧
    s1.getOtherPlayer.score = s.getOtherPlayer.score := by
  obtain ⟨hv, hc⟩ := getTokenAt_some s.board x y t hg
  obtain ⟨b1, hb, _, e2, _, _, _, _, _, _, _, _, _, e12, e13⟩ :=
    stateMoveToken_ok s h x y toX toY s1 h1 hok
  obtain ⟨hf, ht, _, _, _, _, _, _, _, _, _⟩ := moveToken_ok_inv s.board h x y toX toY b1 h1 hb
  obtain ⟨t1, tX, tY, _, hc1, hm, _, _, _, heff, _, hdir⟩ :=
    moveToken_wellFormed n h s x y toX toY b1 h1 hw hb
  have ht1 : t1 = t := by
    rw [hc] at hc1
    exact (Option.some.inj hc1).symm
  subst ht1
  obtain ⟨rfl, rfl⟩ := hdir hto
  have v := (isValidPosition_iff _ _ _).1 hv
  have vt := (isValidPosition_iff _ _ _).1 ht
  have hne : ¬ (toY.toNat = y.toNat ∧ toX.toNat = x.toNat) := by
    rintro ⟨c1, c2⟩
    have hc2 : s.board.board y.toNat x.toNat = some t1 := hc
    have hc3 : s.board.board toY.toNat toX.toNat = none := hto
    rw [c1, c2, hc2] at hc3
    cases hc3
  have hland := reachedEndAt_landing s.board h x.toNat y.toNat toX toY t1 b1 h1 ht hne heff
  rw [hland] at e12 e13
  have hold : (h.tok t1).reachedEnd = false := by
    have hmem := ownedCell_spec s y.toNat x.toNat t1
      (hw.2.2.2.2.2.2.2 y.toNat (by have := hw.2.1; omega) x.toNat (by have := hw.1; omega)) hc
    cases hr : (h.tok t1).reachedEnd with
    | false => rfl
    | true =>
      rcases hmem with hmem | hmem
      · rw [(he.1 t1 hmem).2.2.2 hr] at hm
        cases hm
      · rw [(he.2 t1 hmem).2.2.2 hr] at hm
        cases hm
  obtain ⟨_, _, m3, _, m5, m6, _⟩ := heff
  have hedge := isEdge_int s.board toX toY ht
  rw [hw.1, hw.2.1] at hedge
  have hmark : (h1.tok t1).reachedEnd = true ↔
      (toX = 0 ∨ toX = (n : Int) - 1 ∨ toY = 0 ∨ toY = (n : Int) - 1) := by
    rw [← hedge]
    constructor
    · intro hr
      cases hE : s.board.isEdge toX.toNat toY.toNat with
      | true => rfl
      | false =>
        rw [m6 hE hold] at hr
        cases hr
    · exact m5
  refine ⟨?_, hmark, ?_, ?_⟩
  · rw [m3 t1, if_pos rfl]
    exact toNat_cast_pair toX toY vt.1 vt.2.1
  · unfold GameState.getCurrentPlayer
    rw [e2]
    by_cases hcur : s.currentPlayer = 0
    · rw [if_pos hcur, if_pos hcur, e12]
      by_cases hr : (h1.tok t1).reachedEnd = true
      · rw [if_pos ⟨hr, hcur⟩, if_pos (hmark.1 hr)]
      · rw [if_neg (fun hh => hr hh.1), if_neg (fun hh => hr (hmark.2 hh))]
    · rw [if_neg hcur, if_neg hcur, e13]
      by_cases hr : (h1.tok t1).reachedEnd = true
      · rw [if_pos ⟨hr, hcur⟩, if_pos (hmark.1 hr)]
      · rw [if_neg (fun hh => hr hh.1), if_neg (fun hh => hr (hmark.2 hh))]
  · unfold GameState.getOtherPlayer
    rw [e2]
    by_cases hcur : s.currentPlayer = 0
    · rw [if_pos hcur, if_pos hcur, e13, if_neg (fun hh => hh.2 hcur), add_zero]
    · rw [if_neg hcur, if_neg hcur, e12, if_neg (fun hh => hcur hh.2), add_zero]

/-! ## Concrete states of legal play -/

theorem firstTurn3_legal : LegalPlay 3 firstTurn3.2 firstTurn3.1 := by
  have hcalc : calculatePossibleMove (startState 3).1 0 1 (startState 3).2.getCurrentPlayer
      (startState 3).2 = (1, 1) := by decide
  have hok : (startState 3).2.moveToken (startState 3).1 0 1
      (calculatePossibleMove (startState 3).1 0 1 (startState 3).2.getCurrentPlayer
        (startState 3).2).1
      (calculatePossibleMove (startState 3).1 0 1 (startState 3).2.getCurrentPlayer
        (startState 3).2).2 = .ok (firstTurn3.1, firstTurn3.2) := by
    rw [hcalc]
    have hisok : ((startState 3).2.moveToken (startState 3).1 0 1 1 1).isOk = true := by decide
    unfold firstTurn3 afterCalls
    simp only [runCalls]
    cases hm : (startState 3).2.moveToken (startState 3).1 0 1 1 1 with
    | error e =>
      rw [hm] at hisok
      cases hisok
    | ok r => rfl
  exact LegalPlay.move _ _ 0 1 0 _ _ LegalPlay.start (by decide) (by decide) (by decide) hok

theorem firstRaw3_forward :
    ForwardPlay 3 firstRaw3.2 { (startState 3).2 with board := firstRaw3.1 } := by
  have hcalc : calculatePossibleMove (startState 3).1 0 1 (startState 3).2.player1
      (startState 3).2 = (1, 1) := by decide
  have hok : (startState 3).2.board.moveTokenRaw (startState 3).1 0 1
      (calculatePossibleMove (startState 3).1 0 1 (startState 3).2.player1 (startState 3).2).1
      (calculatePossibleMove (startState 3).1 0 1 (startState 3).2.player1 (startState 3).2).2 =
        .ok (firstRaw3.1, firstRaw3.2) := by
    rw [hcalc]
    have hisok : ((startState 3).2.board.moveTokenRaw (startState 3).1 0 1 1 1).isOk = true := by
      decide
    unfold firstRaw3
    cases hm : (startState 3).2.board.moveTokenRaw (startState 3).1 0 1 1 1 with
    | error e =>
      rw [hm] at hisok
      cases hisok
    | ok r => rfl
  exact ForwardPlay.raw _ _ (startState 3).2.player1 0 1 0 _ _ ForwardPlay.start (Or.inl rfl)
    (by decide) (by decide) (by decide) hok

/-- Claim C13 (amended) on the 3×3 game after the legal first turn of
player 0. -/
theorem C13_witness :
    firstTurn3.1.player1.score = (arrived 3 firstTurn3.2 firstTurn3.1.player1 : Int) ∧
    firstTurn3.1.player2.score = (arrived 3 firstTurn3.2 firstTurn3.1.player2 : Int) ∧
    0 ≤ firstTurn3.1.player1.score ∧ firstTurn3.1.player1.score ≤ ((3 : Nat) : Int) - 2 ∧
    0 ≤ firstTurn3.1.player2.score ∧ firstTurn3.1.player2.score ≤ ((3 : Nat) : Int) - 2 :=
  C13_score_bound 3 (by decide) firstTurn3.2 firstTurn3.1 firstTurn3_legal

/-- Claim C17 (amended) on the 3×3 board after the raw forward move
`(0,1) → (1,1)`. -/
theorem C17_witness :
    (∀ r c t, r < 3 → c < 3 →
      ({ (startState 3).2 with board := firstRaw3.1 } : GameState).board.board r c = some t →
      t ∈ ({ (startState 3).2 with board := firstRaw3.1 } : GameState).player1.tokens ∨
      t ∈ ({ (startState 3).2 with board := firstRaw3.1 } : GameState).player2.tokens) ∧
    (∀ t, t ∈ ({ (startState 3).2 with board := firstRaw3.1 } : GameState).player1.tokens ∨
        t ∈ ({ (startState 3).2 with board := firstRaw3.1 } : GameState).player2.tokens →
      ¬ ((firstRaw3.2.tok t).reachedEnd = true ∧ (firstRaw3.2.tok t).canMove = true) ∧
      ((firstRaw3.2.tok t).reachedEnd = true →
        ({ (startState 3).2 with board := firstRaw3.1 } : GameState).board.canTokenMove
          firstRaw3.2 t = false)) :=
  C17_flag_invariant 3 (by decide) firstRaw3.2 { (startState 3).2 with board := firstRaw3.1 }
    firstRaw3_forward

/-- Claim C11 on the 3×3 game in which player 1's token stands on `(1,1)`,
for the tokens where they stand. -/
theorem C11_witness :
    (facing3.1.player1.playerNumber = 0 ∧ facing3.1.player1.tokens.length = 3 - 2 ∧
      (isWinningState facing3.2 facing3.1.player1 = true ↔
        ∀ t ∈ facing3.1.player1.tokens, (facing3.2.tok t).position.1 = ((3 : Nat) : Int) - 1) ∧
      (∀ t ∈ facing3.1.player1.tokens, (facing3.2.tok t).position.1 ≠ ((3 : Nat) : Int) - 1 →
        isWinningState facing3.2 facing3.1.player1 = false)) ∧
    (facing3.1.player2.playerNumber = 1 ∧ facing3.1.player2.tokens.length = 3 - 2 ∧
      (isWinningState facing3.2 facing3.1.player2 = true ↔
        ∀ t ∈ facing3.1.player2.tokens, (facing3.2.tok t).position.2 = ((3 : Nat) : Int) - 1) ∧
      (∀ t ∈ facing3.1.player2.tokens, (facing3.2.tok t).position.2 ≠ ((3 : Nat) : Int) - 1 →
        isWinningState facing3.2 facing3.1.player2 = false)) :=
  C11_win_predicate 3 (by decide) facing3.2 facing3.1 (reachable_afterCalls 3 _ (by decide))
    facing3.2

/-- Claim C14 on the 3×3 game in which player 1's token stands on `(1,1)`. -/
theorem C14_witness :
    facing3.1.board.Width = 3 ∧ facing3.1.board.Height = 3 ∧
    (∀ t, t ∈ facing3.1.player1.tokens ∨ t ∈ facing3.1.player2.tokens →
      facing3.1.board.isValidPosition (facing3.2.tok t).position.1
        (facing3.2.tok t).position.2 = true ∧
      facing3.1.board.cell (facing3.2.tok t).position.1 (facing3.2.tok t).position.2 = some t) ∧
    (∀ t u, t ∈ facing3.1.player1.tokens ∨ t ∈ facing3.1.player2.tokens →
      u ∈ facing3.1.player1.tokens ∨ u ∈ facing3.1.player2.tokens →
      (facing3.2.tok t).position = (facing3.2.tok u).position → t = u) ∧
    (∀ r c t, r < 3 → c < 3 → facing3.1.board.board r c = some t →
      (t ∈ facing3.1.player1.tokens ∨ t ∈ facing3.1.player2.tokens) ∧
      (facing3.2.tok t).position = ((c : Int), (r : Int))) :=
  C14_bijection_invariant 3 (by decide) facing3.2 facing3.1
    (reachable_afterCalls 3 _ (by decide))

/-! ## Errors of the raw move -/

/-- The state transformer of the raw move agrees with `moveTokenRaw`. -/
theorem moveTokenRawExec_eq (b : GameBoard) (h : Heap) (fromX fromY toX toY : Int) :
    b.moveTokenRawExec h fromX fromY toX toY =
      match b.moveTokenRaw h fromX fromY toX toY with
      | .ok r => (r, none)
      | .error e => ((b, h), some e) := by
  unfold GameBoard.moveTokenRawExec GameBoard.moveTokenRaw
  by_cases h0 : (!b.isValidPosition fromX fromY) = true
  · rw [if_pos h0, if_pos h0]
  · rw [if_neg h0, if_neg h0]
    simp only
    cases b.board fromY.toNat fromX.toNat with
    | none => rfl
    | some t =>
      simp only
      by_cases hv : (!b.isValidPosition toX toY) = true
      · rw [if_pos hv, if_pos hv]
      · rw [if_neg hv, if_neg hv]

/-- Claim C21, refuted as stated.  On the 3×3 start position `moveTokenRaw`
raises no board error when `to` or `from` is outside the grid: the calls
`(0,1) → (3,1)` and `(3,1) → (1,1)` index the grid out of range, which is
undefined behaviour, whereas the validated move answers the first one with
the out-of-bounds error. -/
theorem C21_counterexample :
    (startState 3).2.board.isValidPosition 3 1 = false ∧
    (startState 3).2.board.cell 0 1 = some 0 ∧
    faultOf ((startState 3).2.board.moveTokenRaw (startState 3).1 0 1 3 1) =
      some .undefinedBehaviour ∧
    faultOf ((startState 3).2.board.moveTokenRaw (startState 3).1 3 1 1 1) =
      some .undefinedBehaviour ∧
    faultOf ((startState 3).2.board.moveToken (startState 3).1 0 1 3 1) =
      some .moveOutOfBounds := by
  decide

/-- Claim C21, amended.  `moveTokenRaw(from, to)` throws the empty-source
error, leaving the board and all tokens unchanged, whenever `from` is inside
the grid and holds no token, wherever `to` is.  It checks no bounds: with
`from` outside the grid, or with a token on `from` and `to` outside the grid,
no error is thrown and the behaviour is undefined; in every other case the
call returns. -/
theorem C21_moveTokenRaw_errors (b : GameBoard) (h : Heap) (fromX fromY toX toY : Int) :
    (b.isValidPosition fromX fromY = true → b.cell fromX fromY = none →
      b.moveTokenRaw h fromX fromY toX toY = .error .noTokenAtSource ∧
      b.moveTokenRawExec h fromX fromY toX toY = ((b, h), some .noTokenAtSource)) ∧
    (b.isValidPosition fromX fromY = false →
      b.moveTokenRaw h fromX fromY toX toY = .error .undefinedBehaviour) ∧
    (b.isValidPosition fromX fromY = true → b.cell fromX fromY ≠ none →
      b.isValidPosition toX toY = false →
      b.moveTokenRaw h fromX fromY toX toY = .error .undefinedBehaviour) ∧
    (b.isValidPosition fromX fromY = true → b.cell fromX fromY ≠ none →
      b.isValidPosition toX toY = true →
      ∃ r, b.moveTokenRaw h fromX fromY toX toY = .ok r ∧
        b.moveTokenRawExec h fromX fromY toX toY = (r, none)) := by
  refine ⟨?_, ?_, ?_, ?_⟩
  · intro hf hc
    have hc1 : b.board fromY.toNat fromX.toNat = none := hc
    have e : b.moveTokenRaw h fromX fromY toX toY = .error .noTokenAtSource := by
      simp [GameBoard.moveTokenRaw, hf, hc1]
    refine ⟨e, ?_⟩
    rw [moveTokenRawExec_eq, e]
  · intro hf
    simp [GameBoard.moveTokenRaw, hf]
  · intro hf hc ht
    cases hb : b.cell fromX fromY with
    | none => exact absurd hb hc
    | some t =>
      have hc1 : b.board fromY.toNat fromX.toNat = some t := hb
      simp [GameBoard.moveTokenRaw, hf, hc1, ht]
  · intro hf hc ht
    cases hb : b.cell fromX fromY with
    | none => exact absurd hb hc
    | some t =>
      have e := moveTokenRaw_ok b h fromX fromY toX toY t hf hb ht
      refine ⟨_, e, ?_⟩
      rw [moveTokenRawExec_eq, e]

/-! ## The cached movable counts -/

theorem foldl_count (P : Nat → Bool) (l : List Nat) :
    ∀ k : Int, l.foldl (fun n t => if P t = true then n + 1 else n) k = k + (l.countP P : Int) := by
  induction l with
  | nil => intro k; simp
  | cons a rest ih =>
    intro k
    rw [List.foldl_cons, ih]
    cases hp : P a with
    | true =>
      rw [List.countP_cons_of_pos _ _ hp]
      simp only [if_true]
      push_cast
      ring
    | false =>
      rw [List.countP_cons_of_neg _ _ (by rw [hp]; decide)]
      simp

theorem updateMovableTokens_count (p : Player) (h : Heap) :
    (p.updateMovableTokens h).movableTokens = (p.tokens.countP (fun t => (h.tok t).canMove) : Int) := by
  simp only [Player.updateMovableTokens, Token.isMovable]
  rw [foldl_count (fun t => (h.tok t).canMove) p.tokens 0]
  simp

/-- Claim C22.  After every successful `GameState::moveToken`, for each of
the two players `getMovableTokens()` equals the number of the player's tokens
whose movable flag is true in the state the call leaves. -/
theorem C22_movable_counts (s : GameState) (h : Heap) (fromX fromY toX toY : Int)
    (s1 : GameState) (h1 : Heap) (hok : s.moveToken h fromX fromY toX toY = .ok (s1, h1)) :
    s1.player1.getMovableTokens =
      (s1.player1.tokens.countP (fun t => (h1.tok t).canMove) : Int) ∧
    s1.player2.getMovableTokens =
      (s1.player2.tokens.countP (fun t => (h1.tok t).canMove) : Int) := by
  obtain ⟨_, _, _, _, _, e4, e5, _, _, _, _, e10, e11, _, _⟩ :=
    stateMoveToken_ok s h fromX fromY toX toY s1 h1 hok
  unfold Player.getMovableTokens
  rw [e10, e11, e4, e5, updateMovableTokens_count, updateMovableTokens_count]
  exact ⟨rfl, rfl⟩

/-- Claim C22 on the first move `(0,1) → (1,1)` of the 3×3 game. -/
theorem C22_witness :
    firstTurn3.1.player1.getMovableTokens =
      (firstTurn3.1.player1.tokens.countP (fun t => (firstTurn3.2.tok t).canMove) : Int) ∧
    firstTurn3.1.player2.getMovableTokens =
      (firstTurn3.1.player2.tokens.countP (fun t => (firstTurn3.2.tok t).canMove) : Int) := by
  have hisok : ((startState 3).2.moveToken (startState 3).1 0 1 1 1).isOk = true := by decide
  have hok : (startState 3).2.moveToken (startState 3).1 0 1 1 1 =
      .ok (firstTurn3.1, firstTurn3.2) := by
    unfold firstTurn3 afterCalls
    simp only [runCalls]
    cases hm : (startState 3).2.moveToken (startState 3).1 0 1 1 1 with
    | error e =>
      rw [hm] at hisok
      cases hisok
    | ok r => rfl
  exact C22_movable_counts (startState 3).2 (startState 3).1 0 1 1 1 firstTurn3.1 firstTurn3.2 hok

/-! ## The capacity of a player -/

theorem addTokens_append (l : List Nat) :
    ∀ p : Player, p.tokens.length + l.length ≤ p.MaxTokens →
      Player.addTokens l p = .ok { p with tokens := p.tokens ++ l } := by
  induction l with
  | nil =>
    intro p _
    simp [Player.addTokens]
  | cons a rest ih =>
    intro p hcap
    simp only [List.length_cons] at hcap
    have hlt : ¬ (p.tokens.length ≥ p.MaxTokens) := by omega
    simp only [Player.addTokens, Player.addToken, hlt, if_false]
    rw [ih _ (by simp only [List.length_append, List.length_singleton]; omega)]
    simp

/-- Claim C23.  Capacity boundary.  A player constructed with
`MaxTokens = m` holds no token; `addToken` succeeds and appends the token at
the end of the list whenever the player holds fewer than `m` tokens, so that
any `m` tokens (and any fewer) can be added in a row; on a player holding
`m` tokens (or more) `addToken` throws the capacity error and leaves the
player as it was. -/
theorem C23_capacity_boundary (number : Int) (m : Nat) (p : Player) (token : Nat) :
    ((Player.new number m).MaxTokens = m ∧ (Player.new number m).tokens = []) ∧
    (p.tokens.length < p.MaxTokens →
      p.addToken token = .ok { p with tokens := p.tokens ++ [token] } ∧
      p.addTokenExec token = ({ p with tokens := p.tokens ++ [token] }, none)) ∧
    (p.MaxTokens ≤ p.tokens.length →
      p.addToken token = .error .tokenLimitReached ∧
      p.addTokenExec token = (p, some .tokenLimitReached)) ∧
    (∀ l : List Nat, l.length ≤ m →
      Player.addTokens l (Player.new number m) =
        .ok { Player.new number m with tokens := l }) ∧
    (∀ l : List Nat, l.length = m →
      ∃ q, Player.addTokens l (Player.new number m) = .ok q ∧ q.tokens = l ∧
        q.addToken token = .error .tokenLimitReached) := by
  refine ⟨⟨rfl, rfl⟩, ?_, ?_, ?_, ?_⟩
  · intro hlt
    have hn : ¬ (p.tokens.length ≥ p.MaxTokens) := by omega
    simp [Player.addToken, Player.addTokenExec, hn]
  · intro hge
    have hn : p.tokens.length ≥ p.MaxTokens := hge
    simp [Player.addToken, Player.addTokenExec, hn]
  · intro l hl
    have := addTokens_append l (Player.new number m) (by simpa [Player.new] using hl)
    simpa [Player.new] using this
  · intro l hl
    have := addTokens_append l (Player.new number m) (by simp [Player.new, hl])
    refine ⟨_, this, by simp [Player.new], ?_⟩
    simp [Player.addToken, Player.new, hl]

/-! ## The unused depth arguments -/

theorem tokenLoop_depth (c : Search → Player → Int → Int → Except Fault (Outcome × Search))
    (player : Player) (d1 d2 : Int)
    (hc : ∀ s p a b a2 b2, c s p a b = c s p a2 b2) :
    ∀ (tokens : List Nat) (cm1 cm2 : Int) (s : Search),
      tokenLoop c player d1 tokens cm1 s = tokenLoop c player d2 tokens cm2 s := by
  intro tokens
  induction tokens with
  | nil =>
    intro cm1 cm2 s
    rfl
  | cons token rest ih =>
    intro cm1 cm2 s
    rw [tokenLoop_cons, tokenLoop_cons]
    by_cases hskip : (s.heap.tok token).canMove = false ∨ (candidate s player token).1 = -1
    · rw [if_pos hskip, if_pos hskip]
      exact ih _ _ _
    · rw [if_neg hskip, if_neg hskip]
      cases s.state.board.moveTokenRaw s.heap (forwardStep s player token).src.1
          (forwardStep s player token).src.2 (forwardStep s player token).dst.1
          (forwardStep s player token).dst.2 with
      | error e => rfl
      | ok v =>
        obtain ⟨b1, h1⟩ := v
        simp only
        rw [hc _ _ (d1 + 1) cm1 (d2 + 1) cm2]
        cases c (s.pushed (forwardStep s player token) b1 h1)
            (getOpponent (s.pushed (forwardStep s player token) b1 h1).state player)
            (d2 + 1) cm2 with
        | error e => rfl
        | ok v2 =>
          obtain ⟨result, s2⟩ := v2
          simp only
          cases s2.state.board.moveTokenRaw s2.heap (forwardStep s player token).dst.1
              (forwardStep s player token).dst.2 (forwardStep s player token).src.1
              (forwardStep s player token).src.2 with
          | error e => rfl
          | ok v3 =>
            obtain ⟨b3, h3⟩ := v3
            simp only
            by_cases hcond : result = Outcome.LOSS ∨ s2.hasWon = true
            · rw [if_pos hcond, if_pos hcond]
            · rw [if_neg hcond, if_neg hcond]
              cases s2.history with
              | nil => rfl
              | cons top popped =>
                simp only
                exact ih _ _ _

theorem recusionMove_depth (fuel : Nat) :
    ∀ (s : Search) (player : Player) (d1 m1 d2 m2 : Int),
      recusionMove fuel s player d1 m1 = recusionMove fuel s player d2 m2 := by
  induction fuel with
  | zero =>
    intro s player d1 m1 d2 m2
    rfl
  | succ n ih =>
    intro s player d1 m1 d2 m2
    rw [recusionMove_succ, recusionMove_succ]
    rw [tokenLoop_depth (recusionMove n) player d1 d2 ih player.getTokens 0 0 s]

/-- Claim C24.  The depth cap does not influence the search: for every state,
player, initial undo-history and initial replay log, `playNextMove` leaves
the same tokens, the same undo-history and the same replay log and returns
the same value for every value of `maxDepth` and of `moveNum`; the frames of
`recusionMove` themselves do not depend on their `depth` and `moveNum`
arguments either. -/
theorem C24_depth_cap_unused (fuel : Nat) (h : Heap) (state : GameState) (player : Player)
    (history visual : List MoveStep) (s : Search) :
    (∀ maxDepth1 moveNum1 maxDepth2 moveNum2 : Int,
      playNextMove fuel h state player history visual maxDepth1 moveNum1 =
        playNextMove fuel h state player history visual maxDepth2 moveNum2) ∧
    (∀ depth1 moveNum1 depth2 moveNum2 : Int,
      recusionMove fuel s player depth1 moveNum1 = recusionMove fuel s player depth2 moveNum2) :=
  ⟨fun _ _ _ _ => rfl, fun d1 m1 d2 m2 => recusionMove_depth fuel s player d1 m1 d2 m2⟩

/-! ## The value returned by `playNextMove` -/

/-- Claim C25, at the failing input.  On the start position of the 3×3 game,
for the current player and an empty undo-history, `playNextMove` leaves two
steps on the undo-history, the bottom one being the move `(0,1) → (1,1)` of
player 0 that `handleAlgoTurn` then plays, and returns `false`. -/
theorem C25_returns_false_with_move :
    (startState 3).2.getCurrentPlayer = (startState 3).2.player1 ∧
    playSummary (playNextMove 5 (startState 3).1 (startState 3).2
        (startState 3).2.getCurrentPlayer [] [] 0 0) =
      some ([MoveStep.mk (1, 0) (1, 2) 1, MoveStep.mk (0, 1) (1, 1) 0],
        [MoveStep.mk (0, 1) (1, 1) 0, MoveStep.mk (1, 0) (1, 2) 1, MoveStep.mk (1, 2) (1, 0) 1,
         MoveStep.mk (1, 1) (0, 1) 0], false) ∧
    (∀ fuel h state player history visual maxDepth moveNum r,
      playNextMove fuel h state player history visual maxDepth moveNum = .ok r →
      r.returned = false) := by
  refine ⟨by decide, by decide, ?_⟩
  intro fuel h state player history visual maxDepth moveNum r hr
  unfold playNextMove at hr
  cases hs : searchOnCopy fuel h state player history visual with
  | error e =>
    rw [hs] at hr
    cases hr
  | ok v =>
    rw [hs] at hr
    simp only [Except.ok.injEq] at hr
    rw [← hr]

/-! ## The candidates of the search -/

/-- Claim C27.  Every candidate the search generates is a strict forward
step: for a token of player `p ∈ {0, 1}` that stands on the in-bounds cell
`(x, y)`, a result of `calculatePossibleMove(x, y, p, state)` other than
`(-1, -1)` is `(x+1, y)` or `(x+2, y)` for player 0 and `(x, y+1)` or
`(x, y+2)` for player 1; it lies inside the grid, the cell is empty, and the
two-step result occurs exactly when the one-step cell is occupied. -/
theorem C27_candidate_forward (h : Heap) (s : GameState) (p : Player) (t : Nat) (x y : Int)
    (hv : s.board.isValidPosition x y = true) (hc : s.board.cell x y = some t)
    (hown : (h.tok t).player = p.playerNumber)
    (hg : calculatePossibleMove h x y p s ≠ (-1, -1)) :
    (p.playerNumber = 0 →
      ((calculatePossibleMove h x y p s = (x + 1, y) ∧ s.board.cell (x + 1) y = none) ∨
       (calculatePossibleMove h x y p s = (x + 2, y) ∧ s.board.cell (x + 1) y ≠ none)) ∧
      s.board.isValidPosition (calculatePossibleMove h x y p s).1
        (calculatePossibleMove h x y p s).2 = true ∧
      s.board.cell (calculatePossibleMove h x y p s).1
        (calculatePossibleMove h x y p s).2 = none) ∧
    (p.playerNumber = 1 →
      ((calculatePossibleMove h x y p s = (x, y + 1) ∧ s.board.cell x (y + 1) = none) ∨
       (calculatePossibleMove h x y p s = (x, y + 2) ∧ s.board.cell x (y + 1) ≠ none)) ∧
      s.board.isValidPosition (calculatePossibleMove h x y p s).1
        (calculatePossibleMove h x y p s).2 = true ∧
      s.board.cell (calculatePossibleMove h x y p s).1
        (calculatePossibleMove h x y p s).2 = none) := by
  have hcalc : calculatePossibleMove h x y p s =
      s.board.getTokenMove h x y (x + if p.playerNumber = 0 then 1 else 0)
        (y + if p.playerNumber = 1 then 1 else 0) := rfl
  rw [hcalc] at hg ⊢
  refine ⟨fun p0 => ?_, fun p1 => ?_⟩
  · have d1 : (if p.playerNumber = 0 then (1 : Int) else 0) = 1 := by rw [p0]; rfl
    have d2 : (if p.playerNumber = 1 then (1 : Int) else 0) = 0 := by rw [p0]; rfl
    rw [d1, d2, add_zero] at hg ⊢
    by_cases hv1 : s.board.isValidPosition (x + 1) y = true
    swap
    · have hv2 : s.board.isValidPosition (x + 1) y = false := by simpa using hv1
      exact absurd (by simp [GameBoard.getTokenMove, hv2]) hg
    have v1 := (isValidPosition_iff _ _ _).1 hv1
    have key := getTokenMove_of_token s.board h x y (x + 1) y t hv hv1 hc
    rw [hown, p0] at key
    have e2 : x + 1 + 1 = x + 2 := by ring
    rw [e2] at key
    by_cases hm : (h.tok t).canMove = false
    · rw [if_pos hm] at key
      exact absurd key hg
    · rw [if_neg hm] at key
      by_cases hn : s.board.cell (x + 1) y = none
      · rw [if_pos hn] at key
        rw [key]
        exact ⟨Or.inl ⟨rfl, hn⟩, hv1, hn⟩
      · rw [if_neg hn, if_pos rfl] at key
        by_cases hj : (x + 1).toNat + 1 < s.board.Width ∧ s.board.cell (x + 2) y = none
        · rw [if_pos hj] at key
          rw [key]
          refine ⟨Or.inr ⟨rfl, hn⟩, ?_, hj.2⟩
          rw [isValidPosition_iff]
          simp only
          omega
        · rw [if_neg hj] at key
          exact absurd key hg
  · have d1 : (if p.playerNumber = 0 then (1 : Int) else 0) = 0 := by rw [p1]; rfl
    have d2 : (if p.playerNumber = 1 then (1 : Int) else 0) = 1 := by rw [p1]; rfl
    rw [d1, d2, add_zero] at hg ⊢
    by_cases hv1 : s.board.isValidPosition x (y + 1) = true
    swap
    · have hv2 : s.board.isValidPosition x (y + 1) = false := by simpa using hv1
      exact absurd (by simp [GameBoard.getTokenMove, hv2]) hg
    have v1 := (isValidPosition_iff _ _ _).1 hv1
    have key := getTokenMove_of_token s.board h x y x (y + 1) t hv hv1 hc
    rw [hown, p1] at key
    have e2 : y + 1 + 1 = y + 2 := by ring
    rw [e2] at key
    have c10 : ¬ ((1 : Int) = 0) := by decide
    by_cases hm : (h.tok t).canMove = false
    · rw [if_pos hm] at key
      exact absurd key hg
    · rw [if_neg hm] at key
      by_cases hn : s.board.cell x (y + 1) = none
      · rw [if_pos hn] at key
        rw [key]
        exact ⟨Or.inl ⟨rfl, hn⟩, hv1, hn⟩
      · rw [if_neg hn, if_neg c10, if_pos rfl] at key
        by_cases hj : (y + 1).toNat + 1 < s.board.Height ∧ s.board.cell x (y + 2) = none
        · rw [if_pos hj] at key
          rw [key]
          refine ⟨Or.inr ⟨rfl, hn⟩, ?_, hj.2⟩
          rw [isValidPosition_iff]
          simp only
          omega
        · rw [if_neg hj] at key
          exact absurd key hg

/-- Claim C27 for the token of player 0 on `(0,1)` of the 3×3 game in which
player 1's token stands on `(1,1)`: the candidate is the jump to `(2,1)`. -/
theorem C27_witness :
    (facing3.1.player1.playerNumber = 0 →
      ((calculatePossibleMove facing3.2 0 1 facing3.1.player1 facing3.1 = (0 + 1, 1) ∧
          facing3.1.board.cell (0 + 1) 1 = none) ∨
       (calculatePossibleMove facing3.2 0 1 facing3.1.player1 facing3.1 = (0 + 2, 1) ∧
          facing3.1.board.cell (0 + 1) 1 ≠ none)) ∧
      facing3.1.board.isValidPosition
        (calculatePossibleMove facing3.2 0 1 facing3.1.player1 facing3.1).1
        (calculatePossibleMove facing3.2 0 1 facing3.1.player1 facing3.1).2 = true ∧
      facing3.1.board.cell (calculatePossibleMove facing3.2 0 1 facing3.1.player1 facing3.1).1
        (calculatePossibleMove facing3.2 0 1 facing3.1.player1 facing3.1).2 = none) ∧
    (facing3.1.player1.playerNumber = 1 →
      ((calculatePossibleMove facing3.2 0 1 facing3.1.player1 facing3.1 = (0, 1 + 1) ∧
          facing3.1.board.cell 0 (1 + 1) = none) ∨
       (calculatePossibleMove facing3.2 0 1 facing3.1.player1 facing3.1 = (0, 1 + 2) ∧
          facing3.1.board.cell 0 (1 + 1) ≠ none)) ∧
      facing3.1.board.isValidPosition
        (calculatePossibleMove facing3.2 0 1 facing3.1.player1 facing3.1).1
        (calculatePossibleMove facing3.2 0 1 facing3.1.player1 facing3.1).2 = true ∧
      facing3.1.board.cell (calculatePossibleMove facing3.2 0 1 facing3.1.player1 facing3.1).1
        (calculatePossibleMove facing3.2 0 1 facing3.1.player1 facing3.1).2 = none) :=
  C27_candidate_forward facing3.2 facing3.1 facing3.1.player1 0 0 1 (by decide) (by decide)
    (by decide) (by decide)

/-! ## Frames without a legal destination -/

theorem tokenLoop_skip (child : Search → Player → Int → Int → Except Fault (Outcome × Search))
    (player : Player) (depth : Int) (s : Search) :
    ∀ (tokens : List Nat) (cm : Int),
      (∀ token ∈ tokens,
        (s.heap.tok token).canMove = false ∨ (candidate s player token).1 = -1) →
      tokenLoop child player depth tokens cm s = .ok (Outcome.LOSS, s) := by
  intro tokens
  induction tokens with
  | nil =>
    intro cm _
    rfl
  | cons token rest ih =>
    intro cm hall
    rw [tokenLoop_cons, if_pos (hall token (List.mem_cons_self _ _))]
    exact ih cm (fun t ht => hall t (List.mem_cons_of_mem _ ht))

/-- Claim C28.  No legal destination is a silent skip: a frame of
`recusionMove` entered with the latch unset, in which neither player is in
the winning state and no token of the player to move is both movable and has
a destination other than `(-1, -1)`, returns `LOSS` without any error and
leaves the tokens, the board, the undo-history and the replay log exactly as
they were. -/
theorem C28_no_destination_is_LOSS (fuel : Nat) (s : Search) (player : Player)
    (depth moveNum : Int) (hlatch : s.hasWon = false)
    (hw1 : isWinningState s.heap player = false)
    (hw2 : isWinningState s.heap (getOpponent s.state player) = false)
    (hnone : ∀ token ∈ player.tokens,
      ¬ ((s.heap.tok token).canMove = true ∧ candidate s player token ≠ (-1, -1))) :
    recusionMove (fuel + 1) s player depth moveNum = .ok (Outcome.LOSS, s) := by
  rw [recusionMove_succ, if_neg (by rw [hlatch]; decide), if_neg (by rw [hw1]; decide),
    if_neg (by rw [hw2]; decide)]
  refine tokenLoop_skip _ player depth s _ 0 (fun token ht => ?_)
  have := hnone token ht
  by_cases hm : (s.heap.tok token).canMove = true
  · right
    by_cases hcd : candidate s player token = (-1, -1)
    · rw [hcd]
    · exact absurd ⟨hm, hcd⟩ this
  · left
    simpa using hm

/-- Claim C28 on the 3×3 board on which the search has undone one move of
each player: the token of player 1 is immovable, nobody has won, and the
frame of player 1 returns `LOSS` at once. -/
theorem C28_witness :
    recusionMove (0 + 1) undoneSearch3 (startState 3).2.player2 0 0 =
      .ok (Outcome.LOSS, undoneSearch3) :=
  C28_no_destination_is_LOSS 0 undoneSearch3 (startState 3).2.player2 0 0 (by decide)
    (by decide) (by decide) (by decide)

/-! ## The opponent -/

/-- Claim C29.  `getOpponent` returns the other player whatever the turn: in
a state whose players carry the numbers 0 and 1, for every value of
`currentPlayer`, `getOpponent(state, p)` is the state's player 2 when `p`
carries the number 0 and the state's player 1 when `p` carries the number 1;
hence for either player `p` of the state the opponent carries the number
`1 - p`'s number and applying `getOpponent` twice gives `p` back. -/
theorem C29_getOpponent (s : GameState) (h1 : s.player1.playerNumber = 0)
    (h2 : s.player2.playerNumber = 1) :
    (∀ p : Player, p.playerNumber = 0 → getOpponent s p = s.player2) ∧
    (∀ p : Player, p.playerNumber = 1 → getOpponent s p = s.player1) ∧
    (∀ p : Player, p = s.player1 ∨ p = s.player2 →
      (getOpponent s p = s.player1 ∨ getOpponent s p = s.player2) ∧
      (getOpponent s p).playerNumber = 1 - p.playerNumber ∧
      getOpponent s (getOpponent s p) = p) := by
  have c01 : ¬ ((0 : Int) = 1) := by decide
  have c10 : ¬ ((1 : Int) = 0) := by decide
  have a0 : ∀ p : Player, p.playerNumber = 0 → getOpponent s p = s.player2 := by
    intro p hp
    unfold getOpponent GameState.getOtherPlayer GameState.getCurrentPlayer Player.getPlayerNumber
    by_cases hc : s.currentPlayer = 0
    · simp only [hc, if_true, h2, hp, c10, if_false]
    · simp only [hc, if_false, h1, hp, if_true]
  have a1 : ∀ p : Player, p.playerNumber = 1 → getOpponent s p = s.player1 := by
    intro p hp
    unfold getOpponent GameState.getOtherPlayer GameState.getCurrentPlayer Player.getPlayerNumber
    by_cases hc : s.currentPlayer = 0
    · simp only [hc, if_true, h2, hp]
    · simp only [hc, if_false, h1, hp, c01]
  refine ⟨a0, a1, ?_⟩
  intro p hp
  rcases hp with rfl | rfl
  · rw [a0 _ h1, a1 _ h2, h1, h2]
    exact ⟨Or.inr rfl, by decide, rfl⟩
  · rw [a1 _ h2, a0 _ h1, h1, h2]
    exact ⟨Or.inl rfl, by decide, rfl⟩

/-- Claim C29 on the 3×3 game. -/
theorem C29_witness :
    (∀ p : Player, p.playerNumber = 0 → getOpponent facing3.1 p = facing3.1.player2) ∧
    (∀ p : Player, p.playerNumber = 1 → getOpponent facing3.1 p = facing3.1.player1) ∧
    (∀ p : Player, p = facing3.1.player1 ∨ p = facing3.1.player2 →
      (getOpponent facing3.1 p = facing3.1.player1 ∨
        getOpponent facing3.1 p = facing3.1.player2) ∧
      (getOpponent facing3.1 p).playerNumber = 1 - p.playerNumber ∧
      getOpponent facing3.1 (getOpponent facing3.1 p) = p) :=
  C29_getOpponent facing3.1 (by decide) (by decide)

/-! ## The copy constructor of the board -/

theorem foldl_invariant {α β : Type} (P : α → Prop) (f : α → β → α) (l : List β) :
    ∀ init : α, P init → (∀ a x, x ∈ l → P a → P (f a x)) → P (l.foldl f init) := by
  induction l with
  | nil =>
    intro init h0 _
    exact h0
  | cons x rest ih =>
    intro init h0 hstep
    rw [List.foldl_cons]
    exact ih _ (hstep init x (List.mem_cons_self _ _) h0)
      (fun a y hy ha => hstep a y (List.mem_cons_of_mem _ hy) ha)

theorem alloc_tok (h : Heap) (t : Token) (q : Nat) :
    (h.alloc t).2.tok q = if q = h.next then t else h.tok q := rfl

theorem alloc_next (h : Heap) (t : Token) : (h.alloc t).2.next = h.next + 1 := rfl

theorem alloc_fst (h : Heap) (t : Token) : (h.alloc t).1 = h.next := rfl

theorem boardCopyInv_cell (h : Heap) (other : GameBoard) (acc : Heap × GameBoard)
    (row col : Nat) (hrow : row < other.Height) (hcol : col < other.Width)
    (hacc : BoardCopyInv h other acc) : BoardCopyInv h other (other.copyCell row acc col) := by
  obtain ⟨a1, a2, a3, a4, a5⟩ := hacc
  unfold GameBoard.copyCell
  cases hb : other.board row col with
  | none => exact ⟨a1, a2, a3, a4, a5⟩
  | some t =>
    simp only
    refine ⟨?_, ?_, a3, a4, ?_⟩
    · rw [alloc_next]
      omega
    · intro q hq
      rw [alloc_tok, if_neg (by omega)]
      exact a2 q hq
    · intro r c hne
      rw [setCell_board] at hne
      by_cases hrc : r = row ∧ c = col
      · obtain ⟨rfl, rfl⟩ := hrc
        exact ⟨hrow, hcol, by rw [hb]; simp⟩
      · rw [if_neg hrc] at hne
        exact a5 r c hne

/-- The copy constructor of the board touches no token that existed before,
keeps the dimensions, and fills only cells of the grid that are occupied in
the original. -/
theorem boardCopy_spec (h : Heap) (other : GameBoard) :
    BoardCopyInv h other (GameBoard.copy h other) := by
  unfold GameBoard.copy
  refine foldl_invariant (BoardCopyInv h other) _ _ _ ?_ ?_
  · refine ⟨le_refl _, fun _ _ => rfl, rfl, rfl, ?_⟩
    intro r c hne
    exact absurd rfl hne
  · intro acc row hrow hacc
    refine foldl_invariant (BoardCopyInv h other) _ _ _ hacc ?_
    intro acc2 col hcol hacc2
    exact boardCopyInv_cell h other acc2 row col (List.mem_range.1 hrow) (List.mem_range.1 hcol)
      hacc2

/-! ## The token loops of the copy constructor of the state -/

/-- One iteration of a token loop of the copy constructor. -/
theorem copyToken_ok (h0 : Heap) (p0 : Player) (b0 : GameBoard) (o : Nat)
    (hcap : p0.tokens.length < p0.MaxTokens)
    (hv : b0.isValidPosition (h0.tok o).position.1 (h0.tok o).position.2 = true) :
    GameState.copyToken (h0, p0, b0) o =
      .ok ((h0.alloc (h0.tok o)).2, { p0 with tokens := p0.tokens ++ [h0.next] },
        b0.setCell (h0.tok o).position.2.toNat (h0.tok o).position.1.toNat (some h0.next)) := by
  have hn : ¬ (p0.tokens.length ≥ p0.MaxTokens) := by omega
  have ht : (h0.alloc (h0.tok o)).2.tok h0.next = h0.tok o := by
    rw [alloc_tok, if_pos rfl]
  simp only [GameState.copyToken, Player.addToken, hn, if_false, GameBoard.placeToken,
    alloc_fst, ht, Token.getPosition, hv, Bool.not_true, Bool.false_eq_true]

/-- A token loop of the copy constructor: every token of the list gets a
fresh copy with the same record, the copies are appended to the player in
the order of the list, each copy is registered in the cell of its position,
and no other cell and no older token is touched. -/
theorem copyTokens_spec (h : Heap) (B : GameBoard) (l : List Nat) :
    ∀ (h0 : Heap) (p0 : Player) (b0 : GameBoard),
      h.next ≤ h0.next → (∀ q, q < h.next → h0.tok q = h.tok q) →
      (∀ o ∈ l, o < h.next) →
      b0.Width = B.Width → b0.Height = B.Height →
      (∀ o ∈ l, B.isValidPosition (h.tok o).position.1 (h.tok o).position.2 = true ∧
        B.cell (h.tok o).position.1 (h.tok o).position.2 = some o) →
      l.Nodup →
      p0.tokens.length + l.length ≤ p0.MaxTokens →
      ∃ h1 p1 b1 k, forM GameState.copyToken l (h0, p0, b0) = .ok (h1, p1, b1) ∧
        h0.next ≤ h1.next ∧ (∀ q, q < h0.next → h1.tok q = h0.tok q) ∧
        p1 = { p0 with tokens := p0.tokens ++ l.map k } ∧
        (∀ o ∈ l, h0.next ≤ k o ∧ k o < h1.next ∧ h1.tok (k o) = h.tok o ∧
          b1.cell (h.tok o).position.1 (h.tok o).position.2 = some (k o)) ∧
        (∀ o u, o ∈ l → u ∈ l → k o = k u → o = u) ∧
        b1.Width = b0.Width ∧ b1.Height = b0.Height ∧
        (∀ r c, (∀ o ∈ l, ¬ ((h.tok o).position.2.toNat = r ∧
            (h.tok o).position.1.toNat = c)) → b1.board r c = b0.board r c) := by
  induction l with
  | nil =>
    intro h0 p0 b0 _ _ _ _ _ _ _ _
    refine ⟨h0, p0, b0, id, rfl, le_refl _, fun _ _ => rfl, ?_, ?_, ?_, rfl, rfl,
      fun _ _ _ => rfl⟩
    · simp
    · intro o ho
      cases ho
    · intro o u ho
      cases ho
  | cons o rest ih =>
    intro h0 p0 b0 hle hframe halloc hW hH hreg hnd hcap
    rw [List.nodup_cons] at hnd
    simp only [List.length_cons] at hcap
    have ho : o < h.next := halloc o (List.mem_cons_self _ _)
    have hto : h0.tok o = h.tok o := hframe o ho
    have hvo := (hreg o (List.mem_cons_self _ _)).1
    have hv0 : b0.isValidPosition (h0.tok o).position.1 (h0.tok o).position.2 = true := by
      rw [hto]
      exact isValidPosition_of_dims b0 B _ _ hW hH hvo
    have hstep := copyToken_ok h0 p0 b0 o (by omega) hv0
    rw [hto] at hstep
    obtain ⟨h1, p1, b1, k1, e1, e2, e3, e4, e5, e6, e7, e8, e9⟩ :=
      ih (h0.alloc (h.tok o)).2 { p0 with tokens := p0.tokens ++ [h0.next] }
        (b0.setCell (h.tok o).position.2.toNat (h.tok o).position.1.toNat (some h0.next))
        (by rw [alloc_next]; omega)
        (fun q hq => by rw [alloc_tok, if_neg (by omega)]; exact hframe q hq)
        (fun u hu => halloc u (List.mem_cons_of_mem _ hu))
        hW hH
        (fun u hu => hreg u (List.mem_cons_of_mem _ hu))
        hnd.2
        (by simp only [List.length_append, List.length_singleton]; omega)
    rw [alloc_next] at e2 e3
    have hk : ∀ u ∈ rest, (fun q => if q = o then h0.next else k1 q) u = k1 u := by
      intro u hu
      have : u ≠ o := by
        rintro rfl
        exact hnd.1 hu
      simp only [this, if_false]
    have hcell : ∀ u ∈ rest, ¬ ((h.tok u).position.2.toNat = (h.tok o).position.2.toNat ∧
        (h.tok u).position.1.toNat = (h.tok o).position.1.toNat) := by
      rintro u hu ⟨c1, c2⟩
      have a1 : B.board (h.tok u).position.2.toNat (h.tok u).position.1.toNat = some u :=
        (hreg u (List.mem_cons_of_mem _ hu)).2
      have a2 : B.board (h.tok o).position.2.toNat (h.tok o).position.1.toNat = some o :=
        (hreg o (List.mem_cons_self _ _)).2
      rw [c1, c2, a2] at a1
      have : o = u := Option.some.inj a1
      rw [this] at hnd
      exact hnd.1 hu
    refine ⟨h1, p1, b1, fun q => if q = o then h0.next else k1 q, ?_, by omega, ?_, ?_, ?_, ?_,
      e7, e8, ?_⟩
    · simp only [forM, hstep]
      exact e1
    · intro q hq
      rw [e3 q (by omega), alloc_tok, if_neg (by omega)]
    · rw [e4]
      simp only [List.map_cons, if_true, List.append_assoc, List.singleton_append]
      rw [List.map_congr_left hk]
    · intro u hu
      rcases List.mem_cons.1 hu with rfl | hu2
      · simp only [if_true]
        refine ⟨le_refl _, by omega, ?_, ?_⟩
        · rw [e3 h0.next (by omega), alloc_tok, if_pos rfl]
        · show b1.board (h.tok u).position.2.toNat (h.tok u).position.1.toNat = some h0.next
          rw [e9 _ _ hcell, setCell_board, if_pos ⟨rfl, rfl⟩]
      · rw [hk u hu2]
        obtain ⟨c1, c2, c3, c4⟩ := e5 u hu2
        rw [alloc_next] at c1
        exact ⟨by omega, c2, c3, c4⟩
    · intro u w hu hw hkk
      rcases List.mem_cons.1 hu with rfl | hu2
      · rcases List.mem_cons.1 hw with rfl | hw2
        · rfl
        · rw [hk w hw2] at hkk
          simp only [if_true] at hkk
          have := (e5 w hw2).1
          rw [alloc_next] at this
          omega
      · rcases List.mem_cons.1 hw with rfl | hw2
        · rw [hk u hu2] at hkk
          simp only [if_true] at hkk
          have := (e5 u hu2).1
          rw [alloc_next] at this
          omega
        · rw [hk u hu2, hk w hw2] at hkk
          exact e6 u w hu2 hw2 hkk
    · intro r c hall
      rw [e9 r c (fun u hu => hall u (List.mem_cons_of_mem _ hu)), setCell_board,
        if_neg]
      intro hrc
      exact hall o (List.mem_cons_self _ _) ⟨hrc.1.symm, hrc.2.symm⟩

/-! ## The copy constructor of the state -/

/-- The token lists of the two players of a well-formed state are
disjoint. -/
theorem wellFormed_disjoint (n : Nat) (h : Heap) (s : GameState) (hw : WellFormed n h s)
    (t : Nat) (h1 : t ∈ s.player1.tokens) (h2 : t ∈ s.player2.tokens) : False := by
  obtain ⟨_, _, a3, a4, _, a6, a7, _⟩ := hw
  have e1 := (a6 t h1).1
  have e2 := (a7 t h2).1
  rw [a3] at e1
  rw [a4, e1] at e2
  cases e2

/-- The copy constructor of `GameState` succeeds on a well-formed state whose
tokens are allocated, distinct, and within the capacity of the players, and
the result is a copy of the state under a renaming of the tokens. -/
theorem copy_spec (n : Nat) (h : Heap) (s : GameState) (hw : WellFormed n h s)
    (hal : Allocated h s) (nd1 : s.player1.tokens.Nodup) (nd2 : s.player2.tokens.Nodup)
    (hc1 : s.player1.tokens.length ≤ s.MaxTokensPerPlayer)
    (hc2 : s.player2.tokens.length ≤ s.MaxTokensPerPlayer) :
    ∃ hC sC k, GameState.copy h s = .ok (hC, sC) ∧ CopyOf h s hC sC k ∧
      sC.player1.score = 0 ∧ sC.player2.score = 0 ∧
      sC.player1.MaxTokens = s.MaxTokensPerPlayer ∧
      sC.player2.MaxTokens = s.MaxTokensPerPlayer := by
  have hdis := wellFormed_disjoint n h s hw
  obtain ⟨a1, a2, a3, a4, a5, a6, a7, a8⟩ := hw
  obtain ⟨b1, b2, b3, b4, b5⟩ := boardCopy_spec h s.board
  obtain ⟨h1, p1, c1, k1, e1, e2, e3, e4, e5, e6, e7, e8, e9⟩ :=
    copyTokens_spec h s.board s.player1.tokens (GameBoard.copy h s.board).1
      (Player.new s.player1.getPlayerNumber s.MaxTokensPerPlayer) (GameBoard.copy h s.board).2
      b1 b2 hal.1 b3 b4 (fun o ho => (a6 o ho).2) nd1 (by simpa [Player.new] using hc1)
  obtain ⟨h2, p2, c2, k2, f1, f2, f3, f4, f5, f6, f7, f8, f9⟩ :=
    copyTokens_spec h s.board s.player2.tokens h1
      (Player.new s.player2.getPlayerNumber s.MaxTokensPerPlayer) c1
      (by omega) (fun q hq => by rw [e3 q (by omega)]; exact b2 q hq) hal.2
      (by rw [e7]; exact b3) (by rw [e8]; exact b4) (fun o ho => (a7 o ho).2) nd2
      (by simpa [Player.new] using hc2)
  have hk1 : ∀ t ∈ s.player1.tokens,
      (fun q => if q ∈ s.player2.tokens then k2 q else k1 q) t = k1 t := by
    intro t ht
    have : t ∉ s.player2.tokens := fun h2 => hdis t ht h2
    simp only [this, if_false]
  have hk2 : ∀ t ∈ s.player2.tokens,
      (fun q => if q ∈ s.player2.tokens then k2 q else k1 q) t = k2 t := by
    intro t ht
    simp only [ht, if_true]
  have hcopy : GameState.copy h s =
      .ok (h2, { MaxTokensPerPlayer := s.MaxTokensPerPlayer, board := c2, player1 := p1,
                 player2 := p2, currentPlayer := s.currentPlayer }) := by
    unfold GameState.copy
    simp only [Player.getTokens]
    rw [e1]
    simp only
    rw [f1]
  have hcell : ∀ t, t ∈ s.player1.tokens ∨ t ∈ s.player2.tokens → ∀ r c,
      ((h.tok t).position.2.toNat = r ∧ (h.tok t).position.1.toNat = c) →
      s.board.board r c = some t := by
    intro t ht r c hrc
    have : s.board.board (h.tok t).position.2.toNat (h.tok t).position.1.toNat = some t := by
      rcases ht with ht | ht
      · exact (a6 t ht).2.2
      · exact (a7 t ht).2.2
    rw [hrc.1, hrc.2] at this
    exact this
  refine ⟨h2, _, fun q => if q ∈ s.player2.tokens then k2 q else k1 q, hcopy, ?_, ?_, ?_, ?_, ?_⟩
  · refine ⟨rfl, rfl, ?_, ?_, ?_, ?_, ?_, ?_, ?_, ?_, by omega, ?_, ?_⟩
    · show c2.Width = s.board.Width
      rw [f7, e7, b3]
    · show c2.Height = s.board.Height
      rw [f8, e8, b4]
    · show p1.playerNumber = s.player1.playerNumber
      rw [e4]
      rfl
    · show p2.playerNumber = s.player2.playerNumber
      rw [f4]
      rfl
    · show p1.tokens = _
      rw [e4, List.map_congr_left hk1]
      simp [Player.new]
    · show p2.tokens = _
      rw [f4, List.map_congr_left hk2]
      simp [Player.new]
    · intro t ht
      rcases ht with ht | ht
      · rw [hk1 t ht]
        obtain ⟨g1, g2, g3, _⟩ := e5 t ht
        exact ⟨by omega, by omega, by rw [f3 _ g2]; exact g3⟩
      · rw [hk2 t ht]
        obtain ⟨g1, g2, g3, _⟩ := f5 t ht
        exact ⟨by omega, g2, g3⟩
    · intro t u ht hu hkk
      rcases ht with ht | ht
      · rcases hu with hu | hu
        · rw [hk1 t ht, hk1 u hu] at hkk
          exact e6 t u ht hu hkk
        · rw [hk1 t ht, hk2 u hu] at hkk
          have g1 := (e5 t ht).2.1
          have g2 := (f5 u hu).1
          omega
      · rcases hu with hu | hu
        · rw [hk2 t ht, hk1 u hu] at hkk
          have g1 := (e5 u hu).2.1
          have g2 := (f5 t ht).1
          omega
        · rw [hk2 t ht, hk2 u hu] at hkk
          exact f6 t u ht hu hkk
    · intro q hq
      rw [f3 q (by omega), e3 q (by omega)]
      exact b2 q hq
    · intro r c hr hc
      show c2.board r c = (s.board.board r c).map _
      cases hb : s.board.board r c with
      | none =>
        have n2 : ∀ o ∈ s.player2.tokens, ¬ ((h.tok o).position.2.toNat = r ∧
            (h.tok o).position.1.toNat = c) := by
          intro o ho hrc
          rw [hcell o (Or.inr ho) r c hrc] at hb
          cases hb
        have n1 : ∀ o ∈ s.player1.tokens, ¬ ((h.tok o).position.2.toNat = r ∧
            (h.tok o).position.1.toNat = c) := by
          intro o ho hrc
          rw [hcell o (Or.inl ho) r c hrc] at hb
          cases hb
        rw [f9 r c n2, e9 r c n1]
        simp only [Option.map_none']
        cases hB : (GameBoard.copy h s.board).2.board r c with
        | none => rfl
        | some a =>
          have := (b5 r c (by rw [hB]; simp)).2.2
          exact absurd hb this
      | some t =>
        have hpos : (h.tok t).position = ((c : Int), (r : Int)) :=
          (posInv_iff s.board h).1 a5 r c t hr hc hb
        have hmem := ownedCell_spec s r c t
          (a8 r (by rw [← a2]; exact hr) c (by rw [← a1]; exact hc)) hb
        simp only [Option.map_some']
        by_cases ht2 : t ∈ s.player2.tokens
        · simp only [ht2, if_true]
          have := (f5 t ht2).2.2.2
          rw [hpos] at this
          simpa [GameBoard.cell] using this
        · have ht1 : t ∈ s.player1.tokens := by
            rcases hmem with hm | hm
            · exact hm
            · exact absurd hm ht2
          simp only [ht2, if_false]
          have n2 : ∀ o ∈ s.player2.tokens, ¬ ((h.tok o).position.2.toNat = r ∧
              (h.tok o).position.1.toNat = c) := by
            intro o ho hrc
            rw [hcell o (Or.inr ho) r c hrc] at hb
            have : o = t := Option.some.inj hb
            rw [this] at ho
            exact ht2 ho
          rw [f9 r c n2]
          have := (e5 t ht1).2.2.2
          rw [hpos] at this
          simpa [GameBoard.cell] using this
  · show p1.score = 0
    rw [e4]
    rfl
  · show p2.score = 0
    rw [f4]
    rfl
  · show p1.MaxTokens = _
    rw [e4]
    rfl
  · show p2.MaxTokens = _
    rw [f4]
    rfl

/-! ## Properties of a copy -/

theorem copyOf_wellFormed (n : Nat) (h : Heap) (s : GameState) (hC : Heap) (sC : GameState)
    (k : Nat → Nat) (hw : WellFormed n h s) (hcp : CopyOf h s hC sC k) :
    WellFormed n hC sC := by
  obtain ⟨a1, a2, a3, a4, a5, a6, a7, a8⟩ := hw
  obtain ⟨_, _, c3, c4, c5, c6, c7, c8, c9, _, _, _, c13⟩ := hcp
  have hreg : ∀ t, t ∈ s.player1.tokens ∨ t ∈ s.player2.tokens →
      s.board.isValidPosition (h.tok t).position.1 (h.tok t).position.2 = true ∧
      s.board.cell (h.tok t).position.1 (h.tok t).position.2 = some t := by
    intro t ht
    rcases ht with ht | ht
    · exact (a6 t ht).2
    · exact (a7 t ht).2
  have hregC : ∀ t, t ∈ s.player1.tokens ∨ t ∈ s.player2.tokens →
      sC.board.isValidPosition (hC.tok (k t)).position.1 (hC.tok (k t)).position.2 = true ∧
      sC.board.cell (hC.tok (k t)).position.1 (hC.tok (k t)).position.2 = some (k t) := by
    intro t ht
    rw [(c9 t ht).2.2]
    obtain ⟨v1, v2⟩ := hreg t ht
    have v := (isValidPosition_iff _ _ _).1 v1
    refine ⟨isValidPosition_of_dims sC.board s.board _ _ c3 c4 v1, ?_⟩
    show sC.board.board _ _ = _
    rw [c13 _ _ v.2.2.2 v.2.2.1]
    have v3 : s.board.board (h.tok t).position.2.toNat (h.tok t).position.1.toNat = some t := v2
    rw [v3]
    rfl
  refine ⟨by rw [c3]; exact a1, by rw [c4]; exact a2, by rw [c5]; exact a3,
    by rw [c6]; exact a4, ?_, ?_, ?_, ?_⟩
  · rw [posInv_iff]
    intro r c a hr hc hb
    rw [c4] at hr
    rw [c3] at hc
    rw [c13 r c hr hc] at hb
    cases hs : s.board.board r c with
    | none =>
      rw [hs] at hb
      cases hb
    | some t =>
      rw [hs] at hb
      simp only [Option.map_some', Option.some.injEq] at hb
      have hmem := ownedCell_spec s r c t
        (a8 r (by rw [← a2]; exact hr) c (by rw [← a1]; exact hc)) hs
      rw [← hb, (c9 t hmem).2.2]
      exact (posInv_iff s.board h).1 a5 r c t hr hc hs
  · intro c hc
    rw [c7] at hc
    obtain ⟨t, ht, rfl⟩ := List.mem_map.1 hc
    refine ⟨?_, hregC t (Or.inl ht)⟩
    rw [(c9 t (Or.inl ht)).2.2, c5]
    exact (a6 t ht).1
  · intro c hc
    rw [c8] at hc
    obtain ⟨t, ht, rfl⟩ := List.mem_map.1 hc
    refine ⟨?_, hregC t (Or.inr ht)⟩
    rw [(c9 t (Or.inr ht)).2.2, c6]
    exact (a7 t ht).1
  · intro r hr c hc
    simp only [GameState.ownedCell]
    rw [c13 r c (by rw [a2]; exact hr) (by rw [a1]; exact hc)]
    cases hs : s.board.board r c with
    | none => rfl
    | some t =>
      simp only [Option.map_some', decide_eq_true_eq]
      rcases ownedCell_spec s r c t (a8 r hr c hc) hs with hm | hm
      · left
        rw [c7]
        exact List.mem_map.2 ⟨t, hm, rfl⟩
      · right
        rw [c8]
        exact List.mem_map.2 ⟨t, hm, rfl⟩

/-- The players of the original fit the copy: the search on the copy can be
started with a player of the live game. -/
theorem copyOf_aligned (n : Nat) (h : Heap) (s : GameState) (hC : Heap) (sC : GameState)
    (k : Nat → Nat) (player : Player) (hw : WellFormed n h s) (hal : Allocated h s)
    (hcp : CopyOf h s hC sC k) (hp : player = s.player1 ∨ player = s.player2) :
    Aligned hC sC.board player := by
  obtain ⟨a1, a2, a3, a4, a5, a6, a7, a8⟩ := hw
  obtain ⟨_, _, c3, c4, c5, c6, c7, c8, c9, _, _, c12, c13⟩ := hcp
  have hnum : player.playerNumber = 0 ∨ player.playerNumber = 1 := by
    rcases hp with rfl | rfl
    · exact Or.inl a3
    · exact Or.inr a4
  refine ⟨hnum, ?_⟩
  intro t ht
  have hmem : t ∈ s.player1.tokens ∨ t ∈ s.player2.tokens := by
    rcases hp with rfl | rfl
    · exact Or.inl ht
    · exact Or.inr ht
  have hreg : (h.tok t).player = player.playerNumber ∧
      s.board.isValidPosition (h.tok t).position.1 (h.tok t).position.2 = true ∧
      s.board.cell (h.tok t).position.1 (h.tok t).position.2 = some t := by
    rcases hp with rfl | rfl
    · exact a6 t ht
    · exact a7 t ht
  have hlt : t < h.next := by
    rcases hmem with hm | hm
    · exact hal.1 t hm
    · exact hal.2 t hm
  have v := (isValidPosition_iff _ _ _).1 hreg.2.1
  have hvC := isValidPosition_of_dims sC.board s.board _ _ c3 c4 hreg.2.1
  have hcell : sC.board.cell (h.tok t).position.1 (h.tok t).position.2 = some (k t) := by
    show sC.board.board _ _ = _
    rw [c13 _ _ v.2.2.2 v.2.2.1]
    have v3 : s.board.board (h.tok t).position.2.toNat (h.tok t).position.1.toNat = some t :=
      hreg.2.2
    rw [v3]
    rfl
  simp only [alignedToken, c12 t hlt, hvC, hcell, Bool.not_true, Bool.false_eq_true, if_false,
    decide_eq_true_eq]
  rw [(c9 t hmem).2.2]
  exact hreg.1

theorem copyOf_records (h : Heap) (s : GameState) (hC : Heap) (sC : GameState)
    (k : Nat → Nat) (hcp : CopyOf h s hC sC k) :
    sC.player1.tokens.map hC.tok = s.player1.tokens.map h.tok ∧
    sC.player2.tokens.map hC.tok = s.player2.tokens.map h.tok := by
  obtain ⟨_, _, _, _, _, _, c7, c8, c9, _⟩ := hcp
  refine ⟨?_, ?_⟩
  · rw [c7, List.map_map]
    exact List.map_congr_left (fun t ht => (c9 t (Or.inl ht)).2.2)
  · rw [c8, List.map_map]
    exact List.map_congr_left (fun t ht => (c9 t (Or.inr ht)).2.2)

theorem copyOf_forwardSum (n : Nat) (h : Heap) (s : GameState) (hC : Heap) (sC : GameState)
    (k : Nat → Nat) (hcp : CopyOf h s hC sC k) :
    forwardSum n hC sC = forwardSum n h s := by
  obtain ⟨_, _, _, _, _, _, c7, c8, c9, _⟩ := hcp
  unfold forwardSum
  rw [c7, c8, List.map_map, List.map_map]
  congr 2
  · exact List.map_congr_left (fun t ht => by
      simp only [Function.comp, (c9 t (Or.inl ht)).2.2])
  · exact List.map_congr_left (fun t ht => by
      simp only [Function.comp, (c9 t (Or.inr ht)).2.2])

/-- Claim C30.  Copying a `GameState` preserves the position.  For a state
that satisfies the bijection invariant (with allocated, pairwise distinct
tokens within the capacity of the players) the copy constructor succeeds;
the copy has the same board dimensions and `currentPlayer`; each player of
the copy has the same number and its token list carries, in the same order,
the records (position, owner, movable flag, reached-end mark) of the
original list; every copied token is a new token, stored in the in-bounds
cell at its position; every occupied cell of the copy holds a copied token
of a player whose position is that cell, and a cell is occupied in the copy
exactly when it is in the original; the tokens of the original are left as
they were. -/
theorem C30_copy_preserves_position (n : Nat) (h : Heap) (s : GameState)
    (hw : WellFormed n h s) (hal : Allocated h s)
    (nd1 : s.player1.tokens.Nodup) (nd2 : s.player2.tokens.Nodup)
    (hc1 : s.player1.tokens.length ≤ s.MaxTokensPerPlayer)
    (hc2 : s.player2.tokens.length ≤ s.MaxTokensPerPlayer) :
    ∃ hC sC, GameState.copy h s = .ok (hC, sC) ∧
      sC.board.Width = s.board.Width ∧ sC.board.Height = s.board.Height ∧
      sC.currentPlayer = s.currentPlayer ∧
      sC.player1.playerNumber = s.player1.playerNumber ∧
      sC.player2.playerNumber = s.player2.playerNumber ∧
      sC.player1.tokens.map hC.tok = s.player1.tokens.map h.tok ∧
      sC.player2.tokens.map hC.tok = s.player2.tokens.map h.tok ∧
      (∀ c, c ∈ sC.player1.tokens ∨ c ∈ sC.player2.tokens →
        h.next ≤ c ∧
        sC.board.isValidPosition (hC.tok c).position.1 (hC.tok c).position.2 = true ∧
        sC.board.cell (hC.tok c).position.1 (hC.tok c).position.2 = some c) ∧
      (∀ r c a, r < n → c < n → sC.board.board r c = some a →
        (a ∈ sC.player1.tokens ∨ a ∈ sC.player2.tokens) ∧
        (hC.tok a).position = ((c : Int), (r : Int))) ∧
      (∀ r c, r < n → c < n → (sC.board.board r c).isSome = (s.board.board r c).isSome) ∧
      (∀ q, q < h.next → hC.tok q = h.tok q) := by
  obtain ⟨hC, sC, k, hcopy, hcp, _⟩ := copy_spec n h s hw hal nd1 nd2 hc1 hc2
  have hwC := copyOf_wellFormed n h s hC sC k hw hcp
  have hrec := copyOf_records h s hC sC k hcp
  obtain ⟨a1, a2, _⟩ := hw
  obtain ⟨_, c2, c3, c4, c5, c6, c7, c8, c9, _, _, c12, c13⟩ := hcp
  obtain ⟨w1, w2, _, _, w5, w6, w7, w8⟩ := hwC
  refine ⟨hC, sC, hcopy, c3, c4, c2, c5, c6, hrec.1, hrec.2, ?_, ?_, ?_, c12⟩
  · intro c hc
    rcases hc with hc | hc
    · refine ⟨?_, (w6 c hc).2⟩
      rw [c7] at hc
      obtain ⟨t, ht, rfl⟩ := List.mem_map.1 hc
      exact (c9 t (Or.inl ht)).1
    · refine ⟨?_, (w7 c hc).2⟩
      rw [c8] at hc
      obtain ⟨t, ht, rfl⟩ := List.mem_map.1 hc
      exact (c9 t (Or.inr ht)).1
  · intro r c a hr hc hb
    exact ⟨ownedCell_spec sC r c a (w8 r hr c hc) hb,
      (posInv_iff sC.board hC).1 w5 r c a (by rw [w2]; exact hr) (by rw [w1]; exact hc) hb⟩
  · intro r c hr hc
    rw [c13 r c (by rw [a2]; exact hr) (by rw [a1]; exact hc)]
    cases s.board.board r c <;> rfl

/-- Claim C30 on the 3×3 game in which player 1's token stands on `(1,1)`. -/
theorem C30_witness :
    ∃ hC sC, GameState.copy facing3.2 facing3.1 = .ok (hC, sC) ∧
      sC.board.Width = facing3.1.board.Width ∧ sC.board.Height = facing3.1.board.Height ∧
      sC.currentPlayer = facing3.1.currentPlayer ∧
      sC.player1.playerNumber = facing3.1.player1.playerNumber ∧
      sC.player2.playerNumber = facing3.1.player2.playerNumber ∧
      sC.player1.tokens.map hC.tok = facing3.1.player1.tokens.map facing3.2.tok ∧
      sC.player2.tokens.map hC.tok = facing3.1.player2.tokens.map facing3.2.tok ∧
      (∀ c, c ∈ sC.player1.tokens ∨ c ∈ sC.player2.tokens →
        facing3.2.next ≤ c ∧
        sC.board.isValidPosition (hC.tok c).position.1 (hC.tok c).position.2 = true ∧
        sC.board.cell (hC.tok c).position.1 (hC.tok c).position.2 = some c) ∧
      (∀ r c a, r < 3 → c < 3 → sC.board.board r c = some a →
        (a ∈ sC.player1.tokens ∨ a ∈ sC.player2.tokens) ∧
        (hC.tok a).position = ((c : Int), (r : Int))) ∧
      (∀ r c, r < 3 → c < 3 →
        (sC.board.board r c).isSome = (facing3.1.board.board r c).isSome) ∧
      (∀ q, q < facing3.2.next → hC.tok q = facing3.2.tok q) :=
  C30_copy_preserves_position 3 facing3.2 facing3.1 (by decide) (by decide) (by decide)
    (by decide) (by decide) (by decide)

/-! ## The search writes only to tokens of its working board -/

/-- A raw move leaves every token that is on neither the old nor the new
grid as it was. -/
theorem moveTokenRaw_off (b : GameBoard) (h : Heap) (fromX fromY toX toY : Int)
    (b1 : GameBoard) (h1 : Heap) (hok : b.moveTokenRaw h fromX fromY toX toY = .ok (b1, h1))
    (q : Nat) (hq : ¬ b.holds q) (hq1 : ¬ b1.holds q) : h1.tok q = h.tok q := by
  by_cases hf : b.isValidPosition fromX fromY = true
  swap
  · have hf2 : b.isValidPosition fromX fromY = false := by simpa using hf
    simp [GameBoard.moveTokenRaw, hf2] at hok
  have vf := (isValidPosition_iff _ _ _).1 hf
  cases hc : b.cell fromX fromY with
  | none =>
    have hc1 : b.board fromY.toNat fromX.toNat = none := hc
    simp [GameBoard.moveTokenRaw, hf, hc1] at hok
  | some t =>
    have hc1 : b.board fromY.toNat fromX.toNat = some t := hc
    by_cases ht : b.isValidPosition toX toY = true
    swap
    · have ht2 : b.isValidPosition toX toY = false := by simpa using ht
      simp [GameBoard.moveTokenRaw, hf, hc1, ht2] at hok
    rw [moveTokenRaw_ok b h fromX fromY toX toY t hf hc ht] at hok
    have hr := Except.ok.inj hok
    have e1 : b1 = (b.relocateRaw h fromX.toNat fromY.toNat toX.toNat toY.toNat t).1 := by
      rw [hr]
    have e2 : h1 = (b.relocateRaw h fromX.toNat fromY.toNat toX.toNat toY.toNat t).2 := by
      rw [hr]
    have hqt : q ≠ t := by
      rintro rfl
      exact hq ⟨_, _, vf.2.2.2, vf.2.2.1, hc1⟩
    rw [e2]
    exact relocateRaw_off b h _ _ _ _ t q (by rw [← e1]; exact hq1) hqt

theorem tokenLoop_off (child : Search → Player → Int → Int → Except Fault (Outcome × Search))
    (player : Player) (depth : Int)
    (hchild : ∀ s p d m r, PosInv s.state.board s.heap → child s p d m = .ok r →
      FrameRel s r.2 ∧ ∀ q, ¬ s.state.board.holds q → r.2.heap.tok q = s.heap.tok q) :
    ∀ (tokens : List Nat) (cm : Int) (s : Search) (r : Outcome × Search),
      PosInv s.state.board s.heap →
      tokenLoop child player depth tokens cm s = .ok r →
      ∀ q, ¬ s.state.board.holds q → r.2.heap.tok q = s.heap.tok q := by
  intro tokens
  induction tokens with
  | nil =>
    intro cm s r _ h q _
    rw [tokenLoop_nil] at h
    rw [← Except.ok.inj h]
  | cons token rest ih =>
    intro cm s r hpos h q hq
    rw [tokenLoop_cons] at h
    by_cases hskip : (s.heap.tok token).canMove = false ∨ (candidate s player token).1 = -1
    · rw [if_pos hskip] at h
      exact ih _ _ _ hpos h q hq
    · rw [if_neg hskip] at h
      have hn : (candidate s player token).1 ≠ -1 := fun e => hskip (Or.inr e)
      obtain ⟨hs, t, hcs, _, hd, hcd⟩ := candidate_sound s player token hn
      have vs := (isValidPosition_iff _ _ _).1 hs
      have hcs1 : s.state.board.board (forwardStep s player token).src.2.toNat
          (forwardStep s player token).src.1.toNat = some t := hcs
      have hqt : q ≠ t := by
        rintro rfl
        exact hq ⟨_, _, vs.2.2.2, vs.2.2.1, hcs1⟩
      cases hm : s.state.board.moveTokenRaw s.heap (forwardStep s player token).src.1
          (forwardStep s player token).src.2 (forwardStep s player token).dst.1
          (forwardStep s player token).dst.2 with
      | error e => rw [hm] at h; simp at h
      | ok v =>
        obtain ⟨b1, h1⟩ := v
        rw [hm] at h
        simp only at h
        have hm2 := hm
        rw [moveTokenRaw_ok _ _ _ _ _ _ t hs hcs hd] at hm2
        have hpair := Except.ok.inj hm2
        have e1 : b1 = (s.state.board.relocateRaw s.heap
            (forwardStep s player token).src.1.toNat (forwardStep s player token).src.2.toNat
            (forwardStep s player token).dst.1.toNat (forwardStep s player token).dst.2.toNat
            t).1 := by rw [hpair]
        have e2 : h1 = (s.state.board.relocateRaw s.heap
            (forwardStep s player token).src.1.toNat (forwardStep s player token).src.2.toNat
            (forwardStep s player token).dst.1.toNat (forwardStep s player token).dst.2.toNat
            t).2 := by rw [hpair]
        have hpos1 : PosInv (s.pushed (forwardStep s player token) b1 h1).state.board
            (s.pushed (forwardStep s player token) b1 h1).heap := by
          show PosInv b1 h1
          rw [e1, e2]
          exact posInv_relocateRaw _ _ _ _ _ _ t hpos vs.2.2.2 vs.2.2.1 hcs hcd
        have hq1 : ¬ b1.holds q := by
          rw [e1, relocateRaw_board, holds_relocate _ _ _ _ _ t q hcs1 hcd hqt]
          exact hq
        have step1 : h1.tok q = s.heap.tok q := moveTokenRaw_off _ _ _ _ _ _ b1 h1 hm q hq hq1
        cases hch : child (s.pushed (forwardStep s player token) b1 h1)
            (getOpponent (s.pushed (forwardStep s player token) b1 h1).state player)
            (depth + 1) cm with
        | error e => rw [hch] at h; simp at h
        | ok v2 =>
          obtain ⟨result, s2⟩ := v2
          rw [hch] at h
          simp only at h
          obtain ⟨hrel, hoff⟩ := hchild _ _ _ _ _ hpos1 hch
          have step2 : s2.heap.tok q = h1.tok q := hoff q hq1
          have hb2 : s2.state.board = b1 := by
            rw [hrel.1]
            rfl
          cases hu : s2.state.board.moveTokenRaw s2.heap (forwardStep s player token).dst.1
              (forwardStep s player token).dst.2 (forwardStep s player token).src.1
              (forwardStep s player token).src.2 with
          | error e => rw [hu] at h; simp at h
          | ok v3 =>
            obtain ⟨b3, h3⟩ := v3
            rw [hu] at h
            simp only at h
            obtain ⟨cf, pre, hpre⟩ := candidate_frame s s2 (forwardStep s player token) t
              b1 h1 b3 h3 hpos hs hd hcs hcd hm hrel hu
            have hb3 : b3 = s.state.board := by
              have := cf.1
              exact congrArg GameState.board this
            have step3 : h3.tok q = s2.heap.tok q :=
              moveTokenRaw_off _ _ _ _ _ _ b3 h3 hu q (by rw [hb2]; exact hq1)
                (by rw [hb3]; exact hq)
            by_cases hcond : result = Outcome.LOSS ∨ s2.hasWon = true
            · rw [if_pos hcond] at h
              rw [← Except.ok.inj h]
              have : ((s2.undone (forwardStep s player token) b3 h3).latched player).heap = h3 := by
                unfold Search.latched
                split <;> rfl
              show ((s2.undone (forwardStep s player token) b3 h3).latched player).heap.tok q = _
              rw [this, step3, step2, step1]
            · rw [if_neg hcond] at h
              cases hh : s2.history with
              | nil => rw [hh] at h; simp at h
              | cons top popped =>
                rw [hh] at h
                simp only at h
                have hst4 : ({ s2.undone (forwardStep s player token) b3 h3 with
                    history := popped } : Search).state = s.state := cf.1
                have hpos4 : PosInv
                    ({ s2.undone (forwardStep s player token) b3 h3 with
                        history := popped } : Search).state.board
                    ({ s2.undone (forwardStep s player token) b3 h3 with
                        history := popped } : Search).heap := by
                  rw [hst4]
                  exact posInv_congr _ _ _ hpos cf.2.1
                have step4 := ih _ _ _ hpos4 h q (by rw [hst4]; exact hq)
                rw [step4]
                show h3.tok q = _
                rw [step3, step2, step1]

/-- A frame of `recusionMove` writes only to tokens that are referenced from
the grid of its working state. -/
theorem recusionMove_off (fuel : Nat) :
    ∀ (s : Search) (player : Player) (depth moveNum : Int) (r : Outcome × Search),
      PosInv s.state.board s.heap →
      recusionMove fuel s player depth moveNum = .ok r →
      ∀ q, ¬ s.state.board.holds q → r.2.heap.tok q = s.heap.tok q := by
  induction fuel with
  | zero =>
    intro s player depth moveNum r _ h
    rw [recusionMove_zero] at h
    cases h
  | succ n ih =>
    intro s player depth moveNum r hpos h q hq
    rw [recusionMove_succ] at h
    by_cases h1 : s.hasWon = true
    · rw [if_pos h1] at h
      rw [← Except.ok.inj h]
    · rw [if_neg h1] at h
      by_cases h2 : isWinningState s.heap player = true
      · rw [if_pos h2] at h
        rw [← Except.ok.inj h]
        unfold Search.latched
        split <;> rfl
      · rw [if_neg h2] at h
        by_cases h3 : isWinningState s.heap (getOpponent s.state player) = true
        · rw [if_pos h3] at h
          rw [← Except.ok.inj h]
        · rw [if_neg h3] at h
          exact tokenLoop_off (recusionMove n) player depth
            (fun s p d m r hp hr => ⟨recusionMove_rel n s p d m r hp hr, ih s p d m r hp hr⟩)
            _ _ _ _ hpos h q hq

/-- The grid of a copy references only tokens allocated by the copy. -/
theorem copyOf_fresh (n : Nat) (h : Heap) (s : GameState) (hC : Heap) (sC : GameState)
    (k : Nat → Nat) (hw : WellFormed n h s) (hcp : CopyOf h s hC sC k) :
    ∀ q, q < h.next → ¬ sC.board.holds q := by
  obtain ⟨a1, a2, _, _, _, _, _, a8⟩ := hw
  obtain ⟨_, _, c3, c4, _, _, _, _, c9, _, _, _, c13⟩ := hcp
  rintro q hq ⟨r, c, hr, hc, hcell⟩
  rw [c4] at hr
  rw [c3] at hc
  rw [c13 r c hr hc] at hcell
  cases hs : s.board.board r c with
  | none => rw [hs] at hcell; simp at hcell
  | some t =>
    rw [hs] at hcell
    have hk : k t = q := by simpa using hcell
    have hown := a8 r (by omega) c (by omega)
    unfold GameState.ownedCell at hown
    rw [hs] at hown
    have hmem : t ∈ s.player1.tokens ∨ t ∈ s.player2.tokens := by simpa using hown
    have := (c9 t hmem).1
    omega

/-- Claim C26: on a well-formed state whose tokens are allocated and distinct
and fit the capacity of the players, called with one of the two players of
that state, `Algorithm::playNextMove` returns as soon as the recursion may
nest deeper than the termination measure, and whenever it returns, every
token allocated before the call, in particular every token of the live game,
is exactly as it was (position, owner, movable flag and reachedEnd flag):
the moves of the exploration are applied to tokens the copy allocated.  The
live `GameState` object (its grid, the token lists, scores and movable counts
of its players and `currentPlayer`) is only read by the call, which is why it
is not among the results of `playNextMove`. -/
theorem C26_search_leaves_live_game (n : Nat) (h : Heap) (s : GameState) (player : Player)
    (history visual : List MoveStep) (maxDepth moveNum : Int)
    (hw : WellFormed n h s) (hal : Allocated h s)
    (nd1 : s.player1.tokens.Nodup) (nd2 : s.player2.tokens.Nodup)
    (hc1 : s.player1.tokens.length ≤ s.MaxTokensPerPlayer)
    (hc2 : s.player2.tokens.length ≤ s.MaxTokensPerPlayer)
    (hp : player = s.player1 ∨ player = s.player2) :
    (∀ fuel, forwardSum n h s < fuel →
      ∃ r, playNextMove fuel h s player history visual maxDepth moveNum = .ok r) ∧
    (∀ fuel r, playNextMove fuel h s player history visual maxDepth moveNum = .ok r →
      h.next ≤ r.heap.next ∧
      (∀ q, q < h.next → r.heap.tok q = h.tok q) ∧
      (∀ t, t ∈ s.player1.tokens ∨ t ∈ s.player2.tokens → r.heap.tok t = h.tok t)) := by
  obtain ⟨hC, sC, k, hcopy, hcp, _⟩ := copy_spec n h s hw hal nd1 nd2 hc1 hc2
  have hwC := copyOf_wellFormed n h s hC sC k hw hcp
  have halC := copyOf_aligned n h s hC sC k player hw hal hcp hp
  have hsum := copyOf_forwardSum n h s hC sC k hcp
  have hfresh := copyOf_fresh n h s hC sC k hw hcp
  have hnext : h.next ≤ hC.next := hcp.2.2.2.2.2.2.2.2.2.2.1
  have hold : ∀ q, q < h.next → hC.tok q = h.tok q := hcp.2.2.2.2.2.2.2.2.2.2.2.1
  have hplay : ∀ fuel, playNextMove fuel h s player history visual maxDepth moveNum =
      match recusionMove fuel
        { heap := hC, state := sC, history := history, visual := visual, hasWon := false }
        player 0 1 with
      | .error e => .error e
      | .ok (_, s) =>
        .ok { heap := s.heap, history := s.history, visual := s.visual, returned := false } := by
    intro fuel
    unfold playNextMove searchOnCopy
    rw [hcopy]
  refine ⟨?_, ?_⟩
  · intro fuel hfuel
    obtain ⟨r, hr⟩ := recusionMove_total n fuel
      { heap := hC, state := sC, history := history, visual := visual, hasWon := false }
      player 0 1 hwC halC (by rw [hsum]; exact hfuel)
    rw [hplay fuel, hr]
    exact ⟨_, rfl⟩
  · intro fuel r hr
    rw [hplay fuel] at hr
    cases hrec : recusionMove fuel
        { heap := hC, state := sC, history := history, visual := visual, hasWon := false }
        player 0 1 with
    | error e => rw [hrec] at hr; simp at hr
    | ok v =>
      obtain ⟨o, sr⟩ := v
      rw [hrec] at hr
      have hr2 := Except.ok.inj hr
      have hheap : r.heap = sr.heap := by rw [← hr2]
      have hpos : PosInv sC.board hC := hwC.2.2.2.2.1
      have hrel := recusionMove_rel fuel _ player 0 1 _ hpos hrec
      have hoff := recusionMove_off fuel _ player 0 1 _ hpos hrec
      have hall : ∀ q, q < h.next → r.heap.tok q = h.tok q := by
        intro q hq
        rw [hheap]
        have := hoff q (hfresh q hq)
        exact this.trans (hold q hq)
      refine ⟨?_, hall, ?_⟩
      · rw [hheap]
        have : sr.heap.next = hC.next := hrel.2.2.1
        omega
      · intro t ht
        rcases ht with ht | ht
        · exact hall t (hal.1 t ht)
        · exact hall t (hal.2 t ht)

/-- Claim C26 on the 3×3 game in which player 1's token stands on `(1,1)`,
searched for player 0. -/
theorem C26_witness :
    (∀ fuel, forwardSum 3 facing3.2 facing3.1 < fuel →
      ∃ r, playNextMove fuel facing3.2 facing3.1 facing3.1.player1 [] [] 0 0 = .ok r) ∧
    (∀ fuel r, playNextMove fuel facing3.2 facing3.1 facing3.1.player1 [] [] 0 0 = .ok r →
      facing3.2.next ≤ r.heap.next ∧
      (∀ q, q < facing3.2.next → r.heap.tok q = facing3.2.tok q) ∧
      (∀ t, t ∈ facing3.1.player1.tokens ∨ t ∈ facing3.1.player2.tokens →
        r.heap.tok t = facing3.2.tok t)) :=
  C26_search_leaves_live_game 3 facing3.2 facing3.1 facing3.1.player1 [] [] 0 0
    (by decide) (by decide) (by decide) (by decide) (by decide) (by decide) (Or.inl rfl)

/-! ## Direction and distance of the validated move -/

/-- Claim C34.  The validated move checks neither direction nor distance: for
every board, every token at an in-bounds cell `from` whose movable flag is
true and every empty in-bounds cell `to`, wherever it lies relative to
`from`, `GameBoard::moveToken(from, to)` succeeds and puts the token on
exactly the cell `to`: afterwards `to` references the token, the token's
position is `to`, the cell `from` is empty, every other cell is as before and
every other token keeps its position. -/
theorem C34_moveToken_any_empty_cell (b : GameBoard) (h : Heap) (fromX fromY toX toY : Int)
    (t : Nat) (hf : b.isValidPosition fromX fromY = true) (hc : b.cell fromX fromY = some t)
    (hm : (h.tok t).isMovable = true)
    (ht : b.isValidPosition toX toY = true) (he : b.cell toX toY = none) :
    ∃ b1 h1, b.moveToken h fromX fromY toX toY = .ok (b1, h1) ∧
      b1.cell toX toY = some t ∧ (h1.tok t).position = (toX, toY) ∧
      b1.cell fromX fromY = none ∧
      (∀ r c, ¬ (r = toY.toNat ∧ c = toX.toNat) → ¬ (r = fromY.toNat ∧ c = fromX.toNat) →
        b1.board r c = b.board r c) ∧
      (∀ q, q ≠ t → (h1.tok q).position = (h.tok q).position) := by
  have vf := (isValidPosition_iff _ _ _).1 hf
  have vt := (isValidPosition_iff _ _ _).1 ht
  have hc1 : b.board fromY.toNat fromX.toNat = some t := hc
  have he1 : b.board toY.toNat toX.toNat = none := he
  have hne : ¬ (toY.toNat = fromY.toNat ∧ toX.toNat = fromX.toNat) := by
    rintro ⟨e1, e2⟩
    rw [e1, e2, hc1] at he1
    cases he1
  have hne2 : ¬ (fromY.toNat = toY.toNat ∧ fromX.toNat = toX.toNat) :=
    fun e => hne ⟨e.1.symm, e.2.symm⟩
  have hok := moveToken_of_token b h fromX fromY toX toY t hf ht hc hm
  rw [if_pos he] at hok
  refine ⟨(b.relocate h fromX.toNat fromY.toNat toX.toNat toY.toNat t).1,
    (b.relocate h fromX.toNat fromY.toNat toX.toNat toY.toNat t).2, hok, ?_, ?_, ?_, ?_, ?_⟩
  · show (b.relocate h fromX.toNat fromY.toNat toX.toNat toY.toNat t).1.board toY.toNat
      toX.toNat = some t
    exact (relocate_lands b h _ _ _ _ t hne).1
  · rw [(relocate_lands b h _ _ _ _ t hne).2]
    have e1 : ((toX.toNat : Nat) : Int) = toX := Int.toNat_of_nonneg vt.1
    have e2 : ((toY.toNat : Nat) : Int) = toY := Int.toNat_of_nonneg vt.2.1
    rw [e1, e2]
  · show (b.relocate h fromX.toNat fromY.toNat toX.toNat toY.toNat t).1.board fromY.toNat
      fromX.toNat = none
    rw [relocate_board, setCell_board, if_pos ⟨rfl, rfl⟩]
  · intro r c h1 h2
    rw [relocate_board, setCell_board, if_neg h2, setCell_board, if_neg h1]
  · intro q hq
    rw [relocate_position, if_neg hq]

/-- Claim C34 on the start position of the 3×3 game: the token of player 0 on
`(0,1)` is moved to `(2,2)`, a cell that is neither adjacent to `(0,1)` nor
straight ahead of it. -/
theorem C34_witness :
    ∃ b1 h1, (startState 3).2.board.moveToken (startState 3).1 0 1 2 2 = .ok (b1, h1) ∧
      b1.cell 2 2 = some 0 ∧ (h1.tok 0).position = (2, 2) ∧
      b1.cell 0 1 = none ∧
      (∀ r c, ¬ (r = (2 : Int).toNat ∧ c = (2 : Int).toNat) →
        ¬ (r = (1 : Int).toNat ∧ c = (0 : Int).toNat) →
        b1.board r c = (startState 3).2.board.board r c) ∧
      (∀ q, q ≠ 0 → (h1.tok q).position = ((startState 3).1.tok q).position) :=
  C34_moveToken_any_empty_cell (startState 3).2.board (startState 3).1 0 1 2 2 0
    (by decide) (by decide) (by decide) (by decide) (by decide)

/-! ## The undo-history below a frame -/

/-- Claim C33.  The search never underflows or disturbs older history.  On a
well-formed state of an `n × n` board, for a player argument that fits the
state, a call of `recusionMove` returns without any error (an
`history.pop()` on an empty stack anywhere in the call tree would surface as
`Fault.undefinedBehaviour`), and when it returns the undo-history consists of
some entries on top of the entries it held when the frame was entered, which
are unchanged and in the same order.  At every `history.pop()` of the frame
the stack holds, below the entries the recursive call left, the step the
frame has pushed and the entries of the frame's entry: it is not empty. -/
theorem C33_history_preserved (n : Nat) (s : Search) (player : Player) (depth moveNum : Int)
    (hw : WellFormed n s.heap s.state) (hal : Aligned s.heap s.state.board player) :
    (∀ fuel, forwardSum n s.heap s.state < fuel →
      ∃ out s1 pre, recusionMove fuel s player depth moveNum = .ok (out, s1) ∧
        s1.history = pre ++ s.history) ∧
    (∀ fuel out s1, recusionMove fuel s player depth moveNum = .ok (out, s1) →
      ∃ pre, s1.history = pre ++ s.history) ∧
    (∀ (fuel : Nat) (token : Nat) (cm : Int) (b1 : GameBoard) (h1 : Heap) (result : Outcome)
        (s2 : Search) (b3 : GameBoard) (h3 : Heap),
      (candidate s player token).1 ≠ -1 →
      s.state.board.moveTokenRaw s.heap (forwardStep s player token).src.1
        (forwardStep s player token).src.2 (forwardStep s player token).dst.1
        (forwardStep s player token).dst.2 = .ok (b1, h1) →
      recusionMove fuel (s.pushed (forwardStep s player token) b1 h1)
        (getOpponent (s.pushed (forwardStep s player token) b1 h1).state player)
        (depth + 1) cm = .ok (result, s2) →
      s2.state.board.moveTokenRaw s2.heap (forwardStep s player token).dst.1
        (forwardStep s player token).dst.2 (forwardStep s player token).src.1
        (forwardStep s player token).src.2 = .ok (b3, h3) →
      (s2.undone (forwardStep s player token) b3 h3).history ≠ [] ∧
      ∃ pre, (s2.undone (forwardStep s player token) b3 h3).history =
        pre ++ forwardStep s player token :: s.history) := by
  have hpos : PosInv s.state.board s.heap := hw.2.2.2.2.1
  refine ⟨?_, ?_, ?_⟩
  · intro fuel hfuel
    obtain ⟨r, hr⟩ := recusionMove_total n fuel s player depth moveNum hw hal hfuel
    obtain ⟨pre, hpre⟩ := (recusionMove_rel fuel s player depth moveNum r hpos hr).2.2.2.1
    exact ⟨r.1, r.2, pre, hr, hpre⟩
  · intro fuel out s1 hr
    exact (recusionMove_rel fuel s player depth moveNum (out, s1) hpos hr).2.2.2.1
  · intro fuel token cm b1 h1 result s2 b3 h3 hn hm hch hu
    obtain ⟨hs, t, hcs, _, hd, hcd⟩ := candidate_sound s player token hn
    have vs := (isValidPosition_iff _ _ _).1 hs
    have hpos1 : PosInv (s.pushed (forwardStep s player token) b1 h1).state.board
        (s.pushed (forwardStep s player token) b1 h1).heap := by
      have hm2 := hm
      rw [moveTokenRaw_ok _ _ _ _ _ _ t hs hcs hd] at hm2
      have hpair := Except.ok.inj hm2
      show PosInv b1 h1
      have e1 : b1 = (s.state.board.relocateRaw s.heap
          (forwardStep s player token).src.1.toNat (forwardStep s player token).src.2.toNat
          (forwardStep s player token).dst.1.toNat (forwardStep s player token).dst.2.toNat
          t).1 := by rw [hpair]
      have e2 : h1 = (s.state.board.relocateRaw s.heap
          (forwardStep s player token).src.1.toNat (forwardStep s player token).src.2.toNat
          (forwardStep s player token).dst.1.toNat (forwardStep s player token).dst.2.toNat
          t).2 := by rw [hpair]
      rw [e1, e2]
      exact posInv_relocateRaw _ _ _ _ _ _ t hpos vs.2.2.2 vs.2.2.1 hcs hcd
    have hrel := recusionMove_rel fuel _ _ _ _ _ hpos1 hch
    obtain ⟨_, pre, hpre⟩ := candidate_frame s s2 (forwardStep s player token) t b1 h1 b3 h3
      hpos hs hd hcs hcd hm hrel hu
    have hh : (s2.undone (forwardStep s player token) b3 h3).history = s2.history := rfl
    rw [hh, hpre]
    exact ⟨by simp, pre, rfl⟩

/-- Claim C33 for the frame of player 1 on the start position of the 3×3
game, entered with an empty undo-history. -/
theorem C33_witness :
    (∀ fuel, forwardSum 3 (startSearch 3).heap (startSearch 3).state < fuel →
      ∃ out s1 pre, recusionMove fuel (startSearch 3) (startState 3).2.player2 0 1 =
          .ok (out, s1) ∧
        s1.history = pre ++ (startSearch 3).history) ∧
    (∀ fuel out s1, recusionMove fuel (startSearch 3) (startState 3).2.player2 0 1 =
        .ok (out, s1) →
      ∃ pre, s1.history = pre ++ (startSearch 3).history) ∧
    (∀ (fuel : Nat) (token : Nat) (cm : Int) (b1 : GameBoard) (h1 : Heap) (result : Outcome)
        (s2 : Search) (b3 : GameBoard) (h3 : Heap),
      (candidate (startSearch 3) (startState 3).2.player2 token).1 ≠ -1 →
      (startSearch 3).state.board.moveTokenRaw (startSearch 3).heap
        (forwardStep (startSearch 3) (startState 3).2.player2 token).src.1
        (forwardStep (startSearch 3) (startState 3).2.player2 token).src.2
        (forwardStep (startSearch 3) (startState 3).2.player2 token).dst.1
        (forwardStep (startSearch 3) (startState 3).2.player2 token).dst.2 = .ok (b1, h1) →
      recusionMove fuel
        ((startSearch 3).pushed (forwardStep (startSearch 3) (startState 3).2.player2 token)
          b1 h1)
        (getOpponent ((startSearch 3).pushed
          (forwardStep (startSearch 3) (startState 3).2.player2 token) b1 h1).state
          (startState 3).2.player2)
        (0 + 1) cm = .ok (result, s2) →
      s2.state.board.moveTokenRaw s2.heap
        (forwardStep (startSearch 3) (startState 3).2.player2 token).dst.1
        (forwardStep (startSearch 3) (startState 3).2.player2 token).dst.2
        (forwardStep (startSearch 3) (startState 3).2.player2 token).src.1
        (forwardStep (startSearch 3) (startState 3).2.player2 token).src.2 = .ok (b3, h3) →
      (s2.undone (forwardStep (startSearch 3) (startState 3).2.player2 token) b3 h3).history
        ≠ [] ∧
      ∃ pre, (s2.undone (forwardStep (startSearch 3) (startState 3).2.player2 token)
          b3 h3).history =
        pre ++ forwardStep (startSearch 3) (startState 3).2.player2 token ::
          (startSearch 3).history) :=
  C33_history_preserved 3 (startSearch 3) (startState 3).2.player2 0 1
    startSearch3_wellFormed startSearch3_aligned

/-! ## The two win signals under legal play -/

theorem arrived_eq_length (n : Nat) (h : Heap) (p : Player) :
    arrived n h p = p.tokens.length ↔ ∀ t ∈ p.tokens, forwardCoord h p t = (n : Int) - 1 := by
  unfold arrived
  rw [List.countP_eq_length]
  simp

/-- Claim C32.  The two win signals agree under legal play: in every state
reachable from the start position of the game of size `n ≥ 3` by legal play
(the current player moves one of its own tokens with `GameState::moveToken`
to the cell `getTokenMove` answers for the forward neighbour of the token,
with `switchPlayer` calls in between in any order), the score of each player
is the number of its tokens whose forward coordinate is `n - 1`, hence at
most `n - 2`, and it is `n - 2` exactly when `isWinningState` holds for the
player. -/
theorem C32_win_signals_agree (n : Nat) (hn : 3 ≤ n) (h : Heap) (s : GameState)
    (hr : LegalPlay n h s) :
    (s.player1.score = (arrived n h s.player1 : Int) ∧ s.player1.score ≤ (n : Int) - 2 ∧
      (s.player1.score = (n : Int) - 2 ↔ isWinningState h s.player1 = true)) ∧
    (s.player2.score = (arrived n h s.player2 : Int) ∧ s.player2.score ≤ (n : Int) - 2 ∧
      (s.player2.score = (n : Int) - 2 ↔ isWinningState h s.player2 = true)) := by
  obtain ⟨hw, _, _, _, l1, l2, sc1, sc2⟩ := legalPlay_inv n h s hr
  have p1 : s.player1.playerNumber = 0 := hw.2.2.1
  have p2 : s.player2.playerNumber = 1 := hw.2.2.2.1
  have b1 : arrived n h s.player1 ≤ n - 2 := by
    rw [← l1]
    exact List.countP_le_length _
  have b2 : arrived n h s.player2 ≤ n - 2 := by
    rw [← l2]
    exact List.countP_le_length _
  have c : ((n - 2 : Nat) : Int) + 1 = (n : Int) - 1 := by omega
  refine ⟨⟨sc1, by omega, ?_⟩, ⟨sc2, by omega, ?_⟩⟩
  · rw [isWinningState_zero h s.player1 p1, l1, c, sc1]
    have key := arrived_eq_length n h s.player1
    rw [l1] at key
    have hfc : ∀ t, forwardCoord h s.player1 t = (h.tok t).position.1 := by
      intro t
      unfold forwardCoord
      rw [if_pos p1]
    constructor
    · intro hs t ht
      rw [← hfc t]
      exact key.1 (by omega) t ht
    · intro hall
      have := key.2 (fun t ht => by rw [hfc t]; exact hall t ht)
      omega
  · rw [isWinningState_one h s.player2 p2, l2, c, sc2]
    have key := arrived_eq_length n h s.player2
    rw [l2] at key
    have hfc : ∀ t, forwardCoord h s.player2 t = (h.tok t).position.2 := by
      intro t
      unfold forwardCoord
      rw [if_neg (by rw [p2]; decide)]
    constructor
    · intro hs t ht
      rw [← hfc t]
      exact key.1 (by omega) t ht
    · intro hall
      have := key.2 (fun t ht => by rw [hfc t]; exact hall t ht)
      omega

theorem arrived3_legal : LegalPlay 3 arrived3.2 arrived3.1 := by
  have hcalc : calculatePossibleMove firstTurn3.2 1 1 firstTurn3.1.getCurrentPlayer
      firstTurn3.1 = (2, 1) := by decide
  have hok : firstTurn3.1.moveToken firstTurn3.2 1 1
      (calculatePossibleMove firstTurn3.2 1 1 firstTurn3.1.getCurrentPlayer firstTurn3.1).1
      (calculatePossibleMove firstTurn3.2 1 1 firstTurn3.1.getCurrentPlayer firstTurn3.1).2 =
      .ok (arrived3.1, arrived3.2) := by
    rw [hcalc]
    have hisok : (runCalls [.move (0, 1) (1, 1), .move (1, 1) (2, 1)]
        ((startState 3).2, (startState 3).1)).isOk = true := by decide
    have h1 : (runCalls [.move (0, 1) (1, 1)] ((startState 3).2, (startState 3).1)).isOk =
        true := by decide
    unfold arrived3 firstTurn3 afterCalls at *
    cases hm1 : runCalls [.move (0, 1) (1, 1)] ((startState 3).2, (startState 3).1) with
    | error e =>
      rw [hm1] at h1
      cases h1
    | ok r1 =>
      have hstep : runCalls [.move (0, 1) (1, 1), .move (1, 1) (2, 1)]
          ((startState 3).2, (startState 3).1) = runCalls [.move (1, 1) (2, 1)] r1 := by
        simp only [runCalls] at hm1 ⊢
        cases hm0 : (startState 3).2.moveToken (startState 3).1 0 1 1 1 with
        | error e => rw [hm0] at hm1; cases hm1
        | ok r0 =>
          rw [hm0] at hm1
          simp only at hm1 ⊢
          rw [Except.ok.inj hm1]
      rw [hstep] at hisok ⊢
      simp only [runCalls] at hisok ⊢
      cases hm2 : r1.1.moveToken r1.2 1 1 2 1 with
      | error e =>
        rw [hm2] at hisok
        cases hisok
      | ok r2 => rfl
  exact LegalPlay.move _ _ 1 1 0 _ _ firstTurn3_legal (by decide) (by decide) (by decide) hok

/-- Claim C32 on the 3×3 game after the legal moves `(0,1) → (1,1)` and
`(1,1) → (2,1)` of player 0, whose token then stands on the far edge. -/
theorem C32_witness :
    (arrived3.1.player1.score = (arrived 3 arrived3.2 arrived3.1.player1 : Int) ∧
      arrived3.1.player1.score ≤ ((3 : Nat) : Int) - 2 ∧
      (arrived3.1.player1.score = ((3 : Nat) : Int) - 2 ↔
        isWinningState arrived3.2 arrived3.1.player1 = true)) ∧
    (arrived3.1.player2.score = (arrived 3 arrived3.2 arrived3.1.player2 : Int) ∧
      arrived3.1.player2.score ≤ ((3 : Nat) : Int) - 2 ∧
      (arrived3.1.player2.score = ((3 : Nat) : Int) - 2 ↔
        isWinningState arrived3.2 arrived3.1.player2 = true)) :=
  C32_win_signals_agree 3 (by decide) arrived3.2 arrived3.1 arrived3_legal

/-! ## A copy answers like the original -/

theorem copyOf_valid (h : Heap) (s : GameState) (hC : Heap) (sC : GameState) (k : Nat → Nat)
    (hcp : CopyOf h s hC sC k) (x y : Int) :
    sC.board.isValidPosition x y = s.board.isValidPosition x y := by
  obtain ⟨_, _, c3, c4, _⟩ := hcp
  unfold GameBoard.isValidPosition
  rw [c3, c4]

theorem copyOf_cell (h : Heap) (s : GameState) (hC : Heap) (sC : GameState) (k : Nat → Nat)
    (hcp : CopyOf h s hC sC k) (x y : Int) (hv : s.board.isValidPosition x y = true) :
    sC.board.cell x y = (s.board.cell x y).map k := by
  obtain ⟨_, _, _, _, _, _, _, _, _, _, _, _, c13⟩ := hcp
  have v := (isValidPosition_iff _ _ _).1 hv
  exact c13 y.toNat x.toNat v.2.2.2 v.2.2.1

theorem copyOf_isNone (h : Heap) (s : GameState) (hC : Heap) (sC : GameState) (k : Nat → Nat)
    (hcp : CopyOf h s hC sC k) (x y : Int) (hv : s.board.isValidPosition x y = true) :
    (sC.board.cell x y).isNone = (s.board.cell x y).isNone := by
  rw [copyOf_cell h s hC sC k hcp x y hv]
  cases s.board.cell x y <;> rfl

/-- On the copy `getTokenMove` answers what it answers on the original. -/
theorem copyOf_getTokenMove (n : Nat) (h : Heap) (s : GameState) (hC : Heap) (sC : GameState)
    (k : Nat → Nat) (hw : WellFormed n h s) (hcp : CopyOf h s hC sC k)
    (fx fy tx ty : Int) :
    sC.board.getTokenMove hC fx fy tx ty = s.board.getTokenMove h fx fy tx ty := by
  have hW : sC.board.Width = s.board.Width := hcp.2.2.1
  have hH : sC.board.Height = s.board.Height := hcp.2.2.2.1
  have c9 := hcp.2.2.2.2.2.2.2.2.1
  unfold GameBoard.getTokenMove
  rw [copyOf_valid h s hC sC k hcp fx fy, copyOf_valid h s hC sC k hcp tx ty]
  by_cases hv : (!s.board.isValidPosition fx fy || !s.board.isValidPosition tx ty) = true
  · rw [if_pos hv, if_pos hv]
  · rw [if_neg hv, if_neg hv]
    have hvf : s.board.isValidPosition fx fy = true := by
      cases hh : s.board.isValidPosition fx fy with
      | true => rfl
      | false => rw [hh] at hv; simp at hv
    have hvt : s.board.isValidPosition tx ty = true := by
      cases hh : s.board.isValidPosition tx ty with
      | true => rfl
      | false => rw [hh] at hv; simp at hv
    have vf := (isValidPosition_iff _ _ _).1 hvf
    have vt := (isValidPosition_iff _ _ _).1 hvt
    rw [copyOf_cell h s hC sC k hcp fx fy hvf, copyOf_isNone h s hC sC k hcp tx ty hvt]
    cases hcf : s.board.cell fx fy with
    | none => rfl
    | some t =>
      have hcf1 : s.board.board fy.toNat fx.toNat = some t := hcf
      have hmem : t ∈ s.player1.tokens ∨ t ∈ s.player2.tokens :=
        ownedCell_spec s _ _ t (hw.2.2.2.2.2.2.2 fy.toNat (by have := hw.2.1; omega) fx.toNat
          (by have := hw.1; omega)) hcf1
      have htok : hC.tok (k t) = h.tok t := (c9 t hmem).2.2
      have hA : ((h.tok t).getPlayer = 0 ∧ tx.toNat < sC.board.Width - 1 ∧
          (sC.board.cell (tx + 1) ty).isNone = true) ↔
          ((h.tok t).getPlayer = 0 ∧ tx.toNat < s.board.Width - 1 ∧
          (s.board.cell (tx + 1) ty).isNone = true) := by
        rw [hW]
        by_cases hj : tx.toNat < s.board.Width - 1
        · have hv1 : s.board.isValidPosition (tx + 1) ty = true :=
            (isValidPosition_iff _ _ _).2 ⟨by omega, vt.2.1, by omega, vt.2.2.2⟩
          rw [copyOf_isNone h s hC sC k hcp (tx + 1) ty hv1]
        · constructor <;> intro hh <;> exact absurd hh.2.1 hj
      have hB : ((h.tok t).getPlayer = 1 ∧ ty.toNat < sC.board.Height - 1 ∧
          (sC.board.cell tx (ty + 1)).isNone = true) ↔
          ((h.tok t).getPlayer = 1 ∧ ty.toNat < s.board.Height - 1 ∧
          (s.board.cell tx (ty + 1)).isNone = true) := by
        rw [hH]
        by_cases hj : ty.toNat < s.board.Height - 1
        · have hv1 : s.board.isValidPosition tx (ty + 1) = true :=
            (isValidPosition_iff _ _ _).2 ⟨vt.1, by omega, vt.2.2.1, by omega⟩
          rw [copyOf_isNone h s hC sC k hcp tx (ty + 1) hv1]
        · constructor <;> intro hh <;> exact absurd hh.2.1 hj
      simp only [Option.map_some', htok, hA, hB]

/-- The destination the root frame computes on the copy for a token of the
live game is the destination on the live game. -/
theorem copyOf_candidate (n : Nat) (h : Heap) (s : GameState) (hC : Heap) (sC : GameState)
    (k : Nat → Nat) (hw : WellFormed n h s) (hcp : CopyOf h s hC sC k)
    (player : Player) (history visual : List MoveStep) (won : Bool) (u : Nat)
    (hu : u < h.next) :
    candidate { heap := hC, state := sC, history := history, visual := visual, hasWon := won }
        player u =
      calculatePossibleMove h (h.tok u).position.1 (h.tok u).position.2 player s := by
  have hold : hC.tok u = h.tok u := hcp.2.2.2.2.2.2.2.2.2.2.2.1 u hu
  unfold candidate calculatePossibleMove GameState.getBoard Token.getPosition
  simp only [hold]
  exact copyOf_getTokenMove n h s hC sC k hw hcp _ _ _ _

theorem isWinningState_map (h1 h2 : Heap) (p1 p2 : Player)
    (hn : p1.playerNumber = p2.playerNumber)
    (hm : p1.tokens.map (fun t => (h1.tok t).position) =
      p2.tokens.map (fun t => (h2.tok t).position)) :
    isWinningState h1 p1 = isWinningState h2 p2 := by
  have hl : p1.tokens.length = p2.tokens.length := by
    have := congrArg List.length hm
    simpa using this
  have key : ∀ (h : Heap) (p : Player) (c : Int),
      (p.tokens.all (fun token => decide ((h.tok token).position.1 = c)) =
        (p.tokens.map (fun t => (h.tok t).position)).all (fun q => decide (q.1 = c))) ∧
      (p.tokens.all (fun token => decide ((h.tok token).position.2 = c)) =
        (p.tokens.map (fun t => (h.tok t).position)).all (fun q => decide (q.2 = c))) := by
    intro h p c
    constructor
    · induction p.tokens with
      | nil => rfl
      | cons a l ih => simp only [List.all_cons, List.map_cons, ih]
    · induction p.tokens with
      | nil => rfl
      | cons a l ih => simp only [List.all_cons, List.map_cons, ih]
  unfold isWinningState Player.getTokens Player.getTokenCount Player.getPlayerNumber
    Token.getPosition
  simp only [(key h1 p1 _).1, (key h1 p1 _).2, (key h2 p2 _).1, (key h2 p2 _).2, hm, hl, hn]

theorem isWinningState_congr (h1 h2 : Heap) (p : Player)
    (hpos : ∀ t ∈ p.tokens, (h1.tok t).position = (h2.tok t).position) :
    isWinningState h1 p = isWinningState h2 p :=
  isWinningState_map h1 h2 p p rfl (List.map_congr_left hpos)

/-- The win predicate of a player of the copy is that of the player of the
original. -/
theorem copyOf_isWinningState (h : Heap) (s : GameState) (hC : Heap) (sC : GameState)
    (k : Nat → Nat) (hcp : CopyOf h s hC sC k) :
    isWinningState hC sC.player1 = isWinningState h s.player1 ∧
    isWinningState hC sC.player2 = isWinningState h s.player2 := by
  obtain ⟨r1, r2⟩ := copyOf_records h s hC sC k hcp
  have c5 := hcp.2.2.2.2.1
  have c6 := hcp.2.2.2.2.2.1
  refine ⟨isWinningState_map _ _ _ _ c5 ?_, isWinningState_map _ _ _ _ c6 ?_⟩
  · have := congrArg (List.map Token.position) r1
    simpa [List.map_map] using this
  · have := congrArg (List.map Token.position) r2
    simpa [List.map_map] using this

/-! ## What a frame leaves on the undo-history -/

/-- An answer of `getTokenMove` other than `(-1,-1)` passes the test
`first != -1`. -/
theorem getTokenMove_first (b : GameBoard) (h : Heap) (fromX fromY toX toY : Int)
    (hg : b.getTokenMove h fromX fromY toX toY ≠ (-1, -1)) :
    (b.getTokenMove h fromX fromY toX toY).1 ≠ -1 := by
  intro h1
  apply hg
  revert h1
  unfold GameBoard.getTokenMove
  by_cases hv : (!b.isValidPosition fromX fromY || !b.isValidPosition toX toY) = true
  · rw [if_pos hv]
    intro _
    rfl
  · rw [if_neg hv]
    have hvt : b.isValidPosition toX toY = true := by
      cases hh : b.isValidPosition toX toY with
      | true => rfl
      | false => rw [hh] at hv; simp at hv
    have vt := (isValidPosition_iff _ _ _).1 hvt
    cases b.cell fromX fromY with
    | none =>
      intro _
      rfl
    | some t =>
      simp only
      split_ifs <;> intro h1 <;> simp only at h1 <;> first | rfl | omega

theorem latched_history (s : Search) (player : Player) :
    (s.latched player).history = s.history := by
  unfold Search.latched
  split <;> rfl

theorem tokenLoop_skipPrefix
    (child : Search → Player → Int → Int → Except Fault (Outcome × Search))
    (player : Player) (depth : Int) (s : Search) (tokens : List Nat) :
    ∀ (skipped : List Nat) (cm : Int),
      (∀ token ∈ skipped,
        (s.heap.tok token).canMove = false ∨ (candidate s player token).1 = -1) →
      tokenLoop child player depth (skipped ++ tokens) cm s =
        tokenLoop child player depth tokens cm s := by
  intro skipped
  induction skipped with
  | nil =>
    intro cm _
    rfl
  | cons token rest ih =>
    intro cm hall
    rw [List.cons_append, tokenLoop_cons, if_pos (hall token (List.mem_cons_self _ _))]
    exact ih cm (fun t ht => hall t (List.mem_cons_of_mem _ ht))

/-- The first candidate of a token loop stays below everything the loop
leaves on the undo-history, provided the recursive call for it answers
`LOSS` or leaves at least one entry of its own. -/
theorem tokenLoop_bottom (child : Search → Player → Int → Int → Except Fault (Outcome × Search))
    (player : Player) (depth : Int)
    (hchild : ∀ s p d m r, PosInv s.state.board s.heap → child s p d m = .ok r →
      FrameRel s r.2)
    (token : Nat) (rest : List Nat) (cm : Int) (s : Search) (r : Outcome × Search)
    (hpos : PosInv s.state.board s.heap)
    (hmv : (s.heap.tok token).canMove = true)
    (hn : (candidate s player token).1 ≠ -1)
    (hsh : ∀ b1 h1 r2,
      s.state.board.moveTokenRaw s.heap (forwardStep s player token).src.1
        (forwardStep s player token).src.2 (forwardStep s player token).dst.1
        (forwardStep s player token).dst.2 = .ok (b1, h1) →
      child (s.pushed (forwardStep s player token) b1 h1)
        (getOpponent (s.pushed (forwardStep s player token) b1 h1).state player)
        (depth + 1) cm = .ok r2 →
      r2.1 = Outcome.LOSS ∨ r2.2.hasWon = true ∨
        ∃ pre, pre ≠ [] ∧ r2.2.history = pre ++ forwardStep s player token :: s.history)
    (h : tokenLoop child player depth (token :: rest) cm s = .ok r) :
    ∃ pre, r.2.history = pre ++ forwardStep s player token :: s.history := by
  rw [tokenLoop_cons] at h
  have hskip : ¬ ((s.heap.tok token).canMove = false ∨ (candidate s player token).1 = -1) := by
    rintro (e | e)
    · rw [hmv] at e
      cases e
    · exact hn e
  rw [if_neg hskip] at h
  obtain ⟨hs, t, hcs, _, hd, hcd⟩ := candidate_sound s player token hn
  have vs := (isValidPosition_iff _ _ _).1 hs
  cases hm : s.state.board.moveTokenRaw s.heap (forwardStep s player token).src.1
      (forwardStep s player token).src.2 (forwardStep s player token).dst.1
      (forwardStep s player token).dst.2 with
  | error e => rw [hm] at h; simp at h
  | ok v =>
    obtain ⟨b1, h1⟩ := v
    rw [hm] at h
    simp only at h
    have hm2 := hm
    rw [moveTokenRaw_ok _ _ _ _ _ _ t hs hcs hd] at hm2
    have hpair := Except.ok.inj hm2
    have e1 : b1 = (s.state.board.relocateRaw s.heap
        (forwardStep s player token).src.1.toNat (forwardStep s player token).src.2.toNat
        (forwardStep s player token).dst.1.toNat (forwardStep s player token).dst.2.toNat
        t).1 := by rw [hpair]
    have e2 : h1 = (s.state.board.relocateRaw s.heap
        (forwardStep s player token).src.1.toNat (forwardStep s player token).src.2.toNat
        (forwardStep s player token).dst.1.toNat (forwardStep s player token).dst.2.toNat
        t).2 := by rw [hpair]
    have hpos1 : PosInv (s.pushed (forwardStep s player token) b1 h1).state.board
        (s.pushed (forwardStep s player token) b1 h1).heap := by
      show PosInv b1 h1
      rw [e1, e2]
      exact posInv_relocateRaw _ _ _ _ _ _ t hpos vs.2.2.2 vs.2.2.1 hcs hcd
    cases hch : child (s.pushed (forwardStep s player token) b1 h1)
        (getOpponent (s.pushed (forwardStep s player token) b1 h1).state player)
        (depth + 1) cm with
    | error e => rw [hch] at h; simp at h
    | ok v2 =>
      obtain ⟨result, s2⟩ := v2
      rw [hch] at h
      simp only at h
      have hrel := hchild _ _ _ _ _ hpos1 hch
      have hshape := hsh b1 h1 (result, s2) hm hch
      cases hu : s2.state.board.moveTokenRaw s2.heap (forwardStep s player token).dst.1
          (forwardStep s player token).dst.2 (forwardStep s player token).src.1
          (forwardStep s player token).src.2 with
      | error e => rw [hu] at h; simp at h
      | ok v3 =>
        obtain ⟨b3, h3⟩ := v3
        rw [hu] at h
        simp only at h
        obtain ⟨cf, pre, hpre⟩ := candidate_frame s s2 (forwardStep s player token) t
          b1 h1 b3 h3 hpos hs hd hcs hcd hm hrel hu
        by_cases hcond : result = Outcome.LOSS ∨ s2.hasWon = true
        · rw [if_pos hcond] at h
          rw [← Except.ok.inj h]
          refine ⟨pre, ?_⟩
          show ((s2.undone (forwardStep s player token) b3 h3).latched player).history = _
          rw [latched_history]
          exact hpre
        · rw [if_neg hcond] at h
          have hne : ∃ pre2, pre2 ≠ [] ∧
              s2.history = pre2 ++ forwardStep s player token :: s.history := by
            rcases hshape with e | e | e
            · exact absurd (Or.inl e) hcond
            · exact absurd (Or.inr e) hcond
            · exact e
          obtain ⟨pre2, hne2, hpre2⟩ := hne
          cases hh : s2.history with
          | nil => rw [hh] at h; simp at h
          | cons top popped =>
            rw [hh] at h
            simp only at h
            have hst4 : ({ s2.undone (forwardStep s player token) b3 h3 with
                history := popped } : Search).state = s.state := cf.1
            have hpos4 : PosInv
                ({ s2.undone (forwardStep s player token) b3 h3 with
                    history := popped } : Search).state.board
                ({ s2.undone (forwardStep s player token) b3 h3 with
                    history := popped } : Search).heap := by
              rw [hst4]
              exact posInv_congr _ _ _ hpos cf.2.1
            obtain ⟨pre4, hpre4⟩ :=
              (tokenLoop_rel child player depth hchild rest _ _ r hpos4 h).2.2.2.1
            have hpop : popped = pre2.tail ++ forwardStep s player token :: s.history := by
              rw [hh] at hpre2
              cases pre2 with
              | nil => exact absurd rfl hne2
              | cons a l =>
                rw [List.cons_append] at hpre2
                exact (List.cons.inj hpre2).2
            refine ⟨pre4 ++ pre2.tail, ?_⟩
            rw [hpre4]
            show pre4 ++ popped = _
            rw [hpop, List.append_assoc]

/-- A token loop that does not answer `LOSS` leaves at least one entry of
its own on the undo-history. -/
theorem tokenLoop_kept (child : Search → Player → Int → Int → Except Fault (Outcome × Search))
    (player : Player) (depth : Int)
    (hchild : ∀ s p d m r, PosInv s.state.board s.heap → child s p d m = .ok r →
      FrameRel s r.2) :
    ∀ (tokens : List Nat) (cm : Int) (s : Search) (r : Outcome × Search),
      PosInv s.state.board s.heap →
      tokenLoop child player depth tokens cm s = .ok r →
      r.1 = Outcome.LOSS ∨ ∃ pre, pre ≠ [] ∧ r.2.history = pre ++ s.history := by
  intro tokens
  induction tokens with
  | nil =>
    intro cm s r _ h
    rw [tokenLoop_nil] at h
    rw [← Except.ok.inj h]
    exact Or.inl rfl
  | cons token rest ih =>
    intro cm s r hpos h
    rw [tokenLoop_cons] at h
    by_cases hskip : (s.heap.tok token).canMove = false ∨ (candidate s player token).1 = -1
    · rw [if_pos hskip] at h
      exact ih _ _ _ hpos h
    · rw [if_neg hskip] at h
      have hn : (candidate s player token).1 ≠ -1 := fun e => hskip (Or.inr e)
      obtain ⟨hs, t, hcs, _, hd, hcd⟩ := candidate_sound s player token hn
      have vs := (isValidPosition_iff _ _ _).1 hs
      cases hm : s.state.board.moveTokenRaw s.heap (forwardStep s player token).src.1
          (forwardStep s player token).src.2 (forwardStep s player token).dst.1
          (forwardStep s player token).dst.2 with
      | error e => rw [hm] at h; simp at h
      | ok v =>
        obtain ⟨b1, h1⟩ := v
        rw [hm] at h
        simp only at h
        have hm2 := hm
        rw [moveTokenRaw_ok _ _ _ _ _ _ t hs hcs hd] at hm2
        have hpair := Except.ok.inj hm2
        have e1 : b1 = (s.state.board.relocateRaw s.heap
            (forwardStep s player token).src.1.toNat (forwardStep s player token).src.2.toNat
            (forwardStep s player token).dst.1.toNat (forwardStep s player token).dst.2.toNat
            t).1 := by rw [hpair]
        have e2 : h1 = (s.state.board.relocateRaw s.heap
            (forwardStep s player token).src.1.toNat (forwardStep s player token).src.2.toNat
            (forwardStep s player token).dst.1.toNat (forwardStep s player token).dst.2.toNat
            t).2 := by rw [hpair]
        have hpos1 : PosInv (s.pushed (forwardStep s player token) b1 h1).state.board
            (s.pushed (forwardStep s player token) b1 h1).heap := by
          show PosInv b1 h1
          rw [e1, e2]
          exact posInv_relocateRaw _ _ _ _ _ _ t hpos vs.2.2.2 vs.2.2.1 hcs hcd
        cases hch : child (s.pushed (forwardStep s player token) b1 h1)
            (getOpponent (s.pushed (forwardStep s player token) b1 h1).state player)
            (depth + 1) cm with
        | error e => rw [hch] at h; simp at h
        | ok v2 =>
          obtain ⟨result, s2⟩ := v2
          rw [hch] at h
          simp only at h
          have hrel := hchild _ _ _ _ _ hpos1 hch
          cases hu : s2.state.board.moveTokenRaw s2.heap (forwardStep s player token).dst.1
              (forwardStep s player token).dst.2 (forwardStep s player token).src.1
              (forwardStep s player token).src.2 with
          | error e => rw [hu] at h; simp at h
          | ok v3 =>
            obtain ⟨b3, h3⟩ := v3
            rw [hu] at h
            simp only at h
            obtain ⟨cf, pre, hpre⟩ := candidate_frame s s2 (forwardStep s player token) t
              b1 h1 b3 h3 hpos hs hd hcs hcd hm hrel hu
            by_cases hcond : result = Outcome.LOSS ∨ s2.hasWon = true
            · rw [if_pos hcond] at h
              rw [← Except.ok.inj h]
              right
              refine ⟨pre ++ [forwardStep s player token], by simp, ?_⟩
              show ((s2.undone (forwardStep s player token) b3 h3).latched player).history = _
              rw [latched_history]
              show s2.history = _
              rw [hpre, List.append_assoc]
              rfl
            · rw [if_neg hcond] at h
              cases hh : s2.history with
              | nil => rw [hh] at h; simp at h
              | cons top popped =>
                rw [hh] at h
                simp only at h
                have hst4 : ({ s2.undone (forwardStep s player token) b3 h3 with
                    history := popped } : Search).state = s.state := cf.1
                have hpos4 : PosInv
                    ({ s2.undone (forwardStep s player token) b3 h3 with
                        history := popped } : Search).state.board
                    ({ s2.undone (forwardStep s player token) b3 h3 with
                        history := popped } : Search).heap := by
                  rw [hst4]
                  exact posInv_congr _ _ _ hpos cf.2.1
                have hpop : ∃ x, popped = x ++ s.history := by
                  rw [hh] at hpre
                  cases pre with
                  | nil =>
                    rw [List.nil_append] at hpre
                    exact ⟨[], (List.cons.inj hpre).2⟩
                  | cons a l =>
                    rw [List.cons_append] at hpre
                    exact ⟨l ++ [forwardStep s player token], by
                      rw [(List.cons.inj hpre).2, List.append_assoc]; rfl⟩
                obtain ⟨x, hx⟩ := hpop
                rcases ih _ _ _ hpos4 h with e | ⟨pre4, hne4, hpre4⟩
                · exact Or.inl e
                · right
                  refine ⟨pre4 ++ x, by simp [hne4], ?_⟩
                  rw [hpre4]
                  show pre4 ++ popped = _
                  rw [hx, List.append_assoc]

/-- A frame entered with the latch unset whose player is not in the winning
state answers `LOSS` or leaves at least one entry of its own on the
undo-history. -/
theorem recusionMove_kept (fuel : Nat) (s : Search) (player : Player) (depth moveNum : Int)
    (r : Outcome × Search) (hpos : PosInv s.state.board s.heap)
    (hlatch : s.hasWon = false) (hwin : isWinningState s.heap player = false)
    (h : recusionMove fuel s player depth moveNum = .ok r) :
    r.1 = Outcome.LOSS ∨ ∃ pre, pre ≠ [] ∧ r.2.history = pre ++ s.history := by
  cases fuel with
  | zero =>
    rw [recusionMove_zero] at h
    cases h
  | succ n =>
    rw [recusionMove_succ, if_neg (by rw [hlatch]; decide), if_neg (by rw [hwin]; decide)] at h
    by_cases h3 : isWinningState s.heap (getOpponent s.state player) = true
    · rw [if_pos h3] at h
      rw [← Except.ok.inj h]
      exact Or.inl rfl
    · rw [if_neg h3] at h
      exact tokenLoop_kept (recusionMove n) player depth
        (fun s p d m r hp hr => recusionMove_rel n s p d m r hp hr) _ _ _ _ hpos h

theorem getOpponent_number (s : GameState) (h1 : s.player1.playerNumber = 0)
    (h2 : s.player2.playerNumber = 1) (p : Player)
    (hp : p.playerNumber = 0 ∨ p.playerNumber = 1) :
    (getOpponent s p = s.player1 ∨ getOpponent s p = s.player2) ∧
    (getOpponent s p).playerNumber ≠ p.playerNumber := by
  refine ⟨getOpponent_mem s p, ?_⟩
  unfold getOpponent GameState.getOtherPlayer GameState.getCurrentPlayer Player.getPlayerNumber
  by_cases hc : s.currentPlayer = 0
  · simp only [hc, if_true]
    rcases hp with e | e
    · rw [e, h2]
      simp [h2]
    · rw [e, h2]
      simp [h1]
  · simp only [hc, if_false]
    rcases hp with e | e
    · rw [e, h1]
      simp [h2]
    · rw [e, h1]
      simp [h1]

/-! ## The move the search commits -/

/-- Claim C31.  The committed move is always the first legal candidate.  On a
well-formed state (tokens allocated and distinct, lists within the capacity)
in which neither player is in the winning state, let `token` be the first
token in the token order of the searching player that is movable and has a
destination other than `(-1,-1)`.  Then `playNextMove`, started with an
empty undo-history, returns as soon as the recursion may nest deeper than the
termination measure, and whenever it returns the undo-history is not empty
and its bottom entry is the move of `token` from its position to the
destination `calculatePossibleMove` (that is `getTokenMove` for the forward
neighbour) answers for it, whatever the explored branches answered. -/
theorem C31_bottom_is_first_candidate (n : Nat) (h : Heap) (s : GameState) (player : Player)
    (visual : List MoveStep) (maxDepth moveNum : Int)
    (skipped rest : List Nat) (token : Nat)
    (hw : WellFormed n h s) (hal : Allocated h s)
    (nd1 : s.player1.tokens.Nodup) (nd2 : s.player2.tokens.Nodup)
    (hc1 : s.player1.tokens.length ≤ s.MaxTokensPerPlayer)
    (hc2 : s.player2.tokens.length ≤ s.MaxTokensPerPlayer)
    (hp : player = s.player1 ∨ player = s.player2)
    (hw1 : isWinningState h s.player1 = false) (hw2 : isWinningState h s.player2 = false)
    (htok : player.tokens = skipped ++ token :: rest)
    (hskip : ∀ u ∈ skipped, ¬ ((h.tok u).isMovable = true ∧
      calculatePossibleMove h (h.tok u).position.1 (h.tok u).position.2 player s ≠ (-1, -1)))
    (hmov : (h.tok token).isMovable = true)
    (hdst : calculatePossibleMove h (h.tok token).position.1 (h.tok token).position.2
      player s ≠ (-1, -1)) :
    (∀ fuel, forwardSum n h s < fuel →
      ∃ r, playNextMove fuel h s player [] visual maxDepth moveNum = .ok r) ∧
    (∀ fuel r, playNextMove fuel h s player [] visual maxDepth moveNum = .ok r →
      r.history ≠ [] ∧
      r.history.getLast? = some (MoveStep.mk
        ((h.tok token).position.1, (h.tok token).position.2)
        (calculatePossibleMove h (h.tok token).position.1 (h.tok token).position.2 player s)
        player.playerNumber)) := by
  obtain ⟨hC, sC, k, hcopy, hcp, _⟩ := copy_spec n h s hw hal nd1 nd2 hc1 hc2
  have hwC := copyOf_wellFormed n h s hC sC k hw hcp
  have halC := copyOf_aligned n h s hC sC k player hw hal hcp hp
  have hsum := copyOf_forwardSum n h s hC sC k hcp
  have hwin := copyOf_isWinningState h s hC sC k hcp
  have hold : ∀ q, q < h.next → hC.tok q = h.tok q := hcp.2.2.2.2.2.2.2.2.2.2.2.1
  have hplay : ∀ fuel, playNextMove fuel h s player [] visual maxDepth moveNum =
      match recusionMove fuel
        { heap := hC, state := sC, history := [], visual := visual, hasWon := false }
        player 0 1 with
      | .error e => .error e
      | .ok (_, s) =>
        .ok { heap := s.heap, history := s.history, visual := s.visual, returned := false } := by
    intro fuel
    unfold playNextMove searchOnCopy
    rw [hcopy]
  refine ⟨?_, ?_⟩
  · intro fuel hfuel
    obtain ⟨r, hr⟩ := recusionMove_total n fuel
      { heap := hC, state := sC, history := [], visual := visual, hasWon := false }
      player 0 1 hwC halC (by rw [hsum]; exact hfuel)
    rw [hplay fuel, hr]
    exact ⟨_, rfl⟩
  · intro fuel r hr
    rw [hplay fuel] at hr
    cases hrec : recusionMove fuel
        { heap := hC, state := sC, history := [], visual := visual, hasWon := false }
        player 0 1 with
    | error e => rw [hrec] at hr; simp at hr
    | ok v =>
      obtain ⟨o, sr⟩ := v
      rw [hrec] at hr
      have hr2 := Except.ok.inj hr
      have hhist : r.history = sr.history := by rw [← hr2]
      -- the tokens of the searching player are tokens of the live game
      have hlive : ∀ u ∈ player.tokens, u < h.next := by
        intro u hu
        rcases hp with e | e
        · rw [e] at hu
          exact hal.1 u hu
        · rw [e] at hu
          exact hal.2 u hu
      have hnum : player.playerNumber = 0 ∨ player.playerNumber = 1 := halC.1
      have hpw : isWinningState hC player = false := by
        rw [isWinningState_congr hC h player (fun u hu => by rw [hold u (hlive u hu)])]
        rcases hp with e | e
        · rw [e]
          exact hw1
        · rw [e]
          exact hw2
      obtain ⟨hom, hon⟩ := getOpponent_number sC hwC.2.2.1 hwC.2.2.2.1 player hnum
      have how : isWinningState hC (getOpponent sC player) = false := by
        rcases hom with e | e
        · rw [e, hwin.1]
          exact hw1
        · rw [e, hwin.2]
          exact hw2
      have hpos : PosInv sC.board hC := hwC.2.2.2.2.1
      have hmem : token ∈ player.tokens := by
        rw [htok]
        simp
      have hcand : ∀ u ∈ player.tokens,
          candidate
            { heap := hC, state := sC, history := [], visual := visual, hasWon := false }
            player u =
          calculatePossibleMove h (h.tok u).position.1 (h.tok u).position.2 player s :=
        fun u hu => copyOf_candidate n h s hC sC k hw hcp player [] visual false u (hlive u hu)
      cases fuel with
      | zero =>
        rw [recusionMove_zero] at hrec
        cases hrec
      | succ f =>
        rw [recusionMove_succ, if_neg Bool.false_ne_true, if_neg (by rw [hpw]; decide),
          if_neg (by rw [how]; decide)] at hrec
        have hlist : player.getTokens = skipped ++ token :: rest := htok
        rw [hlist, tokenLoop_skipPrefix] at hrec
        swap
        · intro u hu
          have hu2 : u ∈ player.tokens := by
            rw [htok]
            exact List.mem_append_left _ hu
          have hnot := hskip u hu
          show (hC.tok u).canMove = false ∨ _
          rw [hold u (hlive u hu2), hcand u hu2]
          by_cases hm : (h.tok u).canMove = true
          · right
            by_cases hcd : calculatePossibleMove h (h.tok u).position.1 (h.tok u).position.2
                player s = (-1, -1)
            · rw [hcd]
            · exact absurd ⟨hm, hcd⟩ hnot
          · left
            simpa using hm
        have hn : (candidate
            { heap := hC, state := sC, history := [], visual := visual, hasWon := false }
            player token).1 ≠ -1 := by
          rw [hcand token hmem]
          exact getTokenMove_first _ _ _ _ _ _ hdst
        have hmv : (hC.tok token).canMove = true := by
          rw [hold token (hlive token hmem)]
          exact hmov
        obtain ⟨pre, hpre⟩ := tokenLoop_bottom (recusionMove f) player 0
          (fun s p d m r hp hr => recusionMove_rel f s p d m r hp hr)
          token rest 0 _ (o, sr) hpos hmv hn
          (by
            intro b1 h1 r2 hm hch
            obtain ⟨hs, t, hcs, _, hd, hcd⟩ := candidate_sound _ player token hn
            have vs := (isValidPosition_iff _ _ _).1 hs
            have hm2 := hm
            rw [moveTokenRaw_ok _ _ _ _ _ _ t hs hcs hd] at hm2
            have hpair := Except.ok.inj hm2
            have e1 := (congrArg Prod.fst hpair).symm
            have e2 := (congrArg Prod.snd hpair).symm
            simp only at e1 e2
            have hpos1 : PosInv b1 h1 := by
              rw [e1, e2]
              exact posInv_relocateRaw _ _ _ _ _ _ t hpos vs.2.2.2 vs.2.2.1 hcs hcd
            have hown : (hC.tok t).player = player.playerNumber :=
              alignedToken_spec hC sC.board player token t (halC.2 token hmem) hs hcs
            have hreg : ∀ u ∈ (getOpponent sC player).tokens,
                (hC.tok u).player = (getOpponent sC player).playerNumber := by
              intro u hu
              rcases hom with e | e
              · rw [e] at hu ⊢
                exact (hwC.2.2.2.2.2.1 u hu).1
              · rw [e] at hu ⊢
                exact (hwC.2.2.2.2.2.2.1 u hu).1
            have hchild : isWinningState h1 (getOpponent sC player) = false := by
              rw [isWinningState_congr h1 hC (getOpponent sC player)]
              · exact how
              · intro u hu
                have hne : u ≠ t := by
                  rintro rfl
                  exact hon ((hreg u hu).symm.trans hown)
                rw [e2, relocateRaw_position, if_neg hne]
            rcases recusionMove_kept f _ _ _ _ r2 hpos1 rfl hchild hch with e | e
            · exact Or.inl e
            · exact Or.inr (Or.inr e)) hrec
        have hfs : forwardStep
            { heap := hC, state := sC, history := [], visual := visual, hasWon := false }
            player token =
            MoveStep.mk ((h.tok token).position.1, (h.tok token).position.2)
              (calculatePossibleMove h (h.tok token).position.1 (h.tok token).position.2
                player s) player.playerNumber := by
          unfold forwardStep
          rw [hcand token hmem]
          show MoveStep.mk ((hC.tok token).position.1, (hC.tok token).position.2) _ _ = _
          rw [hold token (hlive token hmem)]
          rfl
        have hfin : sr.history = pre ++ [MoveStep.mk
            ((h.tok token).position.1, (h.tok token).position.2)
            (calculatePossibleMove h (h.tok token).position.1 (h.tok token).position.2
              player s) player.playerNumber] := by
          rw [← hfs]
          exact hpre
        rw [hhist, hfin]
        exact ⟨by simp, by simp⟩

/-- Claim C31 on the 4×4 game after the turns `(0,1) → (1,1)`,
`(1,0) → (1,2)`, `(1,1) → (2,1)`, searched for player 1, whose tokens stand
on `(1,2)` and `(2,0)`: the bottom of the undo-history is `(1,2) → (1,3)`,
the move of its first token. -/
theorem C31_witness :
    (∀ fuel, forwardSum 4 midGame4.1 midGame4.2 < fuel →
      ∃ r, playNextMove fuel midGame4.1 midGame4.2 midGame4.2.player2 [] [] 0 0 = .ok r) ∧
    (∀ fuel r, playNextMove fuel midGame4.1 midGame4.2 midGame4.2.player2 [] [] 0 0 = .ok r →
      r.history ≠ [] ∧
      r.history.getLast? = some (MoveStep.mk
        ((midGame4.1.tok 1).position.1, (midGame4.1.tok 1).position.2)
        (calculatePossibleMove midGame4.1 (midGame4.1.tok 1).position.1
          (midGame4.1.tok 1).position.2 midGame4.2.player2 midGame4.2)
        midGame4.2.player2.playerNumber)) :=
  C31_bottom_is_first_candidate 4 midGame4.1 midGame4.2 midGame4.2.player2 [] 0 0 [] [3] 1
    midGame4_wellFormed (by decide) (by decide) (by decide) (by decide) (by decide)
    (Or.inr rfl) (by decide) (by decide) (by decide) (by decide) (by decide) (by decide)

end GameTree
